import Mathlib

/-!
Verification development for `go-interview-practice`.

Challenge 11, the concurrent content aggregator
(`challenge-11/submissions/imankhodadi/solution-template.go`).

The Go program is embedded shallowly:

* Go `error` values, `context.Context`, the two capability interfaces and
  `ProcessedData` become plain data;
* `NewContentAggregator` and `Shutdown` become functions on an explicit
  aggregator state;
* one call of `FetchAndProcess` becomes a labelled transition system
  (`Batch`, `Action`, `step`).  Every goroutine of the call (producer,
  the workers, collector, the calling goroutine at the final `select`)
  owns some of the actions; a schedule is a list of actions.
  A `select` with several ready cases is modelled by several enabled
  actions, so every choice the Go runtime may make is a schedule.
-/

namespace Challenge11

/-! ### Go values -/

/-- Go `error` values.  `errorString` is what `errors.New` and a
`fmt.Errorf` without `%w` build; `wrapError` is what `fmt.Errorf` with one
`%w` builds (the formatted text together with the wrapped cause). -/
inductive GoError where
  | errorString (s : String)
  | wrapError (msg : String) (err : GoError)
deriving DecidableEq, Repr

/-- The method `Error()`. -/
def GoError.Error : GoError → String
  | .errorString s => s
  | .wrapError msg _ => msg

/-- The method `Unwrap()` (as seen through `errors.Unwrap`). -/
def GoError.Unwrap : GoError → Option GoError
  | .errorString _ => none
  | .wrapError _ err => some err

/-- The observable state of a `context.Context`: `err` is what `ctx.Err()`
returns, and `ctx.Done()` is closed exactly when it is not `nil`. -/
structure Context where
  err : Option GoError
deriving DecidableEq, Repr

/-- Whether `<-ctx.Done()` can proceed. -/
def Context.isDone (ctx : Context) : Bool := ctx.err.isSome

/-- Go `type ProcessedData struct`; `time.Time` is an instant, kept as a
number. -/
structure ProcessedData where
  Title : String
  Description : String
  Keywords : List String
  Timestamp : Nat
  Source : String
deriving DecidableEq, Repr

/-- Go `type ContentFetcher interface`: `Fetch(ctx, url) ([]byte, error)`.  An
implementation is any function of the state of the context at the call and of
the URL; when `err` is not nil the bytes are not looked at. -/
structure ContentFetcher where
  Fetch : Context → String → Except GoError (List UInt8)

/-- Go `type ContentProcessor interface`:
`Process(ctx, content) (ProcessedData, error)`, any function of the state of the
context at the call and of the content. -/
structure ContentProcessor where
  Process : Context → List UInt8 → Except GoError ProcessedData

/-- The arguments of `rate.NewLimiter(rate.Limit(r), b)`. -/
structure Limiter where
  limit : Int
  burst : Int
deriving DecidableEq, Repr

/-- Go `type ContentAggregator struct`.  `wg` is the counter of the
`sync.WaitGroup`, `shutdown` tells whether the channel `shutdown` has been
closed, `shutdownOnce` whether the `sync.Once` has fired. -/
structure ContentAggregator where
  fetcher : ContentFetcher
  processor : ContentProcessor
  workerCount : Int
  limiter : Limiter
  wg : Nat
  shutdown : Bool
  shutdownOnce : Bool

/-- Go `NewContentAggregator`; a `nil` interface argument is `none`, and so
is the `nil` aggregator returned. -/
def NewContentAggregator (fetcher : Option ContentFetcher)
    (processor : Option ContentProcessor) (workerCount : Int)
    (requestsPerSecond : Int) : Option ContentAggregator :=
  match fetcher with
  | none => none
  | some f =>
    match processor with
    | none => none
    | some p =>
      if workerCount ≤ 0 then none
      else if requestsPerSecond ≤ 0 then none
      else some
        { fetcher := f
          processor := p
          workerCount := workerCount
          limiter := { limit := requestsPerSecond, burst := requestsPerSecond }
          wg := 0
          shutdown := false
          shutdownOnce := false }

/-! ### `Shutdown` -/

/-- A run-time panic. -/
inductive Panic where
  | closeOfClosedChannel
deriving DecidableEq, Repr

/-- What a call of `Shutdown` does to the shared synchronisation objects. -/
inductive Effect where
  | closeShutdown
  | wgWait
deriving DecidableEq, Repr

/-- Go `(*ContentAggregator).Shutdown`, called while no other goroutine
touches the aggregator.  `shutdownOnce.Do` runs its function only when the
`Once` has not fired; the function closes `ca.shutdown` (a panic when the
channel is closed already) and then blocks in `ca.wg.Wait()`, which returns
when the counter is zero, that is when every worker has left its loop (a worker
at its `select` with `shutdown` closed is never blocked, and the queue of a call
is finite).  The result is the new aggregator state, the returned `error` and
the effects performed. -/
def ContentAggregator.Shutdown (ca : ContentAggregator) :
    Except Panic (ContentAggregator × Option GoError × List Effect) :=
  if ca.shutdownOnce then
    .ok (ca, none, [])
  else if ca.shutdown then
    .error Panic.closeOfClosedChannel
  else
    .ok ({ ca with shutdown := true, wg := 0, shutdownOnce := true }, none,
      [Effect.closeShutdown, Effect.wgWait])

/-- The caller `Shutdown(); Shutdown(); …` (`k` calls in sequence): the final
aggregator, the list of returned errors and all effects performed. -/
def shutdownTimes : Nat → ContentAggregator →
    Except Panic (ContentAggregator × List (Option GoError) × List Effect)
  | 0, ca => .ok (ca, [], [])
  | k + 1, ca =>
    match ca.Shutdown with
    | .error p => .error p
    | .ok (ca1, r, eff) =>
      match shutdownTimes k ca1 with
      | .error p => .error p
      | .ok (ca2, rs, effs) => .ok (ca2, r :: rs, eff ++ effs)

/-! ### Formatting -/

/-- Go `fmt.Errorf(pre + "%s: %w", url, err)` for a literal `pre`. -/
def errorfWrap (pre : String) (url : String) (err : GoError) : GoError :=
  .wrapError (pre ++ url ++ ": " ++ err.Error) err

/-- Go `%v` of a `[]error`: the `Error()` texts between brackets, separated
by one blank. -/
def formatErrors (errs : List GoError) : String :=
  "[" ++ " ".intercalate (errs.map GoError.Error) ++ "]"

/-- Go `fmt.Errorf("encountered %d errors: %v", len(allErrors), allErrors)`. -/
def combinedError (allErrors : List GoError) : GoError :=
  .errorString ("encountered " ++ toString allErrors.length ++ " errors: "
    ++ formatErrors allErrors)

/-- The text `t` occurs in the text `s`. -/
def Mentions (s t : String) : Prop := t.data <:+: s.data

instance (s t : String) : Decidable (Mentions s t) := by
  unfold Mentions; infer_instance

/-! ### One call of `FetchAndProcess` as a transition system -/

/-- A buffered channel: the queued values, the capacity given to `make`,
and whether it has been closed. -/
structure Chan (α : Type) where
  buf : List α
  cap : Nat
  closed : Bool
deriving DecidableEq, Repr

/-- Go `make(chan α, cap)`. -/
def Chan.make {α : Type} (cap : Nat) : Chan α := { buf := [], cap := cap, closed := false }

/-- A send `c <- x` on a buffered channel; `none` when it cannot proceed (the
buffer is full).  The three channels of a call have capacity `len(urls)`; with
capacity `0` the batch is empty and the program sends nothing. -/
def Chan.send {α : Type} (c : Chan α) (x : α) : Option (Chan α) :=
  if c.buf.length < c.cap then some { c with buf := c.buf ++ [x] } else none

/-- Where a worker goroutine stands: parked in its `select`, holding a
dequeued URL before `limiter.Wait`, before `Fetch`, before `Process` (with
the fetched content), or returned. -/
inductive WorkerState where
  | selecting
  | waiting (url : String)
  | fetching (url : String)
  | processing (url : String) (content : List UInt8)
  | exited
deriving DecidableEq, Repr

/-- The URL a worker has dequeued and not yet answered. -/
def WorkerState.inFlight : WorkerState → List String
  | .selecting => []
  | .waiting u => [u]
  | .fetching u => [u]
  | .processing u _ => [u]
  | .exited => []

/-- The collector goroutine: in its loop, returned after the loop ran out
(`finished`), or returned from `case <-ctx.Done()` (`aborted`).  The channel
`done` is closed in both of the last two (`defer close(done)`). -/
inductive CollectorState where
  | collecting
  | finished
  | aborted
deriving DecidableEq, Repr

/-- What a worker answered for a URL. -/
abbrev Outcome := Except GoError ProcessedData

/-- A call of an injected capability or of the limiter. -/
inductive Call where
  | wait (url : String)
  | fetch (url : String)
  | process (url : String)
deriving DecidableEq, Repr

/-- The state of one call `ca.FetchAndProcess(ctx, urls)`.
`next` is the index of the producer's `range` loop, `i` the collector's loop
counter, `ret` the pair returned to the caller once the final `select` has
fired.  `emitted`, `calls` and `arrived` are history variables: the outcomes
the workers have sent, with the URL each belongs to; the capability calls made;
and the outcomes the collector has received, in the order of receipt. -/
structure Batch where
  urls : List String
  ctx : Context
  shutdown : Bool
  jobs : Chan String
  results : Chan ProcessedData
  errors : Chan GoError
  next : Nat
  workers : List WorkerState
  i : Nat
  allResults : List ProcessedData
  allErrors : List GoError
  collector : CollectorState
  ret : Option (List ProcessedData × Option GoError)
  emitted : List (String × Outcome)
  calls : List Call
  arrived : List Outcome

/-- The state right after `FetchAndProcess` has made its channels, called
`workerPool` (which starts `workerCount` workers) and started the producer and
the collector.  `ctx` may be cancelled already, and so may `ca.shutdown` be
closed. -/
def Batch.init (ca : ContentAggregator) (ctx : Context) (urls : List String) : Batch :=
  { urls := urls
    ctx := ctx
    shutdown := ca.shutdown
    jobs := Chan.make urls.length
    results := Chan.make urls.length
    errors := Chan.make urls.length
    next := 0
    workers := List.replicate ca.workerCount.toNat WorkerState.selecting
    i := 0
    allResults := []
    allErrors := []
    collector := CollectorState.collecting
    ret := none
    emitted := []
    calls := []
    arrived := [] }

/-- One atomic move of one goroutine, or of the environment.
`workerWait` carries what `ca.limiter.Wait(ctx)` returned and `workerProcess`
what `time.Now()` returned. -/
inductive Action where
  | cancel (e : GoError)
  | shutdown
  | produce
  | producerCtxDone
  | producerFinish
  | workerRecv (w : Nat)
  | workerCtxDone (w : Nat)
  | workerShutdown (w : Nat)
  | workerWait (w : Nat) (waitErr : Option GoError)
  | workerFetch (w : Nat)
  | workerProcess (w : Nat) (now : Nat)
  | collectResult
  | collectError
  | collectCtxDone
  | collectFinish
  | mainDone
  | mainCtxDone
deriving DecidableEq, Repr

/-- Worker `w` executes `errors <- err; continue` for the URL `u`. -/
def Batch.emitError (s : Batch) (w : Nat) (u : String) (err : GoError) (c : Call) :
    Option Batch :=
  match s.errors.send err with
  | none => none
  | some ch =>
    some { s with
      errors := ch
      workers := s.workers.set w WorkerState.selecting
      emitted := s.emitted ++ [(u, Except.error err)]
      calls := s.calls ++ [c] }

/-- Worker `w` executes `results <- processedData` for the URL `u`. -/
def Batch.emitResult (s : Batch) (w : Nat) (u : String) (pd : ProcessedData) (c : Call) :
    Option Batch :=
  match s.results.send pd with
  | none => none
  | some ch =>
    some { s with
      results := ch
      workers := s.workers.set w WorkerState.selecting
      emitted := s.emitted ++ [(u, Except.ok pd)]
      calls := s.calls ++ [c] }

/-- The transition function: `step ca s a` is the state after action `a`, or
`none` when `a` cannot proceed in `s`. -/
def step (ca : ContentAggregator) (s : Batch) : Action → Option Batch
  -- the caller's context is cancelled or times out
  | .cancel e =>
    if s.ctx.isDone then none else some { s with ctx := { err := some e } }
  -- some goroutine's `Shutdown` closes `ca.shutdown`
  | .shutdown =>
    if s.shutdown then none else some { s with shutdown := true }
  -- producer, `case jobs <- url`
  | .produce =>
    if s.jobs.closed then none
    else
      match s.urls[s.next]? with
      | none => none
      | some u =>
        match s.jobs.send u with
        | none => none
        | some ch => some { s with jobs := ch, next := s.next + 1 }
  -- producer, `case <-ctx.Done(): return`, then the deferred `close(jobs)`
  | .producerCtxDone =>
    if s.jobs.closed then none
    else if s.next < s.urls.length ∧ s.ctx.isDone then
      some { s with jobs := { s.jobs with closed := true } }
    else none
  -- producer, the `range` loop is over, then the deferred `close(jobs)`
  | .producerFinish =>
    if s.jobs.closed then none
    else if s.next < s.urls.length then none
    else some { s with jobs := { s.jobs with closed := true } }
  -- worker, `case url, ok := <-jobs`
  | .workerRecv w =>
    match s.workers[w]? with
    | some .selecting =>
      match s.jobs.buf with
      | u :: rest =>
        some { s with
          jobs := { s.jobs with buf := rest }
          workers := s.workers.set w (WorkerState.waiting u) }
      | [] =>
        if s.jobs.closed then some { s with workers := s.workers.set w WorkerState.exited }
        else none
    | _ => none
  -- worker, `case <-ctx.Done(): return`
  | .workerCtxDone w =>
    match s.workers[w]? with
    | some .selecting =>
      if s.ctx.isDone then some { s with workers := s.workers.set w WorkerState.exited }
      else none
    | _ => none
  -- worker, `case <-ca.shutdown: return`
  | .workerShutdown w =>
    match s.workers[w]? with
    | some .selecting =>
      if s.shutdown then some { s with workers := s.workers.set w WorkerState.exited }
      else none
    | _ => none
  -- worker, `if err := ca.limiter.Wait(ctx); err != nil { errors <- …; continue }`
  | .workerWait w waitErr =>
    match s.workers[w]? with
    | some (.waiting u) =>
      match waitErr with
      | some err => s.emitError w u (errorfWrap "rate limit error for " u err) (Call.wait u)
      | none =>
        some { s with
          workers := s.workers.set w (WorkerState.fetching u)
          calls := s.calls ++ [Call.wait u] }
    | _ => none
  -- worker, `content, err := ca.fetcher.Fetch(ctx, url)`
  | .workerFetch w =>
    match s.workers[w]? with
    | some (.fetching u) =>
      match ca.fetcher.Fetch s.ctx u with
      | .error err => s.emitError w u (errorfWrap "fetch error for " u err) (Call.fetch u)
      | .ok content =>
        some { s with
          workers := s.workers.set w (WorkerState.processing u content)
          calls := s.calls ++ [Call.fetch u] }
    | _ => none
  -- worker, `processedData, err := ca.processor.Process(ctx, content)` and the stamping
  | .workerProcess w now =>
    match s.workers[w]? with
    | some (.processing u content) =>
      match ca.processor.Process s.ctx content with
      | .error err => s.emitError w u (errorfWrap "process error for " u err) (Call.process u)
      | .ok processedData =>
        s.emitResult w u { processedData with Source := u, Timestamp := now } (Call.process u)
    | _ => none
  -- collector, `case result := <-results`
  | .collectResult =>
    if s.collector = CollectorState.collecting ∧ s.i < s.urls.length then
      match s.results.buf with
      | r :: rest =>
        some { s with
          results := { s.results with buf := rest }
          allResults := s.allResults ++ [r]
          i := s.i + 1
          arrived := s.arrived ++ [Except.ok r] }
      | [] => none
    else none
  -- collector, `case err := <-errors`
  | .collectError =>
    if s.collector = CollectorState.collecting ∧ s.i < s.urls.length then
      match s.errors.buf with
      | e :: rest =>
        some { s with
          errors := { s.errors with buf := rest }
          allErrors := s.allErrors ++ [e]
          i := s.i + 1
          arrived := s.arrived ++ [Except.error e] }
      | [] => none
    else none
  -- collector, `case <-ctx.Done(): return`, then the deferred `close(done)`
  | .collectCtxDone =>
    if s.collector = CollectorState.collecting ∧ s.i < s.urls.length ∧ s.ctx.isDone then
      some { s with collector := CollectorState.aborted }
    else none
  -- collector, the loop is over, then the deferred `close(done)`
  | .collectFinish =>
    if s.collector = CollectorState.collecting ∧ ¬ s.i < s.urls.length then
      some { s with collector := CollectorState.finished }
    else none
  -- caller, `case <-done`
  | .mainDone =>
    if s.ret.isNone ∧ s.collector ≠ CollectorState.collecting then
      if s.allErrors.length > 0 then
        some { s with ret := some (s.allResults, some (combinedError s.allErrors)) }
      else
        some { s with ret := some (s.allResults, none) }
    else none
  -- caller, `case <-ctx.Done(): return nil, ctx.Err()`
  | .mainCtxDone =>
    if s.ret.isNone ∧ s.ctx.isDone then
      some { s with ret := some ([], s.ctx.err) }
    else none

/-- Run a schedule from a state; `none` when some action cannot proceed. -/
def run (ca : ContentAggregator) : Batch → List Action → Option Batch
  | s, [] => some s
  | s, a :: as =>
    match step ca s a with
    | none => none
    | some s1 => run ca s1 as

/-- The states a call `ca.FetchAndProcess(ctx, urls)` can be in. -/
def Reachable (ca : ContentAggregator) (ctx : Context) (urls : List String) (s : Batch) : Prop :=
  ∃ sched : List Action, run ca (Batch.init ca ctx urls) sched = some s

/-! ### Vocabulary of the properties -/

/-- The URLs all workers together hold in flight. -/
def inFlightAll : List WorkerState → List String
  | [] => []
  | st :: ws => st.inFlight ++ inFlightAll ws

/-- The results among a list of outcomes, in order. -/
def resultsOf : List Outcome → List ProcessedData
  | [] => []
  | .ok pd :: os => pd :: resultsOf os
  | .error _ :: os => resultsOf os

/-- The errors among a list of outcomes, in order. -/
def errorsOf : List Outcome → List GoError
  | [] => []
  | .ok _ :: os => errorsOf os
  | .error e :: os => e :: errorsOf os

/-- The three stages at which a worker can fail, with the text each puts in
front of the URL. -/
inductive Stage where
  | rateLimit
  | fetch
  | process
deriving DecidableEq, Repr

/-- The literal text of the stage in the worker's error message. -/
def Stage.text : Stage → String
  | .rateLimit => "rate limit error for "
  | .fetch => "fetch error for "
  | .process => "process error for "

/-- The outcome `o` is what the worker body yields for the URL `u` with the
capabilities of `ca`: a stage error built from the cause the failing step
returned (the earlier steps having succeeded), or the processor's data stamped
with `Source` and `Timestamp`. -/
def Answers (ca : ContentAggregator) (u : String) (o : Outcome) : Prop :=
  (∃ cause, o = .error (errorfWrap Stage.rateLimit.text u cause)) ∨
  (∃ ctx cause, ca.fetcher.Fetch ctx u = .error cause ∧
    o = .error (errorfWrap Stage.fetch.text u cause)) ∨
  (∃ ctx1 ctx2 content cause, ca.fetcher.Fetch ctx1 u = .ok content ∧
    ca.processor.Process ctx2 content = .error cause ∧
    o = .error (errorfWrap Stage.process.text u cause)) ∨
  (∃ ctx1 ctx2 content pd now, ca.fetcher.Fetch ctx1 u = .ok content ∧
    ca.processor.Process ctx2 content = .ok pd ∧
    o = .ok { pd with Source := u, Timestamp := now })

/-- A worker that is about to call `Process` holds content that `Fetch`
returned for its URL. -/
def WorkerOk (ca : ContentAggregator) : WorkerState → Prop
  | .processing u content => ∃ ctx, ca.fetcher.Fetch ctx u = .ok content
  | _ => True

/-- The invariant of a call of `FetchAndProcess`. -/
structure Inv (ca : ContentAggregator) (s : Batch) : Prop where
  jobsCap : s.jobs.cap = s.urls.length
  resultsCap : s.results.cap = s.urls.length
  errorsCap : s.errors.cap = s.urls.length
  next_le : s.next ≤ s.urls.length
  dispatched : (↑(s.urls.take s.next) : Multiset String) =
    ↑s.jobs.buf + ↑(inFlightAll s.workers) + ↑(s.emitted.map Prod.fst)
  sentResults : resultsOf (s.emitted.map Prod.snd) = s.allResults ++ s.results.buf
  sentErrors : errorsOf (s.emitted.map Prod.snd) = s.allErrors ++ s.errors.buf
  arrivedResults : s.allResults = resultsOf s.arrived
  arrivedErrors : s.allErrors = errorsOf s.arrived
  count : s.i = s.arrived.length
  i_le : s.i ≤ s.urls.length
  finished : s.collector = CollectorState.finished → s.i = s.urls.length
  aborted : s.collector = CollectorState.aborted → s.ctx.isDone = true
  returned : ∀ r, s.ret = some r →
    (s.ctx.isDone = true ∧ r = ([], s.ctx.err)) ∨
    (s.collector ≠ CollectorState.collecting ∧
      r = (s.allResults,
        if s.allErrors.length > 0 then some (combinedError s.allErrors) else none))
  workersOk : ∀ st ∈ s.workers, WorkerOk ca st
  answered : ∀ p ∈ s.emitted, Answers ca p.1 p.2

/-- Worker `w` runs the body of its loop for the URL it holds, from
`limiter.Wait` to the send, with no other goroutine moving in between.
`waitErr` is what `limiter.Wait` returns and `now` what `time.Now()` returns. -/
def handleJob (ca : ContentAggregator) (s : Batch) (w : Nat) (waitErr : Option GoError)
    (now : Nat) : Option Batch :=
  match step ca s (Action.workerWait w waitErr) with
  | none => none
  | some s1 =>
    match s1.workers[w]? with
    | some (.fetching _) =>
      match step ca s1 (Action.workerFetch w) with
      | none => none
      | some s2 =>
        match s2.workers[w]? with
        | some (.processing _ _) => step ca s2 (Action.workerProcess w now)
        | _ => some s2
    | _ => some s1

/-- The state `s` after worker `w` has sent the error `e` for the URL `u`,
having made the calls `cs`, and gone back to its `select`. -/
def Batch.withError (s : Batch) (w : Nat) (u : String) (e : GoError) (cs : List Call) : Batch :=
  { s with
    errors := { s.errors with buf := s.errors.buf ++ [e] }
    workers := s.workers.set w WorkerState.selecting
    emitted := s.emitted ++ [(u, Except.error e)]
    calls := s.calls ++ cs }

/-- The state `s` after worker `w` has sent the result `pd` for the URL `u`,
having made the calls `cs`, and gone back to its `select`. -/
def Batch.withResult (s : Batch) (w : Nat) (u : String) (pd : ProcessedData)
    (cs : List Call) : Batch :=
  { s with
    results := { s.results with buf := s.results.buf ++ [pd] }
    workers := s.workers.set w WorkerState.selecting
    emitted := s.emitted ++ [(u, Except.ok pd)]
    calls := s.calls ++ cs }

/-! ### Test doubles -/

/-- A fetcher that fails for the URLs whose name starts with `b` and returns
the low byte of each character of the URL for every other one. -/
def demoFetcher : ContentFetcher where
  Fetch := fun _ url =>
    if url.front = 'b' then .error (.errorString "unreachable host")
    else .ok (url.data.map fun c => c.toNat.toUInt8)

/-- A processor that fails on content starting with the byte of `c` and
otherwise titles the page by the length of its content. -/
def demoProcessor : ContentProcessor where
  Process := fun _ content =>
    if content.head? = some 99 then .error (.errorString "no title")
    else .ok
      { Title := "page of " ++ toString content.length ++ " bytes"
        Description := "demo"
        Keywords := ["k1", "k2"]
        Timestamp := 0
        Source := "" }

/-- The aggregator of the scenario: three workers, two permits per second. -/
def demoAggregator : ContentAggregator :=
  { fetcher := demoFetcher
    processor := demoProcessor
    workerCount := 3
    limiter := { limit := 2, burst := 2 }
    wg := 0
    shutdown := false
    shutdownOnce := false }

/-- The error `context.Canceled`. -/
def contextCanceled : GoError := .errorString "context canceled"

/-- A schedule of the batch `["ok1", "bad", "ok2"]`: all three URLs are queued,
each worker takes one, `bad` fails in `Fetch`, the collector receives the three
outcomes and the caller is woken by `done`. -/
def scenarioSchedule : List Action :=
  [.produce, .produce, .produce, .producerFinish, .workerRecv 0, .workerRecv 1,
   .workerRecv 2, .workerWait 1 none, .workerFetch 1, .workerWait 0 none,
   .workerFetch 0, .workerProcess 0 5, .workerWait 2 none, .workerFetch 2,
   .workerProcess 2 7, .collectResult, .collectError, .collectResult,
   .collectFinish, .mainDone]

/-- The state `scenarioSchedule` ends in. -/
def scenarioFinal : Batch :=
  (run demoAggregator (Batch.init demoAggregator ⟨none⟩ ["ok1", "bad", "ok2"])
    scenarioSchedule).getD (Batch.init demoAggregator ⟨none⟩ ["ok1", "bad", "ok2"])

/-- The first seven actions of `scenarioSchedule`: the three URLs are queued and
each worker has taken one (worker 0 `ok1`, worker 1 `bad`, worker 2 `ok2`). -/
def dequeuedSchedule : List Action := scenarioSchedule.take 7

/-- The state `dequeuedSchedule` ends in. -/
def scenarioDequeued : Batch :=
  (run demoAggregator (Batch.init demoAggregator ⟨none⟩ ["ok1", "bad", "ok2"])
    dequeuedSchedule).getD (Batch.init demoAggregator ⟨none⟩ ["ok1", "bad", "ok2"])

/-- A call on `["ok1"]` with a context that is cancelled already: the collector
takes `case <-ctx.Done()` and closes `done`; the caller, which reaches its final
`select` only then, finds both cases ready and is given `case <-done`. -/
def raceSchedule : List Action := [.collectCtxDone, .mainDone]

/-- The state `raceSchedule` ends in. -/
def raceFinal : Batch :=
  (run demoAggregator (Batch.init demoAggregator ⟨some contextCanceled⟩ ["ok1"])
    raceSchedule).getD (Batch.init demoAggregator ⟨some contextCanceled⟩ ["ok1"])

/-- A call on `["ok1", "ok2"]`: `ok1` is processed and its result collected, then
the context is cancelled and the caller takes `case <-ctx.Done()`. -/
def cancelSchedule : List Action :=
  [.produce, .produce, .producerFinish, .workerRecv 0, .workerWait 0 none, .workerFetch 0,
   .workerProcess 0 5, .collectResult, .cancel contextCanceled, .mainCtxDone]

/-- The state `cancelSchedule` ends in. -/
def cancelFinal : Batch :=
  (run demoAggregator (Batch.init demoAggregator ⟨none⟩ ["ok1", "ok2"])
    cancelSchedule).getD (Batch.init demoAggregator ⟨none⟩ ["ok1", "ok2"])

/-- The state before the last action of `cancelSchedule`. -/
def cancelBefore : Batch :=
  (run demoAggregator (Batch.init demoAggregator ⟨none⟩ ["ok1", "ok2"])
    (cancelSchedule.take 9)).getD (Batch.init demoAggregator ⟨none⟩ ["ok1", "ok2"])

/-- A call on `["b1", "b2"]`, both failing in `Fetch`: worker 1, which holds
`b2`, sends its error before worker 0 sends the one for `b1`. -/
def reversedSchedule : List Action :=
  [.produce, .produce, .producerFinish, .workerRecv 0, .workerRecv 1, .workerWait 1 none,
   .workerFetch 1, .workerWait 0 none, .workerFetch 0, .collectError, .collectError,
   .collectFinish, .mainDone]

/-- The state `reversedSchedule` ends in. -/
def reversedFinal : Batch :=
  (run demoAggregator (Batch.init demoAggregator ⟨none⟩ ["b1", "b2"])
    reversedSchedule).getD (Batch.init demoAggregator ⟨none⟩ ["b1", "b2"])

/-- A call on `["a", "b", "c"]`: `a` succeeds, `b` fails in `Fetch` and `c` in
`Process`; the collector receives the error for `c`, the result for `a` and the
error for `b`. -/
def partialSchedule : List Action :=
  [.produce, .produce, .produce, .producerFinish, .workerRecv 0, .workerRecv 1,
   .workerRecv 2, .workerWait 2 none, .workerFetch 2, .workerProcess 2 9,
   .workerWait 1 none, .workerFetch 1, .workerWait 0 none, .workerFetch 0,
   .workerProcess 0 5, .collectError, .collectResult, .collectError, .collectFinish,
   .mainDone]

/-- The state `partialSchedule` ends in. -/
def partialFinal : Batch :=
  (run demoAggregator (Batch.init demoAggregator ⟨none⟩ ["a", "b", "c"])
    partialSchedule).getD (Batch.init demoAggregator ⟨none⟩ ["a", "b", "c"])

/-- The actions by which, under a live context, worker 0 answers the URL `u` at
the head of the queue and the collector receives the answer. -/
def serveOne (ca : ContentAggregator) (u : String) : List Action :=
  match ca.fetcher.Fetch ⟨none⟩ u with
  | .error _ =>
    [.workerRecv 0, .workerWait 0 none, .workerFetch 0, .collectError]
  | .ok content =>
    match ca.processor.Process ⟨none⟩ content with
    | .error _ =>
      [.workerRecv 0, .workerWait 0 none, .workerFetch 0, .workerProcess 0 0, .collectError]
    | .ok _ =>
      [.workerRecv 0, .workerWait 0 none, .workerFetch 0, .workerProcess 0 0, .collectResult]

/-- The schedule on which the producer queues every URL, worker 0 answers them
one after the other, each answer being collected at once, and the caller is
woken by `done`. -/
def serialSchedule (ca : ContentAggregator) (urls : List String) : List Action :=
  urls.map (fun _ => Action.produce) ++ [Action.producerFinish] ++
    (urls.map (serveOne ca)).join ++ [Action.collectFinish, Action.mainDone]

/-- The states of the serial schedule while the URLs `rest` are still queued. -/
structure Serving (s : Batch) (rest : List String) : Prop where
  ctx : s.ctx = ⟨none⟩
  jobs : s.jobs.buf = rest
  worker : s.workers[0]? = some WorkerState.selecting
  results : s.results.buf = []
  errors : s.errors.buf = []
  resultsCap : s.results.cap = s.urls.length
  errorsCap : s.errors.cap = s.urls.length
  count : s.i + rest.length = s.urls.length
  collector : s.collector = CollectorState.collecting
  ret : s.ret = none

/-- The states of the serial schedule while the producer has queued `k` URLs
and nothing else has moved. -/
structure Producing (s : Batch) (k : Nat) : Prop where
  opened : s.jobs.closed = false
  cap : s.jobs.cap = s.urls.length
  next : s.next = k
  buf : s.jobs.buf = s.urls.take k
  ctx : s.ctx = ⟨none⟩
  worker : s.workers[0]? = some WorkerState.selecting
  results : s.results.buf = []
  errors : s.errors.buf = []
  resultsCap : s.results.cap = s.urls.length
  errorsCap : s.errors.cap = s.urls.length
  count : s.i = 0
  collector : s.collector = CollectorState.collecting
  ret : s.ret = none

/-! ### Concurrent calls of `Shutdown` -/

/-- Where a goroutine that has called `Shutdown` stands inside
`ca.shutdownOnce.Do`.  `sync.Once.Do` first loads the `done` flag and returns at
once when it is set (`calling`); otherwise it takes the mutex of the `Once`
(`locking`), looks at the flag again and, when it is still unset, runs the
function while holding the mutex: `close(ca.shutdown)` (`closing`) and then
`ca.wg.Wait()` (`waiting`); the flag is set and the mutex released when the
function is over, after which `Shutdown` returns nil (`returned`). -/
inductive CallerState where
  | calling
  | locking
  | closing
  | waiting
  | returned
deriving DecidableEq, Repr

/-- The state shared by the goroutines that call `Shutdown` on one aggregator:
the `done` flag of the `Once`, the holder of its mutex, whether `ca.shutdown` is
closed, the counter of `ca.wg` (the workers started and not yet returned), and
where every caller stands.  `panicked` records a close of the closed channel;
`closes` and `waits` count the closes of `ca.shutdown` and the returns of
`ca.wg.Wait()`. -/
structure ShutdownSys where
  onceDone : Bool
  mutex : Option Nat
  shutdown : Bool
  wg : Nat
  callers : List CallerState
  panicked : Bool
  closes : Nat
  waits : Nat
deriving DecidableEq, Repr

/-- The moment `n` goroutines have each called `ca.Shutdown()` and none has
moved yet. -/
def ShutdownSys.init (ca : ContentAggregator) (n : Nat) : ShutdownSys :=
  { onceDone := ca.shutdownOnce
    mutex := none
    shutdown := ca.shutdown
    wg := ca.wg
    callers := List.replicate n CallerState.calling
    panicked := false
    closes := 0
    waits := 0 }

/-- One atomic move: of caller `c` inside `shutdownOnce.Do`, or of a worker
that returns from its loop (`defer ca.wg.Done()`). -/
inductive ShutdownAction where
  | load (c : Nat)
  | lock (c : Nat)
  | close (c : Nat)
  | waitReturn (c : Nat)
  | workerDone
deriving DecidableEq, Repr

/-- The transition function of the callers of `Shutdown`; `none` when the
action cannot proceed.  No worker is started while the calls are under way. -/
def shutdownStep (s : ShutdownSys) : ShutdownAction → Option ShutdownSys
  -- `if o.done.Load() == 0 { o.doSlow(f) }`
  | .load c =>
    match s.callers[c]? with
    | some .calling =>
      if s.onceDone then some { s with callers := s.callers.set c CallerState.returned }
      else some { s with callers := s.callers.set c CallerState.locking }
    | _ => none
  -- `o.m.Lock(); defer o.m.Unlock(); if o.done.Load() == 0 { … }`
  | .lock c =>
    match s.callers[c]? with
    | some .locking =>
      match s.mutex with
      | some _ => none
      | none =>
        if s.onceDone then some { s with callers := s.callers.set c CallerState.returned }
        else some { s with mutex := some c, callers := s.callers.set c CallerState.closing }
    | _ => none
  -- `close(ca.shutdown)`
  | .close c =>
    match s.callers[c]? with
    | some .closing =>
      if s.shutdown then some { s with panicked := true }
      else
        some { s with
          shutdown := true
          closes := s.closes + 1
          callers := s.callers.set c CallerState.waiting }
    | _ => none
  -- `ca.wg.Wait()` returns, then `o.done.Store(1)`, `o.m.Unlock()`, `return nil`
  | .waitReturn c =>
    match s.callers[c]? with
    | some .waiting =>
      if s.wg = 0 then
        some { s with
          onceDone := true
          mutex := none
          waits := s.waits + 1
          callers := s.callers.set c CallerState.returned }
      else none
    | _ => none
  -- a worker returns: `ca.wg.Done()`
  | .workerDone =>
    if s.wg = 0 then none else some { s with wg := s.wg - 1 }

/-- Run a schedule of the callers of `Shutdown`. -/
def shutdownRun : ShutdownSys → List ShutdownAction → Option ShutdownSys
  | s, [] => some s
  | s, a :: as =>
    match shutdownStep s a with
    | none => none
    | some s1 => shutdownRun s1 as

/-- The invariant of the callers of `Shutdown` on an aggregator that was live
when they called. -/
structure ShutdownInv (s : ShutdownSys) : Prop where
  noPanic : s.panicked = false
  holder : ∀ c : Nat, s.callers[c]? = some CallerState.closing ∨
    s.callers[c]? = some CallerState.waiting → s.mutex = some c
  held : ∀ h : Nat, s.mutex = some h → s.onceDone = false ∧
    (s.callers[h]? = some CallerState.closing ∨ s.callers[h]? = some CallerState.waiting)
  closingPhase : ∀ c : Nat, s.callers[c]? = some CallerState.closing →
    s.shutdown = false ∧ s.closes = 0 ∧ s.waits = 0
  waitingPhase : ∀ c : Nat, s.callers[c]? = some CallerState.waiting →
    s.shutdown = true ∧ s.closes = 1 ∧ s.waits = 0
  free : s.mutex = none →
    (s.onceDone = true ∧ s.shutdown = true ∧ s.closes = 1 ∧ s.waits = 1 ∧ s.wg = 0) ∨
    (s.onceDone = false ∧ s.shutdown = false ∧ s.closes = 0 ∧ s.waits = 0)
  returned : ∀ c : Nat, s.callers[c]? = some CallerState.returned → s.onceDone = true

/-- Three callers and two live workers: caller 1 wins the `Once`, closes the
channel and waits; the workers return; caller 1 returns, then callers 0 and 2,
which had queued on the mutex or not yet looked at the flag. -/
def concurrentShutdownSchedule : List ShutdownAction :=
  [.load 1, .load 0, .lock 1, .close 1, .workerDone, .workerDone, .waitReturn 1,
   .lock 0, .load 2]

/-- The state `concurrentShutdownSchedule` ends in. -/
def concurrentShutdownFinal : ShutdownSys :=
  (shutdownRun (ShutdownSys.init { demoAggregator with wg := 2 } 3)
    concurrentShutdownSchedule).getD (ShutdownSys.init { demoAggregator with wg := 2 } 3)

/-! ### The history of the job queue -/

/-- The URL a step puts on the queue `jobs`: after a `produce`, the URL at the
back of the buffer. -/
def sentBy (a : Action) (s1 : Batch) : List String :=
  match a with
  | .produce => s1.jobs.buf.getLast?.toList
  | _ => []

/-- The URL a step takes from the queue `jobs`: at a `workerRecv`, the URL at the
front of the buffer, if there is one. -/
def receivedBy (a : Action) (s : Batch) : List String :=
  match a with
  | .workerRecv _ => s.jobs.buf.head?.toList
  | _ => []

/-- The URLs the producer has put on `jobs` along a schedule, in the order of
the sends. -/
def jobsSent (ca : ContentAggregator) : Batch → List Action → List String
  | _, [] => []
  | s, a :: rest =>
    match step ca s a with
    | none => []
    | some s1 => sentBy a s1 ++ jobsSent ca s1 rest

/-- The URLs the workers have taken from `jobs` along a schedule, in the order
of the receives. -/
def jobsReceived (ca : ContentAggregator) : Batch → List Action → List String
  | _, [] => []
  | s, a :: rest =>
    match step ca s a with
    | none => []
    | some s1 => receivedBy a s ++ jobsReceived ca s1 rest

/-! ### The steps that fail -/

/-- The step of a worker that fails when the action `a` is taken in the state
`s`: the URL the worker holds, the stage of the step, and the error that
`limiter.Wait`, `Fetch` or `Process` returned. -/
def failedStep (ca : ContentAggregator) (s : Batch) :
    Action → Option (String × Stage × GoError)
  | .workerWait w (some err) =>
    match s.workers[w]? with
    | some (.waiting u) => some (u, Stage.rateLimit, err)
    | _ => none
  | .workerFetch w =>
    match s.workers[w]? with
    | some (.fetching u) =>
      match ca.fetcher.Fetch s.ctx u with
      | .error err => some (u, Stage.fetch, err)
      | .ok _ => none
    | _ => none
  | .workerProcess w _ =>
    match s.workers[w]? with
    | some (.processing u content) =>
      match ca.processor.Process s.ctx content with
      | .error err => some (u, Stage.process, err)
      | .ok _ => none
    | _ => none
  | _ => none

/-- The steps that fail along a schedule, in order. -/
def failedSteps (ca : ContentAggregator) :
    Batch → List Action → List (String × Stage × GoError)
  | _, [] => []
  | s, a :: as =>
    match step ca s a with
    | none => []
    | some s1 => (failedStep ca s a).toList ++ failedSteps ca s1 as

/-- The item and the error that report the failed step `f`: the text of the
stage, the URL, a colon and the text of the cause, wrapping the cause. -/
def stageError (f : String × Stage × GoError) : String × GoError :=
  (f.1, errorfWrap f.2.1.text f.1 f.2.2)

/-- The items that failed among the emitted outcomes, each with its error, in
order. -/
def failedItems (emitted : List (String × Outcome)) : List (String × GoError) :=
  emitted.filterMap fun p =>
    match p.2 with
    | .error e => some (p.1, e)
    | .ok _ => none

/-- A worker that is about to call `Process` holds the content that `Fetch`
returns for its URL under the context `ctx`. -/
def FetchedUnder (ca : ContentAggregator) (ctx : Context) : WorkerState → Prop
  | .processing u content => ca.fetcher.Fetch ctx u = .ok content
  | _ => True

end Challenge11

/-! ## Challenge 21: binary search
(`challenge-21/submissions/{azs0309,imankhodadi,okzhp}/solution-template.go`)

A Go `[]int` is a list of integers and an `int` index an integer; the lengths
of slices are so far below the range of `int` that no sum of two indices
overflows.  A loop or a recursion takes a bound on the number of its rounds
(`fuel`); reading outside the slice and running out of fuel are the two ways
not to return. -/

namespace Challenge21

/-- What stops a function short of its `return`: the run-time panic of an index
out of range, or the bound on the rounds being used up. -/
inductive Fault where
  | indexOutOfRange
  | outOfFuel
deriving DecidableEq, Repr

instance instDecidableEqExcept {ε α : Type} [DecidableEq ε] [DecidableEq α] :
    DecidableEq (Except ε α) := fun a b =>
  match a, b with
  | .ok x, .ok y =>
    if h : x = y then isTrue (by rw [h]) else isFalse (fun e => h (Except.ok.inj e))
  | .error x, .error y =>
    if h : x = y then isTrue (by rw [h]) else isFalse (fun e => h (Except.error.inj e))
  | .ok _, .error _ => isFalse (fun e => by cases e)
  | .error _, .ok _ => isFalse (fun e => by cases e)

/-- Go `arr[i]`: a panic unless `0 ≤ i < len(arr)`. -/
def index (arr : List Int) (i : Int) : Except Fault Int :=
  if i < 0 then .error Fault.indexOutOfRange
  else
    match arr[i.toNat]? with
    | some v => .ok v
    | none => .error Fault.indexOutOfRange

namespace Imankhodadi

/-- The loop of `BinarySearch`: `for left <= right { m := left + (right-left)/2; … }`
and the `return -1` after it. -/
def searchLoop (arr : List Int) (target : Int) : Nat → Int → Int → Except Fault Int
  | 0, _, _ => .error Fault.outOfFuel
  | fuel + 1, left, right =>
    if left ≤ right then
      let m := left + (right - left).tdiv 2
      match index arr m with
      | .error f => .error f
      | .ok v =>
        if v = target then .ok m
        else if target < v then searchLoop arr target fuel left (m - 1)
        else searchLoop arr target fuel (m + 1) right
    else .ok (-1)

/-- Go `BinarySearch(arr, target)`. -/
def BinarySearch (arr : List Int) (target : Int) : Except Fault Int :=
  searchLoop arr target (arr.length + 1) 0 ((arr.length : Int) - 1)

/-- Go `BinarySearchRecursive(arr, target, left, right)`, with a bound on the
depth of the recursion. -/
def BinarySearchRecursive (arr : List Int) (target : Int) :
    Nat → Int → Int → Except Fault Int
  | 0, _, _ => .error Fault.outOfFuel
  | fuel + 1, left, right =>
    if left > right then .ok (-1)
    else
      let m := left + (right - left).tdiv 2
      match index arr m with
      | .error f => .error f
      | .ok v =>
        if v = target then .ok m
        else if target < v then BinarySearchRecursive arr target fuel left (m - 1)
        else BinarySearchRecursive arr target fuel (m + 1) right

/-- The loop of `FindInsertPosition`: `for left < right { … }` and the
`return left` after it. -/
def insertLoop (arr : List Int) (target : Int) : Nat → Int → Int → Except Fault Int
  | 0, _, _ => .error Fault.outOfFuel
  | fuel + 1, left, right =>
    if left < right then
      let mid := left + (right - left).tdiv 2
      match index arr mid with
      | .error f => .error f
      | .ok v =>
        if v < target then insertLoop arr target fuel (mid + 1) right
        else insertLoop arr target fuel left mid
    else .ok left

/-- Go `FindInsertPosition(arr, target)`. -/
def FindInsertPosition (arr : List Int) (target : Int) : Except Fault Int :=
  insertLoop arr target (arr.length + 1) 0 arr.length

end Imankhodadi

namespace Azs0309

/-- The loop of `BinarySearch`, `right` starting at `cnt`: three `if`s in a
row on the same `arr[mid]`, the first returning, the other two moving one
bound each. -/
def searchLoop (arr : List Int) (target : Int) : Nat → Int → Int → Except Fault Int
  | 0, _, _ => .error Fault.outOfFuel
  | fuel + 1, left, right =>
    if left ≤ right then
      let mid := left + (right - left).tdiv 2
      match index arr mid with
      | .error f => .error f
      | .ok v =>
        if target = v then .ok mid
        else
          let right1 := if target < v then mid - 1 else right
          let left1 := if target > v then mid + 1 else left
          searchLoop arr target fuel left1 right1
    else .ok (-1)

/-- Go `BinarySearch(arr, target)`: the three early returns, then the loop on
`left := 0`, `right := cnt`. -/
def BinarySearch (arr : List Int) (target : Int) : Except Fault Int :=
  let cnt : Int := arr.length
  if cnt ≤ 0 then .ok (-1)
  else
    match index arr 0 with
    | .error f => .error f
    | .ok first =>
      if target < first then .ok (-1)
      else
        match index arr (cnt - 1) with
        | .error f => .error f
        | .ok last =>
          if target > last then .ok (-1)
          else searchLoop arr target (arr.length + 2) 0 cnt

/-- Go `BinarySearchRecursive(arr, target, left, right)`, with a bound on the
depth of the recursion. -/
def BinarySearchRecursive (arr : List Int) (target : Int) :
    Nat → Int → Int → Except Fault Int
  | 0, _, _ => .error Fault.outOfFuel
  | fuel + 1, left, right =>
    if left > right then .ok (-1)
    else
      let mid := left + (right - left).tdiv 2
      match index arr mid with
      | .error f => .error f
      | .ok v =>
        if target = v then .ok mid
        else if target < v then BinarySearchRecursive arr target fuel left (mid - 1)
        else if target > v then BinarySearchRecursive arr target fuel (mid + 1) right
        else .ok (-1)

/-- The loop of `FindInsertPosition`, which carries `idx`, and the
`return idx` after it. -/
def insertLoop (arr : List Int) (target : Int) :
    Nat → Int → Int → Int → Except Fault Int
  | 0, _, _, _ => .error Fault.outOfFuel
  | fuel + 1, left, right, idx =>
    if left ≤ right then
      let mid := left + (right - left).tdiv 2
      match index arr mid with
      | .error f => .error f
      | .ok v =>
        if target = v then .ok mid
        else
          -- `if target < arr[mid] { idx = mid; right = mid - 1 }`
          let idx1 := if target < v then mid else idx
          let right1 := if target < v then mid - 1 else right
          -- `if target > arr[mid] { left = mid + 1; idx = left }`
          let left1 := if target > v then mid + 1 else left
          let idx2 := if target > v then mid + 1 else idx1
          insertLoop arr target fuel left1 right1 idx2
    else .ok idx

/-- Go `FindInsertPosition(arr, target)`. -/
def FindInsertPosition (arr : List Int) (target : Int) : Except Fault Int :=
  let cnt : Int := arr.length
  if cnt ≤ 0 then .ok 0
  else
    match index arr 0 with
    | .error f => .error f
    | .ok first =>
      if target < first then .ok 0
      else
        match index arr (cnt - 1) with
        | .error f => .error f
        | .ok last =>
          if target > last then .ok cnt
          else insertLoop arr target (arr.length + 2) 0 cnt 0

end Azs0309

namespace Okzhp

/-- The loop of `BinarySearch`: `for l <= r { mid = (l + r) / 2; … }` and the
`return -1` after it. -/
def searchLoop (arr : List Int) (target : Int) : Nat → Int → Int → Except Fault Int
  | 0, _, _ => .error Fault.outOfFuel
  | fuel + 1, l, r =>
    if l ≤ r then
      let mid := (l + r).tdiv 2
      match index arr mid with
      | .error f => .error f
      | .ok v =>
        if v = target then .ok mid
        else if v < target then searchLoop arr target fuel (mid + 1) r
        else searchLoop arr target fuel l (mid - 1)
    else .ok (-1)

/-- Go `BinarySearch(arr, target)`: the case of one element, then the loop. -/
def BinarySearch (arr : List Int) (target : Int) : Except Fault Int :=
  if arr.length = 1 then
    match index arr 0 with
    | .error f => .error f
    | .ok v => if v = target then .ok 0 else .ok (-1)
  else searchLoop arr target (arr.length + 1) 0 ((arr.length : Int) - 1)

/-- Go `BinarySearchRecursive(arr, target, left, right)`, with a bound on the
depth of the recursion.  The guard is
`len(arr) == 0 || target < arr[left] || target > arr[right]`, read from the
left. -/
def BinarySearchRecursive (arr : List Int) (target : Int) :
    Nat → Int → Int → Except Fault Int
  | 0, _, _ => .error Fault.outOfFuel
  | fuel + 1, left, right =>
    if arr.length = 0 then .ok (-1)
    else
      match index arr left with
      | .error f => .error f
      | .ok vl =>
        if target < vl then .ok (-1)
        else
          match index arr right with
          | .error f => .error f
          | .ok vr =>
            if target > vr then .ok (-1)
            else
              let mid := (left + right).tdiv 2
              match index arr mid with
              | .error f => .error f
              | .ok v =>
                if target = v then .ok mid
                else if target < v then BinarySearchRecursive arr target fuel left (mid - 1)
                else BinarySearchRecursive arr target fuel (mid + 1) right

/-- The loop of `FindInsertPosition` and the `return -1` after it. -/
def insertLoop (arr : List Int) (target : Int) : Nat → Int → Int → Except Fault Int
  | 0, _, _ => .error Fault.outOfFuel
  | fuel + 1, l, r =>
    if l ≤ r then
      let tmp := r - l
      let mid := (l + r).tdiv 2
      match index arr mid with
      | .error f => .error f
      | .ok v =>
        if v = target then .ok mid
        else if v < target then
          if tmp = 1 then .ok r else insertLoop arr target fuel mid r
        else
          if tmp = 1 then .ok r else insertLoop arr target fuel l mid
    else .ok (-1)

/-- Go `FindInsertPosition(arr, target)`. -/
def FindInsertPosition (arr : List Int) (target : Int) : Except Fault Int :=
  if arr.length = 0 then .ok 0
  else
    let l : Int := 0
    let r : Int := (arr.length : Int) - 1
    match index arr r with
    | .error f => .error f
    | .ok vr =>
      if target = vr then .ok r
      else if target > vr then .ok arr.length
      else
        match index arr l with
        | .error f => .error f
        | .ok vl =>
          if target < vl then .ok 0
          else insertLoop arr target (arr.length + 1) l r

end Okzhp

/-- The array is sorted in non-decreasing order. -/
def Sorted (arr : List Int) : Prop := arr.Pairwise (· ≤ ·)

/-- The array is strictly increasing. -/
def StrictlySorted (arr : List Int) : Prop := arr.Pairwise (· < ·)

/-- What a search may answer: an index holding `target` when `target` occurs
in `arr`, and `-1` when it does not. -/
def SearchResult (arr : List Int) (target : Int) (r : Int) : Prop :=
  (target ∈ arr → 0 ≤ r ∧ arr[r.toNat]? = some target) ∧ (target ∉ arr → r = -1)

/-- An insert position: an index `p` with `0 ≤ p ≤ len(arr)`, every element
before it at most `target`, every element at or after it at least `target`. -/
def InsertPosition (arr : List Int) (target : Int) (p : Int) : Prop :=
  0 ≤ p ∧ p ≤ arr.length ∧
  (∀ (k : Nat) (v : Int), (k : Int) < p → arr[k]? = some v → v ≤ target) ∧
  (∀ (k : Nat) (v : Int), p ≤ (k : Int) → arr[k]? = some v → target ≤ v)

/-- What `FindInsertPosition` answers: an insert position that, when `target`
occurs in `arr`, is an index holding it. -/
def InsertResult (arr : List Int) (target : Int) (p : Int) : Prop :=
  InsertPosition arr target p ∧ (target ∈ arr → arr[p.toNat]? = some target)

/-- The array with `x` inserted at index `p`. -/
def insertAt (arr : List Int) (p : Int) (x : Int) : List Int :=
  arr.take p.toNat ++ x :: arr.drop p.toNat

/-- The number of elements of `arr` smaller than `target`. -/
def countSmaller (arr : List Int) (target : Int) : Int :=
  ((arr.filter fun x => decide (x < target)).length : Int)

/-- The array of the three `main` functions. -/
def mainArr : List Int := [1, 3, 5, 7, 9, 11, 13, 15, 17, 19]

instance (arr : List Int) : Decidable (Sorted arr) := by
  unfold Sorted; infer_instance

instance (arr : List Int) : Decidable (StrictlySorted arr) := by
  unfold StrictlySorted; infer_instance

end Challenge21

/-! ## Challenge 24: longest increasing subsequence
(`challenge-24/submissions/imankhodadi/solution-template.go`)

A Go `[]int` is a list of integers; a counted `for` loop is a fold over the
list of the values of its counter; every read and write of a slice element is
fallible (`none` is the panic of an index out of range).  The values held in
`dp` are at most `len(nums)`, so no arithmetic overflows. -/

namespace Challenge24

/-- The body of the inner loop of `DPLongestIncreasingSubsequence`:
`if nums[j] < nums[i] { if dp[j]+1 > dp[i] { dp[i] = dp[j] + 1 } }`. -/
def dpStep (nums : List Int) (i : Nat) (dp : List Int) (j : Nat) : Option (List Int) :=
  match nums[j]?, nums[i]? with
  | some nj, some ni =>
    if nj < ni then
      match dp[j]?, dp[i]? with
      | some dj, some di => if dj + 1 > di then some (dp.set i (dj + 1)) else some dp
      | _, _ => none
    else some dp
  | _, _ => none

/-- The inner loop `for j := 0; j < i; j++ { … }`. -/
def dpInner (nums : List Int) (dp : List Int) (i : Nat) : Option (List Int) :=
  (List.range i).foldlM (dpStep nums i) dp

/-- The outer loop `for i := 1; i < len(nums); i++ { … }` run on the slice `dp`
filled with ones: the table the function works on. -/
def dpTable (nums : List Int) : Option (List Int) :=
  (List.range' 1 (nums.length - 1)).foldlM (dpInner nums) (List.replicate nums.length 1)

/-- The loop `for _, x := range dp { if x > max { max = x } }`. -/
def maxLoop (dp : List Int) (max : Int) : Int :=
  dp.foldl (fun m x => if x > m then x else m) max

/-- Go `DPLongestIncreasingSubsequence(nums)`. -/
def DPLongestIncreasingSubsequence (nums : List Int) : Option Int :=
  if nums.length = 0 then some 0
  else
    match dpTable nums with
    | none => none
    | some dp =>
      match dp[0]? with
      | none => none
      | some d0 => some (maxLoop dp d0)

/-- The loop of Go's `sort.Search(n, f)` for `f(h) = a[h] >= x`, as the standard
library writes it: `for i < j { h := int(uint(i+j) >> 1); if !f(h) { i = h + 1 }
else { j = h } }; return i`, with a bound on its rounds. -/
def searchLoop (a : List Int) (x : Int) : Nat → Nat → Nat → Option Nat
  | 0, _, _ => none
  | fuel + 1, i, j =>
    if i < j then
      let h := (i + j) / 2
      match a[h]? with
      | none => none
      | some v => if ¬ v ≥ x then searchLoop a x fuel (h + 1) j else searchLoop a x fuel i h
    else some i

/-- Go `sort.SearchInts(a, x)`: `sort.Search(len(a), func(i) { return a[i] >= x })`. -/
def SearchInts (a : List Int) (x : Int) : Option Nat :=
  searchLoop a x (a.length + 1) 0 a.length

/-- The body of the loop of `OptimizedLIS`. -/
def tailsStep (tails : List Int) (num : Int) : Option (List Int) :=
  match SearchInts tails num with
  | none => none
  | some pos =>
    if pos = tails.length then some (tails ++ [num])
    else if pos < tails.length then some (tails.set pos num)
    else none

/-- The slice `tails` after the loop `for _, num := range nums { … }` of
`OptimizedLIS`. -/
def tailsOf (nums : List Int) : Option (List Int) :=
  nums.foldlM tailsStep []

/-- Go `OptimizedLIS(nums)`. -/
def OptimizedLIS (nums : List Int) : Option Int :=
  match tailsOf nums with
  | none => none
  | some tails => some (tails.length : Int)

/-- The body of the inner loop of `GetLISElements`, on the pair of the slices
`dp` and `parent`. -/
def lisStep (nums : List Int) (i : Nat) (st : List Int × List Nat) (j : Nat) :
    Option (List Int × List Nat) :=
  match nums[j]?, nums[i]? with
  | some nj, some ni =>
    if nj < ni then
      match st.1[j]?, st.1[i]? with
      | some dj, some di =>
        if dj + 1 > di then
          if i < st.2.length then some (st.1.set i (dj + 1), st.2.set i j) else none
        else some st
      | _, _ => none
    else some st
  | _, _ => none

/-- The inner loop of `GetLISElements`. -/
def lisInner (nums : List Int) (st : List Int × List Nat) (i : Nat) :
    Option (List Int × List Nat) :=
  (List.range i).foldlM (lisStep nums i) st

/-- The outer loop of `GetLISElements` run on `dp` filled with ones and
`parent` filled with zeros. -/
def lisTables (nums : List Int) : Option (List Int × List Nat) :=
  (List.range' 1 (nums.length - 1)).foldlM (lisInner nums)
    (List.replicate nums.length 1, List.replicate nums.length 0)

/-- The loop `for i, x := range dp { if x > maxVal { maxVal, maxIndex = x, i } }`. -/
def maxIndexLoop (dp : List Int) (maxVal : Int) (maxIndex : Nat) : Int × Nat :=
  dp.enum.foldl (fun acc ix => if ix.2 > acc.1 then (ix.2, ix.1) else acc) (maxVal, maxIndex)

/-- The loop `for i := maxVal - 1; i >= 0; i-- { lis[i] = nums[current];
current = parent[current] }`: `walk nums parent (i + 1) current lis` runs the
round of the counter `i` and goes on with `i - 1`. -/
def walk (nums : List Int) (parent : List Nat) : Nat → Nat → List Int → Option (List Int)
  | 0, _, lis => some lis
  | i + 1, current, lis =>
    match nums[current]?, parent[current]? with
    | some v, some p =>
      if i < lis.length then walk nums parent i p (lis.set i v) else none
    | _, _ => none

/-- Go `GetLISElements(nums)`. -/
def GetLISElements (nums : List Int) : Option (List Int) :=
  if nums.length = 0 then some []
  else
    match lisTables nums with
    | none => none
    | some (dp, parent) =>
      match dp[0]? with
      | none => none
      | some d0 =>
        let (maxVal, maxIndex) := maxIndexLoop dp d0 0
        if maxVal < 0 then none
        else walk nums parent maxVal.toNat maxIndex (List.replicate maxVal.toNat 0)

/-- A strictly increasing subsequence of `nums`: elements taken at increasing
indices, each greater than the one before. -/
def IncSubseq (nums l : List Int) : Prop := l.Sublist nums ∧ l.Pairwise (· < ·)

/-- The length of a longest strictly increasing subsequence of `nums`. -/
def IsLISLength (nums : List Int) (k : Int) : Prop :=
  (∃ l, IncSubseq nums l ∧ (l.length : Int) = k) ∧
  ∀ l, IncSubseq nums l → (l.length : Int) ≤ k

/-- A strictly increasing subsequence of `nums` whose last element is the one
at index `i`. -/
def EndsAt (nums : List Int) (i : Nat) (l : List Int) : Prop :=
  ∃ (l' : List Int) (x : Int), nums[i]? = some x ∧ l = l' ++ [x] ∧
    l'.Sublist (nums.take i) ∧ l.Pairwise (· < ·)

/-- The length of a longest strictly increasing subsequence ending at index
`i`. -/
def IsLISEndingAt (nums : List Int) (i : Nat) (d : Int) : Prop :=
  (∃ l, EndsAt nums i l ∧ (l.length : Int) = d) ∧
  ∀ l, EndsAt nums i l → (l.length : Int) ≤ d

/-- The invariant of the outer loop of the dynamic programme when its counter
is `i`: the entries before `i` are final, the others still hold `1`. -/
structure DpOuter (nums : List Int) (i : Nat) (dp : List Int) : Prop where
  len : dp.length = nums.length
  done : ∀ (k : Nat) (d : Int), k < i → dp[k]? = some d → IsLISEndingAt nums k d
  rest : ∀ (k : Nat) (d : Int), i ≤ k → dp[k]? = some d → d = 1

/-- The invariant of the inner loop when its counter is `j`: `dp[i]` is the
length of some increasing subsequence ending at `i`, and at least the length of
every one whose elements before the last are among the first `j`. -/
structure DpInner (nums : List Int) (i j : Nat) (dp : List Int) : Prop where
  len : dp.length = nums.length
  done : ∀ (k : Nat) (d : Int), k < i → dp[k]? = some d → IsLISEndingAt nums k d
  rest : ∀ (k : Nat) (d : Int), i < k → dp[k]? = some d → d = 1
  cur : ∃ d, dp[i]? = some d ∧ (∃ l, EndsAt nums i l ∧ (l.length : Int) = d) ∧
    ∀ (l' : List Int) (x : Int), nums[i]? = some x → l'.Sublist (nums.take j) →
      (l' ++ [x]).Pairwise (· < ·) → ((l' ++ [x]).length : Int) ≤ d

/-- The invariant of the loop of `OptimizedLIS` once the elements `pre` have been
read: `tails` is strictly increasing, `tails[k]` is the last element of some
strictly increasing subsequence of `pre` of length `k + 1`, and no strictly
increasing subsequence of that length ends in a smaller element. -/
structure TailsInv (pre tails : List Int) : Prop where
  sorted : ∀ (a b : Nat) (u v : Int), a < b → tails[a]? = some u → tails[b]? = some v → u < v
  attained : ∀ (k : Nat) (t : Int), tails[k]? = some t →
    ∃ l : List Int, (l ++ [t]).Sublist pre ∧ (l ++ [t]).Pairwise (· < ·) ∧ l.length = k
  least : ∀ (l : List Int) (y : Int), (l ++ [y]).Sublist pre → (l ++ [y]).Pairwise (· < ·) →
    ∃ t, tails[l.length]? = some t ∧ t ≤ y

/-- The invariant of the loops of `GetLISElements` on the pair of `dp` and
`parent` when the outer counter is `i`: an entry of `dp` other than `1` was
written together with its parent, an earlier index holding a smaller element
whose entry is one less. -/
structure ParentInv (nums : List Int) (i : Nat) (st : List Int × List Nat) : Prop where
  plen : st.2.length = nums.length
  rest : ∀ (k : Nat) (d : Int), i < k → st.1[k]? = some d → d = 1
  link : ∀ (k : Nat) (d : Int), st.1[k]? = some d → d = 1 ∨
    ∃ (p : Nat) (y x : Int), st.2[k]? = some p ∧ p < k ∧ nums[p]? = some y ∧
      nums[k]? = some x ∧ y < x ∧ st.1[p]? = some (d - 1)

end Challenge24

/-! ## Challenge 2: reversing a string
(`challenge-2/submissions/*/solution-template.go`)

A Go string is a sequence of bytes.  A string that holds valid UTF-8 is given
by its sequence of characters, which is what the conversion `[]rune(s)` yields
and what `string(runes)` encodes again; such a string is a Lean `String`, whose
`data` is that sequence.  The conversion `[]byte(s)` yields the bytes of the
UTF-8 encoding, and `string(bytes)` is the string with exactly those bytes,
valid UTF-8 or not; the bytes are natural numbers below 256.  Indices are Go
`int`s: a read or write at an index out of range is `none`. -/

namespace Challenge2

/-- Go `xs[i]` read at an `int` index. -/
def index {α : Type} (xs : List α) (i : Int) : Option α :=
  if i < 0 then none else xs[i.toNat]?

/-- Go `xs[i] = v`. -/
def assign {α : Type} (xs : List α) (i : Int) (v : α) : Option (List α) :=
  if 0 ≤ i ∧ i.toNat < xs.length then some (xs.set i.toNat v) else none

/-- Go `make([]rune, n)`: a slice of `n` zero runes. -/
def makeRunes (n : Nat) : List Char := List.replicate n (Char.ofNat 0)

/-- Go `utf8.EncodeRune` on a valid code point: its UTF-8 bytes. -/
def encodeRune (r : Nat) : List Nat :=
  if r < 0x80 then [r]
  else if r < 0x800 then [0xC0 + r / 0x40, 0x80 + r % 0x40]
  else if r < 0x10000 then [0xE0 + r / 0x1000, 0x80 + r / 0x40 % 0x40, 0x80 + r % 0x40]
  else [0xF0 + r / 0x40000, 0x80 + r / 0x1000 % 0x40, 0x80 + r / 0x40 % 0x40, 0x80 + r % 0x40]

/-- Go `[]byte(s)` for a string of valid UTF-8: the encodings of its characters
one after the other. -/
def bytesOf (s : String) : List Nat :=
  (s.data.map (fun c => encodeRune c.toNat)).flatten

namespace Mayankjustdial

/-- The loop `for start < end { runes[start], runes[end] = runes[end],
runes[start]; start++; end-- }`, with a bound on its rounds. The operands of
the assignment are read first (`runes[end]`, then `runes[start]`), then both
elements are written. -/
def swapLoop {α : Type} : Nat → List α → Int → Int → Option (List α)
  | 0, _, _, _ => none
  | fuel + 1, runes, start, stop =>
    if start < stop then
      match index runes stop, index runes start with
      | some a, some b =>
        match assign runes start a with
        | some r1 =>
          match assign r1 stop b with
          | some r2 => swapLoop fuel r2 (start + 1) (stop - 1)
          | none => none
        | none => none
      | _, _ => none
    else some runes

/-- Go `ReverseString(s)` of Mayankjustdial: `runes := []rune(s)`,
`start, end := 0, len(runes)-1`, the loop, `return string(runes)`. -/
def ReverseString (s : String) : Option String :=
  let runes := s.data
  (swapLoop (runes.length + 1) runes 0 ((runes.length : Int) - 1)).map String.mk

end Mayankjustdial

namespace Ismarinated

/-- The body of the loop: `result[idx] = input[length-idx-1]`. -/
def copyStep (input : List Char) (length : Int) (result : List Char) (idx : Nat) :
    Option (List Char) :=
  match index input (length - idx - 1) with
  | some v => assign result idx v
  | none => none

/-- Go `ReverseString(s)` of ismarinated: `input := []rune(s)`,
`length := len(input)`, `result := make([]rune, length)`,
`for idx := range input { … }`, `return string(result)`. -/
def ReverseString (s : String) : Option String :=
  let input := s.data
  let length := input.length
  ((List.range length).foldlM (copyStep input length) (makeRunes length)).map String.mk

end Ismarinated

namespace Mellojp

/-- The loop `for i < size && j >= 0 { res[i] = runeSlice[j]; i++; j-- }`, with
a bound on its rounds. -/
def copyLoop (runeSlice : List Char) (size : Int) :
    Nat → List Char → Int → Int → Option (List Char)
  | 0, _, _, _ => none
  | fuel + 1, res, i, j =>
    if i < size ∧ j ≥ 0 then
      match index runeSlice j with
      | some v =>
        match assign res i v with
        | some r => copyLoop runeSlice size fuel r (i + 1) (j - 1)
        | none => none
      | none => none
    else some res

/-- Go `ReverseString(s)` of mellojp: `runeSlice := []rune(s)`,
`size := len(runeSlice)`, `res := make([]rune, size)`, `i, j := 0, size-1`, the
loop, `return string(res)`. -/
def ReverseString (s : String) : Option String :=
  let runeSlice := s.data
  let size := runeSlice.length
  (copyLoop runeSlice size (size + 1) (makeRunes size) 0 ((size : Int) - 1)).map String.mk

end Mellojp

namespace Maket12

/-- The loop `for i := 0; i < j; i++ { store := reversed[i];
reversed[i] = reversed[j]; reversed[j] = store; j-- }`, with a bound on its
rounds. -/
def swapLoop : Nat → List Nat → Int → Int → Option (List Nat)
  | 0, _, _, _ => none
  | fuel + 1, reversed, i, j =>
    if i < j then
      match index reversed i with
      | some store =>
        match index reversed j with
        | some v =>
          match assign reversed i v with
          | some r1 =>
            match assign r1 j store with
            | some r2 => swapLoop fuel r2 (i + 1) (j - 1)
            | none => none
          | none => none
        | none => none
      | none => none
    else some reversed

/-- Go `ReverseString(s)` of maket12 on the bytes of `s`: `reversed :=
[]byte(s)`, `j = len(reversed) - 1`, the loop, `return string(reversed)`; the
result is the string with the bytes returned. -/
def ReverseString (s : List Nat) : Option (List Nat) :=
  swapLoop (s.length + 1) s 0 ((s.length : Int) - 1)

end Maket12

end Challenge2

/-! ## Challenge 3: the employee list
(`challenge-3/submissions/ismarinated/solution-template.go`)

The slice `m.Employees` is a list of records; a method with the receiver
`m *Manager` returns the manager after the call.  The pointer
`&m.Employees[idx]` that `FindEmployeeByID` returns is the index `idx` into
the slice, `nil` is `none`.  A `float64` salary is carried as a value and never
computed with here; it is a rational number. -/

namespace Challenge3

/-- Go `type Employee struct`. -/
structure Employee where
  ID : Int
  Name : String
  Age : Int
  Salary : Rat
deriving DecidableEq

/-- Go `type Manager struct`. -/
structure Manager where
  Employees : List Employee
deriving DecidableEq

/-- Go `m.AddEmployee(e)`: `m.Employees = append(m.Employees, e)`. -/
def Manager.AddEmployee (m : Manager) (e : Employee) : Manager :=
  { Employees := m.Employees ++ [e] }

/-- The loop of `RemoveEmployee` over `employees`, the slice the `range` clause
was given, standing at index `idx` with the elements `rest` still to come: at
the first element whose `ID` is `id` it yields
`append(employees[:idx], employees[idx+1:]...)` and breaks; `none` when the
loop runs out without an assignment. -/
def removeLoop (id : Int) (employees : List Employee) :
    Nat → List Employee → Option (List Employee)
  | _, [] => none
  | idx, e :: rest =>
    if e.ID = id then some (employees.take idx ++ employees.drop (idx + 1))
    else removeLoop id employees (idx + 1) rest

/-- Go `m.RemoveEmployee(id)`. -/
def Manager.RemoveEmployee (m : Manager) (id : Int) : Manager :=
  match removeLoop id m.Employees 0 m.Employees with
  | some employees => { Employees := employees }
  | none => m

/-- The loop of `FindEmployeeByID`, standing at index `idx`: the index of the
first element whose `ID` is `id`. -/
def findLoop (id : Int) : Nat → List Employee → Option Nat
  | _, [] => none
  | idx, e :: rest => if e.ID = id then some idx else findLoop id (idx + 1) rest

/-- Go `m.FindEmployeeByID(id)`: the index that the returned pointer
`&m.Employees[idx]` refers to, or `none` for `nil`. -/
def Manager.FindEmployeeByID (m : Manager) (id : Int) : Option Nat :=
  findLoop id 0 m.Employees

/-- The manager of `main` after the two calls of `AddEmployee`. -/
def mainManager : Manager :=
  (Manager.AddEmployee (Manager.AddEmployee { Employees := [] }
    { ID := 1, Name := "Alice", Age := 30, Salary := 70000 })
    { ID := 2, Name := "Bob", Age := 25, Salary := 65000 })

end Challenge3

/-! ## Challenge 4: concurrent breadth-first searches
(`challenge-4/submissions/110Aakif/solution-template.go`)

A Go `map[int][]int` is an association list, read at the first entry of a key;
the map `visited` is the list of the keys it holds `true` for.  The body of a
goroutine up to `resultMu.Lock()` touches only its own variables and the graph,
which no one writes: it is the function `bfsFrom`.  The goroutines, the channel
`workerChan` used as a semaphore, the wait group and the map `result` guarded
by `resultMu` are a transition system. -/

namespace Challenge4

/-- Go `map[int][]int`. -/
abbrev Graph := List (Int × List Int)

/-- Go `graph[node]`: the slice stored under the key, `nil` when there is
none. -/
def adj (graph : Graph) (node : Int) : List Int := (graph.lookup node).getD []

/-- The inner loop `for _, neghbour := range graph[node] { if visited[neghbour]
!= true { queue = append(queue, neghbour); visited[neghbour] = true } }`, on
the pair of `visited` and `queue`. -/
def visitLoop : List Int → List Int → List Int → List Int × List Int
  | [], visited, queue => (visited, queue)
  | neghbour :: rest, visited, queue =>
    if neghbour ∈ visited then visitLoop rest visited queue
    else visitLoop rest (neghbour :: visited) (queue ++ [neghbour])

/-- The loop `for len(queue) > 0 { node := queue[0]; queue = queue[1:];
bfs = append(bfs, node); … }`, with a bound on its rounds. -/
def bfsLoop (graph : Graph) : Nat → List Int → List Int → List Int → Option (List Int)
  | 0, _, _, _ => none
  | _ + 1, _, [], bfs => some bfs
  | fuel + 1, visited, node :: queue, bfs =>
    bfsLoop graph fuel (visitLoop (adj graph node) visited queue).1
      (visitLoop (adj graph node) visited queue).2 (bfs ++ [node])

/-- All neighbours the graph names, with repetitions. -/
def allNeighbours (graph : Graph) : List Int := (graph.map Prod.snd).flatten

/-- The slice `bfs` that the goroutine started for `start` computes: `visited`
and `queue` begin with `start` alone.  The loop dequeues every node at most
once, and every node it dequeues is `start` or a neighbour the graph names, so
the bound is never met. -/
def bfsFrom (graph : Graph) (start : Int) : Option (List Int) :=
  bfsLoop graph ((allNeighbours graph).length + 2) [start] [start] []

/-- Where a goroutine stands: before `resultMu.Lock()`; after
`resultMu.Unlock()`; after the deferred `<-workerChan`; after the deferred
`wg.Done()`. -/
inductive Phase where
  | running
  | written
  | released
  | finished
deriving DecidableEq, Repr

/-- The state of one call of `ConcurrentBFSQueries`: the queries the `for` loop
has not reached, the number of values in `workerChan`, the counter of `wg`, the
goroutines started (each with its `start` and its phase), the map `result`,
and the map returned once the function has returned. -/
structure Pool where
  numWorkers : Int
  pending : List Int
  workerChan : Nat
  wg : Nat
  goroutines : List (Int × Phase)
  result : List (Int × List Int)
  returned : Option (List (Int × List Int))
deriving DecidableEq, Repr

/-- The state after the test `numWorkers <= 0`, which returns the empty map at
once, and otherwise after `result`, `workerChan` and `wg` are made. -/
def Pool.init (queries : List Int) (numWorkers : Int) : Pool :=
  if numWorkers ≤ 0 then
    { numWorkers := numWorkers, pending := [], workerChan := 0, wg := 0, goroutines := [],
      result := [], returned := some [] }
  else
    { numWorkers := numWorkers, pending := queries, workerChan := 0, wg := 0,
      goroutines := [], result := [], returned := none }

/-- One atomic move: the caller's loop starts the next goroutine; goroutine `g`
finishes its search and writes `result[start]` under the mutex; it takes its
value back from `workerChan`; it calls `wg.Done()`; the caller's `wg.Wait()`
returns and the function returns `result`. -/
inductive PoolAction where
  | dispatch
  | write (g : Nat)
  | release (g : Nat)
  | done (g : Nat)
  | ret
deriving DecidableEq, Repr

/-- The transition function; `none` when the action cannot proceed. -/
def poolStep (graph : Graph) (s : Pool) : PoolAction → Option Pool
  -- `wg.Add(1); workerChan <- struct{}{}; go func(start int) { … }(query)`:
  -- the send blocks while the channel holds `numWorkers` values
  | .dispatch =>
    if s.returned.isSome then none
    else
      match s.pending with
      | [] => none
      | query :: rest =>
        if (s.workerChan : Int) < s.numWorkers then
          some { s with
            pending := rest
            workerChan := s.workerChan + 1
            wg := s.wg + 1
            goroutines := s.goroutines ++ [(query, Phase.running)] }
        else none
  -- the search, then `resultMu.Lock(); result[start] = bfs; resultMu.Unlock()`
  | .write g =>
    match s.goroutines[g]? with
    | some (start, .running) =>
      match bfsFrom graph start with
      | some bfs =>
        some { s with
          result := (start, bfs) :: s.result
          goroutines := s.goroutines.set g (start, Phase.written) }
      | none => none
    | _ => none
  -- the deferred `<-workerChan`
  | .release g =>
    match s.goroutines[g]? with
    | some (start, .written) =>
      if 0 < s.workerChan then
        some { s with
          workerChan := s.workerChan - 1
          goroutines := s.goroutines.set g (start, Phase.released) }
      else none
    | _ => none
  -- the deferred `wg.Done()`
  | .done g =>
    match s.goroutines[g]? with
    | some (start, .released) =>
      if 0 < s.wg then
        some { s with
          wg := s.wg - 1
          goroutines := s.goroutines.set g (start, Phase.finished) }
      else none
    | _ => none
  -- `wg.Wait()` returns, `return result`
  | .ret =>
    if s.returned.isNone ∧ s.pending = [] ∧ s.wg = 0 then
      some { s with returned := some s.result }
    else none

/-- Run a schedule from a state; `none` when some action cannot proceed. -/
def poolRun (graph : Graph) : Pool → List PoolAction → Option Pool
  | s, [] => some s
  | s, a :: as =>
    match poolStep graph s a with
    | none => none
    | some s1 => poolRun graph s1 as

/-! ### Vocabulary of the properties -/

/-- A walk of `k` edges in the graph from `a` to `b`. -/
inductive Path (graph : Graph) (a : Int) : Int → Nat → Prop where
  | nil : Path graph a a 0
  | snoc {u v : Int} {k : Nat} : Path graph a u k → v ∈ adj graph u → Path graph a v (k + 1)

/-- The node `b` is reachable from `a`. -/
def Reach (graph : Graph) (a b : Int) : Prop := ∃ k, Path graph a b k

/-- The hop distance from `a` to `b` is `d`. -/
def IsDist (graph : Graph) (a b : Int) (d : Nat) : Prop :=
  Path graph a b d ∧ ∀ k, Path graph a b k → d ≤ k

/-- The neighbours among `nbrs` that are not in `seen`, each once, in the order
of `nbrs`. -/
def discover : List Int → List Int → List Int
  | _, [] => []
  | seen, n :: rest => if n ∈ seen then discover seen rest else n :: discover (n :: seen) rest

/-- The nodes listed once the nodes of `done` have been expanded in turn: the
start node, then for each node of `done` those of its neighbours not listed
yet, in adjacency-list order. -/
def listed (graph : Graph) (start : Int) (done : List Int) : List Int :=
  done.foldl (fun seen u => seen ++ discover seen (adj graph u)) [start]

/-- The breadth-first order from `start`. -/
structure IsBFSOrder (graph : Graph) (start : Int) (order : List Int) : Prop where
  head : order.head? = some start
  nodup : order.Nodup
  reach : ∀ v, v ∈ order ↔ Reach graph start v
  dist : ∀ (i j : Nat) (vi vj : Int) (di dj : Nat), i ≤ j → order[i]? = some vi →
    order[j]? = some vj → IsDist graph start vi di → IsDist graph start vj dj → di ≤ dj
  adjacency : order = listed graph start order

/-- The graph of the examples: `0 → 1, 2`, `1 → 2, 3`, `2 → 3`, `3 → 4`,
`4 → ` nothing. -/
def demoGraph : Graph := [(0, [1, 2]), (1, [2, 3]), (2, [3]), (3, [4]), (4, [])]

/-- The invariant of the search loop, with the level `lev` each listed node was
found at: `visited` holds the nodes of `bfs` and `queue`; these are the nodes
listed by expanding `bfs`; they are distinct, begin with `start` and are named
by the graph; each has a walk from `start` of as many edges as its level; the
levels do not decrease along `bfs ++ queue` and exceed the level of the head of
the queue by at most one; and every neighbour of a node of `bfs` is listed, at
most one level further. -/
structure BfsInv (graph : Graph) (start : Int) (lev : Int → Nat)
    (visited queue bfs : List Int) : Prop where
  vis : ∀ x, x ∈ visited ↔ x ∈ bfs ++ queue
  fix : bfs ++ queue = listed graph start bfs
  nodup : (bfs ++ queue).Nodup
  head : (bfs ++ queue).head? = some start
  bound : bfs ++ queue ⊆ start :: allNeighbours graph
  lev0 : lev start = 0
  path : ∀ v ∈ bfs ++ queue, Path graph start v (lev v)
  sorted : (bfs ++ queue).Pairwise (fun a b => lev a ≤ lev b)
  front : ∀ h, queue.head? = some h → ∀ x ∈ bfs ++ queue, lev x ≤ lev h + 1
  closed : ∀ u ∈ bfs, ∀ w ∈ adj graph u, w ∈ bfs ++ queue ∧ lev w ≤ lev u + 1

/-- Whether a goroutine in this phase still holds its value in `workerChan`. -/
def Phase.holds : Phase → Nat
  | .running => 1
  | .written => 1
  | .released => 0
  | .finished => 0

/-- Whether a goroutine in this phase still counts in `wg`. -/
def Phase.live : Phase → Nat
  | .finished => 0
  | _ => 1

/-- The moves a goroutine in this phase has left. -/
def Phase.steps : Phase → Nat
  | .running => 3
  | .written => 2
  | .released => 1
  | .finished => 0

/-- Whether a goroutine in this phase has written its entry of `result`. -/
def Phase.hasWritten : Phase → Bool
  | .running => false
  | _ => true

/-- The moves a call has left at most: four for every query not yet reached,
those of the goroutines started, and the return. -/
def Pool.measure (s : Pool) : Nat :=
  4 * s.pending.length + (s.goroutines.map (fun g => g.2.steps)).sum +
    (if s.returned.isNone then 1 else 0)

/-- The invariant of a call with `numWorkers ≥ 1`. -/
structure PoolInv (graph : Graph) (queries : List Int) (s : Pool) : Prop where
  pos : 0 < s.numWorkers
  tokens : s.workerChan = (s.goroutines.map (fun g => g.2.holds)).sum
  counter : s.wg = (s.goroutines.map (fun g => g.2.live)).sum
  split : queries = s.goroutines.map Prod.fst ++ s.pending
  resHas : ∀ (i : Nat) (k : Int) (p : Phase), s.goroutines[i]? = some (k, p) →
    p.hasWritten = true → s.result.lookup k = bfsFrom graph k
  resKeys : ∀ (k : Int) (v : List Int), s.result.lookup k = some v →
    ∃ (i : Nat) (p : Phase), s.goroutines[i]? = some (k, p) ∧ p.hasWritten = true
  returned : ∀ m, s.returned = some m →
    m = s.result ∧ s.pending = [] ∧ ∀ g ∈ s.goroutines, g.2 = Phase.finished

/-- A schedule of the queries `[0, 2]` on `demoGraph` with two workers: both
goroutines are started, the second writes first. -/
def demoSchedule : List PoolAction :=
  [.dispatch, .dispatch, .write 1, .write 0, .release 0, .done 0, .release 1, .done 1, .ret]

/-- The state `demoSchedule` ends in. -/
def demoFinal : Pool :=
  (poolRun demoGraph (Pool.init [0, 2] 2) demoSchedule).getD (Pool.init [0, 2] 2)

end Challenge4

/-! ## Challenge 25: Bellman-Ford
(`challenge-25/submissions/imankhodadi/solution-template.go`)

Slices are lists; a read or write at an index out of range is `none`.  The
counters `u`, `i` and `j` of the loops are natural numbers, the vertices read
from the graph and the argument `source` are Go `int`s.  A Go `int` has 64 bits:
the sum `distances[u]+weight` wraps around when it leaves the range from
`minInt64` to `maxInt64`. -/

namespace Challenge25

/-- The value `1e9` that stands for "no path yet". -/
def sentinel : Int := 1000000000

/-- The least value of a Go `int`, `-2^63`. -/
def minInt64 : Int := -9223372036854775808

/-- The greatest value of a Go `int`, `2^63 - 1`. -/
def maxInt64 : Int := 9223372036854775807

/-- Go `a + b` on two `int`s: the sum, wrapped around into the range of `int`. -/
def wrapAdd (a b : Int) : Int :=
  (a + b + 9223372036854775808) % 18446744073709551616 - 9223372036854775808

/-- Go `xs[i]` read at an `int` index. -/
def index {α : Type} (xs : List α) (i : Int) : Option α :=
  if i < 0 then none else xs[i.toNat]?

/-- Go `xs[i] = v`. -/
def assign {α : Type} (xs : List α) (i : Int) (v : α) : Option (List α) :=
  if 0 ≤ i ∧ i.toNat < xs.length then some (xs.set i.toNat v) else none

/-- The three slices `BellmanFord` works on. -/
structure BFState where
  distances : List Int
  predecessors : List Int
  hasPath : List Bool
deriving DecidableEq, Repr

/-- The slices after the first loop and the two assignments
`distances[source] = 0; hasPath[source] = true`. -/
def initState (n : Nat) (source : Int) : Option BFState :=
  match assign (List.replicate n sentinel) source 0,
      assign (List.replicate n false) source true with
  | some d, some h => some { distances := d, predecessors := List.replicate n (-1), hasPath := h }
  | _, _ => none

/-- The body of the loop `for j, v := range graph[u]` of the relaxation:
`weight := weights[u][j]; if distances[u]+weight < distances[v] { … }`. -/
def relaxEdge (weights : List (List Int)) (u : Nat) (st : BFState) (jv : Nat × Int) :
    Option BFState :=
  match weights[u]? with
  | none => none
  | some wu =>
    match wu[jv.1]? with
    | none => none
    | some weight =>
      match st.distances[u]?, index st.distances jv.2 with
      | some du, some dv =>
        if wrapAdd du weight < dv then
          match assign st.distances jv.2 (wrapAdd du weight),
              assign st.predecessors jv.2 (u : Int),
              assign st.hasPath jv.2 true with
          | some d, some p, some h => some { distances := d, predecessors := p, hasPath := h }
          | _, _, _ => none
        else some st
      | _, _ => none

/-- The body of the loop `for u := 0; u < n; u++` of the relaxation. -/
def relaxVertex (graph weights : List (List Int)) (st : BFState) (u : Nat) : Option BFState :=
  match st.distances[u]? with
  | none => none
  | some du =>
    if du = sentinel then some st
    else
      match graph[u]? with
      | none => none
      | some nbrs => nbrs.enum.foldlM (relaxEdge weights u) st

/-- One round of the loop `for i := 0; i < n-1; i++`. -/
def relaxPass (graph weights : List (List Int)) (st : BFState) : Option BFState :=
  (List.range graph.length).foldlM (relaxVertex graph weights) st

/-- The loop `for i := 0; i < n-1; i++`. -/
def relaxRounds (graph weights : List (List Int)) (st : BFState) : Option BFState :=
  (List.range (graph.length - 1)).foldlM (fun st _ => relaxPass graph weights st) st

/-- The body of the inner loop of the check for negative cycles. -/
def checkEdge (weights : List (List Int)) (distances : List Int) (u : Nat)
    (inNegativeCycle : List Bool) (jv : Nat × Int) : Option (List Bool) :=
  match weights[u]? with
  | none => none
  | some wu =>
    match wu[jv.1]? with
    | none => none
    | some weight =>
      match distances[u]?, index distances jv.2 with
      | some du, some dv =>
        if wrapAdd du weight < dv then assign inNegativeCycle jv.2 true
        else some inNegativeCycle
      | _, _ => none

/-- The body of the outer loop of the check for negative cycles. -/
def checkVertex (graph weights : List (List Int)) (distances : List Int)
    (inNegativeCycle : List Bool) (u : Nat) : Option (List Bool) :=
  match distances[u]? with
  | none => none
  | some du =>
    if du = sentinel then some inNegativeCycle
    else
      match graph[u]? with
      | none => none
      | some nbrs => nbrs.enum.foldlM (checkEdge weights distances u) inNegativeCycle

/-- The slice `inNegativeCycle` after the check. -/
def checkPass (graph weights : List (List Int)) (distances : List Int) : Option (List Bool) :=
  (List.range graph.length).foldlM (checkVertex graph weights distances)
    (List.replicate graph.length false)

/-- The body of the loop `for i := 0; i < n; i++ { if inNegativeCycle[i] { queue =
append(queue, i); hasPath[i] = false } }`, on the pair of `queue` and
`hasPath`. -/
def seedStep (inNegativeCycle : List Bool) (st : List Int × List Bool) (i : Nat) :
    Option (List Int × List Bool) :=
  match inNegativeCycle[i]? with
  | none => none
  | some true =>
    match assign st.2 (i : Int) false with
    | some h => some (st.1 ++ [(i : Int)], h)
    | none => none
  | some false => some st

/-- The pair of `queue` and `hasPath` before the propagation. -/
def seed (n : Nat) (inNegativeCycle hasPath : List Bool) : Option (List Int × List Bool) :=
  (List.range n).foldlM (seedStep inNegativeCycle) ([], hasPath)

/-- The body of the loop `for _, v := range graph[u]` of the propagation:
`if hasPath[v] { hasPath[v] = false; queue = append(queue, v) }`. -/
def spreadStep (st : List Int × List Bool) (v : Int) : Option (List Int × List Bool) :=
  match index st.2 v with
  | none => none
  | some true =>
    match assign st.2 v false with
    | some h => some (st.1 ++ [v], h)
    | none => none
  | some false => some st

/-- The loop `for len(queue) > 0 { u := queue[0]; queue = queue[1:]; … }`, with a
bound on its rounds. -/
def spreadLoop (graph : List (List Int)) : Nat → List Int → List Bool → Option (List Bool)
  | 0, _, _ => none
  | _ + 1, [], hasPath => some hasPath
  | fuel + 1, u :: queue, hasPath =>
    match index graph u with
    | none => none
    | some nbrs =>
      match nbrs.foldlM spreadStep (queue, hasPath) with
      | none => none
      | some st => spreadLoop graph fuel st.1 st.2

/-- Go `BellmanFord(graph, weights, source)`: the slices `distances`, `hasPath`
and `predecessors` it returns.  Every vertex enters the queue of the
propagation at most twice, so `2 * n + 1` rounds are never used up. -/
def BellmanFord (graph weights : List (List Int)) (source : Int) :
    Option (List Int × List Bool × List Int) :=
  match initState graph.length source with
  | none => none
  | some st0 =>
    match relaxRounds graph weights st0 with
    | none => none
    | some st =>
      match checkPass graph weights st.distances with
      | none => none
      | some inNegativeCycle =>
        match seed graph.length inNegativeCycle st.hasPath with
        | none => none
        | some sq =>
          match spreadLoop graph (2 * graph.length + 1) sq.1 sq.2 with
          | none => none
          | some hasPath => some (st.distances, hasPath, st.predecessors)

/-- The graph of example 3 of `main`. -/
def negativeWeightGraph : List (List Int) := [[1, 2], [3], [1, 3], [4], []]

/-- The weights of example 3 of `main`. -/
def negativeWeights : List (List Int) := [[6, 7], [5], [-2, 4], [2], []]

/-! ### Vocabulary of the properties -/

/-- The `j`-th entry of the adjacency list of `u` is the vertex `v`, with the
weight `w`. -/
def EdgeAt (graph weights : List (List Int)) (u j v : Nat) (w : Int) : Prop :=
  ∃ nbrs ws, graph[u]? = some nbrs ∧ nbrs[j]? = some (v : Int) ∧
    weights[u]? = some ws ∧ ws[j]? = some w

/-- An edge from `u` to `v` of weight `w`. -/
def Edge (graph weights : List (List Int)) (u v : Nat) (w : Int) : Prop :=
  ∃ j, EdgeAt graph weights u j v w

/-- A walk from `a` to `b` of total weight `W`; `vs` lists the vertices it
visits after `a`, in order. -/
inductive Walk (graph weights : List (List Int)) (a : Nat) : Nat → Int → List Nat → Prop where
  | nil : Walk graph weights a a 0 []
  | snoc {u v : Nat} {W w : Int} {vs : List Nat} :
    Walk graph weights a u W vs → Edge graph weights u v w →
    Walk graph weights a v (W + w) (vs ++ [v])

/-- The vertex `b` is reachable from `a`. -/
def Reach (graph weights : List (List Int)) (a b : Nat) : Prop :=
  ∃ W vs, Walk graph weights a b W vs

/-- A well-formed input: a weight for every edge, every neighbour a vertex, and
the source a vertex. -/
def WellFormed (graph weights : List (List Int)) (source : Int) : Prop :=
  weights.length = graph.length ∧
  (∀ p ∈ graph.zip weights, p.1.length = p.2.length) ∧
  (∀ nbrs ∈ graph, ∀ v ∈ nbrs, 0 ≤ v ∧ v < (graph.length : Int)) ∧
  0 ≤ source ∧ source < (graph.length : Int)

instance (graph weights : List (List Int)) (source : Int) :
    Decidable (WellFormed graph weights source) := by
  unfold WellFormed; infer_instance

/-- No closed walk through a vertex reachable from `s` has negative weight. -/
def NoNegativeCycle (graph weights : List (List Int)) (s : Nat) : Prop :=
  ∀ (c : Nat) (W : Int) (vs : List Nat), Reach graph weights s c →
    Walk graph weights c c W vs → 0 ≤ W

/-- Every path from `s` (a walk that visits no vertex twice) weighs less than
the sentinel. -/
def BelowSentinel (graph weights : List (List Int)) (s : Nat) : Prop :=
  ∀ (v : Nat) (W : Int) (vs : List Nat), Walk graph weights s v W vs → (s :: vs).Nodup →
    W < sentinel

/-- The vertex `v` can be reached from a closed walk of negative weight that can
itself be reached from `s`. -/
def Downstream (graph weights : List (List Int)) (s v : Nat) : Prop :=
  ∃ (c : Nat) (W : Int) (vs : List Nat), Reach graph weights s c ∧
    Walk graph weights c c W vs ∧ W < 0 ∧ Reach graph weights c v

/-- The least total weight of a walk from `s` to `v` is `d`. -/
def IsMinWeight (graph weights : List (List Int)) (s v : Nat) (d : Int) : Prop :=
  (∃ vs, Walk graph weights s v d vs) ∧
  ∀ (W : Int) (vs : List Nat), Walk graph weights s v W vs → d ≤ W

/-- The number of edges of the graph. -/
def edgeCount (graph : List (List Int)) : Nat := (graph.map List.length).sum

/-- The number of edges that leave the vertex `u`. -/
def outDegree (graph : List (List Int)) (u : Nat) : Nat := (graph[u]?.getD []).length

/-- No sum `distances[u]+weight` that can come up leaves the range of `int`:
when a walk from `s` of at most `k` edges that weighs less than the sentinel is
extended by one more edge, the weight of the longer walk is in the range. -/
def NoOverflow (graph weights : List (List Int)) (s k : Nat) : Prop :=
  ∀ (u v : Nat) (W w : Int) (vs : List Nat), Walk graph weights s u W vs → vs.length ≤ k →
    W < sentinel → Edge graph weights u v w → minInt64 ≤ W + w ∧ W + w ≤ maxInt64

/-- What the relaxation keeps true of its slices after at most `k` assignments
to `distances`: a vertex not found yet has the sentinel for its distance, no
path and no predecessor; a vertex found has a distance below the sentinel that
is the weight of a walk from the source of at most `k` edges, and `hasPath`
set. -/
structure Sound (graph weights : List (List Int)) (s k : Nat) (st : BFState) : Prop where
  lenD : st.distances.length = graph.length
  lenP : st.predecessors.length = graph.length
  lenH : st.hasPath.length = graph.length
  cases : ∀ (v : Nat) (d : Int), st.distances[v]? = some d →
    (d = sentinel ∧ st.hasPath[v]? = some false ∧ st.predecessors[v]? = some (-1)) ∨
    (d < sentinel ∧ st.hasPath[v]? = some true ∧
      ∃ vs, Walk graph weights s v d vs ∧ vs.length ≤ k)

/-- No distance of `st1` is greater than in `st`. -/
def Le (st1 st : BFState) : Prop :=
  ∀ (v : Nat) (d : Int), st.distances[v]? = some d →
    ∃ d1, st1.distances[v]? = some d1 ∧ d1 ≤ d

/-- The distances of `st` are at most the weight of every path from `s` of at
most `k` edges. -/
def Bounded (graph weights : List (List Int)) (s : Nat) (k : Nat) (st : BFState) : Prop :=
  ∀ (v : Nat) (W : Int) (vs : List Nat), Walk graph weights s v W vs → (s :: vs).Nodup →
    vs.length ≤ k → ∃ d, st.distances[v]? = some d ∧ d ≤ W

/-- The edge from `u` to `v` of weight `w` can still be relaxed under the
distances `dist`, and `u` has been found. -/
def Relaxable (graph weights : List (List Int)) (dist : List Int) (u v : Nat) (w : Int) :
    Prop :=
  Edge graph weights u v w ∧
  ∃ du dv, dist[u]? = some du ∧ du ≠ sentinel ∧ dist[v]? = some dv ∧ du + w < dv

/-- The vertex `x` can be reached from a vertex that the check has marked. -/
def FromMarked (graph weights : List (List Int)) (inNeg : List Bool) (x : Nat) : Prop :=
  ∃ m : Nat, inNeg[m]? = some true ∧ Reach graph weights m x

/-- The invariant of the propagation, for the queue `queue`, the slice
`hasPath` and the vertex `cur` whose neighbours are being visited, if any:
every vertex in the queue has lost its path and can be reached from a marked
vertex; a vertex reachable from the source that has lost its path is in the
queue, is `cur`, or has no neighbour with a path left; and a vertex has lost
its path only if it had none after the relaxation or can be reached from a
marked vertex. -/
structure SpreadInv (graph weights : List (List Int)) (s : Nat) (hp0 inNeg : List Bool)
    (queue : List Int) (hasPath : List Bool) (cur : Option Nat) : Prop where
  len : hasPath.length = graph.length
  valid : ∀ q ∈ queue, ∃ x : Nat, q = (x : Int) ∧ x < graph.length ∧
    hasPath[x]? = some false ∧ FromMarked graph weights inNeg x
  done : ∀ x : Nat, Reach graph weights s x → hasPath[x]? = some false →
    (x : Int) ∈ queue ∨ cur = some x ∨
      ∀ (v : Nat) (w : Int), Edge graph weights x v w → hasPath[v]? = some false
  orig : ∀ x : Nat, hasPath[x]? = some false →
    hp0[x]? = some false ∨ FromMarked graph weights inNeg x
  marked : ∀ m : Nat, inNeg[m]? = some true → m < graph.length → hasPath[m]? = some false
  stay : ∀ x : Nat, hp0[x]? = some false → hasPath[x]? = some false

/-- What `BellmanFord` returns, for a well-formed input whose paths from the
source weigh less than the sentinel and on which no sum overflows: a vertex has
the sentinel for its distance only if it cannot be reached, and then it has no
predecessor; every other distance is the weight of a walk from the source;
every distance is at most the weight of every path from the source; `hasPath`
is cleared downstream of the negative cycles and at the vertices that cannot be
reached, and set at the other vertices. -/
structure BFResult (graph weights : List (List Int)) (s : Nat) (dist : List Int)
    (hp : List Bool) (pred : List Int) : Prop where
  lenD : dist.length = graph.length
  lenH : hp.length = graph.length
  lenP : pred.length = graph.length
  cases : ∀ (v : Nat) (d : Int), dist[v]? = some d →
    (d = sentinel ∧ pred[v]? = some (-1) ∧ ¬ Reach graph weights s v) ∨
    (d < sentinel ∧ ∃ vs, Walk graph weights s v d vs)
  tight : ∀ (v : Nat) (W : Int) (vs : List Nat), Walk graph weights s v W vs →
    (s :: vs).Nodup → ∃ d, dist[v]? = some d ∧ d ≤ W
  down : ∀ v : Nat, Downstream graph weights s v → hp[v]? = some false
  up : ∀ v : Nat, Reach graph weights s v → ¬ Downstream graph weights s v →
    hp[v]? = some true
  off : ∀ v : Nat, v < graph.length → ¬ Reach graph weights s v → hp[v]? = some false

/-- A graph with the negative cycle `1 → 2 → 1` reachable from vertex `0`, and
the vertex `3` downstream of it. -/
def cycleGraph : List (List Int) := [[1], [2], [1, 3], []]

/-- The weights of `cycleGraph`. -/
def cycleWeights : List (List Int) := [[1], [-1], [-1, 5], []]

/-- A graph of one edge `0 → 1`. -/
def farGraph : List (List Int) := [[1], []]

/-- The weight of the edge of `farGraph`: twice the sentinel. -/
def farWeights : List (List Int) := [[2000000000], []]

/-- A graph of the two edges `0 → 1 → 2`. -/
def deepGraph : List (List Int) := [[1], [2], []]

/-- The weights of `deepGraph`: the least `int`, and `-1`. -/
def deepWeights : List (List Int) := [[-9223372036854775808], [-1], []]

/-- A graph of the two edges `0 → 1` and `1 → 0`. -/
def loopGraph : List (List Int) := [[1], [0]]

/-- The weights of `loopGraph`: `1`, and the greatest `int`. -/
def loopWeights : List (List Int) := [[1], [9223372036854775807]]

end Challenge25

/-! ## Theorems -/

namespace Challenge11

/-! ### Lists and multisets of outcomes -/

theorem resultsOf_append (xs ys : List Outcome) :
    resultsOf (xs ++ ys) = resultsOf xs ++ resultsOf ys := by
  induction xs with
  | nil => rfl
  | cons x xs ih => cases x <;> simp [resultsOf, ih]

theorem errorsOf_append (xs ys : List Outcome) :
    errorsOf (xs ++ ys) = errorsOf xs ++ errorsOf ys := by
  induction xs with
  | nil => rfl
  | cons x xs ih => cases x <;> simp [errorsOf, ih]

theorem length_resultsOf_add_errorsOf (os : List Outcome) :
    (resultsOf os).length + (errorsOf os).length = os.length := by
  induction os with
  | nil => rfl
  | cons x xs ih => cases x <;> simp [resultsOf, errorsOf] <;> omega

theorem inFlightAll_set (ws : List WorkerState) (w : Nat) (old new : WorkerState)
    (h : ws[w]? = some old) :
    (↑(inFlightAll (ws.set w new)) : Multiset String) + ↑old.inFlight =
      ↑(inFlightAll ws) + ↑new.inFlight := by
  induction ws generalizing w with
  | nil => simp at h
  | cons st ws ih =>
    cases w with
    | zero =>
      simp at h
      subst h
      simp only [List.set_cons_zero, inFlightAll, ← Multiset.coe_add]
      abel
    | succ w =>
      simp at h
      have := ih w h
      simp only [List.set_cons_succ, inFlightAll, ← Multiset.coe_add] at this ⊢
      rw [add_assoc, this, add_assoc]

/-! ### The invariant holds in every reachable state -/

theorem init_inv (ca : ContentAggregator) (ctx : Context) (urls : List String) :
    Inv ca (Batch.init ca ctx urls) where
  jobsCap := rfl
  resultsCap := rfl
  errorsCap := rfl
  next_le := Nat.zero_le _
  dispatched := by
    have h : inFlightAll (List.replicate ca.workerCount.toNat WorkerState.selecting) = [] := by
      induction ca.workerCount.toNat with
      | zero => rfl
      | succ n ih => simp [List.replicate_succ, inFlightAll, WorkerState.inFlight, ih]
    simp [Batch.init, Chan.make, h]
  sentResults := rfl
  sentErrors := rfl
  arrivedResults := rfl
  arrivedErrors := rfl
  count := rfl
  i_le := Nat.zero_le _
  finished := by simp [Batch.init]
  aborted := by simp [Batch.init]
  returned := by simp [Batch.init]
  workersOk := by
    intro st hst
    simp only [Batch.init] at hst
    rw [List.eq_of_mem_replicate hst]
    trivial
  answered := by simp [Batch.init]

theorem workersOk_set {ca : ContentAggregator} {ws : List WorkerState} (w : Nat)
    {new : WorkerState} (h : ∀ st ∈ ws, WorkerOk ca st) (hn : WorkerOk ca new) :
    ∀ st ∈ ws.set w new, WorkerOk ca st := by
  intro st hst
  rcases List.mem_or_eq_of_mem_set hst with h1 | h1
  · exact h st h1
  · exact h1 ▸ hn

theorem emitError_inv {ca : ContentAggregator} {s s' : Batch} {w : Nat} {u : String}
    {err : GoError} {c : Call} {old : WorkerState} (hI : Inv ca s)
    (hw : s.workers[w]? = some old) (hf : old.inFlight = [u])
    (ha : Answers ca u (.error err)) (h : s.emitError w u err c = some s') : Inv ca s' := by
  by_cases hc : s.errors.buf.length < s.errors.cap
  · simp only [Batch.emitError, Chan.send, hc, if_true, Option.some.injEq] at h
    subst h
    have hset := inFlightAll_set s.workers w old WorkerState.selecting hw
    rw [hf] at hset
    simp only [WorkerState.inFlight, Multiset.coe_nil, add_zero] at hset
    exact { hI with
      errorsCap := hI.errorsCap
      dispatched := by
        show (↑(s.urls.take s.next) : Multiset String) = ↑s.jobs.buf +
          ↑(inFlightAll (s.workers.set w WorkerState.selecting)) +
          ↑((s.emitted ++ [(u, Except.error err)]).map Prod.fst)
        rw [hI.dispatched, ← hset]
        simp only [List.map_append, List.map_cons, List.map_nil, ← Multiset.coe_add]
        abel
      sentResults := by
        show resultsOf ((s.emitted ++ [(u, Except.error err)]).map Prod.snd) = _
        simp only [List.map_append, resultsOf_append, List.map_cons, List.map_nil, resultsOf,
          List.append_nil]
        exact hI.sentResults
      sentErrors := by
        show errorsOf ((s.emitted ++ [(u, Except.error err)]).map Prod.snd) =
          s.allErrors ++ (s.errors.buf ++ [err])
        simp only [List.map_append, errorsOf_append, List.map_cons, List.map_nil, errorsOf]
        rw [hI.sentErrors, List.append_assoc]
      workersOk := workersOk_set w hI.workersOk trivial
      answered := by
        intro p hp
        rcases List.mem_append.1 hp with h1 | h1
        · exact hI.answered p h1
        · rw [List.mem_singleton.1 h1]
          exact ha }
  · simp [Batch.emitError, Chan.send, hc] at h

theorem emitResult_inv {ca : ContentAggregator} {s s' : Batch} {w : Nat} {u : String}
    {pd : ProcessedData} {c : Call} {old : WorkerState} (hI : Inv ca s)
    (hw : s.workers[w]? = some old) (hf : old.inFlight = [u])
    (ha : Answers ca u (.ok pd)) (h : s.emitResult w u pd c = some s') : Inv ca s' := by
  by_cases hc : s.results.buf.length < s.results.cap
  · simp only [Batch.emitResult, Chan.send, hc, if_true, Option.some.injEq] at h
    subst h
    have hset := inFlightAll_set s.workers w old WorkerState.selecting hw
    rw [hf] at hset
    simp only [WorkerState.inFlight, Multiset.coe_nil, add_zero] at hset
    exact { hI with
      resultsCap := hI.resultsCap
      dispatched := by
        show (↑(s.urls.take s.next) : Multiset String) = ↑s.jobs.buf +
          ↑(inFlightAll (s.workers.set w WorkerState.selecting)) +
          ↑((s.emitted ++ [(u, Except.ok pd)]).map Prod.fst)
        rw [hI.dispatched, ← hset]
        simp only [List.map_append, List.map_cons, List.map_nil, ← Multiset.coe_add]
        abel
      sentErrors := by
        show errorsOf ((s.emitted ++ [(u, Except.ok pd)]).map Prod.snd) = _
        simp only [List.map_append, errorsOf_append, List.map_cons, List.map_nil, errorsOf,
          List.append_nil]
        exact hI.sentErrors
      sentResults := by
        show resultsOf ((s.emitted ++ [(u, Except.ok pd)]).map Prod.snd) =
          s.allResults ++ (s.results.buf ++ [pd])
        simp only [List.map_append, resultsOf_append, List.map_cons, List.map_nil, resultsOf]
        rw [hI.sentResults, List.append_assoc]
      workersOk := workersOk_set w hI.workersOk trivial
      answered := by
        intro p hp
        rcases List.mem_append.1 hp with h1 | h1
        · exact hI.answered p h1
        · rw [List.mem_singleton.1 h1]
          exact ha }
  · simp [Batch.emitResult, Chan.send, hc] at h

/-- A worker that only moves on with its URL keeps the invariant. -/
theorem advance_inv {ca : ContentAggregator} {s : Batch} {w : Nat}
    {old : WorkerState} (cs : List Call) (new : WorkerState) (hI : Inv ca s)
    (hw : s.workers[w]? = some old) (hf : new.inFlight = old.inFlight)
    (hn : WorkerOk ca new) :
    Inv ca { s with workers := s.workers.set w new, calls := cs } := by
  have hset := inFlightAll_set s.workers w old new hw
  rw [hf] at hset
  exact { hI with
    dispatched := by
      show (↑(s.urls.take s.next) : Multiset String) = ↑s.jobs.buf +
        ↑(inFlightAll (s.workers.set w new)) + ↑(s.emitted.map Prod.fst)
      rw [add_right_cancel hset]
      exact hI.dispatched
    workersOk := workersOk_set w hI.workersOk hn }

theorem step_inv {ca : ContentAggregator} {s s' : Batch} {a : Action}
    (hI : Inv ca s) (h : step ca s a = some s') : Inv ca s' := by
  cases a with
  | cancel e =>
    simp only [step] at h
    split at h
    · cases h
    · rename_i hnd
      cases h
      exact { hI with
        aborted := fun _ => rfl
        returned := by
          intro r hr
          rcases hI.returned r hr with ⟨hd, _⟩ | h2
          · exact absurd hd hnd
          · exact Or.inr h2 }
  | shutdown =>
    simp only [step] at h
    split at h
    · cases h
    · cases h
      exact { hI with }
  | produce =>
    simp only [step] at h
    split at h
    · cases h
    · split at h
      · cases h
      · rename_i u hu
        by_cases hc : s.jobs.buf.length < s.jobs.cap
        · simp only [Chan.send, hc, if_true, Option.some.injEq] at h
          subst h
          have hlt : s.next < s.urls.length := by
            rcases List.getElem?_eq_some_iff.1 hu with ⟨hlt, _⟩
            exact hlt
          exact { hI with
            jobsCap := hI.jobsCap
            next_le := hlt
            dispatched := by
              show (↑(s.urls.take (s.next + 1)) : Multiset String) =
                ↑(s.jobs.buf ++ [u]) + ↑(inFlightAll s.workers) + ↑(s.emitted.map Prod.fst)
              rw [List.take_succ, hu]
              simp only [Option.toList_some, ← Multiset.coe_add]
              rw [hI.dispatched]
              abel }
        · simp [Chan.send, hc] at h
  | producerCtxDone =>
    simp only [step] at h
    split at h
    · cases h
    · split at h
      · cases h
        exact { hI with jobsCap := hI.jobsCap, dispatched := hI.dispatched }
      · cases h
  | producerFinish =>
    simp only [step] at h
    split at h
    · cases h
    · split at h
      · cases h
      · cases h
        exact { hI with jobsCap := hI.jobsCap, dispatched := hI.dispatched }
  | workerRecv w =>
    simp only [step] at h
    split at h
    · rename_i hw
      split at h
      · rename_i u rest hb
        cases h
        have hset := inFlightAll_set s.workers w _ (WorkerState.waiting u) hw
        simp only [WorkerState.inFlight, Multiset.coe_nil, add_zero] at hset
        exact { hI with
          jobsCap := hI.jobsCap
          dispatched := by
            show (↑(s.urls.take s.next) : Multiset String) = ↑rest +
              ↑(inFlightAll (s.workers.set w (WorkerState.waiting u))) +
              ↑(s.emitted.map Prod.fst)
            rw [hI.dispatched, hset, hb]
            simp only [← Multiset.coe_add, ← List.singleton_append (l := rest)]
            abel
          workersOk := workersOk_set w hI.workersOk trivial }
      · split at h
        · cases h
          exact advance_inv s.calls _ hI hw rfl trivial
        · cases h
    · cases h
  | workerCtxDone w =>
    simp only [step] at h
    split at h
    · rename_i hw
      split at h
      · cases h
        exact advance_inv s.calls _ hI hw rfl trivial
      · cases h
    · cases h
  | workerShutdown w =>
    simp only [step] at h
    split at h
    · rename_i hw
      split at h
      · cases h
        exact advance_inv s.calls _ hI hw rfl trivial
      · cases h
    · cases h
  | workerWait w waitErr =>
    simp only [step] at h
    split at h
    · rename_i u hw
      split at h
      · rename_i err
        exact emitError_inv hI hw rfl (Or.inl ⟨err, rfl⟩) h
      · cases h
        exact advance_inv _ _ hI hw rfl trivial
    · cases h
  | workerFetch w =>
    simp only [step] at h
    split at h
    · rename_i u hw
      split at h
      · rename_i err hf
        exact emitError_inv hI hw rfl (Or.inr (Or.inl ⟨s.ctx, err, hf, rfl⟩)) h
      · rename_i content hf
        cases h
        exact advance_inv _ _ hI hw rfl ⟨s.ctx, hf⟩
    · cases h
  | workerProcess w now =>
    simp only [step] at h
    split at h
    · rename_i u content hw
      obtain ⟨ctx1, hf⟩ : WorkerOk ca (WorkerState.processing u content) :=
        hI.workersOk _ (List.getElem?_mem hw)
      split at h
      · rename_i err hp
        exact emitError_inv hI hw rfl
          (Or.inr (Or.inr (Or.inl ⟨ctx1, s.ctx, content, err, hf, hp, rfl⟩))) h
      · rename_i pd hp
        exact emitResult_inv hI hw rfl
          (Or.inr (Or.inr (Or.inr ⟨ctx1, s.ctx, content, pd, now, hf, hp, rfl⟩))) h
    · cases h
  | collectResult =>
    simp only [step] at h
    split at h
    · rename_i hg
      split at h
      · rename_i r rest hb
        cases h
        exact { hI with
          resultsCap := hI.resultsCap
          sentResults := by
            show _ = (s.allResults ++ [r]) ++ rest
            rw [hI.sentResults, hb, List.append_assoc, List.singleton_append]
          sentErrors := hI.sentErrors
          arrivedResults := by
            show s.allResults ++ [r] = resultsOf (s.arrived ++ [Except.ok r])
            rw [resultsOf_append, ← hI.arrivedResults]
            rfl
          arrivedErrors := by
            show s.allErrors = errorsOf (s.arrived ++ [Except.ok r])
            rw [errorsOf_append, ← hI.arrivedErrors]
            simp [errorsOf]
          count := by
            show s.i + 1 = (s.arrived ++ [Except.ok r]).length
            rw [List.length_append, ← hI.count]
            rfl
          i_le := hg.2
          finished := by
            intro hfin
            rw [hg.1] at hfin
            cases hfin
          returned := by
            intro r' hr
            rcases hI.returned r' hr with h1 | ⟨h2, _⟩
            · exact Or.inl h1
            · exact absurd hg.1 h2 }
      · cases h
    · cases h
  | collectError =>
    simp only [step] at h
    split at h
    · rename_i hg
      split at h
      · rename_i e rest hb
        cases h
        exact { hI with
          errorsCap := hI.errorsCap
          sentErrors := by
            show _ = (s.allErrors ++ [e]) ++ rest
            rw [hI.sentErrors, hb, List.append_assoc, List.singleton_append]
          sentResults := hI.sentResults
          arrivedErrors := by
            show s.allErrors ++ [e] = errorsOf (s.arrived ++ [Except.error e])
            rw [errorsOf_append, ← hI.arrivedErrors]
            rfl
          arrivedResults := by
            show s.allResults = resultsOf (s.arrived ++ [Except.error e])
            rw [resultsOf_append, ← hI.arrivedResults]
            simp [resultsOf]
          count := by
            show s.i + 1 = (s.arrived ++ [Except.error e]).length
            rw [List.length_append, ← hI.count]
            rfl
          i_le := hg.2
          finished := by
            intro hfin
            rw [hg.1] at hfin
            cases hfin
          returned := by
            intro r' hr
            rcases hI.returned r' hr with h1 | ⟨h2, _⟩
            · exact Or.inl h1
            · exact absurd hg.1 h2 }
      · cases h
    · cases h
  | collectCtxDone =>
    simp only [step] at h
    split at h
    · rename_i hg
      cases h
      exact { hI with
        finished := by
          intro hfin
          cases hfin
        aborted := fun _ => hg.2.2
        returned := by
          intro r hr
          rcases hI.returned r hr with h1 | ⟨h2, _⟩
          · exact Or.inl h1
          · exact absurd hg.1 h2 }
    · cases h
  | collectFinish =>
    simp only [step] at h
    split at h
    · rename_i hg
      cases h
      exact { hI with
        finished := by
          intro _
          show s.i = s.urls.length
          have h1 := hI.i_le
          have h2 := hg.2
          omega
        aborted := by
          intro hab
          cases hab
        returned := by
          intro r hr
          rcases hI.returned r hr with h1 | ⟨h2, _⟩
          · exact Or.inl h1
          · exact absurd hg.1 h2 }
    · cases h
  | mainDone =>
    simp only [step] at h
    split at h
    · rename_i hg
      split at h
      · rename_i hpos
        cases h
        exact { hI with
          returned := by
            intro r hr
            cases hr
            exact Or.inr ⟨hg.2, by simp only [hpos, if_true]⟩ }
      · rename_i hpos
        cases h
        exact { hI with
          returned := by
            intro r hr
            cases hr
            exact Or.inr ⟨hg.2, by simp only [hpos, if_false]⟩ }
    · cases h
  | mainCtxDone =>
    simp only [step] at h
    split at h
    · rename_i hg
      cases h
      exact { hI with
        returned := by
          intro r hr
          cases hr
          exact Or.inl ⟨hg.2, rfl⟩ }
    · cases h

theorem run_inv {ca : ContentAggregator} {s s' : Batch} {sched : List Action}
    (hI : Inv ca s) (h : run ca s sched = some s') : Inv ca s' := by
  induction sched generalizing s with
  | nil =>
    simp only [run, Option.some.injEq] at h
    exact h ▸ hI
  | cons a as ih =>
    simp only [run] at h
    split at h
    · cases h
    · rename_i s1 hs1
      exact ih (step_inv hI hs1) h

theorem reachable_inv {ca : ContentAggregator} {ctx : Context} {urls : List String}
    {sched : List Action} {s : Batch}
    (h : run ca (Batch.init ca ctx urls) sched = some s) : Inv ca s :=
  run_inv (init_inv ca ctx urls) h

/-! ### Frame facts -/

theorem step_urls {ca : ContentAggregator} {s s' : Batch} {a : Action}
    (h : step ca s a = some s') : s'.urls = s.urls := by
  cases a <;> simp only [step, Batch.emitError, Batch.emitResult] at h <;>
    (repeat' split at h) <;> first | cases h; rfl | cases h

theorem run_urls {ca : ContentAggregator} {s s' : Batch} {sched : List Action}
    (h : run ca s sched = some s') : s'.urls = s.urls := by
  induction sched generalizing s with
  | nil =>
    simp only [run, Option.some.injEq] at h
    rw [h]
  | cons a as ih =>
    simp only [run] at h
    split at h
    · cases h
    · rename_i s1 hs1
      rw [ih h, step_urls hs1]

theorem reachable_urls {ca : ContentAggregator} {ctx : Context} {urls : List String}
    {sched : List Action} {s : Batch}
    (h : run ca (Batch.init ca ctx urls) sched = some s) : s.urls = urls :=
  run_urls h

/-! ### Counting -/

theorem Inv.next_eq {ca : ContentAggregator} {s : Batch} (hI : Inv ca s) :
    s.next = s.jobs.buf.length + (inFlightAll s.workers).length + s.emitted.length := by
  have h := congrArg Multiset.card hI.dispatched
  simp only [Multiset.card_add, Multiset.coe_card, List.length_take, List.length_map] at h
  rw [Nat.min_eq_left hI.next_le] at h
  exact h

theorem Inv.emitted_length {ca : ContentAggregator} {s : Batch} (hI : Inv ca s) :
    s.emitted.length = s.allResults.length + s.results.buf.length +
      (s.allErrors.length + s.errors.buf.length) := by
  have h := length_resultsOf_add_errorsOf (s.emitted.map Prod.snd)
  rw [hI.sentResults, hI.sentErrors] at h
  simp only [List.length_append, List.length_map] at h
  omega

theorem Inv.arrived_length {ca : ContentAggregator} {s : Batch} (hI : Inv ca s) :
    s.i = s.allResults.length + s.allErrors.length := by
  rw [hI.count, hI.arrivedResults, hI.arrivedErrors, length_resultsOf_add_errorsOf]

/-- What holds once the caller has its answer and the context was never
cancelled: the collector ran its loop to the end, every URL was dispatched and
answered, and all channels are drained. -/
theorem Inv.completed {ca : ContentAggregator} {s : Batch} (hI : Inv ca s)
    (hctx : s.ctx.isDone = false) {r : List ProcessedData × Option GoError}
    (hret : s.ret = some r) :
    r = (s.allResults,
        if s.allErrors.length > 0 then some (combinedError s.allErrors) else none) ∧
    s.allResults.length + s.allErrors.length = s.urls.length ∧
    s.next = s.urls.length ∧ s.jobs.buf = [] ∧ inFlightAll s.workers = [] ∧
    s.results.buf = [] ∧ s.errors.buf = [] := by
  rcases hI.returned r hret with ⟨hd, _⟩ | ⟨hcol, hr⟩
  · rw [hctx] at hd
    cases hd
  · have hfin : s.collector = CollectorState.finished := by
      cases hc : s.collector with
      | collecting => exact absurd hc hcol
      | finished => rfl
      | aborted =>
        have := hI.aborted hc
        rw [hctx] at this
        cases this
    have hi := hI.finished hfin
    have h1 := hI.arrived_length
    have h2 := hI.emitted_length
    have h3 := hI.next_eq
    have h4 := hI.next_le
    refine ⟨hr, by omega, by omega, ?_, ?_, ?_, ?_⟩ <;>
      (apply List.eq_nil_of_length_eq_zero; omega)

/-- C1: when a call of `FetchAndProcess` on `N` URLs returns and the context
was never cancelled, the number of results returned plus the number of per-item
errors collected is `N`; the returned error is nil when that number is `0` and
otherwise the combined error whose text reports that number. -/
theorem fetchAndProcess_outcome_count (ca : ContentAggregator) (ctx : Context)
    (urls : List String) (sched : List Action) (s : Batch)
    (res : List ProcessedData) (err : Option GoError)
    (hrun : run ca (Batch.init ca ctx urls) sched = some s)
    (hctx : s.ctx.isDone = false)
    (hret : s.ret = some (res, err)) :
    ∃ errs : List GoError, errs = s.allErrors ∧
      res.length + errs.length = urls.length ∧
      (errs.length = 0 → err = none) ∧
      (errs.length > 0 → err = some (GoError.errorString
        ("encountered " ++ toString errs.length ++ " errors: " ++ formatErrors errs))) := by
  have hI := reachable_inv hrun
  obtain ⟨hr, hlen, -⟩ := hI.completed hctx hret
  rw [reachable_urls hrun] at hlen
  simp only [Prod.mk.injEq] at hr
  refine ⟨s.allErrors, rfl, ?_, ?_, ?_⟩
  · rw [hr.1]
    exact hlen
  · intro h0
    rw [hr.2]
    simp [h0]
  · intro hpos
    rw [hr.2]
    simp only [hpos, if_true, combinedError]

/-- C1 at the scenario batch: two results and one error for three URLs. -/
theorem fetchAndProcess_outcome_count_witness :
    run demoAggregator (Batch.init demoAggregator ⟨none⟩ ["ok1", "bad", "ok2"])
      scenarioSchedule = some scenarioFinal ∧
    scenarioFinal.ctx.isDone = false ∧
    scenarioFinal.ret = some (scenarioFinal.allResults,
      some (combinedError scenarioFinal.allErrors)) ∧
    scenarioFinal.allResults.length = 2 ∧
    ∃ errs : List GoError, errs = scenarioFinal.allErrors ∧
      scenarioFinal.allResults.length + errs.length = ["ok1", "bad", "ok2"].length ∧
      (errs.length = 0 → some (combinedError scenarioFinal.allErrors) = none) ∧
      (errs.length > 0 → some (combinedError scenarioFinal.allErrors) =
        some (GoError.errorString
          ("encountered " ++ toString errs.length ++ " errors: " ++ formatErrors errs))) :=
  ⟨rfl, by decide, by decide, by decide,
    fetchAndProcess_outcome_count demoAggregator ⟨none⟩ ["ok1", "bad", "ok2"]
      scenarioSchedule scenarioFinal _ _ rfl (by decide) (by decide)⟩

/-! ### The worker body -/

theorem inFlightAll_length_le {ws : List WorkerState} {w : Nat} {st : WorkerState}
    (h : ws[w]? = some st) : st.inFlight.length ≤ (inFlightAll ws).length := by
  have h1 := congrArg Multiset.card (inFlightAll_set ws w st WorkerState.selecting h)
  have e : WorkerState.selecting.inFlight = [] := rfl
  rw [e] at h1
  simp only [Multiset.card_add, Multiset.coe_card, List.length_nil] at h1
  omega

/-- A worker that holds a URL finds room in both outcome channels: the sends in
the worker body never block. -/
theorem Inv.room {ca : ContentAggregator} {s : Batch} (hI : Inv ca s) {w : Nat}
    {st : WorkerState} {u : String} (hw : s.workers[w]? = some st)
    (hu : st.inFlight = [u]) :
    s.results.buf.length < s.results.cap ∧ s.errors.buf.length < s.errors.cap := by
  have h0 := inFlightAll_length_le hw
  rw [hu] at h0
  simp only [List.length_singleton] at h0
  have h1 := hI.next_eq
  have h2 := hI.emitted_length
  have h3 := hI.next_le
  rw [hI.resultsCap, hI.errorsCap]
  constructor <;> omega

theorem getElem?_set_self_of_some {ws : List WorkerState} {w : Nat} {st new : WorkerState}
    (h : ws[w]? = some st) : (ws.set w new)[w]? = some new := by
  have hlt : w < ws.length := (List.getElem?_eq_some_iff.1 h).1
  simp [List.getElem?_set, hlt]

theorem step_wait_error {ca : ContentAggregator} {s : Batch} (hI : Inv ca s) {w : Nat}
    {u : String} (hw : s.workers[w]? = some (WorkerState.waiting u)) (err : GoError) :
    step ca s (Action.workerWait w (some err)) =
      some (s.withError w u (errorfWrap "rate limit error for " u err) [Call.wait u]) := by
  have hroom := (hI.room hw rfl).2
  simp only [step, hw, Batch.emitError, Chan.send, hroom, if_true]
  rfl

theorem step_wait_ok {ca : ContentAggregator} {s : Batch} {w : Nat}
    {u : String} (hw : s.workers[w]? = some (WorkerState.waiting u)) :
    step ca s (Action.workerWait w none) =
      some { s with
        workers := s.workers.set w (WorkerState.fetching u)
        calls := s.calls ++ [Call.wait u] } := by
  simp only [step, hw]

theorem step_fetch_error {ca : ContentAggregator} {s : Batch} (hI : Inv ca s) {w : Nat}
    {u : String} (hw : s.workers[w]? = some (WorkerState.fetching u)) {err : GoError}
    (hf : ca.fetcher.Fetch s.ctx u = .error err) :
    step ca s (Action.workerFetch w) =
      some (s.withError w u (errorfWrap "fetch error for " u err) [Call.fetch u]) := by
  have hroom := (hI.room hw rfl).2
  simp only [step, hw, hf, Batch.emitError, Chan.send, hroom, if_true]
  rfl

theorem step_fetch_ok {ca : ContentAggregator} {s : Batch} {w : Nat}
    {u : String} (hw : s.workers[w]? = some (WorkerState.fetching u)) {content : List UInt8}
    (hf : ca.fetcher.Fetch s.ctx u = .ok content) :
    step ca s (Action.workerFetch w) =
      some { s with
        workers := s.workers.set w (WorkerState.processing u content)
        calls := s.calls ++ [Call.fetch u] } := by
  simp only [step, hw, hf]

theorem step_process_error {ca : ContentAggregator} {s : Batch} (hI : Inv ca s) {w : Nat}
    {u : String} {content : List UInt8}
    (hw : s.workers[w]? = some (WorkerState.processing u content)) {err : GoError}
    (hp : ca.processor.Process s.ctx content = .error err) (now : Nat) :
    step ca s (Action.workerProcess w now) =
      some (s.withError w u (errorfWrap "process error for " u err) [Call.process u]) := by
  have hroom := (hI.room hw rfl).2
  simp only [step, hw, hp, Batch.emitError, Chan.send, hroom, if_true]
  rfl

theorem step_process_ok {ca : ContentAggregator} {s : Batch} (hI : Inv ca s) {w : Nat}
    {u : String} {content : List UInt8}
    (hw : s.workers[w]? = some (WorkerState.processing u content)) {pd : ProcessedData}
    (hp : ca.processor.Process s.ctx content = .ok pd) (now : Nat) :
    step ca s (Action.workerProcess w now) =
      some (s.withResult w u { pd with Source := u, Timestamp := now } [Call.process u]) := by
  have hroom := (hI.room hw rfl).1
  simp only [step, hw, hp, Batch.emitResult, Chan.send, hroom, if_true]
  rfl

theorem handleJob_wait_error {ca : ContentAggregator} {s : Batch} (hI : Inv ca s) {w : Nat}
    {u : String} (hw : s.workers[w]? = some (WorkerState.waiting u)) (err : GoError)
    (now : Nat) :
    handleJob ca s w (some err) now =
      some (s.withError w u (errorfWrap "rate limit error for " u err) [Call.wait u]) := by
  have hsel : (s.withError w u (errorfWrap "rate limit error for " u err)
      [Call.wait u]).workers[w]? = some WorkerState.selecting :=
    getElem?_set_self_of_some hw
  simp only [handleJob, step_wait_error hI hw, hsel]

theorem handleJob_fetch_error {ca : ContentAggregator} {s : Batch} (hI : Inv ca s) {w : Nat}
    {u : String} (hw : s.workers[w]? = some (WorkerState.waiting u)) {err : GoError}
    (hf : ca.fetcher.Fetch s.ctx u = .error err) (now : Nat) :
    handleJob ca s w none now =
      some (s.withError w u (errorfWrap "fetch error for " u err)
        [Call.wait u, Call.fetch u]) := by
  have hI1 := advance_inv (s.calls ++ [Call.wait u]) (WorkerState.fetching u) hI hw
    rfl trivial
  have hw1 : ({ s with
      workers := s.workers.set w (WorkerState.fetching u)
      calls := s.calls ++ [Call.wait u] } : Batch).workers[w]? =
      some (WorkerState.fetching u) := getElem?_set_self_of_some hw
  have hsel : (s.workers.set w WorkerState.selecting)[w]? = some WorkerState.selecting :=
    getElem?_set_self_of_some hw
  simp only [handleJob, step_wait_ok hw, hw1, step_fetch_error hI1 hw1 hf]
  simp only [Batch.withError, List.set_set, hsel, List.append_assoc, List.singleton_append]

theorem handleJob_process_error {ca : ContentAggregator} {s : Batch} (hI : Inv ca s) {w : Nat}
    {u : String} (hw : s.workers[w]? = some (WorkerState.waiting u)) {content : List UInt8}
    (hf : ca.fetcher.Fetch s.ctx u = .ok content) {err : GoError}
    (hp : ca.processor.Process s.ctx content = .error err) (now : Nat) :
    handleJob ca s w none now =
      some (s.withError w u (errorfWrap "process error for " u err)
        [Call.wait u, Call.fetch u, Call.process u]) := by
  have hI1 := advance_inv (s.calls ++ [Call.wait u]) (WorkerState.fetching u) hI hw
    rfl trivial
  have hw1 : ({ s with
      workers := s.workers.set w (WorkerState.fetching u)
      calls := s.calls ++ [Call.wait u] } : Batch).workers[w]? =
      some (WorkerState.fetching u) := getElem?_set_self_of_some hw
  have hI2 := advance_inv (s.calls ++ [Call.wait u] ++ [Call.fetch u])
    (WorkerState.processing u content) hI1 hw1 rfl ⟨s.ctx, hf⟩
  have hw2 : ((s.workers.set w (WorkerState.fetching u)).set w
      (WorkerState.processing u content))[w]? = some (WorkerState.processing u content) :=
    getElem?_set_self_of_some hw1
  have hsel : (s.workers.set w WorkerState.selecting)[w]? = some WorkerState.selecting :=
    getElem?_set_self_of_some hw
  simp only [handleJob, step_wait_ok hw, hw1, step_fetch_ok hw1 hf, hw2]
  rw [step_process_error hI2 hw2 hp]
  simp only [Batch.withError, List.set_set, List.append_assoc, List.singleton_append]
  rfl

theorem handleJob_ok {ca : ContentAggregator} {s : Batch} (hI : Inv ca s) {w : Nat}
    {u : String} (hw : s.workers[w]? = some (WorkerState.waiting u)) {content : List UInt8}
    (hf : ca.fetcher.Fetch s.ctx u = .ok content) {pd : ProcessedData}
    (hp : ca.processor.Process s.ctx content = .ok pd) (now : Nat) :
    handleJob ca s w none now =
      some (s.withResult w u { pd with Source := u, Timestamp := now }
        [Call.wait u, Call.fetch u, Call.process u]) := by
  have hI1 := advance_inv (s.calls ++ [Call.wait u]) (WorkerState.fetching u) hI hw
    rfl trivial
  have hw1 : ({ s with
      workers := s.workers.set w (WorkerState.fetching u)
      calls := s.calls ++ [Call.wait u] } : Batch).workers[w]? =
      some (WorkerState.fetching u) := getElem?_set_self_of_some hw
  have hI2 := advance_inv (s.calls ++ [Call.wait u] ++ [Call.fetch u])
    (WorkerState.processing u content) hI1 hw1 rfl ⟨s.ctx, hf⟩
  have hw2 : ((s.workers.set w (WorkerState.fetching u)).set w
      (WorkerState.processing u content))[w]? = some (WorkerState.processing u content) :=
    getElem?_set_self_of_some hw1
  simp only [handleJob, step_wait_ok hw, hw1, step_fetch_ok hw1 hf, hw2]
  rw [step_process_ok hI2 hw2 hp]
  simp only [Batch.withResult, List.set_set, List.append_assoc, List.singleton_append]
  rfl

theorem Inv.dispatched_perm {ca : ContentAggregator} {s : Batch} (hI : Inv ca s) :
    (s.urls.take s.next).Perm
      (s.jobs.buf ++ inFlightAll s.workers ++ s.emitted.map Prod.fst) := by
  have h := hI.dispatched
  rw [Multiset.coe_add, Multiset.coe_add] at h
  exact Multiset.coe_eq_coe.1 h

/-- Only a worker that holds a URL adds to the history of emitted outcomes, and
it adds one outcome for that URL. -/
theorem step_emitted {ca : ContentAggregator} {s s' : Batch} {a : Action}
    (h : step ca s a = some s') :
    s'.emitted = s.emitted ∨
    ∃ (w : Nat) (st : WorkerState) (u : String) (o : Outcome),
      s.workers[w]? = some st ∧ st.inFlight = [u] ∧
      s'.emitted = s.emitted ++ [(u, o)] := by
  cases a <;> simp only [step, Batch.emitError, Batch.emitResult] at h <;>
    (repeat' split at h) <;>
    first
    | cases h; exact Or.inl rfl
    | cases h; exact Or.inr ⟨_, WorkerState.waiting _, _, _, by assumption, rfl, rfl⟩
    | cases h; exact Or.inr ⟨_, WorkerState.fetching _, _, _, by assumption, rfl, rfl⟩
    | cases h; exact Or.inr ⟨_, WorkerState.processing _ _, _, _, by assumption, rfl, rfl⟩
    | cases h

/-- C2: in every reachable state of a call, the URLs taken off the input are
exactly those still queued, those held by a worker and those answered, each
answer being one result sent on `results` or one error sent on `errors`; a worker
that has dequeued a URL runs its loop body to exactly one send whatever the wait,
`Fetch` and `Process` return, its next move never being blocked; and no step
emits anything except a worker's step for the URL that worker holds. -/
theorem worker_emits_exactly_one (ca : ContentAggregator) (ctx : Context)
    (urls : List String) (sched : List Action) (s : Batch)
    (hrun : run ca (Batch.init ca ctx urls) sched = some s) :
    (urls.take s.next).Perm
      (s.jobs.buf ++ inFlightAll s.workers ++ s.emitted.map Prod.fst) ∧
    resultsOf (s.emitted.map Prod.snd) = s.allResults ++ s.results.buf ∧
    errorsOf (s.emitted.map Prod.snd) = s.allErrors ++ s.errors.buf ∧
    (∀ w u waitErr now, s.workers[w]? = some (WorkerState.waiting u) →
      ∃ s' o, handleJob ca s w waitErr now = some s' ∧
        s'.emitted = s.emitted ++ [(u, o)] ∧
        s'.workers[w]? = some WorkerState.selecting ∧ s'.jobs = s.jobs ∧
        ((∃ pd, o = .ok pd ∧ s'.results.buf = s.results.buf ++ [pd] ∧
            s'.errors.buf = s.errors.buf) ∨
         (∃ e, o = .error e ∧ s'.errors.buf = s.errors.buf ++ [e] ∧
            s'.results.buf = s.results.buf))) ∧
    (∀ w st u, s.workers[w]? = some st → st.inFlight = [u] → ∀ waitErr now,
      (step ca s (Action.workerWait w waitErr)).isSome = true ∨
      (step ca s (Action.workerFetch w)).isSome = true ∨
      (step ca s (Action.workerProcess w now)).isSome = true) ∧
    (∀ a s', step ca s a = some s' →
      s'.emitted = s.emitted ∨
      ∃ (w : Nat) (st : WorkerState) (u : String) (o : Outcome),
      s.workers[w]? = some st ∧ st.inFlight = [u] ∧
        s'.emitted = s.emitted ++ [(u, o)]) := by
  have hI := reachable_inv hrun
  refine ⟨?_, hI.sentResults, hI.sentErrors, ?_, ?_, fun a s' h => step_emitted h⟩
  · have h := hI.dispatched_perm
    rw [reachable_urls hrun] at h
    exact h
  · intro w u waitErr now hw
    have hsel : (s.workers.set w WorkerState.selecting)[w]? = some WorkerState.selecting :=
      getElem?_set_self_of_some hw
    cases waitErr with
    | some err =>
      exact ⟨_, _, handleJob_wait_error hI hw err now, rfl, hsel, rfl,
        Or.inr ⟨_, rfl, rfl, rfl⟩⟩
    | none =>
      cases hf : ca.fetcher.Fetch s.ctx u with
      | error err =>
        exact ⟨_, _, handleJob_fetch_error hI hw hf now, rfl, hsel, rfl,
          Or.inr ⟨_, rfl, rfl, rfl⟩⟩
      | ok content =>
        cases hp : ca.processor.Process s.ctx content with
        | error err =>
          exact ⟨_, _, handleJob_process_error hI hw hf hp now, rfl, hsel, rfl,
            Or.inr ⟨_, rfl, rfl, rfl⟩⟩
        | ok pd =>
          exact ⟨_, _, handleJob_ok hI hw hf hp now, rfl, hsel, rfl,
            Or.inl ⟨_, rfl, rfl, rfl⟩⟩
  · intro w st u hw hu waitErr now
    cases st with
    | selecting => cases hu
    | exited => cases hu
    | waiting v =>
      left
      cases waitErr with
      | some err => rw [step_wait_error hI hw err]; rfl
      | none => rw [step_wait_ok hw]; rfl
    | fetching v =>
      right; left
      cases hf : ca.fetcher.Fetch s.ctx v with
      | error err => rw [step_fetch_error hI hw hf]; rfl
      | ok content => rw [step_fetch_ok hw hf]; rfl
    | processing v content =>
      right; right
      cases hp : ca.processor.Process s.ctx content with
      | error err => rw [step_process_error hI hw hp now]; rfl
      | ok pd => rw [step_process_ok hI hw hp now]; rfl

/-- C2 at the scenario batch, for worker 0 which holds `ok1`: its loop body ends
in exactly one send, here a result. -/
theorem worker_emits_exactly_one_witness :
    run demoAggregator (Batch.init demoAggregator ⟨none⟩ ["ok1", "bad", "ok2"])
      dequeuedSchedule = some scenarioDequeued ∧
    scenarioDequeued.workers[0]? = some (WorkerState.waiting "ok1") ∧
    ∃ s' o, handleJob demoAggregator scenarioDequeued 0 none 5 = some s' ∧
      s'.emitted = scenarioDequeued.emitted ++ [("ok1", o)] ∧
      s'.workers[0]? = some WorkerState.selecting ∧ s'.jobs = scenarioDequeued.jobs ∧
      ((∃ pd, o = .ok pd ∧ s'.results.buf = scenarioDequeued.results.buf ++ [pd] ∧
          s'.errors.buf = scenarioDequeued.errors.buf) ∨
       (∃ e, o = .error e ∧ s'.errors.buf = scenarioDequeued.errors.buf ++ [e] ∧
          s'.results.buf = scenarioDequeued.results.buf)) :=
  ⟨rfl, by decide,
    (worker_emits_exactly_one demoAggregator ⟨none⟩ ["ok1", "bad", "ok2"] dequeuedSchedule
      scenarioDequeued rfl).2.2.2.1 0 "ok1" none 5 (by decide)⟩

/-- C7: in every reachable state, a failed rate-limit wait makes the worker send
the rate-limit error for its URL having called neither `Fetch` nor `Process`; a
failed `Fetch` (reached only after a successful wait) makes it send the fetch
error without calling `Process`; a failed `Process` (reached only after a
successful `Fetch`) makes it send the process error.  Run from the dequeue
without interruption, the loop body reports the first failing stage.  The error
text is the stage text, the URL, a colon and the text of the cause, and the
error wraps the cause. -/
theorem worker_reports_first_failing_stage (ca : ContentAggregator) (ctx : Context)
    (urls : List String) (sched : List Action) (s : Batch)
    (hrun : run ca (Batch.init ca ctx urls) sched = some s) :
    (∀ w u err, s.workers[w]? = some (WorkerState.waiting u) →
      step ca s (Action.workerWait w (some err)) =
        some (s.withError w u (errorfWrap "rate limit error for " u err) [Call.wait u])) ∧
    (∀ w u err, s.workers[w]? = some (WorkerState.fetching u) →
      ca.fetcher.Fetch s.ctx u = .error err →
      step ca s (Action.workerFetch w) =
        some (s.withError w u (errorfWrap "fetch error for " u err) [Call.fetch u])) ∧
    (∀ w u content err now, s.workers[w]? = some (WorkerState.processing u content) →
      ca.processor.Process s.ctx content = .error err →
      step ca s (Action.workerProcess w now) =
        some (s.withError w u (errorfWrap "process error for " u err) [Call.process u])) ∧
    (∀ w u now, s.workers[w]? = some (WorkerState.waiting u) →
      (∀ err, handleJob ca s w (some err) now =
        some (s.withError w u (errorfWrap "rate limit error for " u err) [Call.wait u])) ∧
      (∀ err, ca.fetcher.Fetch s.ctx u = .error err →
        handleJob ca s w none now =
          some (s.withError w u (errorfWrap "fetch error for " u err)
            [Call.wait u, Call.fetch u])) ∧
      (∀ content err, ca.fetcher.Fetch s.ctx u = .ok content →
        ca.processor.Process s.ctx content = .error err →
        handleJob ca s w none now =
          some (s.withError w u (errorfWrap "process error for " u err)
            [Call.wait u, Call.fetch u, Call.process u]))) ∧
    (∀ pre u cause, (errorfWrap pre u cause).Error = pre ++ u ++ ": " ++ cause.Error ∧
      (errorfWrap pre u cause).Unwrap = some cause) := by
  have hI := reachable_inv hrun
  refine ⟨fun w u err hw => step_wait_error hI hw err,
    fun w u err hw hf => step_fetch_error hI hw hf,
    fun w u content err now hw hp => step_process_error hI hw hp now,
    fun w u now hw => ⟨fun err => handleJob_wait_error hI hw err now,
      fun err hf => handleJob_fetch_error hI hw hf now,
      fun content err hf hp => handleJob_process_error hI hw hf hp now⟩,
    fun pre u cause => ⟨rfl, rfl⟩⟩

/-- C7 at the scenario batch, for worker 1 which holds `bad`: the one error of
the batch is the fetch error for `bad`, and the caller's error reports it. -/
theorem worker_reports_first_failing_stage_witness :
    run demoAggregator (Batch.init demoAggregator ⟨none⟩ ["ok1", "bad", "ok2"])
      dequeuedSchedule = some scenarioDequeued ∧
    scenarioDequeued.workers[1]? = some (WorkerState.waiting "bad") ∧
    demoAggregator.fetcher.Fetch scenarioDequeued.ctx "bad" =
      .error (.errorString "unreachable host") ∧
    handleJob demoAggregator scenarioDequeued 1 none 0 =
      some (scenarioDequeued.withError 1 "bad"
        (errorfWrap "fetch error for " "bad" (.errorString "unreachable host"))
        [Call.wait "bad", Call.fetch "bad"]) ∧
    scenarioFinal.allErrors =
      [.wrapError "fetch error for bad: unreachable host"
        (.errorString "unreachable host")] ∧
    scenarioFinal.ret.map Prod.snd =
      some (some (.errorString
        "encountered 1 errors: [fetch error for bad: unreachable host]")) :=
  ⟨rfl, by decide, rfl,
    ((worker_reports_first_failing_stage demoAggregator ⟨none⟩ ["ok1", "bad", "ok2"]
      dequeuedSchedule scenarioDequeued rfl).2.2.2.1 1 "bad" 0 (by decide)).2.1 _ rfl,
    by decide, by decide⟩

/-- C8: in every reachable state, a worker whose `Process` call succeeds sends on
`results` the processor's data with `Source` set to the worker's URL and
`Timestamp` to the clock reading, all other fields as the processor returned
them, and sends nothing on `errors`; the same holds for the whole loop body run
from the dequeue; and every result ever sent has this form. -/
theorem worker_stamps_source_and_timestamp (ca : ContentAggregator) (ctx : Context)
    (urls : List String) (sched : List Action) (s : Batch)
    (hrun : run ca (Batch.init ca ctx urls) sched = some s) :
    (∀ w u content pd now, s.workers[w]? = some (WorkerState.processing u content) →
      ca.processor.Process s.ctx content = .ok pd →
      ∃ s' out, step ca s (Action.workerProcess w now) = some s' ∧
        s'.results.buf = s.results.buf ++ [out] ∧ s'.errors = s.errors ∧
        out.Source = u ∧ out.Timestamp = now ∧ out.Title = pd.Title ∧
        out.Description = pd.Description ∧ out.Keywords = pd.Keywords) ∧
    (∀ w u content pd now, s.workers[w]? = some (WorkerState.waiting u) →
      ca.fetcher.Fetch s.ctx u = .ok content →
      ca.processor.Process s.ctx content = .ok pd →
      ∃ s' out, handleJob ca s w none now = some s' ∧
        s'.results.buf = s.results.buf ++ [out] ∧ s'.errors = s.errors ∧
        out.Source = u ∧ out.Timestamp = now ∧ out.Title = pd.Title ∧
        out.Description = pd.Description ∧ out.Keywords = pd.Keywords) ∧
    (∀ u out, (u, Except.ok out) ∈ s.emitted →
      out.Source = u ∧
      ∃ ctx1 ctx2 content pd, ca.fetcher.Fetch ctx1 u = .ok content ∧
        ca.processor.Process ctx2 content = .ok pd ∧ out.Title = pd.Title ∧
        out.Description = pd.Description ∧ out.Keywords = pd.Keywords) := by
  have hI := reachable_inv hrun
  refine ⟨?_, ?_, ?_⟩
  · intro w u content pd now hw hp
    exact ⟨_, _, step_process_ok hI hw hp now, rfl, rfl, rfl, rfl, rfl, rfl, rfl⟩
  · intro w u content pd now hw hf hp
    exact ⟨_, _, handleJob_ok hI hw hf hp now, rfl, rfl, rfl, rfl, rfl, rfl, rfl⟩
  · intro u out hmem
    rcases hI.answered _ hmem with ⟨c, h⟩ | ⟨c1, c, _, h⟩ | ⟨c1, c2, ct, c, _, _, h⟩ |
      ⟨ctx1, ctx2, content, pd, now, hf, hp, h⟩
    · cases h
    · cases h
    · cases h
    · simp only [Except.ok.injEq] at h
      subst h
      exact ⟨rfl, ctx1, ctx2, content, pd, hf, hp, rfl, rfl, rfl⟩

/-- C8 at the scenario batch, for worker 2 which holds `ok2`. -/
theorem worker_stamps_source_and_timestamp_witness :
    run demoAggregator (Batch.init demoAggregator ⟨none⟩ ["ok1", "bad", "ok2"])
      dequeuedSchedule = some scenarioDequeued ∧
    scenarioDequeued.workers[2]? = some (WorkerState.waiting "ok2") ∧
    demoAggregator.fetcher.Fetch scenarioDequeued.ctx "ok2" = .ok [111, 107, 50] ∧
    demoAggregator.processor.Process scenarioDequeued.ctx [111, 107, 50] =
      .ok ⟨"page of 3 bytes", "demo", ["k1", "k2"], 0, ""⟩ ∧
    ∃ s' out, handleJob demoAggregator scenarioDequeued 2 none 7 = some s' ∧
      s'.results.buf = scenarioDequeued.results.buf ++ [out] ∧
      s'.errors = scenarioDequeued.errors ∧
      out.Source = "ok2" ∧ out.Timestamp = 7 ∧ out.Title = "page of 3 bytes" ∧
      out.Description = "demo" ∧ out.Keywords = ["k1", "k2"] :=
  ⟨rfl, by decide, rfl, rfl,
    (worker_stamps_source_and_timestamp demoAggregator ⟨none⟩ ["ok1", "bad", "ok2"]
      dequeuedSchedule scenarioDequeued rfl).2.1 2 "ok2" [111, 107, 50]
      ⟨"page of 3 bytes", "demo", ["k1", "k2"], 0, ""⟩ 7 (by decide) rfl rfl⟩

/-! ### The caller's final `select` -/

/-- C3, the code at a failing input: with a context that is cancelled already and
one URL, the collector aborts on `ctx.Done()` and the caller's `select` may take
`case <-done`; `FetchAndProcess` then returns no result and a nil error. -/
theorem fetchAndProcess_cancelled_nil_error :
    run demoAggregator (Batch.init demoAggregator ⟨some contextCanceled⟩ ["ok1"])
      raceSchedule = some raceFinal ∧
    raceFinal.ctx.isDone = true ∧
    raceFinal.collector = CollectorState.aborted ∧
    raceFinal.allErrors = [] ∧
    raceFinal.ret = some ([], none) :=
  ⟨rfl, by decide, by decide, by decide, by decide⟩

/-- What the final `select` does return: with a nil error the caller gets the
collected results, none of them an error, after the collector has stopped; and if
the context was never cancelled the error is non-nil exactly when a per-item
error was collected. -/
theorem fetchAndProcess_error_cases (ca : ContentAggregator) (ctx : Context)
    (urls : List String) (sched : List Action) (s : Batch)
    (res : List ProcessedData) (err : Option GoError)
    (hrun : run ca (Batch.init ca ctx urls) sched = some s)
    (hret : s.ret = some (res, err)) :
    (err = none → res = s.allResults ∧ s.allErrors = [] ∧
      s.collector ≠ CollectorState.collecting) ∧
    (s.ctx.isDone = false → (err ≠ none ↔ s.allErrors ≠ []) ∧ res = s.allResults ∧
      res.length + s.allErrors.length = urls.length) := by
  have hI := reachable_inv hrun
  constructor
  · intro hnone
    subst hnone
    rcases hI.returned _ hret with ⟨hd, hr⟩ | ⟨hcol, hr⟩
    · simp only [Prod.mk.injEq] at hr
      simp only [Context.isDone, ← hr.2] at hd
      cases hd
    · simp only [Prod.mk.injEq] at hr
      refine ⟨hr.1, ?_, hcol⟩
      by_contra hne
      have hpos : s.allErrors.length > 0 := List.length_pos.2 hne
      simp [hpos] at hr
  · intro hctx
    obtain ⟨hr, hlen, -⟩ := hI.completed hctx hret
    simp only [Prod.mk.injEq] at hr
    rw [reachable_urls hrun] at hlen
    refine ⟨?_, hr.1, by rw [hr.1]; exact hlen⟩
    rw [hr.2]
    by_cases hne : s.allErrors = []
    · simp [hne]
    · have hpos : s.allErrors.length > 0 := List.length_pos.2 hne
      simp [hpos, hne]

/-- C5, the claim fails: one of two results has been collected when the context
is cancelled, collection is still under way, and `FetchAndProcess` returns the
cancellation error with no result at all, not with the result already
collected. -/
theorem fetchAndProcess_cancel_drops_collected :
    run demoAggregator (Batch.init demoAggregator ⟨none⟩ ["ok1", "ok2"])
      cancelSchedule = some cancelFinal ∧
    cancelFinal.collector = CollectorState.collecting ∧
    cancelFinal.allResults = [⟨"page of 3 bytes", "demo", ["k1", "k2"], 5, "ok1"⟩] ∧
    cancelFinal.ret = some ([], some contextCanceled) ∧
    cancelFinal.ret ≠ some (cancelFinal.allResults, some contextCanceled) :=
  ⟨rfl, by decide, by decide, by decide, by decide⟩

/-- C5 as amended: the caller's `case <-ctx.Done()` returns `ctx.Err()`, which is
not nil, with nil results, leaving the collected results behind; and whenever
`FetchAndProcess` has returned while the collector is still in its loop, what it
returned is nil results and `ctx.Err()`. -/
theorem fetchAndProcess_cancel_returns_nil_results (ca : ContentAggregator) (ctx : Context)
    (urls : List String) (sched : List Action) (s : Batch)
    (hrun : run ca (Batch.init ca ctx urls) sched = some s) :
    (∀ s', step ca s Action.mainCtxDone = some s' →
      ∃ e, s.ctx.err = some e ∧ s'.ret = some ([], some e) ∧
        s'.allResults = s.allResults) ∧
    (∀ res err, s.ret = some (res, err) → s.collector = CollectorState.collecting →
      res = [] ∧ ∃ e, err = some e ∧ s.ctx.err = some e) := by
  have hI := reachable_inv hrun
  constructor
  · intro s' h
    simp only [step] at h
    split at h
    · rename_i hg
      cases h
      obtain ⟨e, he⟩ := Option.isSome_iff_exists.1 hg.2
      exact ⟨e, he, by rw [he], rfl⟩
    · cases h
  · intro res err hret hcol
    rcases hI.returned _ hret with ⟨hd, hr⟩ | ⟨hne, _⟩
    · simp only [Prod.mk.injEq] at hr
      obtain ⟨e, he⟩ := Option.isSome_iff_exists.1 hd
      exact ⟨hr.1, e, by rw [hr.2, he], he⟩
    · exact absurd hcol hne

/-- C5 as amended, at the call of `cancelSchedule`. -/
theorem fetchAndProcess_cancel_returns_nil_results_witness :
    run demoAggregator (Batch.init demoAggregator ⟨none⟩ ["ok1", "ok2"])
      cancelSchedule = some cancelFinal ∧
    cancelFinal.ret = some ([], some contextCanceled) ∧
    cancelFinal.collector = CollectorState.collecting ∧
    ([] : List ProcessedData) = [] ∧
    ∃ e, some contextCanceled = some e ∧ cancelFinal.ctx.err = some e :=
  ⟨rfl, by decide, by decide,
    (fetchAndProcess_cancel_returns_nil_results demoAggregator ⟨none⟩ ["ok1", "ok2"]
      cancelSchedule cancelFinal rfl).2 [] (some contextCanceled) (by decide) (by decide)⟩

/-! ### Arrival order -/

/-- The history of arrivals grows only when the collector receives, by the value
at the head of the channel it received from. -/
theorem step_arrived {ca : ContentAggregator} {s s' : Batch} {a : Action}
    (h : step ca s a = some s') :
    s'.arrived = s.arrived ∨
    (∃ r, a = Action.collectResult ∧ s.results.buf = r :: s'.results.buf ∧
      s'.arrived = s.arrived ++ [Except.ok r]) ∨
    (∃ e, a = Action.collectError ∧ s.errors.buf = e :: s'.errors.buf ∧
      s'.arrived = s.arrived ++ [Except.error e]) := by
  cases a <;> simp only [step, Batch.emitError, Batch.emitResult] at h <;>
    (repeat' split at h) <;>
    first
    | cases h; exact Or.inl rfl
    | cases h; exact Or.inr (Or.inl ⟨_, rfl, by assumption, rfl⟩)
    | cases h; exact Or.inr (Or.inr ⟨_, rfl, by assumption, rfl⟩)
    | cases h

/-- C9: the collector's error list is the list of the errors among the outcomes
it received, in the order of receipt, and its result list the list of the results
among them; the arrival history grows only by the collector's receives; and a
non-nil error returned by `FetchAndProcess` is either `ctx.Err()` or the combined
error whose text lists the texts of those errors in that order, the latter
whenever the context was not cancelled. -/
theorem collected_errors_in_arrival_order (ca : ContentAggregator) (ctx : Context)
    (urls : List String) (sched : List Action) (s : Batch)
    (hrun : run ca (Batch.init ca ctx urls) sched = some s) :
    s.allErrors = errorsOf s.arrived ∧
    s.allResults = resultsOf s.arrived ∧
    (∀ a s', step ca s a = some s' →
      s'.arrived = s.arrived ∨
      (∃ r, a = Action.collectResult ∧ s.results.buf = r :: s'.results.buf ∧
        s'.arrived = s.arrived ++ [Except.ok r]) ∨
      (∃ e, a = Action.collectError ∧ s.errors.buf = e :: s'.errors.buf ∧
        s'.arrived = s.arrived ++ [Except.error e])) ∧
    (∀ res err, s.ret = some (res, some err) →
      (res = [] ∧ s.ctx.err = some err) ∨
      (res = resultsOf s.arrived ∧
        err = GoError.errorString
          ("encountered " ++ toString (errorsOf s.arrived).length ++ " errors: " ++
            ("[" ++ " ".intercalate ((errorsOf s.arrived).map GoError.Error) ++ "]")))) ∧
    (∀ res err, s.ret = some (res, some err) → s.ctx.isDone = false →
      res = resultsOf s.arrived ∧
      err = GoError.errorString
        ("encountered " ++ toString (errorsOf s.arrived).length ++ " errors: " ++
          ("[" ++ " ".intercalate ((errorsOf s.arrived).map GoError.Error) ++ "]"))) := by
  have hI := reachable_inv hrun
  have hgen : ∀ res err, s.ret = some (res, some err) →
      (res = [] ∧ s.ctx.err = some err) ∨
      (res = resultsOf s.arrived ∧
        err = GoError.errorString
          ("encountered " ++ toString (errorsOf s.arrived).length ++ " errors: " ++
            ("[" ++ " ".intercalate ((errorsOf s.arrived).map GoError.Error) ++ "]"))) := by
    intro res err hret
    rcases hI.returned _ hret with ⟨_, hr⟩ | ⟨_, hr⟩
    · simp only [Prod.mk.injEq] at hr
      exact Or.inl ⟨hr.1, hr.2.symm⟩
    · simp only [Prod.mk.injEq] at hr
      rw [← hI.arrivedErrors, ← hI.arrivedResults]
      refine Or.inr ⟨hr.1, ?_⟩
      by_cases hpos : s.allErrors.length > 0
      · simp only [hpos, if_true, Option.some.injEq] at hr
        exact hr.2
      · simp [hpos] at hr
  refine ⟨hI.arrivedErrors, hI.arrivedResults, fun a s' h => step_arrived h, hgen, ?_⟩
  intro res err hret hctx
  rcases hgen res err hret with ⟨_, he⟩ | h
  · simp only [Context.isDone, he] at hctx
    cases hctx
  · exact h

/-- C9 at a call on `["b1", "b2"]` where the error for `b2` arrives first: the
combined error lists `b2` before `b1`, the order of arrival and not of input. -/
theorem collected_errors_in_arrival_order_witness :
    run demoAggregator (Batch.init demoAggregator ⟨none⟩ ["b1", "b2"])
      reversedSchedule = some reversedFinal ∧
    reversedFinal.ctx.isDone = false ∧
    reversedFinal.arrived =
      [.error (errorfWrap "fetch error for " "b2" (.errorString "unreachable host")),
       .error (errorfWrap "fetch error for " "b1" (.errorString "unreachable host"))] ∧
    reversedFinal.ret = some ([], some (.errorString ("encountered 2 errors: " ++
      "[fetch error for b2: unreachable host fetch error for b1: unreachable host]"))) ∧
    ([] : List ProcessedData) = resultsOf reversedFinal.arrived ∧
    GoError.errorString ("encountered 2 errors: " ++
      "[fetch error for b2: unreachable host fetch error for b1: unreachable host]") =
    GoError.errorString
      ("encountered " ++ toString (errorsOf reversedFinal.arrived).length ++ " errors: " ++
        ("[" ++ " ".intercalate ((errorsOf reversedFinal.arrived).map GoError.Error) ++ "]")) :=
  ⟨rfl, by decide, rfl, by decide,
    (collected_errors_in_arrival_order demoAggregator ⟨none⟩ ["b1", "b2"] reversedSchedule
      reversedFinal rfl).2.2.2.2 [] _ (by decide) (by decide)⟩

/-! ### `Shutdown` -/

theorem shutdownTimes_after_once (k : Nat) (ca : ContentAggregator)
    (h : ca.shutdownOnce = true) :
    shutdownTimes k ca = .ok (ca, List.replicate k none, []) := by
  induction k with
  | zero => rfl
  | succ k ih =>
    simp only [shutdownTimes, ContentAggregator.Shutdown, h, if_true, ih,
      List.replicate_succ, List.nil_append]

/-- C10: on an aggregator that has not been shut down, `k ≥ 1` calls of
`Shutdown` in sequence do not panic, each returns nil, together they close the
`shutdown` channel once and wait for the workers once, both in the first call,
and they leave the aggregator in the state a single call leaves it in. -/
theorem shutdown_idempotent (ca : ContentAggregator) (k : Nat)
    (hlive : ca.shutdownOnce = false) (hopen : ca.shutdown = false) (hk : 1 ≤ k) :
    ∃ ca', ca.Shutdown = .ok (ca', none, [Effect.closeShutdown, Effect.wgWait]) ∧
      shutdownTimes k ca =
        .ok (ca', List.replicate k none, [Effect.closeShutdown, Effect.wgWait]) ∧
      ([Effect.closeShutdown, Effect.wgWait].count Effect.closeShutdown = 1) ∧
      (∀ j, shutdownTimes j ca' = .ok (ca', List.replicate j none, [])) ∧
      ca'.shutdown = true ∧ ca'.shutdownOnce = true ∧ ca'.wg = 0 ∧
      ca'.fetcher = ca.fetcher ∧ ca'.processor = ca.processor ∧
      ca'.workerCount = ca.workerCount ∧ ca'.limiter = ca.limiter := by
  obtain ⟨n, rfl⟩ : ∃ n, k = n + 1 := ⟨k - 1, by omega⟩
  refine ⟨{ ca with shutdown := true, wg := 0, shutdownOnce := true }, ?_, ?_, by decide,
    fun j => shutdownTimes_after_once j _ rfl, rfl, rfl, rfl, rfl, rfl, rfl, rfl⟩
  · simp [ContentAggregator.Shutdown, hlive, hopen]
  · have hrest := shutdownTimes_after_once n
      { ca with shutdown := true, wg := 0, shutdownOnce := true } rfl
    simp only [shutdownTimes, ContentAggregator.Shutdown, hlive, hopen, Bool.false_eq_true,
      if_false, hrest, List.replicate_succ, List.append_nil]

/-- C10 for three calls on the scenario aggregator. -/
theorem shutdown_idempotent_witness :
    demoAggregator.shutdownOnce = false ∧ demoAggregator.shutdown = false ∧ 1 ≤ 3 ∧
    ∃ ca', demoAggregator.Shutdown =
        .ok (ca', none, [Effect.closeShutdown, Effect.wgWait]) ∧
      shutdownTimes 3 demoAggregator =
        .ok (ca', List.replicate 3 none, [Effect.closeShutdown, Effect.wgWait]) ∧
      ([Effect.closeShutdown, Effect.wgWait].count Effect.closeShutdown = 1) ∧
      (∀ j, shutdownTimes j ca' = .ok (ca', List.replicate j none, [])) ∧
      ca'.shutdown = true ∧ ca'.shutdownOnce = true ∧ ca'.wg = 0 ∧
      ca'.fetcher = demoAggregator.fetcher ∧ ca'.processor = demoAggregator.processor ∧
      ca'.workerCount = demoAggregator.workerCount ∧
      ca'.limiter = demoAggregator.limiter :=
  ⟨rfl, rfl, by decide, shutdown_idempotent demoAggregator 3 rfl rfl (by decide)⟩

/-! ### What the combined error mentions -/

theorem Mentions.trans {a b c : String} (h1 : Mentions a b) (h2 : Mentions b c) :
    Mentions a c :=
  List.IsInfix.trans h2 h1

theorem mentions_append_left {a t : String} (b : String) (h : Mentions a t) :
    Mentions (a ++ b) t := by
  unfold Mentions at *
  rw [String.data_append]
  exact h.trans (List.infix_append' [] a.data b.data)

theorem mentions_append_right {b t : String} (a : String) (h : Mentions b t) :
    Mentions (a ++ b) t := by
  unfold Mentions at *
  rw [String.data_append]
  exact h.trans (List.suffix_append a.data b.data).isInfix

theorem mentions_self (a : String) : Mentions a a := List.infix_refl _

theorem intercalate_go_mentions (sep : String) (l : List String) (acc : String) :
    Mentions (String.intercalate.go acc sep l) acc ∧
    ∀ x ∈ l, Mentions (String.intercalate.go acc sep l) x := by
  induction l generalizing acc with
  | nil =>
    exact ⟨mentions_self _, fun x hx => by cases hx⟩
  | cons a as ih =>
    obtain ⟨h1, h2⟩ := ih (acc ++ sep ++ a)
    refine ⟨?_, ?_⟩
    · exact Mentions.trans h1
        (mentions_append_left _ (mentions_append_left _ (mentions_self acc)))
    · intro x hx
      rcases List.mem_cons.1 hx with rfl | hx
      · exact Mentions.trans h1 (mentions_append_right _ (mentions_self x))
      · exact h2 x hx

theorem intercalate_mentions (sep : String) (l : List String) {x : String} (hx : x ∈ l) :
    Mentions (sep.intercalate l) x := by
  cases l with
  | nil => cases hx
  | cons a as =>
    obtain ⟨h1, h2⟩ := intercalate_go_mentions sep as a
    rcases List.mem_cons.1 hx with rfl | hx
    · exact h1
    · exact h2 x hx

/-- The text of the combined error contains the text of each collected error. -/
theorem combinedError_mentions {errs : List GoError} {e : GoError} (he : e ∈ errs) :
    Mentions (combinedError errs).Error e.Error := by
  have h : Mentions (" ".intercalate (errs.map GoError.Error)) e.Error :=
    intercalate_mentions " " _ (List.mem_map_of_mem _ he)
  exact mentions_append_right _ (mentions_append_left _ (mentions_append_right _ h))

theorem mem_resultsOf {os : List Outcome} {pd : ProcessedData}
    (h : Except.ok pd ∈ os) : pd ∈ resultsOf os := by
  induction os with
  | nil => cases h
  | cons o os ih =>
    rcases List.mem_cons.1 h with h1 | h1
    · subst h1
      exact List.mem_cons_self _ _
    · cases o with
      | ok q => exact List.mem_cons_of_mem _ (ih h1)
      | error e => exact ih h1

theorem mem_errorsOf {os : List Outcome} {e : GoError}
    (h : Except.error e ∈ os) : e ∈ errorsOf os := by
  induction os with
  | nil => cases h
  | cons o os ih =>
    rcases List.mem_cons.1 h with h1 | h1
    · subst h1
      exact List.mem_cons_self _ _
    · cases o with
      | ok q => exact ih h1
      | error e' => exact List.mem_cons_of_mem _ (ih h1)

/-- An emitted error is the stage error of its URL. -/
theorem Inv.error_form {ca : ContentAggregator} {s : Batch} (hI : Inv ca s) {u : String}
    {e : GoError} (h : (u, Except.error e) ∈ s.emitted) :
    ∃ (stage : Stage) (cause : GoError), e = errorfWrap stage.text u cause := by
  rcases hI.answered _ h with ⟨c, h⟩ | ⟨_, c, _, h⟩ | ⟨_, _, _, c, _, _, h⟩ |
    ⟨_, _, _, _, _, _, _, h⟩
  · exact ⟨Stage.rateLimit, c, Except.error.inj h⟩
  · exact ⟨Stage.fetch, c, Except.error.inj h⟩
  · exact ⟨Stage.process, c, Except.error.inj h⟩
  · cases h

/-! ### The failing stage -/

theorem failedItems_append (xs ys : List (String × Outcome)) :
    failedItems (xs ++ ys) = failedItems xs ++ failedItems ys :=
  List.filterMap_append _ _ _

theorem mem_failedItems {emitted : List (String × Outcome)} {u : String} {e : GoError} :
    (u, e) ∈ failedItems emitted ↔ (u, Except.error e) ∈ emitted := by
  unfold failedItems
  rw [List.mem_filterMap]
  constructor
  · rintro ⟨⟨u', o⟩, hmem, h⟩
    cases o with
    | error e' =>
      simp only [Option.some.injEq, Prod.mk.injEq] at h
      rw [← h.1, ← h.2]
      exact hmem
    | ok pd => simp at h
  · intro h
    exact ⟨(u, Except.error e), h, rfl⟩

theorem errorsOf_eq_failedItems (emitted : List (String × Outcome)) :
    errorsOf (emitted.map Prod.snd) = (failedItems emitted).map Prod.snd := by
  induction emitted with
  | nil => rfl
  | cons p ps ih =>
    obtain ⟨u, o⟩ := p
    cases o with
    | error e =>
      simp only [List.map_cons, errorsOf, failedItems, List.filterMap_cons] at ih ⊢
      rw [ih]
    | ok pd =>
      simp only [List.map_cons, errorsOf, failedItems, List.filterMap_cons] at ih ⊢
      exact ih

/-- The errors emitted by one step are those of the step that failed, if one
did. -/
theorem step_failedItems {ca : ContentAggregator} {s s' : Batch} {a : Action}
    (h : step ca s a = some s') :
    failedItems s'.emitted =
      failedItems s.emitted ++ (failedStep ca s a).toList.map stageError := by
  cases a <;> simp only [step, Batch.emitError, Batch.emitResult] at h <;>
    (repeat' split at h) <;>
    first
    | (cases h
       simp [failedStep, failedItems_append, failedItems, stageError, Stage.text, *])
    | cases h

theorem run_failedItems {ca : ContentAggregator} :
    ∀ (sched : List Action) (s s' : Batch), run ca s sched = some s' →
      failedItems s'.emitted =
        failedItems s.emitted ++ (failedSteps ca s sched).map stageError := by
  intro sched
  induction sched with
  | nil =>
    intro s s' h
    cases h
    simp [failedSteps]
  | cons a rest ih =>
    intro s s' h
    simp only [run] at h
    cases hs : step ca s a with
    | none =>
      rw [hs] at h
      cases h
    | some s1 =>
      rw [hs] at h
      rw [ih s1 s' h, step_failedItems hs]
      simp only [failedSteps, hs, List.map_append, List.append_assoc]

theorem step_ctx {ca : ContentAggregator} {s s' : Batch} {a : Action}
    (h : step ca s a = some s') : s'.ctx = s.ctx ∨ s'.ctx.isDone = true := by
  cases a <;> simp only [step, Batch.emitError, Batch.emitResult] at h <;>
    (repeat' split at h) <;>
    first
    | (cases h; exact Or.inl rfl)
    | (cases h; exact Or.inr rfl)
    | cases h

/-- A cancelled context stays cancelled. -/
theorem run_ctx_done {ca : ContentAggregator} :
    ∀ (sched : List Action) (s s' : Batch), run ca s sched = some s' →
      s.ctx.isDone = true → s'.ctx.isDone = true := by
  intro sched
  induction sched with
  | nil =>
    intro s s' h hd
    cases h
    exact hd
  | cons a rest ih =>
    intro s s' h hd
    simp only [run] at h
    cases hs : step ca s a with
    | none =>
      rw [hs] at h
      cases h
    | some s1 =>
      rw [hs] at h
      refine ih s1 s' h ?_
      rcases step_ctx hs with h1 | h1
      · rw [h1]
        exact hd
      · exact h1

theorem fetchedUnder_set {ca : ContentAggregator} {ctx : Context} {ws : List WorkerState}
    (w : Nat) {new : WorkerState} (h : ∀ st ∈ ws, FetchedUnder ca ctx st)
    (hn : FetchedUnder ca ctx new) : ∀ st ∈ ws.set w new, FetchedUnder ca ctx st := by
  intro st hst
  rcases List.mem_or_eq_of_mem_set hst with h1 | h1
  · exact h st h1
  · exact h1 ▸ hn

/-- While the context does not change, a worker that is about to call `Process`
holds what `Fetch` returned for its URL under that context. -/
theorem step_fetched {ca : ContentAggregator} {s s' : Batch} {a : Action}
    (h : step ca s a = some s') (hc : s'.ctx = s.ctx)
    (hf : ∀ st ∈ s.workers, FetchedUnder ca s.ctx st) :
    ∀ st ∈ s'.workers, FetchedUnder ca s'.ctx st := by
  rw [hc]
  cases a <;> simp only [step, Batch.emitError, Batch.emitResult] at h <;>
    (repeat' split at h) <;>
    first
    | (cases h; exact hf)
    | (cases h; exact fetchedUnder_set _ hf trivial)
    | (cases h; exact fetchedUnder_set _ hf (by assumption))
    | cases h

/-- A step that fails in `Fetch` is a call of `Fetch` that returns the error; a
step that fails in `Process` is a call of `Process`, on the content that `Fetch`
returned for the URL, that returns the error. -/
theorem failedStep_spec {ca : ContentAggregator} {s : Batch} {a : Action}
    {f : String × Stage × GoError} (hf : ∀ st ∈ s.workers, FetchedUnder ca s.ctx st)
    (h : failedStep ca s a = some f) :
    (f.2.1 = Stage.fetch → ca.fetcher.Fetch s.ctx f.1 = .error f.2.2) ∧
    (f.2.1 = Stage.process → ∃ content, ca.fetcher.Fetch s.ctx f.1 = .ok content ∧
      ca.processor.Process s.ctx content = .error f.2.2) := by
  cases a with
  | workerWait w waitErr =>
    cases waitErr with
    | none => simp [failedStep] at h
    | some err =>
      simp only [failedStep] at h
      split at h
      · cases h
        exact ⟨fun h1 => (by cases h1), fun h1 => (by cases h1)⟩
      · cases h
  | workerFetch w =>
    simp only [failedStep] at h
    split at h
    · split at h
      · cases h
        rename_i herr
        exact ⟨fun _ => herr, fun h1 => (by cases h1)⟩
      · cases h
    · cases h
  | workerProcess w now =>
    simp only [failedStep] at h
    split at h
    · rename_i u content hw
      split at h
      · cases h
        rename_i herr
        exact ⟨fun h1 => (by cases h1), fun _ => ⟨content, hf _ (List.getElem?_mem hw), herr⟩⟩
      · cases h
    · cases h
  | _ => simp [failedStep] at h

/-- Along a run under a context that is never cancelled, every step that fails
is a failure of the capability of its stage under that context. -/
theorem run_failedSteps {ca : ContentAggregator} :
    ∀ (sched : List Action) (s s' : Batch), run ca s sched = some s' →
      s'.ctx.isDone = false → (∀ st ∈ s.workers, FetchedUnder ca s.ctx st) →
      ∀ f ∈ failedSteps ca s sched,
        (f.2.1 = Stage.fetch → ca.fetcher.Fetch s.ctx f.1 = .error f.2.2) ∧
        (f.2.1 = Stage.process → ∃ content, ca.fetcher.Fetch s.ctx f.1 = .ok content ∧
          ca.processor.Process s.ctx content = .error f.2.2) := by
  intro sched
  induction sched with
  | nil =>
    intro s s' _ _ _ f hf
    cases hf
  | cons a rest ih =>
    intro s s' h hnd hfe f hf
    simp only [run] at h
    cases hs : step ca s a with
    | none =>
      rw [hs] at h
      cases h
    | some s1 =>
      rw [hs] at h
      have hctx : s1.ctx = s.ctx := by
        rcases step_ctx hs with h1 | h1
        · exact h1
        · have := run_ctx_done rest s1 s' h h1
          rw [hnd] at this
          cases this
      simp only [failedSteps, hs, List.mem_append, Option.mem_toList] at hf
      rcases hf with hf | hf
      · exact failedStep_spec hfe hf
      · have := ih s1 s' h hnd (step_fetched hs hctx hfe) f hf
        rw [hctx] at this
        exact this

/-- C4: when a call returns and the context was never cancelled, every URL of
the batch has exactly one outcome; the results returned are those of the items
that succeeded, each carrying its URL as `Source`; the items that failed are, in
the order of their errors, those of the steps that failed in the run, and the
error of each is the text of the stage of that step followed by the item's URL
and the cause, wrapping the cause; a step counted for the stage `fetch` is a
call of `Fetch` on the URL that returned the cause, and one counted for the
stage `process` a call of `Process`, on the content fetched for the URL, that
returned the cause; and for every item that failed the returned error is the
combined error, whose text states the number of failed items and contains the
text of that item's error. -/
theorem fetchAndProcess_partial_failure (ca : ContentAggregator) (ctx : Context)
    (urls : List String) (sched : List Action) (s : Batch)
    (res : List ProcessedData) (err : Option GoError)
    (hrun : run ca (Batch.init ca ctx urls) sched = some s)
    (hctx : s.ctx.isDone = false)
    (hret : s.ret = some (res, err)) :
    (s.emitted.map Prod.fst).Perm urls ∧
    res = resultsOf (s.emitted.map Prod.snd) ∧
    (∀ u pd, (u, Except.ok pd) ∈ s.emitted → pd ∈ res ∧ pd.Source = u) ∧
    failedItems s.emitted =
      (failedSteps ca (Batch.init ca ctx urls) sched).map stageError ∧
    (errorsOf (s.emitted.map Prod.snd)).length =
      (failedSteps ca (Batch.init ca ctx urls) sched).length ∧
    (∀ u stage cause, (u, stage, cause) ∈ failedSteps ca (Batch.init ca ctx urls) sched →
      (stage = Stage.fetch → ca.fetcher.Fetch ctx u = .error cause) ∧
      (stage = Stage.process → ∃ content, ca.fetcher.Fetch ctx u = .ok content ∧
        ca.processor.Process ctx content = .error cause)) ∧
    (∀ u e, (u, Except.error e) ∈ s.emitted →
      ∃ (text : String) (stage : Stage) (cause : GoError),
        err = some (GoError.errorString text) ∧
        text = "encountered " ++ toString (errorsOf (s.emitted.map Prod.snd)).length ++
          " errors: " ++ formatErrors (errorsOf (s.emitted.map Prod.snd)) ∧
        (u, stage, cause) ∈ failedSteps ca (Batch.init ca ctx urls) sched ∧
        e = errorfWrap stage.text u cause ∧
        e.Error = stage.text ++ u ++ ": " ++ cause.Error ∧ e.Unwrap = some cause ∧
        Mentions text (stage.text ++ u ++ ": " ++ cause.Error)) := by
  have hI := reachable_inv hrun
  obtain ⟨hr, -, hnext, hjobs, hfl, hrb, heb⟩ := hI.completed hctx hret
  simp only [Prod.mk.injEq] at hr
  have hres : s.allResults = resultsOf (s.emitted.map Prod.snd) := by
    rw [hI.sentResults, hrb, List.append_nil]
  have herr : s.allErrors = errorsOf (s.emitted.map Prod.snd) := by
    rw [hI.sentErrors, heb, List.append_nil]
  have hitems : failedItems s.emitted =
      (failedSteps ca (Batch.init ca ctx urls) sched).map stageError := by
    have := run_failedItems sched _ _ hrun
    rw [this]
    rfl
  refine ⟨?_, hr.1.trans hres, ?_, hitems, ?_, ?_, ?_⟩
  · have h := hI.dispatched_perm
    rw [hnext, hjobs, hfl, List.take_length, List.nil_append, List.nil_append,
      reachable_urls hrun] at h
    exact h.symm
  · intro u pd hmem
    refine ⟨?_, ?_⟩
    · rw [hr.1, hres]
      exact mem_resultsOf (List.mem_map_of_mem Prod.snd hmem)
    · rcases hI.answered _ hmem with ⟨_, h⟩ | ⟨_, _, _, h⟩ | ⟨_, _, _, _, _, _, h⟩ |
        ⟨_, _, _, _, _, _, _, h⟩
      · cases h
      · cases h
      · cases h
      · simp only [Except.ok.injEq] at h
        rw [h]
  · rw [errorsOf_eq_failedItems, hitems, List.length_map, List.length_map]
  · intro u stage cause hmem
    exact run_failedSteps sched _ _ hrun hctx
      (by
        intro st hst
        simp only [Batch.init] at hst
        rw [List.eq_of_mem_replicate hst]
        trivial) (u, stage, cause) hmem
  · intro u e hmem
    have hin : e ∈ s.allErrors := by
      rw [herr]
      exact mem_errorsOf (List.mem_map_of_mem Prod.snd hmem)
    have hpos : s.allErrors.length > 0 := List.length_pos_of_mem hin
    have hfi : (u, e) ∈ failedItems s.emitted := mem_failedItems.2 hmem
    rw [hitems, List.mem_map] at hfi
    obtain ⟨⟨u', stage, cause⟩, hf, hfe⟩ := hfi
    simp only [stageError, Prod.mk.injEq] at hfe
    obtain ⟨hu, he⟩ := hfe
    subst hu
    subst he
    refine ⟨(combinedError s.allErrors).Error, stage, cause, ?_, ?_, hf, rfl, rfl, rfl, ?_⟩
    · rw [hr.2]
      simp only [hpos, if_true]
      rfl
    · rw [herr]
      rfl
    · exact combinedError_mentions hin

/-- C4 at the call on `["a", "b", "c"]` where `b` and `c` fail: the results are
the result for `a` alone, the steps that failed are the `Process` of `c` and the
`Fetch` of `b`, and the combined error reports 2 errors, the process error for
`c` and the fetch error for `b`. -/
theorem fetchAndProcess_partial_failure_witness :
    run demoAggregator (Batch.init demoAggregator ⟨none⟩ ["a", "b", "c"])
      partialSchedule = some partialFinal ∧
    partialFinal.ctx.isDone = false ∧
    partialFinal.ret = some ([⟨"page of 1 bytes", "demo", ["k1", "k2"], 5, "a"⟩],
      some (.errorString ("encountered 2 errors: " ++
        "[process error for c: no title fetch error for b: unreachable host]"))) ∧
    (partialFinal.emitted.map Prod.fst).Perm ["a", "b", "c"] ∧
    [(⟨"page of 1 bytes", "demo", ["k1", "k2"], 5, "a"⟩ : ProcessedData)] =
      resultsOf (partialFinal.emitted.map Prod.snd) ∧
    failedSteps demoAggregator (Batch.init demoAggregator ⟨none⟩ ["a", "b", "c"])
        partialSchedule =
      [("c", Stage.process, .errorString "no title"),
       ("b", Stage.fetch, .errorString "unreachable host")] ∧
    failedItems partialFinal.emitted =
      (failedSteps demoAggregator (Batch.init demoAggregator ⟨none⟩ ["a", "b", "c"])
        partialSchedule).map stageError ∧
    (errorsOf (partialFinal.emitted.map Prod.snd)).length = 2 ∧
    Mentions ("encountered 2 errors: " ++
        "[process error for c: no title fetch error for b: unreachable host]")
      "fetch error for b" ∧
    Mentions ("encountered 2 errors: " ++
        "[process error for c: no title fetch error for b: unreachable host]")
      "process error for c" :=
  have h := fetchAndProcess_partial_failure demoAggregator ⟨none⟩ ["a", "b", "c"]
    partialSchedule partialFinal _ _ rfl (by decide) (show partialFinal.ret = some
      ([⟨"page of 1 bytes", "demo", ["k1", "k2"], 5, "a"⟩],
        some (.errorString ("encountered 2 errors: " ++
          "[process error for c: no title fetch error for b: unreachable host]")))
      by decide)
  ⟨rfl, by decide, by decide, h.1, h.2.1, by decide, h.2.2.2.1, by decide, by decide,
    by decide⟩

/-! ### A call can always run to completion -/

theorem run_append (ca : ContentAggregator) (s : Batch) (xs ys : List Action) :
    run ca s (xs ++ ys) = (run ca s xs).bind fun s1 => run ca s1 ys := by
  induction xs generalizing s with
  | nil => rfl
  | cons a as ih =>
    simp only [List.cons_append, run]
    cases step ca s a with
    | none => rfl
    | some s1 => exact ih s1

theorem exists_of_holds {o : Option Batch} {P : Batch → Prop}
    (h : o.elim False P) : ∃ s', o = some s' ∧ P s' := by
  cases o with
  | none => exact h.elim
  | some s' => exact ⟨s', rfl, h⟩

theorem serveOne_run (ca : ContentAggregator) {s : Batch} {u : String} {rest : List String}
    (h : Serving s (u :: rest)) :
    ∃ s', run ca s (serveOne ca u) = some s' ∧ Serving s' rest ∧ s'.urls = s.urls := by
  have hlen : 0 < s.workers.length := (List.getElem?_eq_some_iff.1 h.worker).1
  have hi : s.i < s.urls.length := by
    have := h.count
    simp only [List.length_cons] at this
    omega
  have hpos : 0 < s.urls.length := by omega
  have hcount : s.i + 1 + rest.length = s.urls.length := by
    have := h.count
    simp only [List.length_cons] at this
    omega
  apply exists_of_holds
  unfold serveOne
  cases hf : ca.fetcher.Fetch ⟨none⟩ u with
  | error err =>
    simp [run, step, h.worker, h.jobs, h.ctx, hf, hlen, Batch.emitError, Chan.send,
      h.errors, h.errorsCap, hpos, h.collector, hi]
    refine ⟨?_, ?_, ?_, ?_, ?_, ?_, ?_, ?_, ?_, ?_⟩ <;>
      simp [h.ctx, h.results, h.errors, h.resultsCap, h.errorsCap, hcount, h.collector,
        h.ret, hlen]
  | ok content =>
    cases hp : ca.processor.Process ⟨none⟩ content with
    | error err =>
      simp [run, step, h.worker, h.jobs, h.ctx, hf, hp, hlen, Batch.emitError, Chan.send,
        h.errors, h.errorsCap, hpos, h.collector, hi]
      refine ⟨?_, ?_, ?_, ?_, ?_, ?_, ?_, ?_, ?_, ?_⟩ <;>
        simp [h.ctx, h.results, h.errors, h.resultsCap, h.errorsCap, hcount, h.collector,
          h.ret, hlen]
    | ok pd =>
      simp [run, step, h.worker, h.jobs, h.ctx, hf, hp, hlen, Batch.emitResult, Chan.send,
        h.results, h.resultsCap, hpos, h.collector, hi]
      refine ⟨?_, ?_, ?_, ?_, ?_, ?_, ?_, ?_, ?_, ?_⟩ <;>
        simp [h.ctx, h.results, h.errors, h.resultsCap, h.errorsCap, hcount, h.collector,
          h.ret, hlen]

theorem serveAll_run (ca : ContentAggregator) (rest : List String) {s : Batch}
    (h : Serving s rest) :
    ∃ s', run ca s (rest.map (serveOne ca)).join = some s' ∧ Serving s' [] ∧
      s'.urls = s.urls := by
  induction rest generalizing s with
  | nil => exact ⟨s, rfl, h, rfl⟩
  | cons u rest ih =>
    obtain ⟨s1, hrun1, hs1, hu1⟩ := serveOne_run ca h
    obtain ⟨s2, hrun2, hs2, hu2⟩ := ih hs1
    refine ⟨s2, ?_, hs2, hu2.trans hu1⟩
    simp only [List.map_cons, List.join_cons, run_append, hrun1, Option.some_bind]
    exact hrun2

theorem produce_run (ca : ContentAggregator) (n : Nat) {s : Batch} {k : Nat}
    (h : Producing s k) (hk : k + n = s.urls.length) :
    ∃ s', run ca s (List.replicate n Action.produce) = some s' ∧
      Producing s' s.urls.length ∧ s'.urls = s.urls := by
  induction n generalizing s k with
  | zero =>
    have hk' : k = s.urls.length := by omega
    exact ⟨s, rfl, hk' ▸ h, rfl⟩
  | succ n ih =>
    have hlt : k < s.urls.length := by omega
    have hget : s.urls[s.next]? = some s.urls[k] := by
      rw [h.next]
      exact List.getElem?_eq_getElem hlt
    have hroom : s.jobs.buf.length < s.jobs.cap := by
      rw [h.buf, h.cap, List.length_take]
      omega
    have hstep : step ca s Action.produce = some { s with
        jobs := { s.jobs with buf := s.jobs.buf ++ [s.urls[k]] }
        next := s.next + 1 } := by
      simp only [step, h.opened, hget, Chan.send, hroom, if_true]
      rfl
    have h1 : Producing ({ s with
        jobs := { s.jobs with buf := s.jobs.buf ++ [s.urls[k]] }
        next := s.next + 1 } : Batch) (k + 1) :=
      { h with
        opened := h.opened
        cap := h.cap
        next := by
          show s.next + 1 = k + 1
          rw [h.next]
        buf := by
          show s.jobs.buf ++ [s.urls[k]] = s.urls.take (k + 1)
          rw [h.buf, List.take_succ, List.getElem?_eq_getElem hlt]
          rfl }
    obtain ⟨s2, hrun2, hs2, hu2⟩ := ih h1 (by show k + 1 + n = s.urls.length; omega)
    exact ⟨s2, by simp only [List.replicate_succ, run, hstep, hrun2], hs2, hu2⟩

/-- Every batch can run to completion: with at least one worker and a live
context, on the serial schedule `FetchAndProcess` returns. -/
theorem fetchAndProcess_can_complete (ca : ContentAggregator) (urls : List String)
    (hw : 1 ≤ ca.workerCount) :
    ∃ s, run ca (Batch.init ca ⟨none⟩ urls) (serialSchedule ca urls) = some s ∧
      s.ctx.isDone = false ∧ s.ret.isSome = true := by
  have hworker : (Batch.init ca ⟨none⟩ urls).workers[0]? = some WorkerState.selecting := by
    obtain ⟨n, hn⟩ : ∃ n, ca.workerCount.toNat = n + 1 := ⟨ca.workerCount.toNat - 1, by omega⟩
    simp [Batch.init, hn, List.replicate_succ]
  have h0 : Producing (Batch.init ca ⟨none⟩ urls) 0 :=
    ⟨rfl, rfl, rfl, rfl, rfl, hworker, rfl, rfl, rfl, rfl, rfl, rfl, rfl⟩
  obtain ⟨s1, hrun1, hs1, hu1⟩ := produce_run ca urls.length h0
    (by show 0 + urls.length = urls.length; omega)
  have hu1' : s1.urls = urls := hu1
  have hN : (Batch.init ca ⟨none⟩ urls).urls.length = s1.urls.length := by rw [hu1]
  rw [hN] at hs1
  have hstep2 : step ca s1 Action.producerFinish =
      some { s1 with jobs := { s1.jobs with closed := true } } := by
    simp only [step, hs1.opened, hs1.next, Nat.lt_irrefl]
    rfl
  have hs2 : Serving ({ s1 with jobs := { s1.jobs with closed := true } } : Batch) urls :=
    ⟨hs1.ctx, by show s1.jobs.buf = urls; rw [hs1.buf, List.take_length, hu1'], hs1.worker,
      hs1.results, hs1.errors, hs1.resultsCap, hs1.errorsCap,
      by show s1.i + urls.length = s1.urls.length; rw [hs1.count, hu1']; omega,
      hs1.collector, hs1.ret⟩
  obtain ⟨s3, hrun3, hs3, hu3⟩ := serveAll_run ca urls hs2
  have hi3 : ¬ s3.i < s3.urls.length := by
    have := hs3.count
    simp only [List.length_nil] at this
    omega
  have e1 : run ca (Batch.init ca ⟨none⟩ urls) (urls.map fun _ => Action.produce) =
      some s1 := by
    rw [List.map_const']
    exact hrun1
  have e2 : run ca s1 [Action.producerFinish] =
      some { s1 with jobs := { s1.jobs with closed := true } } := by
    simp only [run, hstep2]
  have e4 : ∃ s4, run ca s3 [Action.collectFinish, Action.mainDone] = some s4 ∧
      s4.ctx = s3.ctx ∧ s4.ret.isSome = true := by
    apply exists_of_holds
    by_cases hpos : s3.allErrors.length > 0 <;>
      simp [run, step, hs3.collector, hi3, hs3.ret, hpos]
  obtain ⟨s4, hrun4, hctx4, hret4⟩ := e4
  refine ⟨s4, ?_, ?_, hret4⟩
  · simp only [serialSchedule, run_append, e1, e2, hrun3, Option.some_bind]
    exact hrun4
  · rw [hctx4, hs3.ctx]
    rfl

/-- C6: `NewContentAggregator` returns no aggregator exactly when the fetcher is
nil, the processor is nil, `workerCount ≤ 0` or `requestsPerSecond ≤ 0`; otherwise
it returns an aggregator holding the given fetcher, processor and worker count. -/
theorem newContentAggregator_spec (fetcher : Option ContentFetcher)
    (processor : Option ContentProcessor) (workerCount requestsPerSecond : Int) :
    (NewContentAggregator fetcher processor workerCount requestsPerSecond = none ↔
      (fetcher = none ∨ processor = none ∨ workerCount ≤ 0 ∨ requestsPerSecond ≤ 0)) ∧
    (∀ ca, NewContentAggregator fetcher processor workerCount requestsPerSecond = some ca →
      fetcher = some ca.fetcher ∧ processor = some ca.processor ∧
      ca.workerCount = workerCount) ∧
    (∀ f p, NewContentAggregator fetcher processor 0 requestsPerSecond = none ∧
      NewContentAggregator (some f) (some p) 0 requestsPerSecond = none) := by
  refine ⟨?_, ?_, ?_⟩
  · cases fetcher <;> cases processor <;> simp [NewContentAggregator]
    by_cases h1 : workerCount ≤ 0 <;> by_cases h2 : requestsPerSecond ≤ 0 <;> simp [h1, h2]
  · intro ca h
    cases fetcher <;> cases processor <;> simp [NewContentAggregator] at h
    obtain ⟨_, _, rfl⟩ := h
    simp
  · intro f p
    cases fetcher <;> cases processor <;> simp [NewContentAggregator]

/-! ### Concurrent calls of `Shutdown` -/

theorem getElem?_set_cases {α : Type} {l : List α} {c c' : Nat} {x y : α}
    (h : (l.set c x)[c']? = some y) : (c' = c ∧ y = x) ∨ (c' ≠ c ∧ l[c']? = some y) := by
  rw [List.getElem?_set] at h
  by_cases hc : c = c'
  · subst hc
    simp only [if_true] at h
    split at h
    · exact Or.inl ⟨rfl, (Option.some.inj h).symm⟩
    · cases h
  · simp only [hc, if_false] at h
    exact Or.inr ⟨fun e => hc e.symm, h⟩

theorem getElem?_set_of_some {α : Type} {l : List α} {c : Nat} {x y : α}
    (h : l[c]? = some y) : (l.set c x)[c]? = some x := by
  have hlt : c < l.length := (List.getElem?_eq_some_iff.1 h).1
  simp [List.getElem?_set, hlt]

theorem shutdownInit_inv (ca : ContentAggregator) (n : Nat)
    (hlive : ca.shutdownOnce = false) (hopen : ca.shutdown = false) :
    ShutdownInv (ShutdownSys.init ca n) := by
  have hall : ∀ (c : Nat) (st : CallerState),
      (List.replicate n CallerState.calling)[c]? = some st → st = CallerState.calling := by
    intro c st h
    exact List.eq_of_mem_replicate (List.getElem?_mem h)
  refine ⟨rfl, ?_, ?_, ?_, ?_, ?_, ?_⟩
  · intro c h
    rcases h with h | h <;> cases hall c _ h
  · intro h hm
    cases hm
  · intro c h
    cases hall c _ h
  · intro c h
    cases hall c _ h
  · intro _
    exact Or.inr ⟨hlive, hopen, rfl, rfl⟩
  · intro c h
    cases hall c _ h

theorem shutdownStep_inv {s s' : ShutdownSys} {a : ShutdownAction}
    (hI : ShutdownInv s) (h : shutdownStep s a = some s') : ShutdownInv s' := by
  cases a with
  | load c =>
    simp only [shutdownStep] at h
    split at h
    · rename_i hc
      split at h
      · rename_i hd
        cases h
        refine ⟨hI.noPanic, ?_, ?_, ?_, ?_, hI.free, ?_⟩
        · intro c' h'
          rcases h' with h' | h' <;> rcases getElem?_set_cases h' with ⟨_, e⟩ | ⟨_, e⟩
          · cases e
          · exact hI.holder c' (Or.inl e)
          · cases e
          · exact hI.holder c' (Or.inr e)
        · intro m hm
          have := (hI.held m hm).1
          rw [hd] at this
          cases this
        · intro c' h'
          rcases getElem?_set_cases h' with ⟨_, e⟩ | ⟨_, e⟩
          · cases e
          · exact hI.closingPhase c' e
        · intro c' h'
          rcases getElem?_set_cases h' with ⟨_, e⟩ | ⟨_, e⟩
          · cases e
          · exact hI.waitingPhase c' e
        · intro c' _
          exact hd
      · cases h
        refine ⟨hI.noPanic, ?_, ?_, ?_, ?_, hI.free, ?_⟩
        · intro c' h'
          rcases h' with h' | h' <;> rcases getElem?_set_cases h' with ⟨_, e⟩ | ⟨_, e⟩
          · cases e
          · exact hI.holder c' (Or.inl e)
          · cases e
          · exact hI.holder c' (Or.inr e)
        · intro m hm
          refine ⟨(hI.held m hm).1, ?_⟩
          have hne : m ≠ c := by
            rintro rfl
            rcases (hI.held m hm).2 with e | e <;> rw [hc] at e <;> cases e
          rcases (hI.held m hm).2 with e | e
          · exact Or.inl (by rw [List.getElem?_set_ne (Ne.symm hne)]; exact e)
          · exact Or.inr (by rw [List.getElem?_set_ne (Ne.symm hne)]; exact e)
        · intro c' h'
          rcases getElem?_set_cases h' with ⟨_, e⟩ | ⟨_, e⟩
          · cases e
          · exact hI.closingPhase c' e
        · intro c' h'
          rcases getElem?_set_cases h' with ⟨_, e⟩ | ⟨_, e⟩
          · cases e
          · exact hI.waitingPhase c' e
        · intro c' h'
          rcases getElem?_set_cases h' with ⟨_, e⟩ | ⟨_, e⟩
          · cases e
          · exact hI.returned c' e
    · cases h
  | lock c =>
    simp only [shutdownStep] at h
    split at h
    · rename_i hc
      split at h
      · cases h
      · rename_i hm
        have hnone : ∀ c' : Nat, ¬ (s.callers[c']? = some CallerState.closing ∨
            s.callers[c']? = some CallerState.waiting) := by
          intro c' h'
          have := hI.holder c' h'
          rw [hm] at this
          cases this
        split at h
        · rename_i hd
          cases h
          refine ⟨hI.noPanic, ?_, ?_, ?_, ?_, hI.free, ?_⟩
          · intro c' h'
            rcases h' with h' | h' <;> rcases getElem?_set_cases h' with ⟨_, e⟩ | ⟨_, e⟩
            · cases e
            · exact hI.holder c' (Or.inl e)
            · cases e
            · exact hI.holder c' (Or.inr e)
          · intro m hm'
            rw [hm] at hm'
            cases hm'
          · intro c' h'
            rcases getElem?_set_cases h' with ⟨_, e⟩ | ⟨_, e⟩
            · cases e
            · exact hI.closingPhase c' e
          · intro c' h'
            rcases getElem?_set_cases h' with ⟨_, e⟩ | ⟨_, e⟩
            · cases e
            · exact hI.waitingPhase c' e
          · intro c' _
            exact hd
        · rename_i hd
          have hd' : s.onceDone = false := by
            cases hx : s.onceDone with
            | true => exact absurd hx hd
            | false => rfl
          cases h
          have hfree : s.shutdown = false ∧ s.closes = 0 ∧ s.waits = 0 := by
            rcases hI.free hm with ⟨h1, _⟩ | ⟨_, h2⟩
            · rw [hd'] at h1
              cases h1
            · exact h2
          refine ⟨hI.noPanic, ?_, ?_, ?_, ?_, ?_, ?_⟩
          · intro c' h'
            rcases h' with h' | h' <;> rcases getElem?_set_cases h' with ⟨e1, _⟩ | ⟨_, e⟩
            · rw [e1]
            · exact absurd (Or.inl e) (hnone c')
            · rw [e1]
            · exact absurd (Or.inr e) (hnone c')
          · intro m hm'
            cases hm'
            exact ⟨hd', Or.inl (getElem?_set_of_some hc)⟩
          · intro c' h'
            rcases getElem?_set_cases h' with ⟨_, _⟩ | ⟨_, e⟩
            · exact hfree
            · exact absurd (Or.inl e) (hnone c')
          · intro c' h'
            rcases getElem?_set_cases h' with ⟨_, e⟩ | ⟨_, e⟩
            · cases e
            · exact absurd (Or.inr e) (hnone c')
          · intro hm'
            cases hm'
          · intro c' h'
            rcases getElem?_set_cases h' with ⟨_, e⟩ | ⟨_, e⟩
            · cases e
            · exact hI.returned c' e
    · cases h
  | close c =>
    simp only [shutdownStep] at h
    split at h
    · rename_i hc
      have hph := hI.closingPhase c hc
      have hmx := hI.holder c (Or.inl hc)
      have hother : ∀ c' : Nat, c' ≠ c → ¬ (s.callers[c']? = some CallerState.closing ∨
          s.callers[c']? = some CallerState.waiting) := by
        intro c' hne h'
        have := hI.holder c' h'
        rw [hmx] at this
        exact hne (Option.some.inj this).symm
      split at h
      · rename_i hs
        rw [hph.1] at hs
        cases hs
      · cases h
        refine ⟨hI.noPanic, ?_, ?_, ?_, ?_, ?_, ?_⟩
        · intro c' h'
          rcases h' with h' | h' <;> rcases getElem?_set_cases h' with ⟨e1, _⟩ | ⟨hne, e⟩
          · rw [e1]; exact hmx
          · exact absurd (Or.inl e) (hother c' hne)
          · rw [e1]; exact hmx
          · exact absurd (Or.inr e) (hother c' hne)
        · intro m hm
          have hmc : m = c := by
            have : s.mutex = some m := hm
            rw [hmx] at this
            exact (Option.some.inj this).symm
          subst hmc
          exact ⟨(hI.held m hm).1, Or.inr (getElem?_set_of_some hc)⟩
        · intro c' h'
          rcases getElem?_set_cases h' with ⟨_, e⟩ | ⟨hne, e⟩
          · cases e
          · exact absurd (Or.inl e) (hother c' hne)
        · intro c' h'
          rcases getElem?_set_cases h' with ⟨_, _⟩ | ⟨hne, e⟩
          · exact ⟨rfl, by show s.closes + 1 = 1; rw [hph.2.1], hph.2.2⟩
          · exact absurd (Or.inr e) (hother c' hne)
        · intro hm
          have : s.mutex = none := hm
          rw [hmx] at this
          cases this
        · intro c' h'
          rcases getElem?_set_cases h' with ⟨_, e⟩ | ⟨_, e⟩
          · cases e
          · exact hI.returned c' e
    · cases h
  | waitReturn c =>
    simp only [shutdownStep] at h
    split at h
    · rename_i hc
      have hph := hI.waitingPhase c hc
      have hmx := hI.holder c (Or.inr hc)
      have hother : ∀ c' : Nat, c' ≠ c → ¬ (s.callers[c']? = some CallerState.closing ∨
          s.callers[c']? = some CallerState.waiting) := by
        intro c' hne h'
        have := hI.holder c' h'
        rw [hmx] at this
        exact hne (Option.some.inj this).symm
      split at h
      · rename_i hwg
        cases h
        refine ⟨hI.noPanic, ?_, ?_, ?_, ?_, ?_, ?_⟩
        · intro c' h'
          rcases h' with h' | h' <;> rcases getElem?_set_cases h' with ⟨_, e⟩ | ⟨hne, e⟩
          · cases e
          · exact absurd (Or.inl e) (hother c' hne)
          · cases e
          · exact absurd (Or.inr e) (hother c' hne)
        · intro m hm
          cases hm
        · intro c' h'
          rcases getElem?_set_cases h' with ⟨_, e⟩ | ⟨hne, e⟩
          · cases e
          · exact absurd (Or.inl e) (hother c' hne)
        · intro c' h'
          rcases getElem?_set_cases h' with ⟨_, e⟩ | ⟨hne, e⟩
          · cases e
          · exact absurd (Or.inr e) (hother c' hne)
        · intro _
          exact Or.inl ⟨rfl, hph.1, hph.2.1, by show s.waits + 1 = 1; rw [hph.2.2], hwg⟩
        · intro c' _
          rfl
      · cases h
    · cases h
  | workerDone =>
    simp only [shutdownStep] at h
    split at h
    · cases h
    · rename_i hwg
      cases h
      refine ⟨hI.noPanic, hI.holder, hI.held, hI.closingPhase, hI.waitingPhase, ?_,
        hI.returned⟩
      intro hm
      rcases hI.free hm with ⟨_, _, _, _, h0⟩ | h2
      · exact absurd h0 hwg
      · exact Or.inr h2

theorem shutdownRun_inv {s s' : ShutdownSys} {sched : List ShutdownAction}
    (hI : ShutdownInv s) (h : shutdownRun s sched = some s') : ShutdownInv s' := by
  induction sched generalizing s with
  | nil =>
    simp only [shutdownRun, Option.some.injEq] at h
    exact h ▸ hI
  | cons a as ih =>
    simp only [shutdownRun] at h
    split at h
    · cases h
    · rename_i s1 hs1
      exact ih (shutdownStep_inv hI hs1) h

/-- C11: when `n` goroutines call `Shutdown` concurrently on a live aggregator,
then on every interleaving of their steps and of the returns of the workers no
call panics, `ca.shutdown` is closed at most once and `ca.wg.Wait()` returns at
most once, and once any caller has returned the channel has been closed exactly
once, the wait has returned exactly once and the counter of live workers is
zero. -/
theorem shutdown_concurrent_safe (ca : ContentAggregator) (n : Nat)
    (sched : List ShutdownAction) (s : ShutdownSys)
    (hlive : ca.shutdownOnce = false) (hopen : ca.shutdown = false)
    (hrun : shutdownRun (ShutdownSys.init ca n) sched = some s) :
    s.panicked = false ∧ s.closes ≤ 1 ∧ s.waits ≤ 1 ∧
    ∀ c : Nat, s.callers[c]? = some CallerState.returned →
      s.wg = 0 ∧ s.shutdown = true ∧ s.closes = 1 ∧ s.waits = 1 := by
  have hI := shutdownRun_inv (shutdownInit_inv ca n hlive hopen) hrun
  have hdone : s.onceDone = true →
      s.wg = 0 ∧ s.shutdown = true ∧ s.closes = 1 ∧ s.waits = 1 := by
    intro hd
    cases hm : s.mutex with
    | some m =>
      have := (hI.held m hm).1
      rw [hd] at this
      cases this
    | none =>
      rcases hI.free hm with ⟨_, h2, h3, h4, h5⟩ | ⟨h1, _⟩
      · exact ⟨h5, h2, h3, h4⟩
      · rw [hd] at h1
        cases h1
  have hcount : s.closes ≤ 1 ∧ s.waits ≤ 1 := by
    cases hm : s.mutex with
    | some m =>
      rcases (hI.held m hm).2 with e | e
      · have := hI.closingPhase m e
        omega
      · have := hI.waitingPhase m e
        omega
    | none =>
      rcases hI.free hm with ⟨_, _, h3, h4, _⟩ | ⟨_, _, h3, h4⟩ <;> omega
  exact ⟨hI.noPanic, hcount.1, hcount.2, fun c hc => hdone (hI.returned c hc)⟩

/-- C11 for three callers and two live workers. -/
theorem shutdown_concurrent_safe_witness :
    ({ demoAggregator with wg := 2 } : ContentAggregator).shutdownOnce = false ∧
    ({ demoAggregator with wg := 2 } : ContentAggregator).shutdown = false ∧
    shutdownRun (ShutdownSys.init { demoAggregator with wg := 2 } 3)
      concurrentShutdownSchedule = some concurrentShutdownFinal ∧
    concurrentShutdownFinal.callers =
      [CallerState.returned, CallerState.returned, CallerState.returned] ∧
    concurrentShutdownFinal.panicked = false ∧ concurrentShutdownFinal.closes ≤ 1 ∧
    concurrentShutdownFinal.waits ≤ 1 ∧
    ∀ c : Nat, concurrentShutdownFinal.callers[c]? = some CallerState.returned →
      concurrentShutdownFinal.wg = 0 ∧ concurrentShutdownFinal.shutdown = true ∧
      concurrentShutdownFinal.closes = 1 ∧ concurrentShutdownFinal.waits = 1 :=
  ⟨rfl, rfl, by decide, by decide,
    shutdown_concurrent_safe { demoAggregator with wg := 2 } 3 concurrentShutdownSchedule
      concurrentShutdownFinal rfl rfl (by decide)⟩


/-! ### The queues are never full -/

/-- What one step does to the queue `jobs` and to the producer's counter. -/
theorem step_jobs {ca : ContentAggregator} {s s' : Batch} {a : Action}
    (h : step ca s a = some s') :
    s'.urls.take s'.next = s.urls.take s.next ++ sentBy a s' ∧
    receivedBy a s ++ s'.jobs.buf = s.jobs.buf ++ sentBy a s' := by
  cases a with
  | produce =>
    simp only [step] at h
    by_cases hc : s.jobs.closed = true
    · simp [hc] at h
    · cases hu : s.urls[s.next]? with
      | none => simp [hc, hu] at h
      | some u =>
        by_cases hroom : s.jobs.buf.length < s.jobs.cap
        · simp [hc, hu, Chan.send, hroom] at h
          subst h
          simp [sentBy, receivedBy, List.take_succ, hu]
        · simp [hc, hu, Chan.send, hroom] at h
  | _ =>
    simp only [step, Batch.emitError, Batch.emitResult] at h
    (repeat' split at h) <;>
      first
      | (cases h; simp [sentBy, receivedBy, *])
      | cases h


theorem run_jobs {ca : ContentAggregator} :
    ∀ (sched : List Action) (s s' : Batch), run ca s sched = some s' →
      s'.urls.take s'.next = s.urls.take s.next ++ jobsSent ca s sched ∧
      jobsReceived ca s sched ++ s'.jobs.buf = s.jobs.buf ++ jobsSent ca s sched := by
  intro sched
  induction sched with
  | nil =>
    intro s s' h
    cases h
    simp [jobsSent, jobsReceived]
  | cons a rest ih =>
    intro s s' h
    simp only [run] at h
    cases hs : step ca s a with
    | none =>
      rw [hs] at h
      cases h
    | some s1 =>
      rw [hs] at h
      obtain ⟨h1, h2⟩ := step_jobs hs
      obtain ⟨h3, h4⟩ := ih s1 s' h
      simp only [jobsSent, jobsReceived, hs]
      refine ⟨?_, ?_⟩
      · rw [h3, h1, List.append_assoc]
      · rw [List.append_assoc, h4, ← List.append_assoc, h2, List.append_assoc]

/-- The producer's send finds room: while URLs are left to queue, `jobs` is not
full. -/
theorem Inv.jobs_room {ca : ContentAggregator} {s : Batch} (hI : Inv ca s)
    (hnext : s.next < s.urls.length) : s.jobs.buf.length < s.jobs.cap := by
  have h1 := hI.next_eq
  rw [hI.jobsCap]
  omega

/-- C25: in every state that a call of `FetchAndProcess` over the URLs `urls`
can reach, the outcomes emitted by the workers are at most as many as the URLs
taken from `jobs`, these at most as many as the URLs put on `jobs`, and these at
most `len(urls)`; the URLs put on `jobs` are a prefix of `urls`, in order (and
the URLs taken are a prefix of those, the rest being still queued). The three
queues have capacity `len(urls)`; hence `jobs` is not full while the producer
has a URL left to send, so that its send proceeds, and `results` and `errors`
are not full while a worker holds a URL, so that the send that ends the
worker's round proceeds whatever its outcome. -/
theorem fetchAndProcess_queues_never_full (ca : ContentAggregator) (ctx : Context)
    (urls : List String) (sched : List Action) (s : Batch)
    (hrun : run ca (Batch.init ca ctx urls) sched = some s) :
    (s.emitted.length ≤ (jobsReceived ca (Batch.init ca ctx urls) sched).length ∧
      (jobsReceived ca (Batch.init ca ctx urls) sched).length ≤
        (jobsSent ca (Batch.init ca ctx urls) sched).length ∧
      (jobsSent ca (Batch.init ca ctx urls) sched).length ≤ urls.length) ∧
    (jobsSent ca (Batch.init ca ctx urls) sched =
        urls.take (jobsSent ca (Batch.init ca ctx urls) sched).length ∧
      jobsReceived ca (Batch.init ca ctx urls) sched ++ s.jobs.buf =
        jobsSent ca (Batch.init ca ctx urls) sched) ∧
    (s.jobs.cap = urls.length ∧ s.results.cap = urls.length ∧ s.errors.cap = urls.length) ∧
    (s.jobs.closed = false → s.next < s.urls.length →
      s.jobs.buf.length < s.jobs.cap ∧ (step ca s Action.produce).isSome = true) ∧
    (∀ (w : Nat) (st : WorkerState) (u : String), s.workers[w]? = some st →
      st.inFlight = [u] →
      s.results.buf.length < s.results.cap ∧ s.errors.buf.length < s.errors.cap) ∧
    (∀ (w : Nat) (u : String), s.workers[w]? = some (WorkerState.waiting u) →
      ∀ waitErr, (step ca s (Action.workerWait w waitErr)).isSome = true) ∧
    (∀ (w : Nat) (u : String), s.workers[w]? = some (WorkerState.fetching u) →
      (step ca s (Action.workerFetch w)).isSome = true) ∧
    (∀ (w : Nat) (u : String) (content : List UInt8),
      s.workers[w]? = some (WorkerState.processing u content) →
      ∀ now, (step ca s (Action.workerProcess w now)).isSome = true) := by
  have hI := reachable_inv hrun
  have hurls : s.urls = urls := reachable_urls hrun
  obtain ⟨h1, h2⟩ := run_jobs sched _ s hrun
  have e1 : (Batch.init ca ctx urls).next = 0 := rfl
  have e2 : (Batch.init ca ctx urls).jobs.buf = [] := rfl
  rw [e1, List.take_zero, List.nil_append, hurls] at h1
  rw [e2, List.nil_append] at h2
  have hnext := hI.next_eq
  have hle := hI.next_le
  rw [hurls] at hle
  have hlen1 := congrArg List.length h1
  have hlen2 := congrArg List.length h2
  simp only [List.length_take, List.length_append] at hlen1 hlen2
  rw [Nat.min_eq_left hle] at hlen1
  have hroomW : ∀ (w : Nat) (st : WorkerState) (u : String), s.workers[w]? = some st →
      st.inFlight = [u] →
      s.results.buf.length < s.results.cap ∧ s.errors.buf.length < s.errors.cap :=
    fun w st u hw hu => hI.room hw hu
  refine ⟨⟨by omega, by omega, by omega⟩, ⟨?_, h2⟩,
    ⟨by rw [hI.jobsCap, hurls], by rw [hI.resultsCap, hurls], by rw [hI.errorsCap, hurls]⟩,
    ?_, hroomW, ?_, ?_, ?_⟩
  · rw [← hlen1]
    exact h1.symm
  · intro hopen hlt
    have hr := hI.jobs_room hlt
    refine ⟨hr, ?_⟩
    obtain ⟨u, hu⟩ : ∃ u, s.urls[s.next]? = some u :=
      ⟨s.urls[s.next], List.getElem?_eq_getElem hlt⟩
    simp [step, hopen, hu, Chan.send, hr]
  · intro w u hw waitErr
    obtain ⟨_, hre⟩ := hroomW w _ u hw rfl
    cases waitErr with
    | none => simp [step, hw]
    | some e => simp [step, hw, Batch.emitError, Chan.send, hre]
  · intro w u hw
    obtain ⟨_, hre⟩ := hroomW w _ u hw rfl
    cases hf : ca.fetcher.Fetch s.ctx u with
    | error e => simp [step, hw, hf, Batch.emitError, Chan.send, hre]
    | ok c => simp [step, hw, hf]
  · intro w u content hw now
    obtain ⟨hrr, hre⟩ := hroomW w _ u hw rfl
    cases hp : ca.processor.Process s.ctx content with
    | error e => simp [step, hw, hp, Batch.emitError, Chan.send, hre]
    | ok pd => simp [step, hw, hp, Batch.emitResult, Chan.send, hrr]

/-- C25 at the scenario batch, when the three URLs are queued and each worker
has taken one. -/
theorem fetchAndProcess_queues_never_full_witness :
    run demoAggregator (Batch.init demoAggregator ⟨none⟩ ["ok1", "bad", "ok2"])
      dequeuedSchedule = some scenarioDequeued ∧
    jobsSent demoAggregator (Batch.init demoAggregator ⟨none⟩ ["ok1", "bad", "ok2"])
      dequeuedSchedule = ["ok1", "bad", "ok2"] ∧
    (∀ (w : Nat) (st : WorkerState) (u : String), scenarioDequeued.workers[w]? = some st →
      st.inFlight = [u] →
      scenarioDequeued.results.buf.length < scenarioDequeued.results.cap ∧
        scenarioDequeued.errors.buf.length < scenarioDequeued.errors.cap) :=
  ⟨rfl, by decide,
    (fetchAndProcess_queues_never_full demoAggregator ⟨none⟩ ["ok1", "bad", "ok2"]
      dequeuedSchedule scenarioDequeued rfl).2.2.2.2.1⟩

end Challenge11

/-! ## Challenge 21: binary search -/

namespace Challenge21

/-! ### Reading the array -/

theorem index_of_lt {arr : List Int} {i : Int} (h0 : 0 ≤ i) (h1 : i < arr.length) :
    ∃ v, index arr i = .ok v ∧ arr[i.toNat]? = some v := by
  have hlt : i.toNat < arr.length := by omega
  refine ⟨arr[i.toNat], ?_, List.getElem?_eq_getElem hlt⟩
  have hneg : ¬ i < 0 := by omega
  simp only [index, hneg, if_false, List.getElem?_eq_getElem hlt]

theorem index_ok {arr : List Int} {i v : Int} (h : index arr i = .ok v) :
    0 ≤ i ∧ i < arr.length ∧ arr[i.toNat]? = some v := by
  unfold index at h
  split at h
  · cases h
  · rename_i hneg
    split at h
    · rename_i w hw
      cases h
      have hlt : i.toNat < arr.length := (List.getElem?_eq_some_iff.1 hw).1
      exact ⟨by omega, by omega, hw⟩
    · cases h

theorem sorted_le {arr : List Int} (hs : Sorted arr) {i j : Nat} {a b : Int}
    (hij : i ≤ j) (hi : arr[i]? = some a) (hj : arr[j]? = some b) : a ≤ b := by
  obtain ⟨hil, rfl⟩ := List.getElem?_eq_some_iff.1 hi
  obtain ⟨hjl, rfl⟩ := List.getElem?_eq_some_iff.1 hj
  rcases Nat.lt_or_eq_of_le hij with h | h
  · exact List.pairwise_iff_getElem.1 hs i j hil hjl h
  · subst h
    exact le_refl _

theorem strictlySorted_lt {arr : List Int} (hs : StrictlySorted arr) {i j : Nat} {a b : Int}
    (hij : i < j) (hi : arr[i]? = some a) (hj : arr[j]? = some b) : a < b := by
  obtain ⟨hil, rfl⟩ := List.getElem?_eq_some_iff.1 hi
  obtain ⟨hjl, rfl⟩ := List.getElem?_eq_some_iff.1 hj
  exact List.pairwise_iff_getElem.1 hs i j hil hjl hij

theorem StrictlySorted.sorted {arr : List Int} (hs : StrictlySorted arr) : Sorted arr :=
  List.Pairwise.imp (fun h => le_of_lt h) hs

theorem mem_iff_getElem? {arr : List Int} {x : Int} :
    x ∈ arr ↔ ∃ k : Nat, arr[k]? = some x := by
  constructor
  · intro h
    obtain ⟨k, hk, e⟩ := List.getElem_of_mem h
    exact ⟨k, by rw [List.getElem?_eq_getElem hk, e]⟩
  · rintro ⟨k, hk⟩
    exact List.getElem?_mem hk

/-! ### The search loop -/

/-- The loop of imankhodadi's `BinarySearch` on a sorted array, from any bounds
`0 ≤ left ≤ right + 1`: with enough fuel it returns, reads inside the array
only, and answers an index between the bounds that holds `target`, or `-1` when
no index between the bounds holds it.  `right` may be `len(arr)` when `left` is
an index and `target` is at most the last element. -/
theorem searchLoop_spec {arr : List Int} (target : Int) (hs : Sorted arr) :
    ∀ (fuel : Nat) (left right : Int), 0 ≤ left → left ≤ right + 1 →
      right - left + 1 < fuel →
      (right < arr.length ∨ (right = arr.length ∧ left < arr.length ∧
        ∀ v, arr[arr.length - 1]? = some v → target ≤ v)) →
      ∃ r, Imankhodadi.searchLoop arr target fuel left right = .ok r ∧
        ((left ≤ r ∧ r ≤ right ∧ arr[r.toNat]? = some target) ∨
         (r = -1 ∧ ∀ k : Nat, left ≤ (k : Int) → (k : Int) ≤ right →
            arr[k]? ≠ some target)) := by
  intro fuel
  induction fuel with
  | zero =>
    intro left right _ h1 h2 _
    omega
  | succ fuel ih =>
    intro left right h0 h1 h2 hr
    unfold Imankhodadi.searchLoop
    by_cases hlr : left ≤ right
    · simp only [hlr, if_true]
      have hdiv : (right - left).tdiv 2 = (right - left) / 2 :=
        Int.tdiv_eq_ediv (by omega) (by omega)
      rw [hdiv]
      have hm1 : left ≤ left + (right - left) / 2 := by omega
      have hm2 : left + (right - left) / 2 ≤ right := by omega
      have hm3 : left + (right - left) / 2 < arr.length := by
        rcases hr with hr | ⟨hr, hl, _⟩ <;> omega
      generalize left + (right - left) / 2 = m at hm1 hm2 hm3
      obtain ⟨v, hv, hmv⟩ := index_of_lt (by omega : 0 ≤ m) hm3
      simp only [hv]
      by_cases hvt : v = target
      · simp only [hvt, if_true]
        subst hvt
        exact ⟨m, rfl, Or.inl ⟨hm1, hm2, hmv⟩⟩
      · simp only [hvt, if_false]
        by_cases hlt : target < v
        · simp only [hlt, if_true]
          obtain ⟨r, hr1, hr2⟩ := ih left (m - 1) h0 (by omega) (by omega)
            (Or.inl (by omega))
          refine ⟨r, hr1, ?_⟩
          rcases hr2 with ⟨a, b, c⟩ | ⟨a, b⟩
          · exact Or.inl ⟨a, by omega, c⟩
          · refine Or.inr ⟨a, ?_⟩
            intro k hk1 hk2 hk
            by_cases hkm : (k : Int) ≤ m - 1
            · exact b k hk1 hkm hk
            · have := sorted_le hs (by omega : m.toNat ≤ k) hmv hk
              omega
        · simp only [hlt, if_false]
          have hvlt : v < target := by omega
          have hnext : right < arr.length ∨ (right = arr.length ∧ m + 1 < arr.length ∧
              ∀ v, arr[arr.length - 1]? = some v → target ≤ v) := by
            rcases hr with hr | ⟨hr, hl, hlast⟩
            · exact Or.inl hr
            · refine Or.inr ⟨hr, ?_, hlast⟩
              by_contra hcon
              have hmeq : m.toNat = arr.length - 1 := by omega
              rw [hmeq] at hmv
              have := hlast v hmv
              omega
          obtain ⟨r, hr1, hr2⟩ := ih (m + 1) right (by omega) (by omega) (by omega) hnext
          refine ⟨r, hr1, ?_⟩
          rcases hr2 with ⟨a, b, c⟩ | ⟨a, b⟩
          · exact Or.inl ⟨by omega, b, c⟩
          · refine Or.inr ⟨a, ?_⟩
            intro k hk1 hk2 hk
            by_cases hkm : m + 1 ≤ (k : Int)
            · exact b k hkm hk2 hk
            · have := sorted_le hs (by omega : k ≤ m.toNat) hk hmv
              omega
    · simp only [hlr, if_false]
      exact ⟨-1, rfl, Or.inr ⟨rfl, fun k hk1 hk2 => by omega⟩⟩

theorem searchResult_of_bounds {arr : List Int} {target r right : Int}
    (hright : (arr.length : Int) - 1 ≤ right)
    (h : (0 ≤ r ∧ r ≤ right ∧ arr[r.toNat]? = some target) ∨
      (r = -1 ∧ ∀ k : Nat, (0 : Int) ≤ (k : Int) → (k : Int) ≤ right →
        arr[k]? ≠ some target)) :
    SearchResult arr target r := by
  rcases h with ⟨h1, _, h3⟩ | ⟨h1, h2⟩
  · exact ⟨fun _ => ⟨h1, h3⟩, fun hn => absurd (List.getElem?_mem h3) hn⟩
  · refine ⟨fun hmem => ?_, fun _ => h1⟩
    obtain ⟨k, hk⟩ := mem_iff_getElem?.1 hmem
    have hlt : k < arr.length := (List.getElem?_eq_some_iff.1 hk).1
    exact absurd hk (h2 k (by omega) (by omega))

theorem azs_searchLoop_eq (arr : List Int) (target : Int) :
    ∀ (fuel : Nat) (left right : Int),
      Azs0309.searchLoop arr target fuel left right =
        Imankhodadi.searchLoop arr target fuel left right := by
  intro fuel
  induction fuel with
  | zero => intro left right; rfl
  | succ fuel ih =>
    intro left right
    unfold Azs0309.searchLoop Imankhodadi.searchLoop
    by_cases hlr : left ≤ right
    · simp only [hlr, if_true]
      cases hidx : index arr (left + (right - left).tdiv 2) with
      | error f => rfl
      | ok v =>
        simp only []
        by_cases hvt : target = v
        · subst hvt
          simp only [if_true]
        · have hvt' : ¬ v = target := fun e => hvt e.symm
          simp only [hvt, hvt', if_false]
          by_cases hlt : target < v
          · have hgt : ¬ target > v := by omega
            simp only [hlt, hgt, if_true, if_false]
            exact ih _ _
          · have hgt : target > v := by omega
            simp only [hlt, hgt, if_true, if_false]
            exact ih _ _
    · simp only [hlr, if_false]

theorem okzhp_searchLoop_eq (arr : List Int) (target : Int) :
    ∀ (fuel : Nat) (l r : Int), 0 ≤ l →
      Okzhp.searchLoop arr target fuel l r =
        Imankhodadi.searchLoop arr target fuel l r := by
  intro fuel
  induction fuel with
  | zero => intro l r _; rfl
  | succ fuel ih =>
    intro l r h0
    unfold Okzhp.searchLoop Imankhodadi.searchLoop
    by_cases hlr : l ≤ r
    · simp only [hlr, if_true]
      have hmid : (l + r).tdiv 2 = l + (r - l).tdiv 2 := by
        rw [Int.tdiv_eq_ediv (by omega) (by omega), Int.tdiv_eq_ediv (by omega) (by omega)]
        omega
      rw [hmid]
      have hm : 0 ≤ l + (r - l).tdiv 2 := by
        rw [Int.tdiv_eq_ediv (by omega) (by omega)]
        omega
      generalize l + (r - l).tdiv 2 = m at hm
      cases hidx : index arr m with
      | error f => rfl
      | ok v =>
        simp only []
        by_cases hvt : v = target
        · simp only [hvt, if_true]
        · simp only [hvt, if_false]
          by_cases hlt : v < target
          · have hgt : ¬ target < v := by omega
            simp only [hlt, hgt, if_true, if_false]
            exact ih _ _ (by omega)
          · have hgt : target < v := by omega
            simp only [hlt, hgt, if_true, if_false]
            exact ih _ _ h0
    · simp only [hlr, if_false]

theorem iman_recursive_eq (arr : List Int) (target : Int) :
    ∀ (fuel : Nat) (left right : Int),
      Imankhodadi.BinarySearchRecursive arr target fuel left right =
        Imankhodadi.searchLoop arr target fuel left right := by
  intro fuel
  induction fuel with
  | zero => intro left right; rfl
  | succ fuel ih =>
    intro left right
    unfold Imankhodadi.BinarySearchRecursive Imankhodadi.searchLoop
    by_cases hlr : left ≤ right
    · have hgt : ¬ left > right := by omega
      simp only [hlr, hgt, if_true, if_false]
      cases hidx : index arr (left + (right - left).tdiv 2) with
      | error f => rfl
      | ok v =>
        simp only []
        by_cases hvt : v = target
        · simp only [hvt, if_true]
        · simp only [hvt, if_false]
          by_cases hlt : target < v
          · simp only [hlt, if_true]
            exact ih _ _
          · simp only [hlt, if_false]
            exact ih _ _
    · have hgt : left > right := by omega
      simp only [hlr, hgt, if_true, if_false]

theorem azs_recursive_eq (arr : List Int) (target : Int) :
    ∀ (fuel : Nat) (left right : Int),
      Azs0309.BinarySearchRecursive arr target fuel left right =
        Imankhodadi.searchLoop arr target fuel left right := by
  intro fuel
  induction fuel with
  | zero => intro left right; rfl
  | succ fuel ih =>
    intro left right
    unfold Azs0309.BinarySearchRecursive Imankhodadi.searchLoop
    by_cases hlr : left ≤ right
    · have hgt : ¬ left > right := by omega
      simp only [hlr, hgt, if_true, if_false]
      cases hidx : index arr (left + (right - left).tdiv 2) with
      | error f => rfl
      | ok v =>
        simp only []
        by_cases hvt : target = v
        · subst hvt
          simp only [if_true]
        · have hvt' : ¬ v = target := fun e => hvt e.symm
          simp only [hvt, hvt', if_false]
          by_cases hlt : target < v
          · simp only [hlt, if_true]
            exact ih _ _
          · have hgt' : target > v := by omega
            simp only [hlt, hgt', if_true, if_false]
            exact ih _ _
    · have hgt : left > right := by omega
      simp only [hlr, hgt, if_true, if_false]

theorem sorted_first_le {arr : List Int} (hs : Sorted arr) {first x : Int}
    (hf : arr[0]? = some first) (hx : x ∈ arr) : first ≤ x := by
  obtain ⟨k, hk⟩ := mem_iff_getElem?.1 hx
  exact sorted_le hs (Nat.zero_le k) hf hk

theorem sorted_le_last {arr : List Int} (hs : Sorted arr) {last x : Int}
    (hl : arr[arr.length - 1]? = some last) (hx : x ∈ arr) : x ≤ last := by
  obtain ⟨k, hk⟩ := mem_iff_getElem?.1 hx
  have hlt : k < arr.length := (List.getElem?_eq_some_iff.1 hk).1
  exact sorted_le hs (by omega) hk hl

theorem searchResult_absent {arr : List Int} {target : Int} (h : target ∉ arr) :
    SearchResult arr target (-1) :=
  ⟨fun hmem => absurd hmem h, fun _ => rfl⟩

theorem azs_binarySearch_spec {arr : List Int} (target : Int) (hs : Sorted arr) :
    ∃ r, Azs0309.BinarySearch arr target = .ok r ∧ SearchResult arr target r := by
  unfold Azs0309.BinarySearch
  by_cases hcnt : (arr.length : Int) ≤ 0
  · simp only [hcnt, if_true]
    have hnil : arr = [] := List.eq_nil_of_length_eq_zero (by omega)
    exact ⟨-1, rfl, searchResult_absent (by rw [hnil]; exact List.not_mem_nil _)⟩
  · simp only [hcnt, if_false]
    obtain ⟨first, hf, hf'⟩ := index_of_lt (le_refl (0 : Int)) (by omega : (0 : Int) < arr.length)
    obtain ⟨last, hl, hl'⟩ := index_of_lt (by omega : (0 : Int) ≤ (arr.length : Int) - 1)
      (by omega : (arr.length : Int) - 1 < arr.length)
    have hlidx : ((arr.length : Int) - 1).toNat = arr.length - 1 := by omega
    rw [hlidx] at hl'
    simp only [hf, hl]
    by_cases h1 : target < first
    · simp only [h1, if_true]
      refine ⟨-1, rfl, searchResult_absent fun hmem => ?_⟩
      have := sorted_first_le hs hf' hmem
      omega
    · simp only [h1, if_false]
      by_cases h2 : target > last
      · simp only [h2, if_true]
        refine ⟨-1, rfl, searchResult_absent fun hmem => ?_⟩
        have := sorted_le_last hs hl' hmem
        omega
      · simp only [h2, if_false]
        rw [azs_searchLoop_eq]
        obtain ⟨r, hr1, hr2⟩ := searchLoop_spec target hs (arr.length + 2) 0 arr.length
          (le_refl _) (by omega) (by push_cast; omega)
          (Or.inr ⟨rfl, by omega, fun v hv => by
            rw [hl'] at hv
            cases hv
            omega⟩)
        refine ⟨r, hr1, searchResult_of_bounds (by omega : (arr.length : Int) - 1 ≤ arr.length) ?_⟩
        rcases hr2 with ⟨a, b, c⟩ | ⟨a, b⟩
        · exact Or.inl ⟨a, b, c⟩
        · exact Or.inr ⟨a, b⟩

theorem iman_binarySearch_spec {arr : List Int} (target : Int) (hs : Sorted arr) :
    ∃ r, Imankhodadi.BinarySearch arr target = .ok r ∧ SearchResult arr target r := by
  unfold Imankhodadi.BinarySearch
  obtain ⟨r, hr1, hr2⟩ := searchLoop_spec target hs (arr.length + 1) 0
    ((arr.length : Int) - 1) (le_refl _) (by omega) (by push_cast; omega) (Or.inl (by omega))
  exact ⟨r, hr1, searchResult_of_bounds (le_refl _) hr2⟩

theorem okzhp_binarySearch_spec {arr : List Int} (target : Int) (hs : Sorted arr) :
    ∃ r, Okzhp.BinarySearch arr target = .ok r ∧ SearchResult arr target r := by
  unfold Okzhp.BinarySearch
  by_cases hone : arr.length = 1
  · simp only [hone, if_true]
    obtain ⟨v, hv, hv'⟩ := index_of_lt (le_refl (0 : Int))
      (by omega : (0 : Int) < arr.length)
    simp only [hv]
    have hv0 : arr[0]? = some v := hv'
    by_cases hvt : v = target
    · simp only [hvt, if_true]
      subst hvt
      exact ⟨0, rfl, fun _ => ⟨le_refl _, hv'⟩,
        fun hn => absurd (List.getElem?_mem hv') hn⟩
    · simp only [hvt, if_false]
      refine ⟨-1, rfl, searchResult_absent fun hmem => ?_⟩
      obtain ⟨k, hk⟩ := mem_iff_getElem?.1 hmem
      have hlt : k < arr.length := (List.getElem?_eq_some_iff.1 hk).1
      have hk0 : k = 0 := by omega
      subst hk0
      rw [hv0] at hk
      exact hvt (Option.some.inj hk)
  · simp only [hone, if_false]
    rw [okzhp_searchLoop_eq arr target _ _ _ (le_refl _)]
    obtain ⟨r, hr1, hr2⟩ := searchLoop_spec target hs (arr.length + 1) 0
      ((arr.length : Int) - 1) (le_refl _) (by omega) (by push_cast; omega)
      (Or.inl (by omega))
    exact ⟨r, hr1, searchResult_of_bounds (le_refl _) hr2⟩

/-- C13: on every array sorted in non-decreasing order, the empty one included,
and for every target, each of the three `BinarySearch` functions returns,
without reading outside the array, an index that holds the target when the
target occurs in the array, and `-1` when it does not. -/
theorem binarySearch_correct (arr : List Int) (target : Int) (hs : Sorted arr) :
    (∃ r, Azs0309.BinarySearch arr target = .ok r ∧ SearchResult arr target r) ∧
    (∃ r, Imankhodadi.BinarySearch arr target = .ok r ∧ SearchResult arr target r) ∧
    (∃ r, Okzhp.BinarySearch arr target = .ok r ∧ SearchResult arr target r) :=
  ⟨azs_binarySearch_spec target hs, iman_binarySearch_spec target hs,
    okzhp_binarySearch_spec target hs⟩

/-- C13 on the array of `main` with the target 7, found at index 3, and on the
empty array. -/
theorem binarySearch_correct_witness :
    Sorted mainArr ∧
    Azs0309.BinarySearch mainArr 7 = .ok 3 ∧
    Imankhodadi.BinarySearch mainArr 7 = .ok 3 ∧
    Okzhp.BinarySearch mainArr 7 = .ok 3 ∧
    Azs0309.BinarySearch mainArr 8 = .ok (-1) ∧
    Imankhodadi.BinarySearch [] 8 = .ok (-1) ∧
    ((∃ r, Azs0309.BinarySearch mainArr 7 = .ok r ∧ SearchResult mainArr 7 r) ∧
     (∃ r, Imankhodadi.BinarySearch mainArr 7 = .ok r ∧ SearchResult mainArr 7 r) ∧
     (∃ r, Okzhp.BinarySearch mainArr 7 = .ok r ∧ SearchResult mainArr 7 r)) :=
  ⟨by decide, by decide, by decide, by decide, by decide, by decide,
    binarySearch_correct mainArr 7 (by decide)⟩

/-! ### The recursive searches -/

/-- okzhp's `BinarySearchRecursive` from bounds `0 ≤ left ≤ right < len(arr)`:
with enough fuel it returns, reads inside the array only, and answers an index
between the bounds that holds `target`, or `-1` when no index between the bounds
holds it.  Its guard keeps `left ≤ right` in every recursive call. -/
theorem okzhp_recursive_spec {arr : List Int} (target : Int) (hs : Sorted arr) :
    ∀ (fuel : Nat) (left right : Int), 0 ≤ left → left ≤ right → right < arr.length →
      right - left + 1 < fuel →
      ∃ r, Okzhp.BinarySearchRecursive arr target fuel left right = .ok r ∧
        ((left ≤ r ∧ r ≤ right ∧ arr[r.toNat]? = some target) ∨
         (r = -1 ∧ ∀ k : Nat, left ≤ (k : Int) → (k : Int) ≤ right →
            arr[k]? ≠ some target)) := by
  intro fuel
  induction fuel with
  | zero =>
    intro left right _ h1 _ h2
    omega
  | succ fuel ih =>
    intro left right h0 h1 hlen h2
    unfold Okzhp.BinarySearchRecursive
    have hne : ¬ arr.length = 0 := by omega
    simp only [hne, if_false]
    obtain ⟨vl, hvl, hvl'⟩ := index_of_lt h0 (by omega : left < arr.length)
    obtain ⟨vr, hvr, hvr'⟩ := index_of_lt (by omega : 0 ≤ right) hlen
    simp only [hvl, hvr]
    by_cases hlo : target < vl
    · simp only [hlo, if_true]
      refine ⟨-1, rfl, Or.inr ⟨rfl, fun k hk1 hk2 hk => ?_⟩⟩
      have := sorted_le hs (by omega : left.toNat ≤ k) hvl' hk
      omega
    · simp only [hlo, if_false]
      by_cases hhi : target > vr
      · simp only [hhi, if_true]
        refine ⟨-1, rfl, Or.inr ⟨rfl, fun k hk1 hk2 hk => ?_⟩⟩
        have := sorted_le hs (by omega : k ≤ right.toNat) hk hvr'
        omega
      · simp only [hhi, if_false]
        have hdiv : (left + right).tdiv 2 = (left + right) / 2 :=
          Int.tdiv_eq_ediv (by omega) (by omega)
        rw [hdiv]
        have hm1 : left ≤ (left + right) / 2 := by omega
        have hm2 : (left + right) / 2 ≤ right := by omega
        generalize (left + right) / 2 = mid at hm1 hm2
        obtain ⟨v, hv, hv'⟩ := index_of_lt (by omega : 0 ≤ mid) (by omega : mid < arr.length)
        simp only [hv]
        by_cases hvt : target = v
        · subst hvt
          simp only [if_true]
          exact ⟨mid, rfl, Or.inl ⟨hm1, hm2, hv'⟩⟩
        · simp only [hvt, if_false]
          by_cases hlt : target < v
          · simp only [hlt, if_true]
            have hml : left < mid := by
              by_contra hcon
              have hmeq : mid = left := by omega
              rw [hmeq, hvl'] at hv'
              cases hv'
              exact hlo hlt
            obtain ⟨r, hr1, hr2⟩ := ih left (mid - 1) h0 (by omega) (by omega) (by omega)
            refine ⟨r, hr1, ?_⟩
            rcases hr2 with ⟨a, b, c⟩ | ⟨a, b⟩
            · exact Or.inl ⟨a, by omega, c⟩
            · refine Or.inr ⟨a, fun k hk1 hk2 hk => ?_⟩
              by_cases hkm : (k : Int) ≤ mid - 1
              · exact b k hk1 hkm hk
              · have := sorted_le hs (by omega : mid.toNat ≤ k) hv' hk
                omega
          · simp only [hlt, if_false]
            have hvlt : v < target := by omega
            have hmr : mid < right := by
              by_contra hcon
              have hmeq : mid = right := by omega
              rw [hmeq, hvr'] at hv'
              cases hv'
              omega
            obtain ⟨r, hr1, hr2⟩ := ih (mid + 1) right (by omega) (by omega) hlen (by omega)
            refine ⟨r, hr1, ?_⟩
            rcases hr2 with ⟨a, b, c⟩ | ⟨a, b⟩
            · exact Or.inl ⟨by omega, b, c⟩
            · refine Or.inr ⟨a, fun k hk1 hk2 hk => ?_⟩
              by_cases hkm : mid + 1 ≤ (k : Int)
              · exact b k hkm hk2 hk
              · have := sorted_le hs (by omega : k ≤ mid.toNat) hk hv'
                omega

/-- C14: on every sorted array, the empty one included, and for every target,
each of the three `BinarySearchRecursive` functions called with `left = 0` and
`right = len(arr) - 1` returns at every depth bound above `len(arr)`, without
reading outside the array, an index that holds the target when the target
occurs in the array, and `-1` when it does not. -/
theorem binarySearchRecursive_correct (arr : List Int) (target : Int) (hs : Sorted arr)
    (fuel : Nat) (hfuel : arr.length < fuel) :
    (∃ r, Azs0309.BinarySearchRecursive arr target fuel 0 ((arr.length : Int) - 1) = .ok r ∧
      SearchResult arr target r) ∧
    (∃ r, Imankhodadi.BinarySearchRecursive arr target fuel 0 ((arr.length : Int) - 1) =
      .ok r ∧ SearchResult arr target r) ∧
    (∃ r, Okzhp.BinarySearchRecursive arr target fuel 0 ((arr.length : Int) - 1) = .ok r ∧
      SearchResult arr target r) := by
  obtain ⟨r, hr1, hr2⟩ := searchLoop_spec target hs fuel 0
    ((arr.length : Int) - 1) (le_refl _) (by omega) (by omega) (Or.inl (by omega))
  refine ⟨⟨r, by rw [azs_recursive_eq]; exact hr1, searchResult_of_bounds (le_refl _) hr2⟩,
    ⟨r, by rw [iman_recursive_eq]; exact hr1, searchResult_of_bounds (le_refl _) hr2⟩, ?_⟩
  by_cases hnil : arr.length = 0
  · obtain ⟨n, rfl⟩ : ∃ n, fuel = n + 1 := ⟨fuel - 1, by omega⟩
    have harr : arr = [] := List.eq_nil_of_length_eq_zero hnil
    refine ⟨-1, ?_, searchResult_absent (by rw [harr]; exact List.not_mem_nil _)⟩
    unfold Okzhp.BinarySearchRecursive
    simp only [hnil, if_true]
  · obtain ⟨r', hr1', hr2'⟩ := okzhp_recursive_spec target hs fuel 0
      ((arr.length : Int) - 1) (le_refl _) (by omega) (by omega) (by omega)
    exact ⟨r', hr1', searchResult_of_bounds (le_refl _) hr2'⟩

/-- C14 on the array of `main` with the target 7, and on the empty array. -/
theorem binarySearchRecursive_correct_witness :
    Sorted mainArr ∧ mainArr.length < 11 ∧
    Azs0309.BinarySearchRecursive mainArr 7 11 0 9 = .ok 3 ∧
    Imankhodadi.BinarySearchRecursive mainArr 7 11 0 9 = .ok 3 ∧
    Okzhp.BinarySearchRecursive mainArr 7 11 0 9 = .ok 3 ∧
    Okzhp.BinarySearchRecursive mainArr 8 11 0 9 = .ok (-1) ∧
    Okzhp.BinarySearchRecursive [] 8 1 0 (-1) = .ok (-1) ∧
    ((∃ r, Azs0309.BinarySearchRecursive mainArr 7 11 0 ((mainArr.length : Int) - 1) = .ok r ∧
      SearchResult mainArr 7 r) ∧
    (∃ r, Imankhodadi.BinarySearchRecursive mainArr 7 11 0 ((mainArr.length : Int) - 1) =
      .ok r ∧ SearchResult mainArr 7 r) ∧
    (∃ r, Okzhp.BinarySearchRecursive mainArr 7 11 0 ((mainArr.length : Int) - 1) = .ok r ∧
      SearchResult mainArr 7 r)) :=
  ⟨by decide, by decide, by decide, by decide, by decide, by decide, by decide,
    binarySearchRecursive_correct mainArr 7 (by decide) 11 (by decide)⟩

/-! ### Insert positions -/

theorem mem_take_getElem? {arr : List Int} {n : Nat} {a : Int} (h : a ∈ arr.take n) :
    ∃ k : Nat, k < n ∧ arr[k]? = some a := by
  obtain ⟨k, hk⟩ := mem_iff_getElem?.1 h
  rw [List.getElem?_take] at hk
  split at hk
  · rename_i hlt
    exact ⟨k, hlt, hk⟩
  · cases hk

theorem mem_drop_getElem? {arr : List Int} {n : Nat} {a : Int} (h : a ∈ arr.drop n) :
    ∃ k : Nat, n ≤ k ∧ arr[k]? = some a := by
  obtain ⟨k, hk⟩ := mem_iff_getElem?.1 h
  rw [List.getElem?_drop] at hk
  exact ⟨n + k, Nat.le_add_right n k, hk⟩

/-- Inserting the target at an insert position of a sorted array keeps it
sorted. -/
theorem sorted_insertAt {arr : List Int} {target p : Int} (hs : Sorted arr)
    (hp : InsertPosition arr target p) : Sorted (insertAt arr p target) := by
  obtain ⟨h0, _, hbefore, hafter⟩ := hp
  unfold Sorted insertAt
  rw [List.pairwise_append]
  refine ⟨List.Pairwise.sublist (List.take_sublist _ _) hs, ?_, ?_⟩
  · rw [List.pairwise_cons]
    refine ⟨?_, List.Pairwise.sublist (List.drop_sublist _ _) hs⟩
    intro b hb
    obtain ⟨k, hk, hkb⟩ := mem_drop_getElem? hb
    exact hafter k b (by omega) hkb
  · intro a ha b hb
    obtain ⟨k, hk, hka⟩ := mem_take_getElem? ha
    have h1 : a ≤ target := hbefore k a (by omega) hka
    rcases List.mem_cons.1 hb with rfl | hb
    · exact h1
    · obtain ⟨j, hj, hjb⟩ := mem_drop_getElem? hb
      have h2 : target ≤ b := hafter j b (by omega) hjb
      omega

/-- In a strictly increasing array the position answered is the number of
elements smaller than the target. -/
theorem insertResult_count {arr : List Int} {target p : Int} (hs : StrictlySorted arr)
    (hp : InsertResult arr target p) : p = countSmaller arr target := by
  obtain ⟨⟨h0, hlen, hbefore, hafter⟩, hpresent⟩ := hp
  have htake : ∀ a ∈ arr.take p.toNat, decide (a < target) = true := by
    intro a ha
    obtain ⟨k, hk, hka⟩ := mem_take_getElem? ha
    have h1 : a ≤ target := hbefore k a (by omega) hka
    rcases lt_or_eq_of_le h1 with h | h
    · simpa using h
    · subst h
      have hp' := hpresent (List.getElem?_mem hka)
      have := strictlySorted_lt hs hk hka hp'
      omega
  have hdrop : ∀ a ∈ arr.drop p.toNat, ¬ decide (a < target) = true := by
    intro a ha
    obtain ⟨k, hk, hka⟩ := mem_drop_getElem? ha
    have h1 : target ≤ a := hafter k a (by omega) hka
    simp only [decide_eq_true_eq]
    omega
  unfold countSmaller
  conv => rhs; rw [← List.take_append_drop p.toNat arr]
  rw [List.filter_append, List.filter_eq_self.2 htake, List.filter_eq_nil_iff.2 hdrop,
    List.append_nil, List.length_take]
  omega

/-- The loop of imankhodadi's `FindInsertPosition` on a sorted array, from
bounds `0 ≤ left ≤ right ≤ len(arr)`: with enough fuel it returns, reads inside
the array only, and answers the `p` between the bounds with every element from
`left` to before `p` smaller than `target` and every element from `p` to before
`right` at least `target`. -/
theorem iman_insertLoop_spec {arr : List Int} (target : Int) (hs : Sorted arr) :
    ∀ (fuel : Nat) (left right : Int), 0 ≤ left → left ≤ right → right ≤ arr.length →
      right - left < fuel →
      ∃ p, Imankhodadi.insertLoop arr target fuel left right = .ok p ∧
        left ≤ p ∧ p ≤ right ∧
        (∀ (k : Nat) (v : Int), left ≤ (k : Int) → (k : Int) < p → arr[k]? = some v →
          v < target) ∧
        (∀ (k : Nat) (v : Int), p ≤ (k : Int) → (k : Int) < right → arr[k]? = some v →
          target ≤ v) := by
  intro fuel
  induction fuel with
  | zero =>
    intro left right _ h1 _ h2
    omega
  | succ fuel ih =>
    intro left right h0 h1 hlen h2
    unfold Imankhodadi.insertLoop
    by_cases hlr : left < right
    · simp only [hlr, if_true]
      have hdiv : (right - left).tdiv 2 = (right - left) / 2 :=
        Int.tdiv_eq_ediv (by omega) (by omega)
      rw [hdiv]
      have hm1 : left ≤ left + (right - left) / 2 := by omega
      have hm2 : left + (right - left) / 2 < right := by omega
      generalize left + (right - left) / 2 = mid at hm1 hm2
      obtain ⟨v, hv, hv'⟩ := index_of_lt (by omega : 0 ≤ mid) (by omega : mid < arr.length)
      simp only [hv]
      by_cases hlt : v < target
      · simp only [hlt, if_true]
        obtain ⟨p, hp, hp1, hp2, hp3, hp4⟩ := ih (mid + 1) right (by omega) (by omega) hlen
          (by omega)
        refine ⟨p, hp, by omega, hp2, ?_, hp4⟩
        intro k w hk1 hk2 hkw
        by_cases hkm : mid + 1 ≤ (k : Int)
        · exact hp3 k w hkm hk2 hkw
        · have := sorted_le hs (by omega : k ≤ mid.toNat) hkw hv'
          omega
      · simp only [hlt, if_false]
        obtain ⟨p, hp, hp1, hp2, hp3, hp4⟩ := ih left mid h0 hm1 (by omega) (by omega)
        refine ⟨p, hp, hp1, by omega, hp3, ?_⟩
        intro k w hk1 hk2 hkw
        by_cases hkm : (k : Int) < mid
        · exact hp4 k w hk1 hkm hkw
        · have := sorted_le hs (by omega : mid.toNat ≤ k) hv' hkw
          omega
    · simp only [hlr, if_false]
      exact ⟨left, rfl, le_refl _, h1, fun k v hk1 hk2 => by omega,
        fun k v hk1 hk2 => by omega⟩

theorem insertResult_of_bounds {arr : List Int} {target p : Int} (hs : Sorted arr)
    (h0 : 0 ≤ p) (hlen : p ≤ arr.length)
    (hbefore : ∀ (k : Nat) (v : Int), (k : Int) < p → arr[k]? = some v → v < target)
    (hafter : ∀ (k : Nat) (v : Int), p ≤ (k : Int) → arr[k]? = some v → target ≤ v) :
    InsertResult arr target p := by
  refine ⟨⟨h0, hlen, fun k v hk hv => le_of_lt (hbefore k v hk hv), hafter⟩, ?_⟩
  intro hmem
  obtain ⟨k, hk⟩ := mem_iff_getElem?.1 hmem
  have hklt : k < arr.length := (List.getElem?_eq_some_iff.1 hk).1
  have hpk : p ≤ (k : Int) := by
    by_contra hcon
    have := hbefore k target (by omega) hk
    omega
  have hplt : p.toNat < arr.length := by omega
  have hpv : arr[p.toNat]? = some arr[p.toNat] := List.getElem?_eq_getElem hplt
  have h1 := hafter p.toNat _ (by omega) hpv
  have h2 := sorted_le hs (by omega : p.toNat ≤ k) hpv hk
  rw [hpv]
  congr 1
  omega

theorem iman_findInsertPosition_spec {arr : List Int} (target : Int) (hs : Sorted arr) :
    ∃ p, Imankhodadi.FindInsertPosition arr target = .ok p ∧ InsertResult arr target p := by
  unfold Imankhodadi.FindInsertPosition
  obtain ⟨p, hp, hp1, hp2, hp3, hp4⟩ := iman_insertLoop_spec target hs (arr.length + 1) 0
    arr.length (le_refl _) (by omega) (le_refl _) (by push_cast; omega)
  refine ⟨p, hp, insertResult_of_bounds hs hp1 hp2 (fun k v hk hv => hp3 k v (by omega) hk hv)
    ?_⟩
  intro k v hk hv
  have hklt : k < arr.length := (List.getElem?_eq_some_iff.1 hv).1
  exact hp4 k v hk (by omega) hv

theorem insertResult_of_holds {arr : List Int} {target p : Int} (hs : Sorted arr)
    (h0 : 0 ≤ p) (hp : arr[p.toNat]? = some target) : InsertResult arr target p := by
  have hplt : p.toNat < arr.length := (List.getElem?_eq_some_iff.1 hp).1
  refine ⟨⟨h0, by omega, ?_, ?_⟩, fun _ => hp⟩
  · intro k v hk hv
    exact sorted_le hs (by omega : k ≤ p.toNat) hv hp
  · intro k v hk hv
    exact sorted_le hs (by omega : p.toNat ≤ k) hp hv

/-- The loop of azs0309's `FindInsertPosition` on a sorted array: from bounds
with everything before `left` smaller than `target`, everything after `right`
greater, and `idx = left` once the bounds have crossed, it returns with enough
fuel, reads inside the array only, and answers an insert position. -/
theorem azs_insertLoop_spec {arr : List Int} (target : Int) (hs : Sorted arr) :
    ∀ (fuel : Nat) (left right idx : Int), 0 ≤ left → left ≤ right + 1 →
      right - left + 1 < fuel →
      (right < arr.length ∨ (right = arr.length ∧ left < arr.length ∧
        ∀ v, arr[arr.length - 1]? = some v → target ≤ v)) →
      (∀ (k : Nat) (v : Int), (k : Int) < left → arr[k]? = some v → v < target) →
      (∀ (k : Nat) (v : Int), right < (k : Int) → arr[k]? = some v → target < v) →
      (left ≤ right ∨ idx = left) →
      ∃ p, Azs0309.insertLoop arr target fuel left right idx = .ok p ∧
        InsertResult arr target p := by
  intro fuel
  induction fuel with
  | zero =>
    intro left right idx _ h1 h2
    omega
  | succ fuel ih =>
    intro left right idx h0 h1 h2 hr hbefore hafter hidx
    unfold Azs0309.insertLoop
    by_cases hlr : left ≤ right
    · simp only [hlr, if_true]
      have hdiv : (right - left).tdiv 2 = (right - left) / 2 :=
        Int.tdiv_eq_ediv (by omega) (by omega)
      rw [hdiv]
      have hm1 : left ≤ left + (right - left) / 2 := by omega
      have hm2 : left + (right - left) / 2 ≤ right := by omega
      have hm3 : left + (right - left) / 2 < arr.length := by
        rcases hr with hr | ⟨hr, hl, _⟩ <;> omega
      generalize left + (right - left) / 2 = mid at hm1 hm2 hm3
      obtain ⟨v, hv, hv'⟩ := index_of_lt (by omega : 0 ≤ mid) hm3
      simp only [hv]
      by_cases hvt : target = v
      · subst hvt
        simp only [if_true]
        exact ⟨mid, rfl, insertResult_of_holds hs (by omega) hv'⟩
      · simp only [hvt, if_false]
        by_cases hlt : target < v
        · have hgt : ¬ target > v := by omega
          simp only [hlt, hgt, if_true, if_false]
          refine ih left (mid - 1) mid h0 (by omega) (by omega) (Or.inl (by omega)) hbefore
            ?_ (by omega)
          intro k w hk hkw
          have := sorted_le hs (by omega : mid.toNat ≤ k) hv' hkw
          omega
        · have hgt : target > v := by omega
          simp only [hlt, hgt, if_true, if_false]
          have hnext : right < arr.length ∨ (right = arr.length ∧ mid + 1 < arr.length ∧
              ∀ v, arr[arr.length - 1]? = some v → target ≤ v) := by
            rcases hr with hr | ⟨hr, hl, hlast⟩
            · exact Or.inl hr
            · refine Or.inr ⟨hr, ?_, hlast⟩
              by_contra hcon
              have hmeq : mid.toNat = arr.length - 1 := by omega
              rw [hmeq] at hv'
              have := hlast v hv'
              omega
          refine ih (mid + 1) right (mid + 1) (by omega) (by omega) (by omega) hnext ?_
            hafter (Or.inr rfl)
          intro k w hk hkw
          have := sorted_le hs (by omega : k ≤ mid.toNat) hkw hv'
          omega
    · simp only [hlr, if_false]
      have hidx' : idx = left := by
        rcases hidx with h | h
        · exact absurd h hlr
        · exact h
      subst hidx'
      refine ⟨idx, rfl, insertResult_of_bounds hs h0 ?_ hbefore ?_⟩
      · rcases hr with hr | ⟨_, hl, _⟩ <;> omega
      · intro k w hk hkw
        exact le_of_lt (hafter k w (by omega) hkw)

theorem azs_findInsertPosition_spec {arr : List Int} (target : Int) (hs : Sorted arr) :
    ∃ p, Azs0309.FindInsertPosition arr target = .ok p ∧ InsertResult arr target p := by
  unfold Azs0309.FindInsertPosition
  by_cases hcnt : (arr.length : Int) ≤ 0
  · simp only [hcnt, if_true]
    have hnil : arr = [] := List.eq_nil_of_length_eq_zero (by omega)
    subst hnil
    exact ⟨0, rfl, insertResult_of_bounds hs (le_refl _) (le_refl _)
      (fun k v _ hv => by simp at hv) (fun k v _ hv => by simp at hv)⟩
  · simp only [hcnt, if_false]
    obtain ⟨first, hf, hf'⟩ := index_of_lt (le_refl (0 : Int)) (by omega : (0 : Int) < arr.length)
    obtain ⟨last, hl, hl'⟩ := index_of_lt (by omega : (0 : Int) ≤ (arr.length : Int) - 1)
      (by omega : (arr.length : Int) - 1 < arr.length)
    have hlidx : ((arr.length : Int) - 1).toNat = arr.length - 1 := by omega
    rw [hlidx] at hl'
    have hf0 : arr[0]? = some first := hf'
    simp only [hf, hl]
    by_cases h1 : target < first
    · simp only [h1, if_true]
      refine ⟨0, rfl, insertResult_of_bounds hs (le_refl _) (by omega)
        (fun k v hk _ => by omega) ?_⟩
      intro k v _ hv
      have := sorted_le hs (Nat.zero_le k) hf0 hv
      omega
    · simp only [h1, if_false]
      by_cases h2 : target > last
      · simp only [h2, if_true]
        refine ⟨arr.length, rfl, insertResult_of_bounds hs (by omega) (le_refl _) ?_ ?_⟩
        · intro k v hk hv
          have := sorted_le hs (by omega : k ≤ arr.length - 1) hv hl'
          omega
        · intro k v hk hv
          have hklt : k < arr.length := (List.getElem?_eq_some_iff.1 hv).1
          omega
      · simp only [h2, if_false]
        refine azs_insertLoop_spec target hs (arr.length + 2) 0 arr.length 0 (le_refl _)
          (by omega) (by push_cast; omega)
          (Or.inr ⟨rfl, by omega, fun v hv => by
            rw [hl'] at hv
            cases hv
            omega⟩) (fun k v hk _ => by omega) ?_ (Or.inl (by omega))
        intro k v hk hv
        have hklt : k < arr.length := (List.getElem?_eq_some_iff.1 hv).1
        omega

/-- The loop of okzhp's `FindInsertPosition` on a sorted array, from bounds
`0 ≤ l < r < len(arr)` with `arr[l] ≤ target < arr[r]`: with enough fuel it
returns, reads inside the array only, and answers an insert position (never the
`-1` after the loop). -/
theorem okzhp_insertLoop_spec {arr : List Int} (target : Int) (hs : Sorted arr) :
    ∀ (fuel : Nat) (l r : Int) (vl vr : Int), 0 ≤ l → l < r → r < arr.length →
      r - l < fuel → arr[l.toNat]? = some vl → arr[r.toNat]? = some vr →
      vl ≤ target → target < vr →
      ∃ p, Okzhp.insertLoop arr target fuel l r = .ok p ∧ InsertResult arr target p := by
  intro fuel
  induction fuel with
  | zero =>
    intro l r vl vr _ h1 _ h2
    omega
  | succ fuel ih =>
    intro l r vl vr h0 h1 hlen h2 hvl hvr hle hlt
    unfold Okzhp.insertLoop
    have hlr : l ≤ r := by omega
    simp only [hlr, if_true]
    have hdiv : (l + r).tdiv 2 = (l + r) / 2 := Int.tdiv_eq_ediv (by omega) (by omega)
    rw [hdiv]
    have hm1 : l ≤ (l + r) / 2 := by omega
    have hm2 : (l + r) / 2 < r := by omega
    have hm3 : r - l = 1 → (l + r) / 2 = l := by omega
    have hm4 : ¬ r - l = 1 → l < (l + r) / 2 := by omega
    generalize (l + r) / 2 = mid at hm1 hm2 hm3 hm4
    obtain ⟨v, hv, hv'⟩ := index_of_lt (by omega : 0 ≤ mid) (by omega : mid < arr.length)
    simp only [hv]
    by_cases hvt : v = target
    · simp only [hvt, if_true]
      subst hvt
      exact ⟨mid, rfl, insertResult_of_holds hs (by omega) hv'⟩
    · simp only [hvt, if_false]
      by_cases hvlt : v < target
      · simp only [hvlt, if_true]
        by_cases htmp : r - l = 1
        · simp only [htmp, if_true]
          have hml := hm3 htmp
          refine ⟨r, rfl, insertResult_of_bounds hs (by omega) (by omega) ?_ ?_⟩
          · intro k w hk hkw
            have := sorted_le hs (by omega : k ≤ mid.toNat) hkw hv'
            omega
          · intro k w hk hkw
            have := sorted_le hs (by omega : r.toNat ≤ k) hvr hkw
            omega
        · simp only [htmp, if_false]
          exact ih mid r v vr (by omega) hm2 hlen (by have := hm4 htmp; omega) hv' hvr
            (le_of_lt hvlt) hlt
      · simp only [hvlt, if_false]
        have hgt : target < v := by omega
        by_cases htmp : r - l = 1
        · have hml := hm3 htmp
          rw [hml, hvl] at hv'
          cases hv'
          omega
        · simp only [htmp, if_false]
          exact ih l mid vl v h0 (hm4 htmp) (by omega) (by omega) hvl hv' hle hgt

theorem okzhp_findInsertPosition_spec {arr : List Int} (target : Int) (hs : Sorted arr) :
    ∃ p, Okzhp.FindInsertPosition arr target = .ok p ∧ InsertResult arr target p := by
  unfold Okzhp.FindInsertPosition
  by_cases hcnt : arr.length = 0
  · simp only [hcnt, if_true]
    have hnil : arr = [] := List.eq_nil_of_length_eq_zero hcnt
    subst hnil
    exact ⟨0, rfl, insertResult_of_bounds hs (le_refl _) (le_refl _)
      (fun k v _ hv => by simp at hv) (fun k v _ hv => by simp at hv)⟩
  · simp only [hcnt, if_false]
    obtain ⟨vl, hl, hl'⟩ := index_of_lt (le_refl (0 : Int)) (by omega : (0 : Int) < arr.length)
    obtain ⟨vr, hr, hr'⟩ := index_of_lt (by omega : (0 : Int) ≤ (arr.length : Int) - 1)
      (by omega : (arr.length : Int) - 1 < arr.length)
    have hl0 : arr[0]? = some vl := hl'
    simp only [hl, hr]
    by_cases h1 : target = vr
    · simp only [h1, if_true]
      subst h1
      exact ⟨_, rfl, insertResult_of_holds hs (by omega) hr'⟩
    · simp only [h1, if_false]
      by_cases h2 : target > vr
      · simp only [h2, if_true]
        refine ⟨arr.length, rfl, insertResult_of_bounds hs (by omega) (le_refl _) ?_ ?_⟩
        · intro k v hk hv
          have := sorted_le hs (by omega : k ≤ ((arr.length : Int) - 1).toNat) hv hr'
          omega
        · intro k v hk hv
          have hklt : k < arr.length := (List.getElem?_eq_some_iff.1 hv).1
          omega
      · simp only [h2, if_false]
        by_cases h3 : target < vl
        · simp only [h3, if_true]
          refine ⟨0, rfl, insertResult_of_bounds hs (le_refl _) (by omega)
            (fun k v hk _ => by omega) ?_⟩
          intro k v _ hv
          have := sorted_le hs (Nat.zero_le k) hl0 hv
          omega
        · simp only [h3, if_false]
          have hlen2 : (0 : Int) < (arr.length : Int) - 1 := by
            by_contra hcon
            have h0 : ((arr.length : Int) - 1).toNat = 0 := by omega
            rw [h0, hl0] at hr'
            cases hr'
            omega
          exact okzhp_insertLoop_spec target hs (arr.length + 1) 0 ((arr.length : Int) - 1)
            vl vr (le_refl _) hlen2 (by omega) (by push_cast; omega) hl' hr' (by omega)
            (by omega)

/-- C15: on every sorted array and for every target, each of the three
`FindInsertPosition` functions returns, without reading outside the array, an
index `p` with `0 ≤ p ≤ len(arr)`, every element before `p` at most `target`
and every element at or after `p` at least `target`, so that the array with
`target` inserted at `p` is sorted; `p` holds `target` when `target` occurs,
and on a strictly increasing array `p` is the number of elements smaller than
`target`. -/
theorem findInsertPosition_correct (arr : List Int) (target : Int) (hs : Sorted arr) :
    (∃ p, Azs0309.FindInsertPosition arr target = .ok p ∧ InsertResult arr target p ∧
      Sorted (insertAt arr p target) ∧
      (StrictlySorted arr → p = countSmaller arr target)) ∧
    (∃ p, Imankhodadi.FindInsertPosition arr target = .ok p ∧ InsertResult arr target p ∧
      Sorted (insertAt arr p target) ∧
      (StrictlySorted arr → p = countSmaller arr target)) ∧
    (∃ p, Okzhp.FindInsertPosition arr target = .ok p ∧ InsertResult arr target p ∧
      Sorted (insertAt arr p target) ∧
      (StrictlySorted arr → p = countSmaller arr target)) := by
  obtain ⟨p1, h1, r1⟩ := azs_findInsertPosition_spec target hs
  obtain ⟨p2, h2, r2⟩ := iman_findInsertPosition_spec target hs
  obtain ⟨p3, h3, r3⟩ := okzhp_findInsertPosition_spec target hs
  exact ⟨⟨p1, h1, r1, sorted_insertAt hs r1.1, fun hst => insertResult_count hst r1⟩,
    ⟨p2, h2, r2, sorted_insertAt hs r2.1, fun hst => insertResult_count hst r2⟩,
    ⟨p3, h3, r3, sorted_insertAt hs r3.1, fun hst => insertResult_count hst r3⟩⟩

/-- C15 on the array of `main` with the target 8, to be inserted at index 4. -/
theorem findInsertPosition_correct_witness :
    Sorted mainArr ∧ StrictlySorted mainArr ∧
    Azs0309.FindInsertPosition mainArr 8 = .ok 4 ∧
    Imankhodadi.FindInsertPosition mainArr 8 = .ok 4 ∧
    Okzhp.FindInsertPosition mainArr 8 = .ok 4 ∧
    countSmaller mainArr 8 = 4 ∧
    insertAt mainArr 4 8 = [1, 3, 5, 7, 8, 9, 11, 13, 15, 17, 19] ∧
    Okzhp.FindInsertPosition [1, 2, 2, 3] 2 = .ok 1 ∧
    ((∃ p, Azs0309.FindInsertPosition mainArr 8 = .ok p ∧ InsertResult mainArr 8 p ∧
      Sorted (insertAt mainArr p 8) ∧
      (StrictlySorted mainArr → p = countSmaller mainArr 8)) ∧
    (∃ p, Imankhodadi.FindInsertPosition mainArr 8 = .ok p ∧ InsertResult mainArr 8 p ∧
      Sorted (insertAt mainArr p 8) ∧
      (StrictlySorted mainArr → p = countSmaller mainArr 8)) ∧
    (∃ p, Okzhp.FindInsertPosition mainArr 8 = .ok p ∧ InsertResult mainArr 8 p ∧
      Sorted (insertAt mainArr p 8) ∧
      (StrictlySorted mainArr → p = countSmaller mainArr 8))) :=
  ⟨by decide, by decide, by decide, by decide, by decide, by decide, by decide, by decide,
    findInsertPosition_correct mainArr 8 (by decide)⟩

end Challenge21

/-! ## Challenge 24: longest increasing subsequence -/

namespace Challenge24

/-! ### Subsequences and prefixes -/

theorem sublist_singleton_cases {b : List Int} {x : Int} (h : b.Sublist [x]) :
    b = [] ∨ b = [x] := by
  cases h with
  | cons _ h' =>
    left
    exact List.sublist_nil.1 h'
  | cons₂ _ h' =>
    right
    rw [List.sublist_nil.1 h']

theorem sublist_take_succ_cases {nums l : List Int} {i : Nat} {x : Int}
    (hx : nums[i]? = some x) (h : l.Sublist (nums.take (i + 1))) :
    l.Sublist (nums.take i) ∨ ∃ l'', l = l'' ++ [x] ∧ l''.Sublist (nums.take i) := by
  rw [List.take_succ, hx] at h
  obtain ⟨a, b, hl, ha, hb⟩ := List.sublist_append_iff.1 h
  rcases sublist_singleton_cases hb with rfl | rfl
  · left
    rw [hl, List.append_nil]
    exact ha
  · right
    exact ⟨a, hl, ha⟩

/-- A non-empty subsequence of a prefix ends at some index of the prefix. -/
theorem sublist_take_ends {nums : List Int} :
    ∀ (i : Nat) (l : List Int), l.Sublist (nums.take i) → l ≠ [] →
      ∃ (j : Nat) (l'' : List Int) (x : Int), j < i ∧ nums[j]? = some x ∧
        l = l'' ++ [x] ∧ l''.Sublist (nums.take j) := by
  intro i
  induction i with
  | zero =>
    intro l h hne
    rw [List.take_zero] at h
    exact absurd (List.sublist_nil.1 h) hne
  | succ i ih =>
    intro l h hne
    cases hx : nums[i]? with
    | none =>
      rw [List.take_succ, hx] at h
      simp only [Option.toList_none, List.append_nil] at h
      obtain ⟨j, l'', x, hj, r⟩ := ih l h hne
      exact ⟨j, l'', x, by omega, r⟩
    | some x =>
      rcases sublist_take_succ_cases hx h with h1 | ⟨l'', hl, hl''⟩
      · obtain ⟨j, l'', x, hj, r⟩ := ih l h1 hne
        exact ⟨j, l'', x, by omega, r⟩
      · exact ⟨i, l'', x, by omega, hx, hl, hl''⟩

theorem pairwise_concat {l : List Int} {x : Int} :
    (l ++ [x]).Pairwise (· < ·) ↔ l.Pairwise (· < ·) ∧ ∀ a ∈ l, a < x := by
  rw [List.pairwise_append]
  constructor
  · rintro ⟨h1, _, h3⟩
    exact ⟨h1, fun a ha => h3 a ha x (List.mem_singleton.2 rfl)⟩
  · rintro ⟨h1, h2⟩
    refine ⟨h1, List.pairwise_singleton _ _, fun a ha b hb => ?_⟩
    rw [List.mem_singleton.1 hb]
    exact h2 a ha

theorem le_last_of_pairwise {l : List Int} {y : Int} (h : (l ++ [y]).Pairwise (· < ·)) :
    ∀ a ∈ l ++ [y], a ≤ y := by
  intro a ha
  rcases List.mem_append.1 ha with h1 | h1
  · exact le_of_lt ((pairwise_concat.1 h).2 a h1)
  · rw [List.mem_singleton.1 h1]

/-! ### Subsequences ending at an index -/

theorem EndsAt.sublist {nums l : List Int} {i : Nat} (h : EndsAt nums i l) :
    l.Sublist (nums.take (i + 1)) := by
  obtain ⟨l', x, hx, hl, hsub, _⟩ := h
  rw [List.take_succ, hx, hl]
  exact List.Sublist.append hsub (List.Sublist.refl _)

theorem EndsAt.incSubseq {nums l : List Int} {i : Nat} (h : EndsAt nums i l) :
    IncSubseq nums l := by
  refine ⟨h.sublist.trans (List.take_sublist _ _), ?_⟩
  obtain ⟨_, _, _, _, _, hp⟩ := h
  exact hp

theorem EndsAt.length_pos {nums l : List Int} {i : Nat} (h : EndsAt nums i l) :
    (1 : Int) ≤ l.length := by
  obtain ⟨l', x, _, hl, _, _⟩ := h
  rw [hl, List.length_append, List.length_singleton]
  omega

theorem endsAt_singleton {nums : List Int} {i : Nat} {x : Int} (hx : nums[i]? = some x) :
    EndsAt nums i [x] :=
  ⟨[], x, hx, rfl, List.nil_sublist _, List.pairwise_singleton _ _⟩

/-- A subsequence ending at `j` goes on to a later index holding a greater
element. -/
theorem EndsAt.extend {nums lj : List Int} {i j : Nat} {x y : Int}
    (h : EndsAt nums j lj) (hji : j < i) (hy : nums[j]? = some y) (hx : nums[i]? = some x)
    (hyx : y < x) : EndsAt nums i (lj ++ [x]) := by
  refine ⟨lj, x, hx, rfl, h.sublist.trans (List.take_sublist_take_left nums (by omega)), ?_⟩
  obtain ⟨l', y', hy', hl, _, hp⟩ := h
  rw [hy] at hy'
  cases hy'
  rw [pairwise_concat]
  refine ⟨hp, fun a ha => ?_⟩
  rw [hl] at hp ha
  have := le_last_of_pairwise hp a ha
  omega

/-- Every non-empty strictly increasing subsequence ends at some index. -/
theorem IncSubseq.endsAt {nums l : List Int} (h : IncSubseq nums l) (hne : l ≠ []) :
    ∃ i, i < nums.length ∧ EndsAt nums i l := by
  have hsub : l.Sublist (nums.take nums.length) := by
    rw [List.take_length]
    exact h.1
  obtain ⟨j, l'', x, hj, hx, hl, hl''⟩ := sublist_take_ends nums.length l hsub hne
  exact ⟨j, hj, l'', x, hx, hl, hl'', h.2⟩

/-! ### The dynamic programme -/

theorem getElem?_of_lt_length {α : Type} {l : List α} {k : Nat} (h : k < l.length) :
    ∃ a, l[k]? = some a :=
  ⟨l[k], List.getElem?_eq_getElem h⟩

theorem dpStep_inv {nums dp : List Int} {i j : Nat} (h : DpInner nums i j dp)
    (hji : j < i) (hi : i < nums.length) :
    ∃ dp', dpStep nums i dp j = some dp' ∧ DpInner nums i (j + 1) dp' := by
  obtain ⟨x, hx⟩ := getElem?_of_lt_length hi
  obtain ⟨y, hy⟩ := getElem?_of_lt_length (by omega : j < nums.length)
  obtain ⟨dj, hdj⟩ := getElem?_of_lt_length (by rw [h.len]; omega : j < dp.length)
  obtain ⟨d, hd, ⟨l0, hl0, hl0len⟩, hB⟩ := h.cur
  have hjfin := h.done j dj hji hdj
  -- what a subsequence through index `j` gives
  have hthrough : ∀ (l' : List Int), l'.Sublist (nums.take (j + 1)) →
      (l' ++ [x]).Pairwise (· < ·) →
      ((l' ++ [x]).length : Int) ≤ d ∨ (y < x ∧ ((l' ++ [x]).length : Int) ≤ dj + 1) := by
    intro l' hsub hp
    rcases sublist_take_succ_cases hy hsub with h1 | ⟨l'', hl, hl''⟩
    · exact Or.inl (hB l' x hx h1 hp)
    · right
      have hp' := (pairwise_concat.1 hp)
      have hyx : y < x := hp'.2 y (by rw [hl]; exact List.mem_append_right _ (List.mem_singleton.2 rfl))
      have hends : EndsAt nums j l' := ⟨l'', y, hy, hl, hl'', hp'.1⟩
      have := hjfin.2 l' hends
      refine ⟨hyx, ?_⟩
      rw [List.length_append, List.length_singleton]
      push_cast
      omega
  unfold dpStep
  simp only [hy, hx, hdj, hd]
  by_cases hyx : y < x
  · simp only [hyx, if_true]
    by_cases hup : dj + 1 > d
    · simp only [hup, if_true]
      refine ⟨_, rfl, ?_, ?_, ?_, ?_⟩
      · rw [List.length_set]
        exact h.len
      · intro k e hk hke
        rw [List.getElem?_set_ne (by omega)] at hke
        exact h.done k e hk hke
      · intro k e hk hke
        rw [List.getElem?_set_ne (by omega)] at hke
        exact h.rest k e hk hke
      · refine ⟨dj + 1, ?_, ?_, ?_⟩
        · have hlt : i < dp.length := by rw [h.len]; exact hi
          simp [List.getElem?_set, hlt]
        · obtain ⟨lj, hlj, hljlen⟩ := hjfin.1
          refine ⟨lj ++ [x], hlj.extend hji hy hx hyx, ?_⟩
          rw [List.length_append, List.length_singleton]
          push_cast
          omega
        · intro l' x' hx' hsub hp
          rw [hx] at hx'
          cases hx'
          rcases hthrough l' hsub hp with h1 | ⟨_, h2⟩
          · omega
          · exact h2
    · simp only [hup, if_false]
      refine ⟨dp, rfl, h.len, h.done, h.rest, d, hd, ⟨l0, hl0, hl0len⟩, ?_⟩
      intro l' x' hx' hsub hp
      rw [hx] at hx'
      cases hx'
      rcases hthrough l' hsub hp with h1 | ⟨_, h2⟩
      · exact h1
      · omega
  · simp only [hyx, if_false]
    refine ⟨dp, rfl, h.len, h.done, h.rest, d, hd, ⟨l0, hl0, hl0len⟩, ?_⟩
    intro l' x' hx' hsub hp
    rw [hx] at hx'
    cases hx'
    rcases hthrough l' hsub hp with h1 | ⟨h2, _⟩
    · exact h1
    · exact absurd h2 hyx

theorem isLISEndingAt_one_of_take_nil {nums : List Int} {i : Nat}
    (hi : i < nums.length)
    (hB : ∀ (l' : List Int) (x : Int), nums[i]? = some x → l'.Sublist (nums.take i) →
      (l' ++ [x]).Pairwise (· < ·) → ((l' ++ [x]).length : Int) ≤ 1) :
    IsLISEndingAt nums i 1 := by
  obtain ⟨x, hx⟩ := getElem?_of_lt_length hi
  refine ⟨⟨[x], endsAt_singleton hx, rfl⟩, ?_⟩
  rintro l ⟨l', x', hx', hl, hsub, hp⟩
  rw [hl] at hp ⊢
  exact hB l' x' hx' hsub hp

theorem dpInner_prefix {nums dp : List Int} {i : Nat} (h : DpOuter nums i dp)
    (hi : i < nums.length) :
    ∀ j, j ≤ i → ∃ dp', (List.range j).foldlM (dpStep nums i) dp = some dp' ∧
      DpInner nums i j dp' := by
  intro j
  induction j with
  | zero =>
    intro _
    refine ⟨dp, rfl, h.len, fun k d hk => h.done k d hk, fun k d hk => h.rest k d (by omega),
      ?_⟩
    obtain ⟨d, hd⟩ := getElem?_of_lt_length (by rw [h.len]; exact hi : i < dp.length)
    obtain ⟨x, hx⟩ := getElem?_of_lt_length hi
    have hd1 : d = 1 := h.rest i d (le_refl _) hd
    subst hd1
    refine ⟨1, hd, ⟨[x], endsAt_singleton hx, rfl⟩, ?_⟩
    intro l' x' _ hsub _
    rw [List.take_zero] at hsub
    rw [List.sublist_nil.1 hsub]
    rfl
  | succ j ih =>
    intro hj
    obtain ⟨dp1, hrun, hinv⟩ := ih (by omega)
    obtain ⟨dp2, hstep, hinv2⟩ := dpStep_inv hinv (by omega) hi
    refine ⟨dp2, ?_, hinv2⟩
    rw [List.range_succ, List.foldlM_append, hrun]
    simp only [Option.bind_eq_bind, Option.some_bind, List.foldlM_cons, List.foldlM_nil, hstep]
    rfl

theorem dpInner_inv {nums dp : List Int} {i : Nat} (h : DpOuter nums i dp)
    (hi : i < nums.length) :
    ∃ dp', dpInner nums dp i = some dp' ∧ DpOuter nums (i + 1) dp' := by
  obtain ⟨dp', hrun, hinv⟩ := dpInner_prefix h hi i (le_refl _)
  refine ⟨dp', hrun, hinv.len, ?_, fun k d hk => hinv.rest k d (by omega)⟩
  intro k d hk hkd
  rcases Nat.lt_or_eq_of_le (Nat.le_of_lt_succ hk) with hlt | heq
  · exact hinv.done k d hlt hkd
  · subst heq
    obtain ⟨d', hd', hA, hB⟩ := hinv.cur
    rw [hkd] at hd'
    cases hd'
    refine ⟨hA, ?_⟩
    rintro l ⟨l', x, hx, hl, hsub, hp⟩
    rw [hl] at hp ⊢
    exact hB l' x hx hsub hp

theorem dpTable_prefix {nums : List Int} (hn : 0 < nums.length) :
    ∀ c, c + 1 ≤ nums.length →
      ∃ dp, (List.range' 1 c).foldlM (dpInner nums) (List.replicate nums.length 1) = some dp ∧
        DpOuter nums (c + 1) dp := by
  intro c
  induction c with
  | zero =>
    intro _
    refine ⟨_, rfl, List.length_replicate _ _, ?_, ?_⟩
    · intro k d hk hkd
      have hk0 : k = 0 := by omega
      subst hk0
      have hd1 : d = 1 := List.eq_of_mem_replicate (List.getElem?_mem hkd)
      subst hd1
      refine isLISEndingAt_one_of_take_nil hn ?_
      intro l' x _ hsub _
      rw [List.take_zero] at hsub
      rw [List.sublist_nil.1 hsub]
      rfl
    · intro k d _ hkd
      exact List.eq_of_mem_replicate (List.getElem?_mem hkd)
  | succ c ih =>
    intro hc
    obtain ⟨dp1, hrun, hinv⟩ := ih (by omega)
    obtain ⟨dp2, hstep, hinv2⟩ := dpInner_inv hinv (by omega : c + 1 < nums.length)
    refine ⟨dp2, ?_, hinv2⟩
    rw [List.range'_concat, List.foldlM_append, hrun]
    simp only [Option.bind_eq_bind, Option.some_bind, List.foldlM_cons, List.foldlM_nil]
    have he : 1 + 1 * c = c + 1 := by omega
    rw [he, hstep]
    rfl

/-- The table of the dynamic programme: for a non-empty input the loops run
without a read or write out of range, and every entry `dp[i]` is the length of
a longest strictly increasing subsequence ending at index `i`. -/
theorem dpTable_spec {nums : List Int} (hn : 0 < nums.length) :
    ∃ dp, dpTable nums = some dp ∧ dp.length = nums.length ∧
      ∀ (i : Nat) (d : Int), dp[i]? = some d → IsLISEndingAt nums i d := by
  obtain ⟨dp, hrun, hinv⟩ := dpTable_prefix hn (nums.length - 1) (by omega)
  refine ⟨dp, hrun, hinv.len, ?_⟩
  intro i d hid
  have hlt : i < dp.length := (List.getElem?_eq_some_iff.1 hid).1
  exact hinv.done i d (by rw [hinv.len] at hlt; omega) hid

theorem maxLoop_spec (dp : List Int) :
    ∀ m0 : Int, m0 ≤ maxLoop dp m0 ∧ (∀ x ∈ dp, x ≤ maxLoop dp m0) ∧
      (maxLoop dp m0 = m0 ∨ maxLoop dp m0 ∈ dp) := by
  induction dp with
  | nil =>
    intro m0
    exact ⟨le_refl _, fun x hx => (by cases hx), Or.inl rfl⟩
  | cons a dp ih =>
    intro m0
    unfold maxLoop
    rw [List.foldl_cons]
    by_cases ha : a > m0
    · simp only [ha, if_true]
      obtain ⟨h1, h2, h3⟩ := ih a
      unfold maxLoop at h1 h2 h3
      refine ⟨by omega, ?_, ?_⟩
      · intro x hx
        rcases List.mem_cons.1 hx with rfl | hx
        · exact h1
        · exact h2 x hx
      · right
        rcases h3 with h3 | h3
        · rw [h3]
          exact List.mem_cons_self _ _
        · exact List.mem_cons_of_mem _ h3
    · simp only [ha, if_false]
      obtain ⟨h1, h2, h3⟩ := ih m0
      unfold maxLoop at h1 h2 h3
      refine ⟨h1, ?_, ?_⟩
      · intro x hx
        rcases List.mem_cons.1 hx with rfl | hx
        · omega
        · exact h2 x hx
      · rcases h3 with h3 | h3
        · exact Or.inl h3
        · exact Or.inr (List.mem_cons_of_mem _ h3)


/-- The greatest entry of a table of the lengths of the longest subsequences
ending at each index is the length of a longest increasing subsequence. -/
theorem isLISLength_of_table {nums dp : List Int} {m : Int}
    (hlen : dp.length = nums.length)
    (htab : ∀ (i : Nat) (d : Int), dp[i]? = some d → IsLISEndingAt nums i d)
    (hmem : m ∈ dp) (hmax : ∀ x ∈ dp, x ≤ m) : IsLISLength nums m := by
  constructor
  · obtain ⟨i, hi⟩ := List.mem_iff_getElem?.1 hmem
    obtain ⟨⟨l, hl, hlm⟩, _⟩ := htab i m hi
    exact ⟨l, hl.incSubseq, hlm⟩
  · intro l hl
    by_cases hne : l = []
    · subst hne
      obtain ⟨i, hi⟩ := List.mem_iff_getElem?.1 hmem
      obtain ⟨⟨l0, hl0, hlm⟩, _⟩ := htab i m hi
      have := hl0.length_pos
      simp only [List.length_nil, Nat.cast_zero]
      omega
    · obtain ⟨i, hi, hends⟩ := hl.endsAt hne
      obtain ⟨d, hd⟩ := getElem?_of_lt_length (by rw [hlen]; exact hi : i < dp.length)
      have h1 := (htab i d hd).2 l hends
      have h2 := hmax d (List.getElem?_mem hd)
      omega

theorem isLISLength_nil : IsLISLength [] 0 := by
  refine ⟨⟨[], ⟨List.Sublist.refl _, List.Pairwise.nil⟩, rfl⟩, ?_⟩
  rintro l ⟨hsub, _⟩
  rw [List.sublist_nil.1 hsub]
  rfl

theorem isLISLength_unique {nums : List Int} {a b : Int} (ha : IsLISLength nums a)
    (hb : IsLISLength nums b) : a = b := by
  obtain ⟨⟨la, hla, hea⟩, hua⟩ := ha
  obtain ⟨⟨lb, hlb, heb⟩, hub⟩ := hb
  have h1 := hua lb hlb
  have h2 := hub la hla
  omega

/-- The value `DPLongestIncreasingSubsequence` returns is the length of a
longest strictly increasing subsequence. -/
theorem dpLongest_spec (nums : List Int) :
    ∃ k, DPLongestIncreasingSubsequence nums = some k ∧ IsLISLength nums k := by
  by_cases hn : nums.length = 0
  · have hnil : nums = [] := List.length_eq_zero.1 hn
    subst hnil
    exact ⟨0, rfl, isLISLength_nil⟩
  · obtain ⟨dp, hdp, hlen, htab⟩ := dpTable_spec (Nat.pos_of_ne_zero hn)
    obtain ⟨d0, hd0⟩ :=
      getElem?_of_lt_length (by rw [hlen]; exact Nat.pos_of_ne_zero hn : 0 < dp.length)
    obtain ⟨h1, h2, h3⟩ := maxLoop_spec dp d0
    refine ⟨maxLoop dp d0, ?_, ?_⟩
    · unfold DPLongestIncreasingSubsequence
      simp only [hn, if_false, hdp, hd0]
    · refine isLISLength_of_table hlen htab ?_ h2
      rcases h3 with h3 | h3
      · rw [h3]
        exact List.getElem?_mem hd0
      · exact h3

/-- C16: for every sequence `nums`, `DPLongestIncreasingSubsequence` returns
(without a read or write out of range) the greatest length of a strictly
increasing subsequence of `nums`, which is `0` for the empty sequence; for a
non-empty sequence the table it builds holds at every index `i` the length of
the longest strictly increasing subsequence ending at `i`. On
`[10, 9, 2, 5, 3, 7, 101, 18]` it returns `4` and on seven times `7` it
returns `1`. -/
theorem dpLongestIncreasingSubsequence_correct (nums : List Int) :
    (∃ k, DPLongestIncreasingSubsequence nums = some k ∧ IsLISLength nums k) ∧
    (nums = [] ∨ ∃ dp, dpTable nums = some dp ∧ dp.length = nums.length ∧
      ∀ (i : Nat) (d : Int), dp[i]? = some d → IsLISEndingAt nums i d) ∧
    DPLongestIncreasingSubsequence [] = some 0 ∧
    DPLongestIncreasingSubsequence [10, 9, 2, 5, 3, 7, 101, 18] = some 4 ∧
    DPLongestIncreasingSubsequence [7, 7, 7, 7, 7, 7, 7] = some 1 := by
  refine ⟨dpLongest_spec nums, ?_, rfl, by decide, by decide⟩
  by_cases hn : nums.length = 0
  · exact Or.inl (List.length_eq_zero.1 hn)
  · exact Or.inr (dpTable_spec (Nat.pos_of_ne_zero hn))

/-! ### The tails array -/

/-- The binary search of `sort.Search` on a strictly increasing slice returns
the first position whose element is at least `x` (the length if there is
none), without reading out of range and within its bound of rounds. -/
theorem sortSearch_loop (a : List Int) (x : Int)
    (hs : ∀ (p q : Nat) (u v : Int), p < q → a[p]? = some u → a[q]? = some v → u < v) :
    ∀ (fuel i j : Nat), i ≤ j → j ≤ a.length → j - i < fuel →
      (∀ (k : Nat) (t : Int), a[k]? = some t → k < i → t < x) →
      (∀ (k : Nat) (t : Int), a[k]? = some t → j ≤ k → x ≤ t) →
      ∃ pos, searchLoop a x fuel i j = some pos ∧ pos ≤ a.length ∧
        (∀ (k : Nat) (t : Int), a[k]? = some t → k < pos → t < x) ∧
        (∀ (k : Nat) (t : Int), a[k]? = some t → pos ≤ k → x ≤ t) := by
  intro fuel
  induction fuel with
  | zero =>
    intro i j _ _ hf
    omega
  | succ fuel ih =>
    intro i j hij hj hf hlo hhi
    unfold searchLoop
    by_cases hlt : i < j
    · simp only [hlt, if_true]
      have hh1 : i ≤ (i + j) / 2 := by omega
      have hh2 : (i + j) / 2 < j := by omega
      obtain ⟨v, hv⟩ := getElem?_of_lt_length (by omega : (i + j) / 2 < a.length)
      simp only [hv]
      by_cases hvx : v ≥ x
      · simp only [hvx, not_true, if_false]
        refine ih i ((i + j) / 2) hh1 (by omega) (by omega) hlo ?_
        intro k t hk hkh
        rcases Nat.lt_or_eq_of_le hkh with hkl | hke
        · have := hs _ _ _ _ hkl hv hk
          omega
        · rw [← hke, hv] at hk
          cases hk
          exact hvx
      · simp only [hvx, not_false_iff, if_true]
        refine ih ((i + j) / 2 + 1) j (by omega) hj (by omega) ?_ hhi
        intro k t hk hkh
        rcases Nat.lt_or_eq_of_le (Nat.le_of_lt_succ hkh) with hkl | hke
        · have := hs _ _ _ _ hkl hk hv
          omega
        · rw [hke, hv] at hk
          cases hk
          omega
    · simp only [hlt, if_false]
      have hije : i = j := by omega
      subst hije
      exact ⟨i, rfl, hj, hlo, hhi⟩

theorem searchInts_spec (a : List Int) (x : Int)
    (hs : ∀ (p q : Nat) (u v : Int), p < q → a[p]? = some u → a[q]? = some v → u < v) :
    ∃ pos, SearchInts a x = some pos ∧ pos ≤ a.length ∧
      (∀ (k : Nat) (t : Int), a[k]? = some t → k < pos → t < x) ∧
      (∀ (k : Nat) (t : Int), a[k]? = some t → pos ≤ k → x ≤ t) := by
  refine sortSearch_loop a x hs (a.length + 1) 0 a.length (Nat.zero_le _) (le_refl _)
    (by omega) ?_ ?_
  · intro k t _ hk
    omega
  · intro k t hk hkl
    have := (List.getElem?_eq_some_iff.1 hk).1
    omega

theorem tailsInv_nil : TailsInv [] [] := by
  refine ⟨?_, ?_, ?_⟩
  · intro a b u v _ ha
    simp at ha
  · intro k t hk
    simp at hk
  · intro l y hsub
    have := List.sublist_nil.1 hsub
    simp at this

/-- Some strictly increasing subsequence of length `pos + 1` ends in the new
element `x` when every entry of `tails` before `pos` is smaller than `x`. -/
theorem tailsInv_extend {pre tails : List Int} {x : Int} {pos : Nat}
    (h : TailsInv pre tails) (hpos : pos ≤ tails.length)
    (hlt : ∀ (k : Nat) (t : Int), tails[k]? = some t → k < pos → t < x) :
    ∃ l : List Int, (l ++ [x]).Sublist (pre ++ [x]) ∧ (l ++ [x]).Pairwise (· < ·) ∧
      l.length = pos := by
  cases pos with
  | zero =>
    exact ⟨[], List.Sublist.append (List.nil_sublist _) (List.Sublist.refl _),
      List.pairwise_singleton _ _, rfl⟩
  | succ p =>
    obtain ⟨t, ht⟩ := getElem?_of_lt_length (by omega : p < tails.length)
    obtain ⟨l0, hsub, hp, hlen⟩ := h.attained p t ht
    have htx : t < x := hlt p t ht (by omega)
    refine ⟨l0 ++ [t], List.Sublist.append hsub (List.Sublist.refl _), ?_, ?_⟩
    · rw [pairwise_concat]
      refine ⟨hp, fun a ha => ?_⟩
      have := le_last_of_pairwise hp a ha
      omega
    · rw [List.length_append, List.length_singleton, hlen]

/-- One round of the loop of `OptimizedLIS` keeps the invariant: the entry at
the position found by the search becomes `x`, the others stay. -/
theorem tailsInv_step {pre tails tails' : List Int} {x : Int} {pos : Nat}
    (h : TailsInv pre tails) (hpos : pos ≤ tails.length)
    (hlt : ∀ (k : Nat) (t : Int), tails[k]? = some t → k < pos → t < x)
    (hge : ∀ (k : Nat) (t : Int), tails[k]? = some t → pos ≤ k → x ≤ t)
    (hset : ∀ k : Nat, tails'[k]? = if k = pos then some x else tails[k]?) :
    TailsInv (pre ++ [x]) tails' := by
  refine ⟨?_, ?_, ?_⟩
  · intro a b u v hab ha hb
    rw [hset] at ha hb
    by_cases hap : a = pos
    · rw [if_pos hap] at ha
      cases ha
      rw [if_neg (by omega)] at hb
      by_cases hbl : pos < tails.length
      · obtain ⟨tp, htp⟩ := getElem?_of_lt_length hbl
        have h1 := hge pos tp htp (le_refl _)
        have h2 := h.sorted pos b tp v (by omega) htp hb
        omega
      · have := (List.getElem?_eq_some_iff.1 hb).1
        omega
    · rw [if_neg hap] at ha
      by_cases hbp : b = pos
      · rw [if_pos hbp] at hb
        cases hb
        exact hlt a u ha (by omega)
      · rw [if_neg hbp] at hb
        exact h.sorted a b u v hab ha hb
  · intro k t hk
    rw [hset] at hk
    by_cases hkp : k = pos
    · rw [if_pos hkp] at hk
      cases hk
      rw [hkp]
      exact tailsInv_extend h hpos hlt
    · rw [if_neg hkp] at hk
      obtain ⟨l, hsub, hp, hlen⟩ := h.attained k t hk
      exact ⟨l, hsub.trans (List.sublist_append_left _ _), hp, hlen⟩
  · intro l y hsub hp
    obtain ⟨a, b, hl, ha, hb⟩ := List.sublist_append_iff.1 hsub
    rcases sublist_singleton_cases hb with rfl | rfl
    · rw [List.append_nil] at hl
      rw [← hl] at ha
      obtain ⟨t, ht, hty⟩ := h.least l y ha hp
      rw [hset]
      by_cases hlp : l.length = pos
      · rw [if_pos hlp]
        refine ⟨x, rfl, ?_⟩
        have := hge l.length t ht (by omega)
        omega
      · rw [if_neg hlp]
        exact ⟨t, ht, hty⟩
    · obtain ⟨hla, hyx⟩ := List.append_inj' hl rfl
      cases hyx
      subst hla
      have hlen : l.length ≤ pos := by
        rcases List.eq_nil_or_concat l with hnil | ⟨l1, z, hl1⟩
        · rw [hnil]
          exact Nat.zero_le _
        · rw [List.concat_eq_append] at hl1
          subst hl1
          have hp1 := (pairwise_concat.1 hp).1
          have hzx : z < x :=
            (pairwise_concat.1 hp).2 z (List.mem_append_right _ (List.mem_singleton.2 rfl))
          obtain ⟨t1, ht1, ht1z⟩ := h.least l1 z ha hp1
          rw [List.length_append, List.length_singleton]
          by_contra hcon
          have := hge l1.length t1 ht1 (by omega)
          omega
      rw [hset]
      by_cases hlp : l.length = pos
      · rw [if_pos hlp]
        exact ⟨x, rfl, le_refl _⟩
      · rw [if_neg hlp]
        obtain ⟨t, ht⟩ := getElem?_of_lt_length (by omega : l.length < tails.length)
        exact ⟨t, ht, le_of_lt (hlt l.length t ht (by omega))⟩


theorem tailsStep_spec {pre tails : List Int} (x : Int) (h : TailsInv pre tails) :
    ∃ tails', tailsStep tails x = some tails' ∧ TailsInv (pre ++ [x]) tails' := by
  obtain ⟨pos, hsearch, hpos, hlt, hge⟩ := searchInts_spec tails x h.sorted
  unfold tailsStep
  simp only [hsearch]
  by_cases hp : pos = tails.length
  · simp only [hp, if_true]
    refine ⟨_, rfl, tailsInv_step h hpos hlt hge ?_⟩
    intro k
    rw [hp]
    by_cases hk : k = tails.length
    · rw [if_pos hk, hk]
      simp
    · rw [if_neg hk]
      by_cases hkl : k < tails.length
      · rw [List.getElem?_append_left hkl]
      · rw [List.getElem?_eq_none (by omega : tails.length ≤ k)]
        exact List.getElem?_eq_none
          (by rw [List.length_append, List.length_singleton]; omega)
  · have hlt' : pos < tails.length := by omega
    simp only [hp, if_false, hlt', if_true]
    refine ⟨_, rfl, tailsInv_step h hpos hlt hge ?_⟩
    intro k
    rw [List.getElem?_set]
    by_cases hk : k = pos
    · rw [if_pos hk, if_pos hk.symm, if_pos hlt']
    · rw [if_neg hk, if_neg (fun hc => hk hc.symm)]

theorem tailsFold_spec (nums : List Int) :
    ∀ (pre tails : List Int), TailsInv pre tails →
      ∃ tails', nums.foldlM tailsStep tails = some tails' ∧ TailsInv (pre ++ nums) tails' := by
  induction nums with
  | nil =>
    intro pre tails h
    refine ⟨tails, rfl, ?_⟩
    rw [List.append_nil]
    exact h
  | cons x nums ih =>
    intro pre tails h
    obtain ⟨t1, hstep, hinv⟩ := tailsStep_spec x h
    obtain ⟨t2, hrun, hinv2⟩ := ih (pre ++ [x]) t1 hinv
    refine ⟨t2, ?_, ?_⟩
    · rw [List.foldlM_cons, hstep]
      exact hrun
    · rw [List.append_assoc] at hinv2
      exact hinv2

/-- The slice `tails` is always built, and its length is the length of a
longest strictly increasing subsequence. -/
theorem tailsOf_spec (nums : List Int) :
    ∃ tails, tailsOf nums = some tails ∧ TailsInv nums tails ∧
      IsLISLength nums (tails.length : Int) := by
  obtain ⟨tails, hrun, hinv⟩ := tailsFold_spec nums [] [] tailsInv_nil
  rw [List.nil_append] at hinv
  refine ⟨tails, hrun, hinv, ?_, ?_⟩
  · cases hlen : tails.length with
    | zero => exact ⟨[], ⟨List.nil_sublist _, List.Pairwise.nil⟩, rfl⟩
    | succ p =>
      obtain ⟨t, ht⟩ := getElem?_of_lt_length (by omega : p < tails.length)
      obtain ⟨l, hsub, hp, hl⟩ := hinv.attained p t ht
      refine ⟨l ++ [t], ⟨hsub, hp⟩, ?_⟩
      rw [List.length_append, List.length_singleton, hl]
  · rintro l ⟨hsub, hp⟩
    rcases List.eq_nil_or_concat l with hnil | ⟨l1, z, hl1⟩
    · rw [hnil]
      simp
    · rw [List.concat_eq_append] at hl1
      subst hl1
      obtain ⟨t, ht, _⟩ := hinv.least l1 z hsub hp
      have := (List.getElem?_eq_some_iff.1 ht).1
      rw [List.length_append, List.length_singleton]
      omega

/-- C17: for every sequence `nums`, `OptimizedLIS` returns a length (its
binary search and its writes stay in range) and it is the length that
`DPLongestIncreasingSubsequence` returns: the length of the slice `tails` is
the length of a longest strictly increasing subsequence. -/
theorem optimizedLIS_eq_dp (nums : List Int) :
    OptimizedLIS nums = DPLongestIncreasingSubsequence nums ∧
    ∃ tails, tailsOf nums = some tails ∧ OptimizedLIS nums = some (tails.length : Int) ∧
      IsLISLength nums (tails.length : Int) := by
  obtain ⟨tails, hrun, _, hlis⟩ := tailsOf_spec nums
  have hopt : OptimizedLIS nums = some (tails.length : Int) := by
    unfold OptimizedLIS
    rw [hrun]
  refine ⟨?_, tails, hrun, hopt, hlis⟩
  obtain ⟨k, hk, hklis⟩ := dpLongest_spec nums
  rw [hopt, hk, isLISLength_unique hlis hklis]


/-! ### The parent pointers -/

/-- One round of the inner loop of `GetLISElements` writes into `dp` what the
round of `DPLongestIncreasingSubsequence` writes, and keeps the invariant of
the parent pointers. -/
theorem lisStep_fst {nums : List Int} {i j : Nat} {st : List Int × List Nat}
    (h : ParentInv nums i st) (hji : j < i) (hi : i < nums.length) (dp' : List Int)
    (hstep : dpStep nums i st.1 j = some dp') :
    ∃ par', lisStep nums i st j = some (dp', par') ∧ ParentInv nums i (dp', par') := by
  obtain ⟨dp, par⟩ := st
  unfold dpStep at hstep
  unfold lisStep
  simp only at hstep ⊢
  cases hnj : nums[j]? with
  | none => simp [hnj] at hstep
  | some nj =>
    cases hni : nums[i]? with
    | none => simp [hnj, hni] at hstep
    | some ni =>
      simp only [hnj, hni] at hstep ⊢
      by_cases hlt : nj < ni
      · simp only [hlt, if_true] at hstep ⊢
        cases hdj : dp[j]? with
        | none => simp [hdj] at hstep
        | some dj =>
          cases hdi : dp[i]? with
          | none => simp [hdj, hdi] at hstep
          | some di =>
            simp only [hdj, hdi] at hstep ⊢
            by_cases hgt : dj + 1 > di
            · simp only [hgt, if_true] at hstep ⊢
              have hpl : i < par.length := by
                have := h.plen
                simp only at this
                omega
              simp only [hpl, if_true]
              cases hstep
              refine ⟨_, rfl, ?_, ?_, ?_⟩
              · simp only [List.length_set]
                exact h.plen
              · intro k d hk hkd
                simp only at hkd
                rw [List.getElem?_set, if_neg (by omega)] at hkd
                exact h.rest k d hk hkd
              · intro k d hkd
                simp only at hkd ⊢
                rw [List.getElem?_set] at hkd
                by_cases hik : i = k
                · subst hik
                  rw [if_pos rfl] at hkd
                  have hdl : i < dp.length := (List.getElem?_eq_some_iff.1 hdi).1
                  rw [if_pos hdl] at hkd
                  cases hkd
                  right
                  refine ⟨j, nj, ni, ?_, hji, hnj, hni, hlt, ?_⟩
                  · rw [List.getElem?_set, if_pos rfl, if_pos hpl]
                  · rw [List.getElem?_set, if_neg (by omega), hdj]
                    congr 1
                    omega
                · rw [if_neg hik] at hkd
                  by_cases hki : i < k
                  · exact Or.inl (h.rest k d hki hkd)
                  · rcases h.link k d hkd with h1 | ⟨p, y, x, hp, hpk, hy, hx, hyx, hdp⟩
                    · exact Or.inl h1
                    · right
                      simp only at hp hdp
                      refine ⟨p, y, x, ?_, hpk, hy, hx, hyx, ?_⟩
                      · rw [List.getElem?_set, if_neg hik]
                        exact hp
                      · rw [List.getElem?_set, if_neg (by omega)]
                        exact hdp
            · simp only [hgt, if_false] at hstep ⊢
              cases hstep
              exact ⟨par, rfl, h⟩
      · simp only [hlt, if_false] at hstep ⊢
        cases hstep
        exact ⟨par, rfl, h⟩

theorem lisFold_fst {nums : List Int} {i : Nat} (hi : i < nums.length) :
    ∀ (js : List Nat) (st : List Int × List Nat), (∀ j ∈ js, j < i) → ParentInv nums i st →
      ∀ dp', js.foldlM (dpStep nums i) st.1 = some dp' →
        ∃ par', js.foldlM (lisStep nums i) st = some (dp', par') ∧
          ParentInv nums i (dp', par') := by
  intro js
  induction js with
  | nil =>
    intro st _ h dp' hrun
    cases hrun
    exact ⟨st.2, rfl, h⟩
  | cons j js ih =>
    intro st hjs h dp' hrun
    rw [List.foldlM_cons] at hrun
    cases hs : dpStep nums i st.1 j with
    | none =>
      rw [hs] at hrun
      cases hrun
    | some dp1 =>
      rw [hs] at hrun
      obtain ⟨par1, hstep, hinv⟩ :=
        lisStep_fst h (hjs j (List.mem_cons_self _ _)) hi dp1 hs
      obtain ⟨par2, hrun2, hinv2⟩ :=
        ih (dp1, par1) (fun a ha => hjs a (List.mem_cons_of_mem _ ha)) hinv dp' hrun
      refine ⟨par2, ?_, hinv2⟩
      rw [List.foldlM_cons, hstep]
      exact hrun2

theorem lisInner_fst {nums : List Int} {i : Nat} {st : List Int × List Nat}
    (h : ParentInv nums i st) (hi : i < nums.length) (dp' : List Int)
    (hrun : dpInner nums st.1 i = some dp') :
    ∃ par', lisInner nums st i = some (dp', par') ∧ ParentInv nums i (dp', par') :=
  lisFold_fst hi (List.range i) st (fun _ hj => List.mem_range.1 hj) h dp' hrun

theorem ParentInv.mono {nums : List Int} {i : Nat} {st : List Int × List Nat}
    (h : ParentInv nums i st) : ParentInv nums (i + 1) st :=
  ⟨h.plen, fun k d hk => h.rest k d (by omega), h.link⟩

theorem lisTables_prefix {nums : List Int} :
    ∀ c, c + 1 ≤ nums.length → ∀ dp,
      (List.range' 1 c).foldlM (dpInner nums) (List.replicate nums.length 1) = some dp →
      ∃ par, (List.range' 1 c).foldlM (lisInner nums)
          (List.replicate nums.length 1, List.replicate nums.length 0) = some (dp, par) ∧
        ParentInv nums c (dp, par) := by
  intro c
  induction c with
  | zero =>
    intro _ dp hrun
    cases hrun
    refine ⟨_, rfl, List.length_replicate _ _, ?_, ?_⟩
    · intro k d _ hkd
      exact List.eq_of_mem_replicate (List.getElem?_mem hkd)
    · intro k d hkd
      exact Or.inl (List.eq_of_mem_replicate (List.getElem?_mem hkd))
  | succ c ih =>
    intro hc dp hrun
    rw [List.range'_concat, List.foldlM_append] at hrun ⊢
    cases hpre : (List.range' 1 c).foldlM (dpInner nums) (List.replicate nums.length 1) with
    | none =>
      rw [hpre] at hrun
      cases hrun
    | some dp1 =>
      rw [hpre] at hrun
      obtain ⟨par1, hrun1, hinv1⟩ := ih (by omega) dp1 hpre
      have he : 1 + 1 * c = c + 1 := by omega
      rw [he] at hrun ⊢
      simp only [Option.bind_eq_bind, Option.some_bind, List.foldlM_cons,
        List.foldlM_nil] at hrun
      cases hin : dpInner nums dp1 (c + 1) with
      | none =>
        rw [hin] at hrun
        cases hrun
      | some dp2 =>
        rw [hin] at hrun
        have hdd : dp2 = dp := by simpa using hrun
        rw [hdd] at hin
        obtain ⟨par2, hrun2, hinv2⟩ :=
          lisInner_fst hinv1.mono (by omega : c + 1 < nums.length) dp hin
        refine ⟨par2, ?_, hinv2⟩
        rw [hrun1]
        simp only [Option.bind_eq_bind, Option.some_bind, List.foldlM_cons, List.foldlM_nil,
          hrun2]
        rfl

/-- The tables of `GetLISElements`: `dp` is the table of
`DPLongestIncreasingSubsequence`, and `parent` links every entry greater than
`1` to an earlier index. -/
theorem lisTables_spec {nums : List Int} (hn : 0 < nums.length) :
    ∃ dp par, lisTables nums = some (dp, par) ∧ dpTable nums = some dp ∧
      dp.length = nums.length ∧
      (∀ (i : Nat) (d : Int), dp[i]? = some d → IsLISEndingAt nums i d) ∧
      ParentInv nums (nums.length - 1) (dp, par) := by
  obtain ⟨dp, hdp, hlen, htab⟩ := dpTable_spec hn
  obtain ⟨par, hrun, hinv⟩ := lisTables_prefix (nums.length - 1) (by omega) dp hdp
  exact ⟨dp, par, hrun, hdp, hlen, htab, hinv⟩


theorem maxIndexFold_spec (dp : List Int) :
    ∀ (l : List (Nat × Int)) (acc : Int × Nat), (∀ ix ∈ l, dp[ix.1]? = some ix.2) →
      dp[acc.2]? = some acc.1 →
      dp[(l.foldl (fun acc ix => if ix.2 > acc.1 then (ix.2, ix.1) else acc) acc).2]? =
          some (l.foldl (fun acc ix => if ix.2 > acc.1 then (ix.2, ix.1) else acc) acc).1 ∧
        acc.1 ≤ (l.foldl (fun acc ix => if ix.2 > acc.1 then (ix.2, ix.1) else acc) acc).1 ∧
        ∀ ix ∈ l,
          ix.2 ≤ (l.foldl (fun acc ix => if ix.2 > acc.1 then (ix.2, ix.1) else acc) acc).1 := by
  intro l
  induction l with
  | nil =>
    intro acc _ hacc
    exact ⟨hacc, le_refl _, fun ix hix => (by cases hix)⟩
  | cons a l ih =>
    intro acc hl hacc
    rw [List.foldl_cons]
    by_cases hgt : a.2 > acc.1
    · simp only [hgt, if_true]
      obtain ⟨h1, h2, h3⟩ := ih (a.2, a.1) (fun ix hix => hl ix (List.mem_cons_of_mem _ hix))
        (hl a (List.mem_cons_self _ _))
      refine ⟨h1, ?_, ?_⟩
      · simp only at h2
        omega
      · intro ix hix
        rcases List.mem_cons.1 hix with rfl | hix
        · exact h2
        · exact h3 ix hix
    · simp only [hgt, if_false]
      obtain ⟨h1, h2, h3⟩ := ih acc (fun ix hix => hl ix (List.mem_cons_of_mem _ hix)) hacc
      refine ⟨h1, h2, ?_⟩
      · intro ix hix
        rcases List.mem_cons.1 hix with rfl | hix
        · omega
        · exact h3 ix hix

/-- The loop that looks for the greatest entry of `dp` ends with `maxVal` the
greatest entry and `maxIndex` an index holding it. -/
theorem maxIndexLoop_spec {dp : List Int} {d0 : Int} (h0 : dp[0]? = some d0) :
    dp[(maxIndexLoop dp d0 0).2]? = some (maxIndexLoop dp d0 0).1 ∧
      ∀ x ∈ dp, x ≤ (maxIndexLoop dp d0 0).1 := by
  obtain ⟨h1, _, h3⟩ := maxIndexFold_spec dp dp.enum (d0, 0)
    (fun ix hix => List.mem_enum_iff_getElem?.1 hix) h0
  refine ⟨h1, ?_⟩
  intro x hx
  obtain ⟨i, hi⟩ := List.mem_iff_getElem?.1 hx
  exact h3 (i, x) (List.mk_mem_enum_iff_getElem?.2 hi)

theorem drop_set_self (lis : List Int) (k : Nat) (x : Int) (hk : k < lis.length) :
    (lis.set k x).drop k = x :: lis.drop (k + 1) := by
  have hk' : k < (lis.set k x).length := by
    rw [List.length_set]
    exact hk
  rw [List.drop_eq_getElem_cons hk', List.getElem_set_self, List.drop_set_of_lt x lis
    (Nat.lt_succ_self k)]

/-- The walk along the parent pointers: started at an index whose entry of
`dp` is `i + 1`, it reads and writes in range and fills the first `i + 1`
places of `lis` with a strictly increasing subsequence ending at that index. -/
theorem walk_spec {nums dp : List Int} {par : List Nat} {m : Nat}
    (hP : ParentInv nums m (dp, par)) (hlen : dp.length = nums.length) :
    ∀ (i c : Nat) (lis : List Int), dp[c]? = some ((i : Int) + 1) → i < lis.length →
      ∃ l, walk nums par (i + 1) c lis = some (l ++ lis.drop (i + 1)) ∧
        l.length = i + 1 ∧ EndsAt nums c l := by
  intro i
  induction i with
  | zero =>
    intro c lis hc hlis
    have hcl : c < dp.length := (List.getElem?_eq_some_iff.1 hc).1
    obtain ⟨v, hv⟩ := getElem?_of_lt_length (by omega : c < nums.length)
    have hpl := hP.plen
    simp only at hpl
    have hcp : c < par.length := by omega
    have hp : par[c]? = some par[c] := List.getElem?_eq_getElem hcp
    refine ⟨[v], ?_, rfl, endsAt_singleton hv⟩
    unfold walk
    simp only [hv, hp, hlis, if_true]
    unfold walk
    cases lis with
    | nil => simp at hlis
    | cons a rest => simp
  | succ i ih =>
    intro c lis hc hlis
    rcases hP.link c _ hc with h1 | ⟨p, y, x, hp, hpc, hy, hx, hyx, hdp⟩
    · push_cast at h1
      omega
    · simp only at hp hdp
      have hdp' : dp[p]? = some ((i : Int) + 1) := by
        rw [hdp]
        congr 1
        push_cast
        omega
      have hlis' : i < (lis.set (i + 1) x).length := by
        rw [List.length_set]
        omega
      obtain ⟨l', hrun, hl', hends⟩ := ih p (lis.set (i + 1) x) hdp' hlis'
      refine ⟨l' ++ [x], ?_, ?_, hends.extend hpc hy hx hyx⟩
      · unfold walk
        simp only [hx, hp, hlis, if_true]
        rw [hrun, drop_set_self lis (i + 1) x hlis, List.append_assoc]
        rfl
      · rw [List.length_append, List.length_singleton, hl']

/-- The sequence `GetLISElements` returns for a non-empty input. -/
theorem getLIS_spec (nums : List Int) :
    ∃ l, GetLISElements nums = some l ∧ IncSubseq nums l ∧
      IsLISLength nums (l.length : Int) := by
  by_cases hn : nums.length = 0
  · have hnil : nums = [] := List.length_eq_zero.1 hn
    subst hnil
    exact ⟨[], rfl, ⟨List.Sublist.refl _, List.Pairwise.nil⟩, isLISLength_nil⟩
  · obtain ⟨dp, par, htabs, _, hlen, htab, hP⟩ := lisTables_spec (Nat.pos_of_ne_zero hn)
    obtain ⟨d0, hd0⟩ :=
      getElem?_of_lt_length (by rw [hlen]; exact Nat.pos_of_ne_zero hn : 0 < dp.length)
    obtain ⟨hidx, hmax⟩ := maxIndexLoop_spec hd0
    cases hml : maxIndexLoop dp d0 0 with
    | mk maxVal maxIndex =>
      rw [hml] at hidx hmax
      simp only at hidx hmax
      obtain ⟨⟨l0, hl0, hl0len⟩, _⟩ := htab maxIndex maxVal hidx
      have hpos := hl0.length_pos
      have hmv : maxVal.toNat = (maxVal.toNat - 1) + 1 := by omega
      have hdc : dp[maxIndex]? = some (((maxVal.toNat - 1 : Nat) : Int) + 1) := by
        rw [hidx]
        congr 1
        omega
      obtain ⟨l, hrun, hl, hends⟩ := walk_spec hP hlen (maxVal.toNat - 1) maxIndex
        (List.replicate maxVal.toNat 0) hdc (by rw [List.length_replicate]; omega)
      rw [← hmv] at hrun hl
      rw [List.drop_replicate, Nat.sub_self, List.replicate_zero, List.append_nil] at hrun
      refine ⟨l, ?_, hends.incSubseq, ?_⟩
      · unfold GetLISElements
        simp only [hn, if_false, htabs, hd0, hml]
        rw [if_neg (by omega)]
        exact hrun
      · have hlm : (l.length : Int) = maxVal := by
          rw [hl]
          omega
        rw [hlm]
        exact isLISLength_of_table hlen htab (List.getElem?_mem hidx) hmax

/-- C18: for every sequence `nums`, `GetLISElements` returns a sequence (the
walk along the parent pointers and every other access stay in range) that is a
subsequence of `nums`, is strictly increasing, and has the length that
`DPLongestIncreasingSubsequence` returns; for the empty sequence it returns the
empty sequence. On `[10, 9, 2, 5, 3, 7, 101, 18]` it returns
`[2, 5, 7, 101]`. -/
theorem getLISElements_correct (nums : List Int) :
    (∃ l, GetLISElements nums = some l ∧ l.Sublist nums ∧ l.Pairwise (· < ·) ∧
      DPLongestIncreasingSubsequence nums = some (l.length : Int)) ∧
    GetLISElements [] = some [] ∧
    GetLISElements [10, 9, 2, 5, 3, 7, 101, 18] = some [2, 5, 7, 101] := by
  refine ⟨?_, rfl, by decide⟩
  obtain ⟨l, hrun, hinc, hlis⟩ := getLIS_spec nums
  obtain ⟨k, hk, hklis⟩ := dpLongest_spec nums
  refine ⟨l, hrun, hinc.1, hinc.2, ?_⟩
  rw [hk, isLISLength_unique hklis hlis]

end Challenge24

namespace Challenge2

/-! ### Reads, writes and reversed slices -/

theorem index_eq {α : Type} (xs : List α) {i : Int} {k : Nat} (h : i = (k : Int)) :
    index xs i = xs[k]? := by
  subst h
  unfold index
  rw [if_neg (by omega), Int.toNat_ofNat]

theorem assign_eq {α : Type} (xs : List α) (v : α) {i : Int} {k : Nat} (h : i = (k : Int))
    (hk : k < xs.length) : assign xs i v = some (xs.set k v) := by
  subst h
  unfold assign
  rw [Int.toNat_ofNat, if_pos ⟨by omega, hk⟩]

theorem getElem?_some_of_lt {α : Type} {xs : List α} {k : Nat} (h : k < xs.length) :
    ∃ x, xs[k]? = some x :=
  ⟨xs[k], List.getElem?_eq_getElem h⟩

/-- A slice that holds at every place `k` the element of `orig` at the mirrored
place is `orig` reversed. -/
theorem eq_reverse_of_mirror {α : Type} {orig runes : List α}
    (hlen : runes.length = orig.length)
    (h : ∀ k : Nat, k < orig.length → runes[k]? = orig[orig.length - 1 - k]?) :
    runes = orig.reverse := by
  apply List.ext_getElem?
  intro k
  by_cases hk : k < orig.length
  · rw [h k hk, List.getElem?_reverse hk]
  · rw [List.getElem?_eq_none (by omega), List.getElem?_eq_none
      (by rw [List.length_reverse]; omega)]


/-! ### The two-pointer swap -/

/-- The invariant of the two-pointer loop: when `start = a` and
`end = len - 1 - a`, the places outside the two pointers hold the mirrored
elements and the places between them are untouched; the loop then ends, within
its bound and without a read or write out of range, with the reversed slice. -/
theorem swapLoop_spec {α : Type} (orig : List α) :
    ∀ (fuel : Nat) (runes : List α) (a : Nat),
      (orig.length : Int) - 1 - 2 * a < fuel → 0 < fuel → runes.length = orig.length →
      (∀ k : Nat, k < orig.length →
        runes[k]? = if k < a ∨ orig.length < k + a + 1 then orig[orig.length - 1 - k]?
          else orig[k]?) →
      Mayankjustdial.swapLoop fuel runes (a : Int) ((orig.length : Int) - 1 - a) =
        some orig.reverse := by
  intro fuel
  induction fuel with
  | zero =>
    intro runes a _ hpos
    omega
  | succ fuel ih =>
    intro runes a hf _ hlen hinv
    unfold Mayankjustdial.swapLoop
    by_cases hlt : (a : Int) < (orig.length : Int) - 1 - a
    · rw [if_pos hlt]
      have ha : a < orig.length := by omega
      have hb : orig.length - 1 - a < orig.length := by omega
      obtain ⟨x, hx⟩ := getElem?_some_of_lt hb
      obtain ⟨y, hy⟩ := getElem?_some_of_lt ha
      have hrx : runes[orig.length - 1 - a]? = some x := by
        rw [hinv _ hb, if_neg (by omega), hx]
      have hry : runes[a]? = some y := by
        rw [hinv _ ha, if_neg (by omega), hy]
      have hstop : (orig.length : Int) - 1 - a = ((orig.length - 1 - a : Nat) : Int) := by
        omega
      rw [index_eq runes hstop, index_eq runes rfl, hrx, hry]
      simp only
      rw [assign_eq runes x rfl (by omega)]
      simp only
      rw [assign_eq _ y hstop (by rw [List.length_set]; omega)]
      simp only
      have hnext := ih ((runes.set a x).set (orig.length - 1 - a) y) (a + 1)
        (by push_cast; omega) (by omega)
        (by rw [List.length_set, List.length_set]; exact hlen) ?_
      · have e1 : (a : Int) + 1 = ((a + 1 : Nat) : Int) := by push_cast; rfl
        have e2 : (orig.length : Int) - 1 - a - 1 = (orig.length : Int) - 1 - ((a + 1 : Nat) : Int) := by
          push_cast
          omega
        rw [e1, e2]
        exact hnext
      · intro k hk
        rw [List.getElem?_set, List.getElem?_set]
        by_cases hk1 : orig.length - 1 - a = k
        · rw [if_pos hk1, if_pos (by rw [List.length_set]; omega), if_pos (by omega)]
          have : orig.length - 1 - k = a := by omega
          rw [this, hy]
        · rw [if_neg hk1]
          by_cases hk2 : a = k
          · rw [if_pos hk2, if_pos (by omega), if_pos (by omega), ← hk2, hx]
          · rw [if_neg hk2, hinv k hk]
            by_cases hc : k < a ∨ orig.length < k + a + 1
            · rw [if_pos hc, if_pos (by omega)]
            · rw [if_neg hc, if_neg (by omega)]
    · rw [if_neg hlt]
      congr 1
      refine eq_reverse_of_mirror hlen ?_
      intro k hk
      rw [hinv k hk]
      by_cases hc : k < a ∨ orig.length < k + a + 1
      · rw [if_pos hc]
      · rw [if_neg hc]
        have : orig.length - 1 - k = k := by omega
        rw [this]

theorem swapLoop_reverse {α : Type} (orig : List α) :
    Mayankjustdial.swapLoop (orig.length + 1) orig 0 ((orig.length : Int) - 1) =
      some orig.reverse := by
  have h := swapLoop_spec orig (orig.length + 1) orig 0 (by push_cast; omega)
    (Nat.succ_pos _) rfl
    (fun k hk => by rw [if_neg (by omega)])
  simpa using h

theorem mayank_reverseString (s : String) :
    Mayankjustdial.ReverseString s = some (String.mk s.data.reverse) := by
  unfold Mayankjustdial.ReverseString
  simp only [swapLoop_reverse, Option.map_some']


/-! ### The copying loops -/

theorem ismarinated_fold (input : List Char) :
    ∀ j : Nat, j ≤ input.length →
      ∃ res, (List.range j).foldlM (Ismarinated.copyStep input input.length)
          (makeRunes input.length) = some res ∧ res.length = input.length ∧
        ∀ k : Nat, k < j → res[k]? = input[input.length - 1 - k]? := by
  intro j
  induction j with
  | zero =>
    intro _
    refine ⟨makeRunes input.length, rfl, List.length_replicate _ _, ?_⟩
    intro k hk
    omega
  | succ j ih =>
    intro hj
    obtain ⟨res, hrun, hlen, hinv⟩ := ih (by omega)
    obtain ⟨v, hv⟩ := getElem?_some_of_lt (by omega : input.length - 1 - j < input.length)
    have hstep : Ismarinated.copyStep input input.length res j = some (res.set j v) := by
      unfold Ismarinated.copyStep
      rw [index_eq input (by omega : (input.length : Int) - j - 1 =
        ((input.length - 1 - j : Nat) : Int)), hv]
      exact assign_eq res v rfl (by omega)
    refine ⟨res.set j v, ?_, by rw [List.length_set]; exact hlen, ?_⟩
    · rw [List.range_succ, List.foldlM_append, hrun]
      simp only [Option.bind_eq_bind, Option.some_bind, List.foldlM_cons, List.foldlM_nil,
        hstep]
      rfl
    · intro k hk
      rw [List.getElem?_set]
      by_cases hjk : j = k
      · rw [if_pos hjk, if_pos (by omega), ← hjk, hv]
      · rw [if_neg hjk]
        exact hinv k (by omega)

theorem ismarinated_reverseString (s : String) :
    Ismarinated.ReverseString s = some (String.mk s.data.reverse) := by
  obtain ⟨res, hrun, hlen, hinv⟩ := ismarinated_fold s.data s.data.length (le_refl _)
  unfold Ismarinated.ReverseString
  simp only [hrun, Option.map_some']
  rw [eq_reverse_of_mirror hlen hinv]

/-- The invariant of the loop of mellojp: when `i = a` and `j = size - 1 - a`,
the first `a` places of `res` hold the mirrored elements; the loop then ends,
within its bound and without a read or write out of range, with the reversed
slice. -/
theorem copyLoop_spec (runeSlice : List Char) :
    ∀ (fuel : Nat) (res : List Char) (a : Nat), a ≤ runeSlice.length →
      runeSlice.length - a < fuel → res.length = runeSlice.length →
      (∀ k : Nat, k < a → res[k]? = runeSlice[runeSlice.length - 1 - k]?) →
      Mellojp.copyLoop runeSlice runeSlice.length fuel res (a : Int)
        ((runeSlice.length : Int) - 1 - a) = some runeSlice.reverse := by
  intro fuel
  induction fuel with
  | zero =>
    intro res a _ hf
    omega
  | succ fuel ih =>
    intro res a ha hf hlen hinv
    unfold Mellojp.copyLoop
    by_cases hc : (a : Int) < (runeSlice.length : Int) ∧ (runeSlice.length : Int) - 1 - a ≥ 0
    · rw [if_pos hc]
      have hb : runeSlice.length - 1 - a < runeSlice.length := by omega
      obtain ⟨v, hv⟩ := getElem?_some_of_lt hb
      rw [index_eq runeSlice (by omega : (runeSlice.length : Int) - 1 - a =
        ((runeSlice.length - 1 - a : Nat) : Int)), hv]
      simp only
      rw [assign_eq res v rfl (by omega)]
      simp only
      have hnext := ih (res.set a v) (a + 1) (by omega) (by omega)
        (by rw [List.length_set]; exact hlen) ?_
      · have e1 : (a : Int) + 1 = ((a + 1 : Nat) : Int) := by push_cast; rfl
        have e2 : (runeSlice.length : Int) - 1 - a - 1 =
            (runeSlice.length : Int) - 1 - ((a + 1 : Nat) : Int) := by
          push_cast
          omega
        rw [e1, e2]
        exact hnext
      · intro k hk
        rw [List.getElem?_set]
        by_cases hak : a = k
        · rw [if_pos hak, if_pos (by omega), ← hak, hv]
        · rw [if_neg hak]
          exact hinv k (by omega)
    · rw [if_neg hc]
      congr 1
      refine eq_reverse_of_mirror hlen ?_
      intro k hk
      exact hinv k (by omega)

theorem mellojp_reverseString (s : String) :
    Mellojp.ReverseString s = some (String.mk s.data.reverse) := by
  have h := copyLoop_spec s.data (s.data.length + 1) (makeRunes s.data.length) 0
    (Nat.zero_le _) (by omega) (List.length_replicate _ _) (fun k hk => by omega)
  unfold Mellojp.ReverseString
  simp only [Nat.cast_zero, sub_zero] at h
  simp only [h, Option.map_some']


/-- C19: for every string `s` of valid UTF-8 (given by its sequence of
characters), each of the three rune-based `ReverseString` functions
(Mayankjustdial, ismarinated, mellojp) returns, without a read or write out of
range, the string whose sequence of characters is the reverse of that of `s`;
hence reversing twice gives `s` back, the length in characters is preserved,
and the empty string maps to itself. On `"héllo"` each returns `"olléh"`. -/
theorem reverseString_runes_correct (s : String) :
    (Mayankjustdial.ReverseString s = some (String.mk s.data.reverse) ∧
      Ismarinated.ReverseString s = some (String.mk s.data.reverse) ∧
      Mellojp.ReverseString s = some (String.mk s.data.reverse)) ∧
    ((Mayankjustdial.ReverseString s).bind Mayankjustdial.ReverseString = some s ∧
      (Ismarinated.ReverseString s).bind Ismarinated.ReverseString = some s ∧
      (Mellojp.ReverseString s).bind Mellojp.ReverseString = some s) ∧
    ((Mayankjustdial.ReverseString s).map String.length = some s.length ∧
      (Ismarinated.ReverseString s).map String.length = some s.length ∧
      (Mellojp.ReverseString s).map String.length = some s.length) ∧
    (Mayankjustdial.ReverseString "" = some "" ∧
      Ismarinated.ReverseString "" = some "" ∧
      Mellojp.ReverseString "" = some "") ∧
    (Mayankjustdial.ReverseString "héllo" = some "olléh" ∧
      Ismarinated.ReverseString "héllo" = some "olléh" ∧
      Mellojp.ReverseString "héllo" = some "olléh") := by
  have hrev : String.mk (String.mk s.data.reverse).data.reverse = s := by
    simp only [List.reverse_reverse]
  have hlen : (String.mk s.data.reverse).length = s.length := by
    simp only [String.length, List.length_reverse]
  refine ⟨⟨mayank_reverseString s, ismarinated_reverseString s, mellojp_reverseString s⟩,
    ⟨?_, ?_, ?_⟩, ⟨?_, ?_, ?_⟩, ⟨by decide, by decide, by decide⟩,
    ⟨by decide, by decide, by decide⟩⟩
  · rw [mayank_reverseString, Option.some_bind, mayank_reverseString, hrev]
  · rw [ismarinated_reverseString, Option.some_bind, ismarinated_reverseString, hrev]
  · rw [mellojp_reverseString, Option.some_bind, mellojp_reverseString, hrev]
  · rw [mayank_reverseString, Option.map_some', hlen]
  · rw [ismarinated_reverseString, Option.map_some', hlen]
  · rw [mellojp_reverseString, Option.map_some', hlen]


/-! ### The byte-wise reversal of maket12 -/

theorem maket12_swapLoop_eq :
    ∀ (fuel : Nat) (reversed : List Nat) (i j : Int),
      Maket12.swapLoop fuel reversed i j = Mayankjustdial.swapLoop fuel reversed i j := by
  intro fuel
  induction fuel with
  | zero =>
    intro reversed i j
    rfl
  | succ fuel ih =>
    intro reversed i j
    unfold Maket12.swapLoop Mayankjustdial.swapLoop
    by_cases hlt : i < j
    · rw [if_pos hlt, if_pos hlt]
      cases hi : index reversed i with
      | none =>
        cases hj : index reversed j with
        | none => rfl
        | some v => rfl
      | some store =>
        cases hj : index reversed j with
        | none => rfl
        | some v =>
          simp only
          cases h1 : assign reversed i v with
          | none => rfl
          | some r1 =>
            simp only
            cases h2 : assign r1 j store with
            | none => rfl
            | some r2 =>
              simp only
              exact ih r2 (i + 1) (j - 1)
    · rw [if_neg hlt, if_neg hlt]

/-- The function of maket12 returns the bytes of its argument in reverse
order, whatever characters they encode. -/
theorem maket12_reverseString_bytes (s : List Nat) :
    Maket12.ReverseString s = some s.reverse := by
  unfold Maket12.ReverseString
  rw [maket12_swapLoop_eq, swapLoop_reverse]

theorem encodeRune_head (r : Nat) :
    ∃ b rest, encodeRune r = b :: rest ∧ (b < 0x80 ∨ 0xC0 ≤ b) := by
  unfold encodeRune
  split_ifs with h1 h2 h3
  · exact ⟨_, _, rfl, Or.inl h1⟩
  · exact ⟨_, _, rfl, Or.inr (by omega)⟩
  · exact ⟨_, _, rfl, Or.inr (by omega)⟩
  · exact ⟨_, _, rfl, Or.inr (by omega)⟩

/-- No string of valid UTF-8 starts with a continuation byte. -/
theorem bytesOf_head (t : String) (b : Nat) (rest : List Nat) (h : bytesOf t = b :: rest) :
    b < 0x80 ∨ 0xC0 ≤ b := by
  unfold bytesOf at h
  cases hd : t.data with
  | nil =>
    rw [hd] at h
    simp at h
  | cons c cs =>
    rw [hd] at h
    obtain ⟨b', rest', he, hb⟩ := encodeRune_head c.toNat
    simp only [List.map_cons, List.flatten_cons, he, List.cons_append, List.cons.injEq] at h
    rw [← h.1]
    exact hb

/-- C20: the byte-wise `ReverseString` of maket12 does not return the reversed
string on a string with a multi-byte character. On `"é"` (bytes `C3 A9`) it
returns the bytes `A9 C3`, where the rune-based functions return `"é"` itself;
on `"héllo"` it returns the bytes `6F 6C 6C A9 C3 68`, where they return
`"olléh"` (bytes `6F 6C 6C C3 A9 68`); the bytes `A9 C3` are the encoding of
no string at all. On the ASCII string `"hello"` the four functions agree. -/
theorem maket12_reverseString_multibyte :
    Maket12.ReverseString (bytesOf "é") = some [0xA9, 0xC3] ∧
    (Mayankjustdial.ReverseString "é").map bytesOf = some [0xC3, 0xA9] ∧
    Maket12.ReverseString (bytesOf "héllo") = some [0x6F, 0x6C, 0x6C, 0xA9, 0xC3, 0x68] ∧
    (Mayankjustdial.ReverseString "héllo").map bytesOf =
      some [0x6F, 0x6C, 0x6C, 0xC3, 0xA9, 0x68] ∧
    (∀ t : String, ¬ Maket12.ReverseString (bytesOf "é") = some (bytesOf t)) ∧
    Maket12.ReverseString (bytesOf "hello") =
      (Mayankjustdial.ReverseString "hello").map bytesOf := by
  refine ⟨by decide, by decide, by decide, by decide, ?_, by decide⟩
  intro t ht
  have h1 : Maket12.ReverseString (bytesOf "é") = some [0xA9, 0xC3] := by decide
  rw [h1] at ht
  have h2 : bytesOf t = [0xA9, 0xC3] := (Option.some.inj ht).symm
  have := bytesOf_head t _ _ h2
  omega

end Challenge2

/-! ## Challenge 3: the employee list -/

namespace Challenge3

theorem removeLoop_none (id : Int) (employees : List Employee) :
    ∀ (rest : List Employee) (idx : Nat), (∀ x ∈ rest, x.ID ≠ id) →
      removeLoop id employees idx rest = none := by
  intro rest
  induction rest with
  | nil =>
    intro idx _
    rfl
  | cons e rest ih =>
    intro idx h
    unfold removeLoop
    rw [if_neg (h e (List.mem_cons_self _ _))]
    exact ih (idx + 1) (fun x hx => h x (List.mem_cons_of_mem _ hx))

theorem removeLoop_some (id : Int) (e : Employee) (he : e.ID = id) (post : List Employee) :
    ∀ (mid pre : List Employee), (∀ x ∈ mid, x.ID ≠ id) →
      removeLoop id (pre ++ mid ++ e :: post) pre.length (mid ++ e :: post) =
        some (pre ++ mid ++ post) := by
  intro mid
  induction mid with
  | nil =>
    intro pre _
    simp only [List.append_nil, List.nil_append]
    unfold removeLoop
    rw [if_pos he, List.take_left, List.drop_append]
    rfl
  | cons x mid ih =>
    intro pre h
    simp only [List.cons_append]
    unfold removeLoop
    rw [if_neg (h x (List.mem_cons_self _ _))]
    have := ih (pre ++ [x]) (fun y hy => h y (List.mem_cons_of_mem _ hy))
    simp only [List.append_assoc, List.singleton_append, List.length_append,
      List.length_singleton] at this
    simp only [List.append_assoc, List.cons_append]
    exact this

theorem findLoop_spec (id : Int) :
    ∀ (rest pre : List Employee),
      (findLoop id pre.length rest = none ∧ ∀ x ∈ rest, x.ID ≠ id) ∨
      ∃ (idx : Nat) (e : Employee), findLoop id pre.length rest = some idx ∧
        (pre ++ rest)[idx]? = some e ∧ e.ID = id := by
  intro rest
  induction rest with
  | nil =>
    intro pre
    exact Or.inl ⟨rfl, fun x hx => (by cases hx)⟩
  | cons e rest ih =>
    intro pre
    unfold findLoop
    by_cases he : e.ID = id
    · rw [if_pos he]
      refine Or.inr ⟨pre.length, e, rfl, ?_, he⟩
      rw [List.getElem?_append_right (le_refl _)]
      simp
    · rw [if_neg he]
      have h := ih (pre ++ [e])
      simp only [List.length_append, List.length_singleton, List.append_assoc,
        List.singleton_append] at h
      rcases h with ⟨h1, h2⟩ | ⟨idx, e', h1, h2, h3⟩
      · refine Or.inl ⟨h1, ?_⟩
        intro x hx
        rcases List.mem_cons.1 hx with rfl | hx
        · exact he
        · exact h2 x hx
      · exact Or.inr ⟨idx, e', h1, h2, h3⟩


theorem exists_first_match (id : Int) :
    ∀ l : List Employee, (∀ x ∈ l, x.ID ≠ id) ∨
      ∃ (pre : List Employee) (e : Employee) (post : List Employee),
        l = pre ++ e :: post ∧ e.ID = id ∧ ∀ x ∈ pre, x.ID ≠ id := by
  intro l
  induction l with
  | nil => exact Or.inl (fun x hx => (by cases hx))
  | cons a l ih =>
    by_cases ha : a.ID = id
    · exact Or.inr ⟨[], a, l, rfl, ha, fun x hx => (by cases hx)⟩
    · rcases ih with h | ⟨pre, e, post, hl, he, hpre⟩
      · left
        intro x hx
        rcases List.mem_cons.1 hx with rfl | hx
        · exact ha
        · exact h x hx
      · right
        refine ⟨a :: pre, e, post, by rw [hl]; rfl, he, ?_⟩
        intro x hx
        rcases List.mem_cons.1 hx with rfl | hx
        · exact ha
        · exact hpre x hx

theorem removeEmployee_first (m : Manager) (id : Int) (pre : List Employee) (e : Employee)
    (post : List Employee) (hl : m.Employees = pre ++ e :: post) (he : e.ID = id)
    (hpre : ∀ x ∈ pre, x.ID ≠ id) : (m.RemoveEmployee id).Employees = pre ++ post := by
  have h := removeLoop_some id e he post pre [] hpre
  simp only [List.nil_append, List.length_nil] at h
  unfold Manager.RemoveEmployee
  rw [hl, h]

theorem removeEmployee_absent (m : Manager) (id : Int) (h : ∀ x ∈ m.Employees, x.ID ≠ id) :
    m.RemoveEmployee id = m := by
  unfold Manager.RemoveEmployee
  rw [removeLoop_none id m.Employees m.Employees 0 h]

/-- What `FindEmployeeByID` returns: `nil` when no employee has the ID, else a
pointer to an employee that has it. -/
theorem findEmployeeByID_spec (m : Manager) (id : Int) :
    (m.FindEmployeeByID id = none ∧ ∀ x ∈ m.Employees, x.ID ≠ id) ∨
    ∃ (idx : Nat) (e : Employee), m.FindEmployeeByID id = some idx ∧
      m.Employees[idx]? = some e ∧ e.ID = id := by
  have h := findLoop_spec id m.Employees []
  simp only [List.length_nil, List.nil_append] at h
  exact h

/-- C22: `RemoveEmployee(id)` removes exactly the first employee whose `ID` is
`id` and keeps all others in their order; when no employee has that `ID` the
manager is unchanged. When the IDs in the list are distinct,
`FindEmployeeByID(id)` returns `nil` after `RemoveEmployee(id)`, and for every
other employee of the list it returns a pointer to that employee. In `main`,
removing ID 1 leaves Bob alone, who is found under ID 2 at index 0. -/
theorem removeEmployee_frame (m : Manager) (id : Int) :
    (∀ (pre : List Employee) (e : Employee) (post : List Employee),
      m.Employees = pre ++ e :: post → e.ID = id → (∀ x ∈ pre, x.ID ≠ id) →
      (m.RemoveEmployee id).Employees = pre ++ post) ∧
    ((∀ x ∈ m.Employees, x.ID ≠ id) → m.RemoveEmployee id = m) ∧
    ((m.Employees.map Employee.ID).Nodup →
      (m.RemoveEmployee id).FindEmployeeByID id = none ∧
      ∀ e ∈ m.Employees, e.ID ≠ id →
        ∃ idx, (m.RemoveEmployee id).FindEmployeeByID e.ID = some idx ∧
          (m.RemoveEmployee id).Employees[idx]? = some e) ∧
    ((mainManager.RemoveEmployee 1).Employees =
        [{ ID := 2, Name := "Bob", Age := 25, Salary := 65000 }] ∧
      (mainManager.RemoveEmployee 1).FindEmployeeByID 2 = some 0 ∧
      (mainManager.RemoveEmployee 1).FindEmployeeByID 1 = none) := by
  refine ⟨removeEmployee_first m id, removeEmployee_absent m id, ?_, by decide, by decide,
    by decide⟩
  intro hnd
  -- the list after the call: a sublist of the old one in which no employee has `id`
  have hsub : (m.RemoveEmployee id).Employees.Sublist m.Employees ∧
      (∀ x ∈ (m.RemoveEmployee id).Employees, x.ID ≠ id) ∧
      ∀ x ∈ m.Employees, x.ID ≠ id → x ∈ (m.RemoveEmployee id).Employees := by
    rcases exists_first_match id m.Employees with h | ⟨pre, e, post, hl, he, hpre⟩
    · rw [removeEmployee_absent m id h]
      exact ⟨List.Sublist.refl _, h, fun x hx _ => hx⟩
    · rw [removeEmployee_first m id pre e post hl he hpre, hl]
      refine ⟨List.Sublist.append (List.Sublist.refl _) (List.sublist_cons_self _ _), ?_, ?_⟩
      · intro x hx hxid
        rw [hl, List.map_append, List.map_cons] at hnd
        have hnd' := List.nodup_middle.1 hnd
        rw [he] at hnd'
        apply (List.nodup_cons.1 hnd').1
        rw [← List.map_append, ← hxid]
        exact List.mem_map_of_mem _ hx
      · intro x hx hxid
        rcases List.mem_append.1 hx with hx | hx
        · exact List.mem_append_left _ hx
        · rcases List.mem_cons.1 hx with rfl | hx
          · exact absurd he hxid
          · exact List.mem_append_right _ hx
  obtain ⟨hs, hno, hkeep⟩ := hsub
  constructor
  · rcases findEmployeeByID_spec (m.RemoveEmployee id) id with ⟨h, _⟩ | ⟨idx, e, _, hidx, he⟩
    · exact h
    · exact absurd he (hno e (List.getElem?_mem hidx))
  · intro e0 he0 hne
    rcases findEmployeeByID_spec (m.RemoveEmployee id) e0.ID with
      ⟨_, h⟩ | ⟨idx, e, hfind, hidx, he⟩
    · exact absurd rfl (h e0 (hkeep e0 he0 hne))
    · refine ⟨idx, hfind, ?_⟩
      have hmem : e ∈ m.Employees := hs.subset (List.getElem?_mem hidx)
      rw [hidx, List.inj_on_of_nodup_map hnd hmem he0 he]

end Challenge3

/-! ## Challenge 4: concurrent breadth-first searches -/

namespace Challenge4

/-! ### The neighbours found in one round -/

theorem discover_subset : ∀ (nbrs seen : List Int), discover seen nbrs ⊆ nbrs := by
  intro nbrs
  induction nbrs with
  | nil =>
    intro seen
    simp [discover]
  | cons n rest ih =>
    intro seen x hx
    unfold discover at hx
    by_cases hn : n ∈ seen
    · rw [if_pos hn] at hx
      exact List.mem_cons_of_mem _ (ih seen hx)
    · rw [if_neg hn] at hx
      rcases List.mem_cons.1 hx with rfl | hx
      · exact List.mem_cons_self _ _
      · exact List.mem_cons_of_mem _ (ih _ hx)

theorem discover_not_seen : ∀ (nbrs seen : List Int), ∀ x ∈ discover seen nbrs, x ∉ seen := by
  intro nbrs
  induction nbrs with
  | nil =>
    intro seen x hx
    simp [discover] at hx
  | cons n rest ih =>
    intro seen x hx
    unfold discover at hx
    by_cases hn : n ∈ seen
    · rw [if_pos hn] at hx
      exact ih seen x hx
    · rw [if_neg hn] at hx
      rcases List.mem_cons.1 hx with rfl | hx
      · exact hn
      · exact fun h => ih _ x hx (List.mem_cons_of_mem _ h)

theorem discover_nodup : ∀ (nbrs seen : List Int), (discover seen nbrs).Nodup := by
  intro nbrs
  induction nbrs with
  | nil =>
    intro seen
    simp [discover]
  | cons n rest ih =>
    intro seen
    unfold discover
    by_cases hn : n ∈ seen
    · rw [if_pos hn]
      exact ih seen
    · rw [if_neg hn]
      refine List.nodup_cons.2 ⟨?_, ih _⟩
      intro h
      exact discover_not_seen rest (n :: seen) n h (List.mem_cons_self _ _)

theorem discover_covers : ∀ (nbrs seen : List Int), ∀ x ∈ nbrs,
    x ∈ seen ∨ x ∈ discover seen nbrs := by
  intro nbrs
  induction nbrs with
  | nil =>
    intro seen x hx
    cases hx
  | cons n rest ih =>
    intro seen x hx
    unfold discover
    by_cases hn : n ∈ seen
    · rw [if_pos hn]
      rcases List.mem_cons.1 hx with rfl | hx
      · exact Or.inl hn
      · exact ih seen x hx
    · rw [if_neg hn]
      rcases List.mem_cons.1 hx with rfl | hx
      · exact Or.inr (List.mem_cons_self _ _)
      · rcases ih (n :: seen) x hx with h | h
        · rcases List.mem_cons.1 h with rfl | h
          · exact Or.inr (List.mem_cons_self _ _)
          · exact Or.inl h
        · exact Or.inr (List.mem_cons_of_mem _ h)

theorem discover_congr : ∀ (nbrs seen seen' : List Int), (∀ x, x ∈ seen ↔ x ∈ seen') →
    discover seen nbrs = discover seen' nbrs := by
  intro nbrs
  induction nbrs with
  | nil =>
    intro seen seen' _
    rfl
  | cons n rest ih =>
    intro seen seen' h
    unfold discover
    by_cases hn : n ∈ seen
    · rw [if_pos hn, if_pos ((h n).1 hn)]
      exact ih seen seen' h
    · rw [if_neg hn, if_neg (fun hc => hn ((h n).2 hc))]
      congr 1
      apply ih
      intro x
      simp only [List.mem_cons, h x]

/-- The inner loop appends to the queue the neighbours not visited yet, in
adjacency-list order, and marks them visited. -/
theorem visitLoop_spec : ∀ (nbrs visited queue : List Int),
    (visitLoop nbrs visited queue).2 = queue ++ discover visited nbrs ∧
    ∀ x, x ∈ (visitLoop nbrs visited queue).1 ↔ x ∈ visited ∨ x ∈ discover visited nbrs := by
  intro nbrs
  induction nbrs with
  | nil =>
    intro visited queue
    simp [visitLoop, discover]
  | cons n rest ih =>
    intro visited queue
    unfold visitLoop discover
    by_cases hn : n ∈ visited
    · rw [if_pos hn, if_pos hn]
      exact ih visited queue
    · rw [if_neg hn, if_neg hn]
      obtain ⟨h1, h2⟩ := ih (n :: visited) (queue ++ [n])
      refine ⟨by rw [h1, List.append_assoc]; rfl, ?_⟩
      intro x
      rw [h2 x]
      simp only [List.mem_cons]
      tauto

theorem adj_subset_allNeighbours (graph : Graph) (node : Int) :
    adj graph node ⊆ allNeighbours graph := by
  induction graph with
  | nil =>
    intro x hx
    simp [adj, List.lookup] at hx
  | cons e graph ih =>
    obtain ⟨k, l⟩ := e
    intro x hx
    unfold adj at hx ih
    unfold allNeighbours at ih ⊢
    simp only [List.map_cons, List.flatten_cons, List.mem_append]
    simp only [List.lookup] at hx
    cases hk : (node == k) with
    | true =>
      rw [hk] at hx
      exact Or.inl hx
    | false =>
      rw [hk] at hx
      exact Or.inr (ih hx)


/-! ### The search loop -/

theorem bfsInv_init (graph : Graph) (start : Int) :
    BfsInv graph start (fun _ => 0) [start] [start] [] := by
  refine ⟨fun x => Iff.rfl, rfl, List.nodup_singleton _, rfl, ?_, rfl, ?_, ?_, ?_, ?_⟩
  · intro x hx
    rw [List.nil_append, List.mem_singleton] at hx
    rw [hx]
    exact List.mem_cons_self _ _
  · intro v hv
    rw [List.nil_append, List.mem_singleton] at hv
    rw [hv]
    exact Path.nil
  · exact List.pairwise_singleton _ _
  · intro h _ x _
    exact Nat.zero_le _
  · intro u hu
    cases hu

/-- One round of the search loop keeps the invariant. -/
theorem bfsInv_step {graph : Graph} {start u : Int} {lev : Int → Nat}
    {visited queue bfs : List Int} (h : BfsInv graph start lev visited (u :: queue) bfs) :
    ∃ lev', BfsInv graph start lev' (visitLoop (adj graph u) visited queue).1
      (visitLoop (adj graph u) visited queue).2 (bfs ++ [u]) := by
  obtain ⟨hq, hv⟩ := visitLoop_spec (adj graph u) visited queue
  have hS : (bfs ++ [u]) ++ (queue ++ discover visited (adj graph u)) =
      (bfs ++ u :: queue) ++ discover visited (adj graph u) := by
    simp
  have hDS : ∀ x ∈ discover visited (adj graph u), x ∉ bfs ++ u :: queue := by
    intro x hx hxs
    exact discover_not_seen _ _ x hx ((h.vis x).2 hxs)
  have huS : u ∈ bfs ++ u :: queue := List.mem_append_right _ (List.mem_cons_self _ _)
  have hfront := h.front u rfl
  have hstart : start ∈ bfs ++ u :: queue := by
    have := h.head
    cases hl : bfs ++ u :: queue with
    | nil => rw [hl] at this; cases this
    | cons a l =>
      rw [hl] at this
      simp only [List.head?_cons, Option.some.injEq] at this
      rw [this]
      exact List.mem_cons_self _ _
  refine ⟨fun x => if x ∈ discover visited (adj graph u) then lev u + 1 else lev x, ?_⟩
  have hlevS : ∀ x ∈ bfs ++ u :: queue,
      (if x ∈ discover visited (adj graph u) then lev u + 1 else lev x) = lev x := by
    intro x hx
    rw [if_neg (fun hc => hDS x hc hx)]
  have hlevD : ∀ x ∈ discover visited (adj graph u),
      (if x ∈ discover visited (adj graph u) then lev u + 1 else lev x) = lev u + 1 := by
    intro x hx
    rw [if_pos hx]
  rw [hq]
  refine ⟨?_, ?_, ?_, ?_, ?_, ?_, ?_, ?_, ?_, ?_⟩
  · intro x
    rw [hv x, h.vis x, hS]
    simp only [List.mem_append]
  · rw [hS, h.fix]
    unfold listed
    rw [List.foldl_append, List.foldl_cons, List.foldl_nil]
    congr 1
    apply discover_congr
    intro x
    show x ∈ visited ↔ x ∈ listed graph start bfs
    rw [h.vis x, h.fix]
  · rw [hS]
    exact List.nodup_append.2 ⟨h.nodup, discover_nodup _ _, fun x hx hxd => hDS x hxd hx⟩
  · rw [hS]
    have := h.head
    cases hl : bfs ++ u :: queue with
    | nil => rw [hl] at this; cases this
    | cons a l =>
      rw [hl] at this
      exact this
  · rw [hS]
    intro x hx
    rcases List.mem_append.1 hx with hx | hx
    · exact h.bound hx
    · exact List.mem_cons_of_mem _
        (adj_subset_allNeighbours graph u (discover_subset _ _ hx))
  · show (if start ∈ discover visited (adj graph u) then lev u + 1 else lev start) = 0
    rw [hlevS start hstart]
    exact h.lev0
  · rw [hS]
    intro v hv'
    show Path graph start v (if v ∈ discover visited (adj graph u) then lev u + 1 else lev v)
    rcases List.mem_append.1 hv' with hv' | hv'
    · rw [hlevS v hv']
      exact h.path v hv'
    · rw [hlevD v hv']
      exact Path.snoc (h.path u huS) (discover_subset _ _ hv')
  · rw [hS]
    refine List.pairwise_append.2 ⟨?_, ?_, ?_⟩
    · refine h.sorted.imp_of_mem ?_
      intro a b ha hb hab
      show (if a ∈ discover visited (adj graph u) then lev u + 1 else lev a) ≤
        (if b ∈ discover visited (adj graph u) then lev u + 1 else lev b)
      rw [hlevS a ha, hlevS b hb]
      exact hab
    · refine List.Pairwise.imp_of_mem ?_ (discover_nodup (adj graph u) visited)
      intro a b ha hb _
      show (if a ∈ discover visited (adj graph u) then lev u + 1 else lev a) ≤
        (if b ∈ discover visited (adj graph u) then lev u + 1 else lev b)
      rw [hlevD a ha, hlevD b hb]
    · intro a ha b hb
      show (if a ∈ discover visited (adj graph u) then lev u + 1 else lev a) ≤
        (if b ∈ discover visited (adj graph u) then lev u + 1 else lev b)
      rw [hlevS a ha, hlevD b hb]
      exact hfront a ha
  · intro h' hh' x hx
    show (if x ∈ discover visited (adj graph u) then lev u + 1 else lev x) ≤
      (if h' ∈ discover visited (adj graph u) then lev u + 1 else lev h') + 1
    rw [hS] at hx
    have hxle : (if x ∈ discover visited (adj graph u) then lev u + 1 else lev x) ≤
        lev u + 1 := by
      rcases List.mem_append.1 hx with hx | hx
      · rw [hlevS x hx]
        exact hfront x hx
      · rw [hlevD x hx]
    have hh'mem : h' ∈ queue ++ discover visited (adj graph u) := by
      cases hl : queue ++ discover visited (adj graph u) with
      | nil => rw [hl] at hh'; cases hh'
      | cons a l =>
        rw [hl] at hh'
        simp only [List.head?_cons, Option.some.injEq] at hh'
        rw [hh']
        exact List.mem_cons_self _ _
    have hh'ge : lev u ≤
        (if h' ∈ discover visited (adj graph u) then lev u + 1 else lev h') := by
      rcases List.mem_append.1 hh'mem with hq' | hd'
      · rw [hlevS h' (List.mem_append_right _ (List.mem_cons_of_mem _ hq'))]
        have hs := (List.pairwise_append.1 h.sorted).2.1
        exact (List.pairwise_cons.1 hs).1 h' hq'
      · rw [hlevD h' hd']
        omega
    omega
  · intro u' hu' w hw
    rw [hS]
    show w ∈ (bfs ++ u :: queue) ++ discover visited (adj graph u) ∧
      (if w ∈ discover visited (adj graph u) then lev u + 1 else lev w) ≤
        (if u' ∈ discover visited (adj graph u) then lev u + 1 else lev u') + 1
    rcases List.mem_append.1 hu' with hu' | hu'
    · obtain ⟨hw1, hw2⟩ := h.closed u' hu' w hw
      refine ⟨List.mem_append_left _ hw1, ?_⟩
      rw [hlevS w hw1, hlevS u' (List.mem_append_left _ hu')]
      exact hw2
    · rw [List.mem_singleton] at hu'
      subst hu'
      rw [hlevS u' huS]
      rcases discover_covers (adj graph u') visited w hw with hwv | hwd
      · have hwS := (h.vis w).1 hwv
        refine ⟨List.mem_append_left _ hwS, ?_⟩
        rw [hlevS w hwS]
        exact hfront w hwS
      · refine ⟨List.mem_append_right _ hwd, ?_⟩
        rw [hlevD w hwd]


/-- When the queue is empty, `bfs` is the breadth-first order. -/
theorem bfsInv_final {graph : Graph} {start : Int} {lev : Int → Nat}
    {visited bfs : List Int} (h : BfsInv graph start lev visited [] bfs) :
    IsBFSOrder graph start bfs := by
  have hclosed : ∀ (v : Int) (k : Nat), Path graph start v k → v ∈ bfs ∧ lev v ≤ k := by
    intro v k hp
    induction hp with
    | nil =>
      have hh := h.head
      rw [List.append_nil] at hh
      refine ⟨?_, by rw [h.lev0]⟩
      cases hl : bfs with
      | nil => rw [hl] at hh; cases hh
      | cons a l =>
        rw [hl] at hh
        simp only [List.head?_cons, Option.some.injEq] at hh
        rw [hh]
        exact List.mem_cons_self _ _
    | snoc _ hw ih =>
      obtain ⟨hw1, hw2⟩ := h.closed _ ih.1 _ hw
      rw [List.append_nil] at hw1
      exact ⟨hw1, by omega⟩
  have hdist : ∀ (v : Int) (d : Nat), v ∈ bfs → IsDist graph start v d → d = lev v := by
    intro v d hv hd
    have h1 := hd.2 (lev v) (h.path v (by rw [List.append_nil]; exact hv))
    have h2 := (hclosed v d hd.1).2
    omega
  have hsorted := h.sorted
  have hnodup := h.nodup
  have hhead := h.head
  have hfix := h.fix
  rw [List.append_nil] at hsorted hnodup hhead hfix
  refine ⟨hhead, hnodup, ?_, ?_, hfix⟩
  · intro v
    constructor
    · intro hv
      exact ⟨lev v, h.path v (by rw [List.append_nil]; exact hv)⟩
    · rintro ⟨k, hp⟩
      exact (hclosed v k hp).1
  · intro i j vi vj di dj hij hi hj hdi hdj
    rw [hdist vi di (List.getElem?_mem hi) hdi, hdist vj dj (List.getElem?_mem hj) hdj]
    rcases Nat.lt_or_eq_of_le hij with hlt | heq
    · obtain ⟨hil, hie⟩ := List.getElem?_eq_some_iff.1 hi
      obtain ⟨hjl, hje⟩ := List.getElem?_eq_some_iff.1 hj
      rw [← hie, ← hje]
      exact List.pairwise_iff_getElem.1 hsorted i j hil hjl hlt
    · subst heq
      rw [hi] at hj
      cases hj
      exact le_refl _

/-- The search loop ends within its bound, with the breadth-first order. -/
theorem bfsLoop_spec (graph : Graph) (start : Int) :
    ∀ (fuel : Nat) (lev : Int → Nat) (visited queue bfs : List Int),
      BfsInv graph start lev visited queue bfs →
      (allNeighbours graph).length + 1 - bfs.length < fuel →
      ∃ order, bfsLoop graph fuel visited queue bfs = some order ∧
        IsBFSOrder graph start order := by
  intro fuel
  induction fuel with
  | zero =>
    intro lev visited queue bfs _ hf
    omega
  | succ fuel ih =>
    intro lev visited queue bfs h hf
    cases queue with
    | nil => exact ⟨bfs, rfl, bfsInv_final h⟩
    | cons u queue =>
      obtain ⟨lev', h'⟩ := bfsInv_step h
      have hlen : (bfs ++ u :: queue).length ≤ (start :: allNeighbours graph).length :=
        (List.subperm_of_subset h.nodup h.bound).length_le
      simp only [List.length_append, List.length_cons] at hlen
      obtain ⟨order, hrun, hspec⟩ := ih lev' _ _ (bfs ++ [u]) h'
        (by rw [List.length_append, List.length_singleton]; omega)
      exact ⟨order, hrun, hspec⟩

/-- The search of one goroutine returns the breadth-first order from its start
node. -/
theorem bfsFrom_spec (graph : Graph) (start : Int) :
    ∃ order, bfsFrom graph start = some order ∧ IsBFSOrder graph start order :=
  bfsLoop_spec graph start _ _ _ _ _ (bfsInv_init graph start) (by simp)


/-! ### The pool of goroutines -/

theorem sum_map_set {α : Type} (f : α → Nat) :
    ∀ (l : List α) (g : Nat) (x y : α), l[g]? = some x →
      ((l.set g y).map f).sum + f x = (l.map f).sum + f y := by
  intro l
  induction l with
  | nil =>
    intro g x y h
    simp at h
  | cons a l ih =>
    intro g x y h
    cases g with
    | zero =>
      simp only [List.getElem?_cons_zero, Option.some.injEq] at h
      subst h
      simp only [List.set_cons_zero, List.map_cons, List.sum_cons]
      omega
    | succ g =>
      simp only [List.getElem?_cons_succ] at h
      have := ih g x y h
      simp only [List.set_cons_succ, List.map_cons, List.sum_cons]
      omega

theorem exists_pos_of_sum_pos {α : Type} (f : α → Nat) :
    ∀ l : List α, 0 < (l.map f).sum → ∃ (i : Nat) (x : α), l[i]? = some x ∧ 0 < f x := by
  intro l
  induction l with
  | nil =>
    intro h
    simp at h
  | cons a l ih =>
    intro h
    simp only [List.map_cons, List.sum_cons] at h
    by_cases ha : 0 < f a
    · exact ⟨0, a, List.getElem?_cons_zero, ha⟩
    · obtain ⟨i, x, hi, hx⟩ := ih (by omega)
      exact ⟨i + 1, x, by simpa using hi, hx⟩

theorem sum_eq_zero_all {α : Type} (f : α → Nat) :
    ∀ l : List α, (l.map f).sum = 0 → ∀ x ∈ l, f x = 0 := by
  intro l
  induction l with
  | nil =>
    intro _ x hx
    cases hx
  | cons a l ih =>
    intro h x hx
    simp only [List.map_cons, List.sum_cons] at h
    rcases List.mem_cons.1 hx with rfl | hx
    · omega
    · exact ih (by omega) x hx

theorem poolInv_init (graph : Graph) (queries : List Int) (numWorkers : Int)
    (hw : 1 ≤ numWorkers) : PoolInv graph queries (Pool.init queries numWorkers) := by
  unfold Pool.init
  rw [if_neg (by omega)]
  refine ⟨by show 0 < numWorkers; omega, rfl, rfl, rfl, ?_, ?_, ?_⟩
  · intro i k p h
    simp at h
  · intro k v h
    simp [List.lookup] at h
  · intro m h
    cases h


theorem map_fst_set (st : Int) (p p' : Phase) :
    ∀ (l : List (Int × Phase)) (g : Nat), l[g]? = some (st, p) →
      (l.set g (st, p')).map Prod.fst = l.map Prod.fst := by
  intro l
  induction l with
  | nil =>
    intro g h
    simp at h
  | cons a l ih =>
    intro g h
    cases g with
    | zero =>
      simp only [List.getElem?_cons_zero, Option.some.injEq] at h
      subst h
      rfl
    | succ g =>
      simp only [List.getElem?_cons_succ] at h
      simp only [List.set_cons_succ, List.map_cons, ih g h]

/-- A goroutine moves from phase `p` to `p'` without touching `result`: what
this does to the bookkeeping of the invariant. -/
theorem poolInv_phase {graph : Graph} {queries : List Int} {s s' : Pool} {g : Nat}
    {st : Int} (p p' : Phase) (hinv : PoolInv graph queries s)
    (hg : s.goroutines[g]? = some (st, p)) (hp : p ≠ Phase.finished)
    (hw : p.hasWritten = true → p'.hasWritten = true)
    (hnum : s'.numWorkers = s.numWorkers) (hpend : s'.pending = s.pending)
    (hgs : s'.goroutines = s.goroutines.set g (st, p')) (hret : s'.returned = s.returned)
    (htok : s'.workerChan + p.holds = s.workerChan + p'.holds)
    (hwg : s'.wg + p.live = s.wg + p'.live)
    (hres : s'.result = s.result) (hpw : p'.hasWritten = true → p.hasWritten = true) :
    PoolInv graph queries s' := by
  have hlt : g < s.goroutines.length := (List.getElem?_eq_some_iff.1 hg).1
  refine ⟨by rw [hnum]; exact hinv.pos, ?_, ?_, ?_, ?_, ?_, ?_⟩
  · have := sum_map_set (fun x : Int × Phase => x.2.holds) s.goroutines g (st, p) (st, p') hg
    have h1 := hinv.tokens
    rw [hgs]
    simp only at this
    omega
  · have := sum_map_set (fun x : Int × Phase => x.2.live) s.goroutines g (st, p) (st, p') hg
    have h1 := hinv.counter
    rw [hgs]
    simp only at this
    omega
  · rw [hgs, hpend, map_fst_set st p p' _ _ hg]
    exact hinv.split
  · intro i k q hi hq
    rw [hgs, List.getElem?_set] at hi
    rw [hres]
    by_cases hgi : g = i
    · rw [if_pos hgi, if_pos hlt] at hi
      cases hi
      exact hinv.resHas g st p hg (hpw hq)
    · rw [if_neg hgi] at hi
      exact hinv.resHas i k q hi hq
  · intro k v hk
    rw [hres] at hk
    obtain ⟨i, q, hi, hq⟩ := hinv.resKeys k v hk
    by_cases hgi : g = i
    · subst hgi
      rw [hg] at hi
      cases hi
      refine ⟨g, p', ?_, hw hq⟩
      rw [hgs, List.getElem?_set, if_pos rfl, if_pos hlt]
    · refine ⟨i, q, ?_, hq⟩
      rw [hgs, List.getElem?_set, if_neg hgi]
      exact hi
  · intro m hm
    rw [hret] at hm
    have := (hinv.returned m hm).2.2 (st, p) (List.getElem?_mem hg)
    exact absurd this hp


theorem lookup_cons_self (k : Int) (v : List Int) (m : List (Int × List Int)) :
    List.lookup k ((k, v) :: m) = some v := by
  simp [List.lookup]

theorem lookup_cons_ne {k k' : Int} (h : k ≠ k') (v : List Int) (m : List (Int × List Int)) :
    List.lookup k ((k', v) :: m) = List.lookup k m := by
  have : (k == k') = false := by simpa using h
  simp [List.lookup, this]

/-- Every move keeps the invariant. -/
theorem poolStep_inv {graph : Graph} {queries : List Int} {s s' : Pool} {a : PoolAction}
    (hinv : PoolInv graph queries s) (h : poolStep graph s a = some s') :
    PoolInv graph queries s' := by
  cases a with
  | dispatch =>
    simp only [poolStep] at h
    cases hr : s.returned with
    | some m => simp [hr] at h
    | none =>
      cases hp : s.pending with
      | nil => simp [hr, hp] at h
      | cons q rest =>
        by_cases hroom : (s.workerChan : Int) < s.numWorkers
        · simp only [hr, hp, hroom, Option.isSome_none, Bool.false_eq_true, if_false, if_true,
            Option.some.injEq] at h
          subst h
          refine ⟨hinv.pos, ?_, ?_, ?_, ?_, ?_, ?_⟩
          · have e : Phase.running.holds = 1 := rfl
            have h1 := hinv.tokens
            simp only [List.map_append, List.sum_append, List.map_cons, List.map_nil,
              List.sum_cons, List.sum_nil, e]
            omega
          · have e : Phase.running.live = 1 := rfl
            have h1 := hinv.counter
            simp only [List.map_append, List.sum_append, List.map_cons, List.map_nil,
              List.sum_cons, List.sum_nil, e]
            omega
          · simp only [List.map_append, List.map_cons, List.map_nil, List.append_assoc,
              List.singleton_append]
            rw [hinv.split, hp]
          · intro i k p hi hq
            simp only at hi ⊢
            by_cases hil : i < s.goroutines.length
            · rw [List.getElem?_append_left hil] at hi
              exact hinv.resHas i k p hi hq
            · rw [List.getElem?_append_right (by omega)] at hi
              have hmem := List.getElem?_mem hi
              simp only [List.mem_singleton, Prod.mk.injEq] at hmem
              rw [hmem.2] at hq
              cases hq
          · intro k v hk
            obtain ⟨i, p, hi, hq⟩ := hinv.resKeys k v hk
            refine ⟨i, p, ?_, hq⟩
            simp only
            rw [List.getElem?_append_left (List.getElem?_eq_some_iff.1 hi).1]
            exact hi
          · intro m hm
            simp only at hm
            cases hm
        · simp [hr, hp, hroom] at h
  | write g =>
    simp only [poolStep] at h
    split at h
    · rename_i start hg
      cases hb : bfsFrom graph start with
      | none => simp [hb] at h
      | some bfs =>
        simp only [hb, Option.some.injEq] at h
        subst h
        have hlt : g < s.goroutines.length := (List.getElem?_eq_some_iff.1 hg).1
        refine ⟨hinv.pos, ?_, ?_, ?_, ?_, ?_, ?_⟩
        · have := sum_map_set (fun x : Int × Phase => x.2.holds) s.goroutines g
            (start, Phase.running) (start, Phase.written) hg
          have h1 := hinv.tokens
          have e1 : Phase.running.holds = 1 := rfl
          have e2 : Phase.written.holds = 1 := rfl
          simp only [e1, e2] at this
          show s.workerChan =
            ((s.goroutines.set g (start, Phase.written)).map (fun x => x.2.holds)).sum
          omega
        · have := sum_map_set (fun x : Int × Phase => x.2.live) s.goroutines g
            (start, Phase.running) (start, Phase.written) hg
          have h1 := hinv.counter
          have e1 : Phase.running.live = 1 := rfl
          have e2 : Phase.written.live = 1 := rfl
          simp only [e1, e2] at this
          show s.wg = ((s.goroutines.set g (start, Phase.written)).map (fun x => x.2.live)).sum
          omega
        · simp only
          rw [map_fst_set start Phase.running Phase.written _ _ hg]
          exact hinv.split
        · intro i k q hi hq
          simp only at hi ⊢
          rw [List.getElem?_set] at hi
          by_cases hks : k = start
          · rw [hks, lookup_cons_self, hb]
          · rw [lookup_cons_ne hks]
            by_cases hgi : g = i
            · rw [if_pos hgi, if_pos hlt] at hi
              cases hi
              exact absurd rfl hks
            · rw [if_neg hgi] at hi
              exact hinv.resHas i k q hi hq
        · intro k v hk
          simp only at hk ⊢
          by_cases hks : k = start
          · refine ⟨g, Phase.written, ?_, rfl⟩
            rw [hks, List.getElem?_set, if_pos rfl, if_pos hlt]
          · rw [lookup_cons_ne hks] at hk
            obtain ⟨i, q, hi, hq⟩ := hinv.resKeys k v hk
            refine ⟨i, q, ?_, hq⟩
            rw [List.getElem?_set]
            by_cases hgi : g = i
            · subst hgi
              rw [hg] at hi
              cases hi
              exact absurd rfl hks
            · rw [if_neg hgi]
              exact hi
        · intro m hm
          simp only at hm
          have := (hinv.returned m hm).2.2 (start, Phase.running) (List.getElem?_mem hg)
          cases this
    · cases h
  | release g =>
    simp only [poolStep] at h
    split at h
    · rename_i start hg
      by_cases htok : 0 < s.workerChan
      · simp only [htok, if_true, Option.some.injEq] at h
        subst h
        refine poolInv_phase Phase.written Phase.released hinv hg (by decide) (fun _ => rfl)
          rfl rfl rfl rfl ?_ ?_ rfl (fun _ => rfl)
        · show s.workerChan - 1 + 1 = s.workerChan + 0
          omega
        · rfl
      · simp [htok] at h
    · cases h
  | done g =>
    simp only [poolStep] at h
    split at h
    · rename_i start hg
      by_cases hwg : 0 < s.wg
      · simp only [hwg, if_true, Option.some.injEq] at h
        subst h
        refine poolInv_phase Phase.released Phase.finished hinv hg (by decide) (fun _ => rfl)
          rfl rfl rfl rfl ?_ ?_ rfl (fun _ => rfl)
        · rfl
        · show s.wg - 1 + 1 = s.wg + 0
          omega
      · simp [hwg] at h
    · cases h
  | ret =>
    simp only [poolStep] at h
    split at h
    · rename_i hc
      obtain ⟨hnone, hpend, hwg⟩ := hc
      simp only [Option.some.injEq] at h
      subst h
      refine ⟨hinv.pos, hinv.tokens, hinv.counter, hinv.split, hinv.resHas, hinv.resKeys, ?_⟩
      intro m hm
      simp only [Option.some.injEq] at hm
      refine ⟨hm.symm, hpend, ?_⟩
      intro x hx
      have hsum : (s.goroutines.map (fun g => g.2.live)).sum = 0 := by
        rw [← hinv.counter]
        exact hwg
      have := sum_eq_zero_all (fun g : Int × Phase => g.2.live) s.goroutines hsum x hx
      simp only at this
      cases hx2 : x.2 with
      | finished => rfl
      | running => rw [hx2] at this; cases this
      | written => rw [hx2] at this; cases this
      | released => rw [hx2] at this; cases this
    · cases h


theorem poolRun_inv {graph : Graph} {queries : List Int} :
    ∀ (sched : List PoolAction) (s s' : Pool), PoolInv graph queries s →
      poolRun graph s sched = some s' → PoolInv graph queries s' := by
  intro sched
  induction sched with
  | nil =>
    intro s s' hinv h
    cases h
    exact hinv
  | cons a rest ih =>
    intro s s' hinv h
    simp only [poolRun] at h
    cases hs : poolStep graph s a with
    | none =>
      rw [hs] at h
      cases h
    | some s1 =>
      rw [hs] at h
      exact ih s1 s' (poolStep_inv hinv hs) h

/-- Every move uses up one of the moves the call has left. -/
theorem poolStep_measure {graph : Graph} {s s' : Pool} {a : PoolAction}
    (h : poolStep graph s a = some s') : s.measure = s'.measure + 1 := by
  cases a with
  | dispatch =>
    simp only [poolStep] at h
    cases hr : s.returned with
    | some m => simp [hr] at h
    | none =>
      cases hp : s.pending with
      | nil => simp [hr, hp] at h
      | cons q rest =>
        by_cases hroom : (s.workerChan : Int) < s.numWorkers
        · simp only [hr, hp, hroom, Option.isSome_none, Bool.false_eq_true, if_false, if_true,
            Option.some.injEq] at h
          subst h
          have e : Phase.running.steps = 3 := rfl
          simp only [Pool.measure, hp, hr, List.length_cons, List.map_append, List.sum_append,
            List.map_cons, List.map_nil, List.sum_cons, List.sum_nil, e]
          omega
        · simp [hr, hp, hroom] at h
  | write g =>
    simp only [poolStep] at h
    split at h
    · rename_i start hg
      cases hb : bfsFrom graph start with
      | none => simp [hb] at h
      | some bfs =>
        simp only [hb, Option.some.injEq] at h
        subst h
        have := sum_map_set (fun x : Int × Phase => x.2.steps) s.goroutines g
          (start, Phase.running) (start, Phase.written) hg
        have e1 : Phase.running.steps = 3 := rfl
        have e2 : Phase.written.steps = 2 := rfl
        simp only [e1, e2] at this
        simp only [Pool.measure]
        omega
    · cases h
  | release g =>
    simp only [poolStep] at h
    split at h
    · rename_i start hg
      by_cases htok : 0 < s.workerChan
      · simp only [htok, if_true, Option.some.injEq] at h
        subst h
        have := sum_map_set (fun x : Int × Phase => x.2.steps) s.goroutines g
          (start, Phase.written) (start, Phase.released) hg
        have e1 : Phase.released.steps = 1 := rfl
        have e2 : Phase.written.steps = 2 := rfl
        simp only [e1, e2] at this
        simp only [Pool.measure]
        omega
      · simp [htok] at h
    · cases h
  | done g =>
    simp only [poolStep] at h
    split at h
    · rename_i start hg
      by_cases hwg : 0 < s.wg
      · simp only [hwg, if_true, Option.some.injEq] at h
        subst h
        have := sum_map_set (fun x : Int × Phase => x.2.steps) s.goroutines g
          (start, Phase.released) (start, Phase.finished) hg
        have e1 : Phase.released.steps = 1 := rfl
        have e2 : Phase.finished.steps = 0 := rfl
        simp only [e1, e2] at this
        simp only [Pool.measure]
        omega
      · simp [hwg] at h
    · cases h
  | ret =>
    simp only [poolStep] at h
    split at h
    · rename_i hc
      obtain ⟨hnone, hpend, hwg⟩ := hc
      simp only [Option.some.injEq] at h
      subst h
      simp only [Pool.measure, hnone, Option.isNone_some, if_true]
      simp
    · cases h

theorem poolRun_measure {graph : Graph} :
    ∀ (sched : List PoolAction) (s s' : Pool), poolRun graph s sched = some s' →
      s.measure = s'.measure + sched.length := by
  intro sched
  induction sched with
  | nil =>
    intro s s' h
    cases h
    rfl
  | cons a rest ih =>
    intro s s' h
    simp only [poolRun] at h
    cases hs : poolStep graph s a with
    | none =>
      rw [hs] at h
      cases h
    | some s1 =>
      rw [hs] at h
      have h1 := poolStep_measure hs
      have h2 := ih s1 s' h
      rw [List.length_cons]
      omega

/-- While the call has not returned, some goroutine or the caller can move: the
call cannot deadlock. -/
theorem poolInv_progress {graph : Graph} {queries : List Int} {s : Pool}
    (hinv : PoolInv graph queries s) (hret : s.returned = none) :
    ∃ a s', poolStep graph s a = some s' := by
  have key : ∀ a, (poolStep graph s a).isSome = true → ∃ a s', poolStep graph s a = some s' :=
    fun a h => ⟨a, Option.isSome_iff_exists.1 h⟩
  -- a goroutine that has not finished can make its next move
  have hmove : ∀ (g : Nat) (st : Int) (p : Phase), s.goroutines[g]? = some (st, p) →
      p ≠ Phase.finished → ∃ a s', poolStep graph s a = some s' := by
    intro g st p hg hp
    have hlive : 0 < s.wg := by
      have hp1 : p.live = 1 := by
        cases p <;> first | rfl | exact absurd rfl hp
      have hsum := sum_map_set (fun x : Int × Phase => x.2.live) s.goroutines g (st, p)
        (st, Phase.finished) hg
      have e0 : Phase.finished.live = 0 := rfl
      have := hinv.counter
      simp only [hp1, e0] at hsum
      omega
    cases p with
    | running =>
      obtain ⟨order, ho, _⟩ := bfsFrom_spec graph st
      exact key (PoolAction.write g) (by simp only [poolStep, hg, ho, Option.isSome_some])
    | written =>
      have htok : 0 < s.workerChan := by
        have hsum := sum_map_set (fun x : Int × Phase => x.2.holds) s.goroutines g
          (st, Phase.written) (st, Phase.finished) hg
        have := hinv.tokens
        have e : Phase.written.holds = 1 := rfl
        have e0 : Phase.finished.holds = 0 := rfl
        simp only [e, e0] at hsum
        omega
      exact key (PoolAction.release g)
        (by simp only [poolStep, hg, htok, if_true, Option.isSome_some])
    | released =>
      exact key (PoolAction.done g)
        (by simp only [poolStep, hg, hlive, if_true, Option.isSome_some])
    | finished => exact absurd rfl hp
  cases hp : s.pending with
  | cons q rest =>
    by_cases hroom : (s.workerChan : Int) < s.numWorkers
    · exact key PoolAction.dispatch (by
        simp only [poolStep, hret, hp, hroom, Option.isSome_none, Bool.false_eq_true,
          if_false, if_true, Option.isSome_some])
    · have hpos := hinv.pos
      have htok : 0 < (s.goroutines.map (fun g => g.2.holds)).sum := by
        rw [← hinv.tokens]
        omega
      obtain ⟨i, x, hi, hx⟩ := exists_pos_of_sum_pos _ _ htok
      refine hmove i x.1 x.2 hi ?_
      intro hfin
      rw [hfin] at hx
      cases hx
  | nil =>
    by_cases hwg : s.wg = 0
    · exact key PoolAction.ret (by
        simp only [poolStep, hret, hp, hwg, Option.isNone_none, and_self, if_true,
          Option.isSome_some])
    · have hlive : 0 < (s.goroutines.map (fun g => g.2.live)).sum := by
        rw [← hinv.counter]
        omega
      obtain ⟨i, x, hi, hx⟩ := exists_pos_of_sum_pos _ _ hlive
      refine hmove i x.1 x.2 hi ?_
      intro hfin
      rw [hfin] at hx
      cases hx


/-- The map the call returns: an entry for every query, holding what the search
from that node computes, and no other entry. -/
theorem returned_lookup {graph : Graph} {queries : List Int} {s : Pool}
    {m : List (Int × List Int)} (hinv : PoolInv graph queries s) (hm : s.returned = some m) :
    (∀ k, k ∈ queries → m.lookup k = bfsFrom graph k) ∧
    (∀ k, k ∉ queries → m.lookup k = none) := by
  obtain ⟨hres, hpend, hfin⟩ := hinv.returned m hm
  have hq : queries = s.goroutines.map Prod.fst := by
    rw [hinv.split, hpend, List.append_nil]
  constructor
  · intro k hk
    rw [hq] at hk
    obtain ⟨x, hx, hxk⟩ := List.mem_map.1 hk
    obtain ⟨i, hi⟩ := List.mem_iff_getElem?.1 hx
    have hx2 := hfin x hx
    rw [hres]
    refine hinv.resHas i k x.2 ?_ (by rw [hx2]; rfl)
    rw [hi, ← hxk]
  · intro k hk
    rw [hres]
    cases hl : s.result.lookup k with
    | none => rfl
    | some v =>
      obtain ⟨i, p, hi, _⟩ := hinv.resKeys k v hl
      exfalso
      apply hk
      rw [hq]
      exact List.mem_map.2 ⟨(k, p), List.getElem?_mem hi, rfl⟩

/-- C21: for every graph, every list of queries and every `numWorkers ≥ 1`,
whatever the interleaving of the goroutines: the call cannot deadlock and
returns after at most `4 * len(queries) + 1` moves; the map it returns has an
entry exactly for the query nodes, and the entry of a start node is the
breadth-first order from it (it begins with the start node, holds each node
reachable from it once and no other node, lists the nodes in non-decreasing hop
distance, and lists the neighbours found from each node in adjacency-list
order); and the map returned is the same for every other `numWorkers ≥ 1` and
interleaving. -/
theorem concurrentBFSQueries_correct (graph : Graph) (queries : List Int) (numWorkers : Int)
    (hw : 1 ≤ numWorkers) (sched : List PoolAction) (s : Pool)
    (hrun : poolRun graph (Pool.init queries numWorkers) sched = some s) :
    sched.length ≤ 4 * queries.length + 1 ∧
    (s.returned = none → ∃ a s', poolStep graph s a = some s') ∧
    (∀ m, s.returned = some m →
      (∀ k, k ∉ queries → m.lookup k = none) ∧
      (∀ k, k ∈ queries → ∃ order, m.lookup k = some order ∧ IsBFSOrder graph k order) ∧
      (∀ (numWorkers' : Int) (sched' : List PoolAction) (s' : Pool)
        (m' : List (Int × List Int)), 1 ≤ numWorkers' →
        poolRun graph (Pool.init queries numWorkers') sched' = some s' →
        s'.returned = some m' → ∀ k, m'.lookup k = m.lookup k)) := by
  have hinv := poolRun_inv sched _ s (poolInv_init graph queries numWorkers hw) hrun
  refine ⟨?_, poolInv_progress hinv, ?_⟩
  · have h := poolRun_measure sched _ s hrun
    have h0 : (Pool.init queries numWorkers).measure = 4 * queries.length + 1 := by
      unfold Pool.init
      rw [if_neg (by omega)]
      rfl
    omega
  · intro m hm
    obtain ⟨hin, hout⟩ := returned_lookup hinv hm
    refine ⟨hout, ?_, ?_⟩
    · intro k hk
      obtain ⟨order, ho, hspec⟩ := bfsFrom_spec graph k
      exact ⟨order, by rw [hin k hk, ho], hspec⟩
    · intro numWorkers' sched' s' m' hw' hrun' hm' k
      have hinv' := poolRun_inv sched' _ s' (poolInv_init graph queries numWorkers' hw') hrun'
      obtain ⟨hin', hout'⟩ := returned_lookup hinv' hm'
      by_cases hk : k ∈ queries
      · rw [hin k hk, hin' k hk]
      · rw [hout k hk, hout' k hk]

/-- C21 on the example graph with the queries `[0, 2]` and two workers, the
second goroutine writing first. -/
theorem concurrentBFSQueries_correct_witness :
    (1 : Int) ≤ 2 ∧
    poolRun demoGraph (Pool.init [0, 2] 2) demoSchedule = some demoFinal ∧
    demoFinal.returned = some [(0, [0, 1, 2, 3, 4]), (2, [2, 3, 4])] ∧
    (∀ m, demoFinal.returned = some m →
      (∀ k, k ∉ [0, 2] → m.lookup k = none) ∧
      (∀ k, k ∈ [0, 2] → ∃ order, m.lookup k = some order ∧ IsBFSOrder demoGraph k order) ∧
      (∀ (numWorkers' : Int) (sched' : List PoolAction) (s' : Pool)
        (m' : List (Int × List Int)), 1 ≤ numWorkers' →
        poolRun demoGraph (Pool.init [0, 2] numWorkers') sched' = some s' →
        s'.returned = some m' → ∀ k, m'.lookup k = m.lookup k)) :=
  ⟨by decide, by decide, by decide,
    (concurrentBFSQueries_correct demoGraph [0, 2] 2 (by decide) demoSchedule demoFinal
      (by decide)).2.2⟩

end Challenge4

/-! ## Challenge 25: Bellman-Ford -/

namespace Challenge25

/-! ### Walks -/

theorem Walk.snoc_walk {graph weights : List (List Int)} {a b c : Nat} {W1 W2 : Int}
    {vs1 vs2 : List Nat} (h1 : Walk graph weights a b W1 vs1)
    (h2 : Walk graph weights b c W2 vs2) : Walk graph weights a c (W1 + W2) (vs1 ++ vs2) := by
  induction h2 with
  | nil =>
    rw [add_zero, List.append_nil]
    exact h1
  | snoc _ he ih =>
    rw [← add_assoc, ← List.append_assoc]
    exact Walk.snoc ih he

/-- A walk can be cut at any vertex it visits. -/
theorem Walk.split {graph weights : List (List Int)} {a b : Nat} {W : Int} {vs : List Nat}
    (h : Walk graph weights a b W vs) :
    ∀ x, x ∈ a :: vs → ∃ (vs1 vs2 : List Nat) (W1 W2 : Int),
      Walk graph weights a x W1 vs1 ∧ Walk graph weights x b W2 vs2 ∧
      vs = vs1 ++ vs2 ∧ W = W1 + W2 := by
  induction h with
  | nil =>
    intro x hx
    rw [List.mem_singleton] at hx
    subst hx
    exact ⟨[], [], 0, 0, Walk.nil, Walk.nil, rfl, rfl⟩
  | @snoc u v W w vs hw he ih =>
    intro x hx
    rw [← List.cons_append, List.mem_append, List.mem_singleton] at hx
    rcases hx with hx | hx
    · obtain ⟨vs1, vs2, W1, W2, h1, h2, hvs, hW⟩ := ih x hx
      refine ⟨vs1, vs2 ++ [v], W1, W2 + w, h1, Walk.snoc h2 he, ?_, ?_⟩
      · rw [hvs, List.append_assoc]
      · rw [hW, add_assoc]
    · subst hx
      exact ⟨vs ++ [x], [], W + w, 0, Walk.snoc hw he, Walk.nil, by rw [List.append_nil],
        by rw [add_zero]⟩

/-- Between the ends of a walk there is a path; it is at most as heavy as the
walk when no closed walk through a vertex of the walk has negative weight. -/
theorem Walk.simplify {graph weights : List (List Int)} {a b : Nat} {W : Int} {vs : List Nat}
    (h : Walk graph weights a b W vs) :
    ∃ (W' : Int) (vs' : List Nat), Walk graph weights a b W' vs' ∧ (a :: vs').Nodup ∧
      ((∀ x ∈ a :: vs, ∀ (Wc : Int) (cs : List Nat), Walk graph weights x x Wc cs → 0 ≤ Wc) →
        W' ≤ W) := by
  induction h with
  | nil => exact ⟨0, [], Walk.nil, List.nodup_singleton _, fun _ => le_refl _⟩
  | @snoc u v W w vs hw he ih =>
    obtain ⟨W', vs', hw', hnd, hle⟩ := ih
    have hrestrict : (∀ x ∈ a :: (vs ++ [v]), ∀ (Wc : Int) (cs : List Nat),
        Walk graph weights x x Wc cs → 0 ≤ Wc) →
        ∀ x ∈ a :: vs, ∀ (Wc : Int) (cs : List Nat), Walk graph weights x x Wc cs → 0 ≤ Wc :=
      fun hc x hx => hc x (by
        rw [← List.cons_append]
        exact List.mem_append_left _ hx)
    by_cases hv : v ∈ a :: vs'
    · obtain ⟨vs1, vs2, W1, W2, h1, h2, hvs, hW⟩ := hw'.split v hv
      have hcyc : Walk graph weights v v (W2 + w) (vs2 ++ [v]) := Walk.snoc h2 he
      refine ⟨W1, vs1, h1, ?_, ?_⟩
      · rw [hvs, ← List.cons_append] at hnd
        exact (List.nodup_append.1 hnd).1
      · intro hc
        have hpos := hc v (by
          rw [← List.cons_append]
          exact List.mem_append_right _ (List.mem_singleton.2 rfl)) _ _ hcyc
        have := hle (hrestrict hc)
        omega
    · refine ⟨W' + w, vs' ++ [v], Walk.snoc hw' he, ?_, ?_⟩
      · rw [← List.cons_append]
        refine List.nodup_append.2 ⟨hnd, List.nodup_singleton _, ?_⟩
        intro x hx hx'
        rw [List.mem_singleton] at hx'
        subst hx'
        exact hv hx
      · intro hc
        have := hle (hrestrict hc)
        omega

/-! ### Reads, writes and well-formed inputs -/

theorem index_nat {α : Type} (xs : List α) (k : Nat) : index xs (k : Int) = xs[k]? := by
  unfold index
  rw [if_neg (by omega), Int.toNat_ofNat]

theorem assign_nat {α : Type} (xs : List α) (v : α) {k : Nat} (hk : k < xs.length) :
    assign xs (k : Int) v = some (xs.set k v) := by
  unfold assign
  rw [Int.toNat_ofNat, if_pos ⟨by omega, hk⟩]

theorem getElem?_lt {α : Type} {xs : List α} {k : Nat} (h : k < xs.length) :
    ∃ x, xs[k]? = some x :=
  ⟨xs[k], List.getElem?_eq_getElem h⟩

theorem wf_weights {graph weights : List (List Int)} {source : Int}
    (hwf : WellFormed graph weights source) {u : Nat} {nbrs : List Int}
    (hu : graph[u]? = some nbrs) :
    ∃ ws, weights[u]? = some ws ∧ nbrs.length = ws.length := by
  obtain ⟨hlen, hpar, _⟩ := hwf
  have hul : u < graph.length := (List.getElem?_eq_some_iff.1 hu).1
  obtain ⟨ws, hws⟩ := getElem?_lt (by rw [hlen]; exact hul : u < weights.length)
  refine ⟨ws, hws, ?_⟩
  have hz : (graph.zip weights)[u]? = some (nbrs, ws) := by
    rw [List.getElem?_zip_eq_some]
    exact ⟨hu, hws⟩
  exact hpar _ (List.getElem?_mem hz)

theorem wf_neighbour {graph weights : List (List Int)} {source : Int}
    (hwf : WellFormed graph weights source) {u j : Nat} {nbrs : List Int} {x : Int}
    (hu : graph[u]? = some nbrs) (hj : nbrs[j]? = some x) :
    ∃ v : Nat, x = (v : Int) ∧ v < graph.length := by
  obtain ⟨_, _, hrange, _⟩ := hwf
  obtain ⟨h0, h1⟩ := hrange nbrs (List.getElem?_mem hu) x (List.getElem?_mem hj)
  exact ⟨x.toNat, by omega, by omega⟩

theorem EdgeAt.bounds {graph weights : List (List Int)} {source : Int}
    (hwf : WellFormed graph weights source) {u j v : Nat} {w : Int}
    (h : EdgeAt graph weights u j v w) : u < graph.length ∧ v < graph.length := by
  obtain ⟨nbrs, ws, hu, hj, _, _⟩ := h
  obtain ⟨v', hv', hlt⟩ := wf_neighbour hwf hu hj
  have : v = v' := by omega
  subst this
  exact ⟨(List.getElem?_eq_some_iff.1 hu).1, hlt⟩

/-- The entries of an adjacency list are edges. -/
theorem edgeAt_of_mem_enum {graph weights : List (List Int)} {source : Int}
    (hwf : WellFormed graph weights source) {u : Nat} {nbrs : List Int}
    (hu : graph[u]? = some nbrs) {e : Nat × Int} (he : e ∈ nbrs.enum) :
    ∃ (v : Nat) (w : Int), e.2 = (v : Int) ∧ EdgeAt graph weights u e.1 v w := by
  have hj : nbrs[e.1]? = some e.2 := List.mem_enum_iff_getElem?.1 he
  obtain ⟨v, hv, _⟩ := wf_neighbour hwf hu hj
  obtain ⟨ws, hws, hlen⟩ := wf_weights hwf hu
  obtain ⟨w, hw⟩ := getElem?_lt
    (by rw [← hlen]; exact (List.getElem?_eq_some_iff.1 hj).1 : e.1 < ws.length)
  exact ⟨v, w, hv, nbrs, ws, hu, by rw [hj, hv], hws, hw⟩

theorem Walk.inRange {graph weights : List (List Int)} {source : Int}
    (hwf : WellFormed graph weights source) {a b : Nat} {W : Int} {vs : List Nat}
    (h : Walk graph weights a b W vs) (ha : a < graph.length) :
    b < graph.length ∧ ∀ x ∈ vs, x < graph.length := by
  induction h with
  | nil => exact ⟨ha, fun x hx => (by cases hx)⟩
  | snoc _ he ih =>
    obtain ⟨j, hej⟩ := he
    have hv := (hej.bounds hwf).2
    refine ⟨hv, ?_⟩
    intro x hx
    rcases List.mem_append.1 hx with hx | hx
    · exact ih.2 x hx
    · rw [List.mem_singleton.1 hx]
      exact hv

/-- A path visits fewer vertices than the graph has. -/
theorem Walk.length_le {graph weights : List (List Int)} {source : Int}
    (hwf : WellFormed graph weights source) {a b : Nat} {W : Int} {vs : List Nat}
    (h : Walk graph weights a b W vs) (ha : a < graph.length) (hnd : (a :: vs).Nodup) :
    vs.length ≤ graph.length - 1 := by
  have hsub : a :: vs ⊆ List.range graph.length := by
    intro x hx
    rw [List.mem_range]
    rcases List.mem_cons.1 hx with rfl | hx
    · exact ha
    · exact (h.inRange hwf ha).2 x hx
  have := (List.subperm_of_subset hnd hsub).length_le
  rw [List.length_cons, List.length_range] at this
  omega


/-! ### The relaxation -/

theorem wrapAdd_eq {a b : Int} (h : minInt64 ≤ a + b ∧ a + b ≤ maxInt64) :
    wrapAdd a b = a + b := by
  unfold wrapAdd
  unfold minInt64 maxInt64 at h
  omega

theorem sum_outDegree (graph : List (List Int)) :
    ((List.range graph.length).map (outDegree graph)).sum = edgeCount graph := by
  unfold edgeCount
  congr 1
  apply List.ext_getElem?
  intro i
  simp only [List.getElem?_map, List.getElem?_range']
  by_cases hi : i < graph.length
  · rw [List.getElem?_range hi, List.getElem?_eq_getElem hi]
    simp [outDegree, List.getElem?_eq_getElem hi]
  · rw [List.getElem?_eq_none (by rw [List.length_range]; omega),
      List.getElem?_eq_none (by omega)]
    rfl

theorem Le.refl (st : BFState) : Le st st := fun _ d h => ⟨d, h, le_refl _⟩

theorem Le.chain {a b c : BFState} (h1 : Le a b) (h2 : Le b c) : Le a c := by
  intro v d hd
  obtain ⟨d1, hd1, hle1⟩ := h2 v d hd
  obtain ⟨d2, hd2, hle2⟩ := h1 v d1 hd1
  exact ⟨d2, hd2, by omega⟩

theorem Sound.le_sentinel {graph weights : List (List Int)} {s k : Nat} {st : BFState}
    (h : Sound graph weights s k st) {v : Nat} {d : Int} (hd : st.distances[v]? = some d) :
    d ≤ sentinel := by
  rcases h.cases v d hd with ⟨h1, _⟩ | ⟨h1, _⟩
  · omega
  · omega

theorem Sound.walk_le {graph weights : List (List Int)} {s k : Nat} {st : BFState}
    (h : Sound graph weights s k st) {v : Nat} {d : Int} (hd : st.distances[v]? = some d)
    (hlt : d < sentinel) :
    st.hasPath[v]? = some true ∧ ∃ vs, Walk graph weights s v d vs ∧ vs.length ≤ k := by
  rcases h.cases v d hd with ⟨h1, _⟩ | ⟨_, h2, h3⟩
  · omega
  · exact ⟨h2, h3⟩

theorem Sound.walk {graph weights : List (List Int)} {s k : Nat} {st : BFState}
    (h : Sound graph weights s k st) {v : Nat} {d : Int} (hd : st.distances[v]? = some d)
    (hlt : d < sentinel) : st.hasPath[v]? = some true ∧ ∃ vs, Walk graph weights s v d vs := by
  obtain ⟨h1, vs, h2, _⟩ := h.walk_le hd hlt
  exact ⟨h1, vs, h2⟩

theorem Sound.weaken {graph weights : List (List Int)} {s k k' : Nat} {st : BFState}
    (h : Sound graph weights s k st) (hk : k ≤ k') : Sound graph weights s k' st := by
  refine ⟨h.lenD, h.lenP, h.lenH, ?_⟩
  intro v d hd
  rcases h.cases v d hd with h1 | ⟨h1, h2, vs, h3, h4⟩
  · exact Or.inl h1
  · exact Or.inr ⟨h1, h2, vs, h3, by omega⟩

/-- The sum formed at an edge whose tail has been found is in the range of
`int`. -/
theorem Sound.fits {graph weights : List (List Int)} {s k K : Nat} {st : BFState}
    (h : Sound graph weights s k st) (hfit : NoOverflow graph weights s K) (hk : k ≤ K)
    {u v : Nat} {w du : Int} (he : Edge graph weights u v w)
    (hdu : st.distances[u]? = some du) (hne : du ≠ sentinel) :
    minInt64 ≤ du + w ∧ du + w ≤ maxInt64 := by
  rcases h.cases u du hdu with ⟨h1, _⟩ | ⟨h1, _, vs, hw, hlen⟩
  · exact absurd h1 hne
  · exact hfit u v du w vs hw (by omega) h1 he

/-- One relaxation: it reads and writes in range, keeps the slices sound, raises
no distance, and leaves the head of the edge at most the tail's distance plus
the weight. -/
theorem relaxEdge_spec {graph weights : List (List Int)} {source : Int} {s k K : Nat}
    (hwf : WellFormed graph weights source) (hfit : NoOverflow graph weights s K)
    (hk : k ≤ K) {st : BFState} (hs : Sound graph weights s k st)
    {u j v : Nat} {w du : Int} (he : EdgeAt graph weights u j v w)
    (hdu : st.distances[u]? = some du) (hlt : du < sentinel) :
    ∃ st', relaxEdge weights u st (j, (v : Int)) = some st' ∧
      Sound graph weights s (k + 1) st' ∧
      Le st' st ∧ ∃ dv', st'.distances[v]? = some dv' ∧ dv' ≤ du + w := by
  have hvl := (he.bounds hwf).2
  have hsum : wrapAdd du w = du + w :=
    wrapAdd_eq (hs.fits hfit hk ⟨j, he⟩ hdu (by omega))
  have hs1 : Sound graph weights s (k + 1) st := hs.weaken (Nat.le_succ k)
  obtain ⟨nbrs, ws, hu, hj, hws, hw⟩ := he
  obtain ⟨dv, hdv⟩ := getElem?_lt (by rw [hs.lenD]; exact hvl : v < st.distances.length)
  unfold relaxEdge
  simp only [hws, hw, hdu, index_nat, hdv, hsum]
  by_cases hrel : du + w < dv
  · rw [if_pos hrel, assign_nat _ _ (by rw [hs.lenD]; exact hvl),
      assign_nat _ _ (by rw [hs.lenP]; exact hvl), assign_nat _ _ (by rw [hs.lenH]; exact hvl)]
    refine ⟨_, rfl, ⟨?_, ?_, ?_, ?_⟩, ?_, ?_⟩
    · simp only [List.length_set]
      exact hs.lenD
    · simp only [List.length_set]
      exact hs.lenP
    · simp only [List.length_set]
      exact hs.lenH
    · intro x d hx
      simp only at hx ⊢
      rw [List.getElem?_set] at hx
      by_cases hvx : v = x
      · subst hvx
        rw [if_pos rfl, if_pos (by rw [hs.lenD]; exact hvl)] at hx
        cases hx
        right
        have hdvle := hs.le_sentinel hdv
        obtain ⟨_, vs, hwalk, hlen⟩ := hs.walk_le hdu hlt
        refine ⟨by omega, ?_, vs ++ [v], Walk.snoc hwalk ⟨j, nbrs, ws, hu, hj, hws, hw⟩, ?_⟩
        · rw [List.getElem?_set, if_pos rfl, if_pos (by rw [hs.lenH]; exact hvl)]
        · rw [List.length_append, List.length_singleton]
          omega
      · rw [if_neg hvx] at hx
        rw [List.getElem?_set, if_neg hvx, List.getElem?_set, if_neg hvx]
        exact hs1.cases x d hx
    · intro x d hx
      simp only
      rw [List.getElem?_set]
      by_cases hvx : v = x
      · subst hvx
        rw [if_pos rfl, if_pos (by rw [hs.lenD]; exact hvl)]
        rw [hdv] at hx
        cases hx
        exact ⟨_, rfl, by omega⟩
      · rw [if_neg hvx]
        exact ⟨d, hx, le_refl _⟩
    · simp only
      rw [List.getElem?_set, if_pos rfl, if_pos (by rw [hs.lenD]; exact hvl)]
      exact ⟨_, rfl, le_refl _⟩
  · rw [if_neg hrel]
    exact ⟨st, rfl, hs1, Le.refl st, dv, hdv, by omega⟩

/-- The relaxations of the edges `es` that leave `u`, one after the other. -/
theorem relaxEdges_spec {graph weights : List (List Int)} {source : Int} {s K : Nat}
    (hwf : WellFormed graph weights source) (hfit : NoOverflow graph weights s K) {u : Nat} :
    ∀ (es : List (Nat × Int)) (st : BFState) (du : Int) (k : Nat),
      (∀ e ∈ es, ∃ (v : Nat) (w : Int), e.2 = (v : Int) ∧ EdgeAt graph weights u e.1 v w) →
      Sound graph weights s k st → k + es.length ≤ K →
      st.distances[u]? = some du → du < sentinel →
      ∃ st', es.foldlM (relaxEdge weights u) st = some st' ∧
        Sound graph weights s (k + es.length) st' ∧ Le st' st ∧
        ∀ e ∈ es, ∀ (v : Nat) (w : Int), e.2 = (v : Int) → EdgeAt graph weights u e.1 v w →
          ∃ dv', st'.distances[v]? = some dv' ∧ dv' ≤ du + w := by
  intro es
  induction es with
  | nil =>
    intro st du k _ hs _ _ _
    exact ⟨st, rfl, hs, Le.refl st, fun e he => (by cases he)⟩
  | cons e es ih =>
    intro st du k hes hs hk hdu hlt
    rw [List.length_cons] at hk
    obtain ⟨v, w, hev, hedge⟩ := hes e (List.mem_cons_self _ _)
    obtain ⟨st1, hstep, hs1, hle1, dv1, hdv1, hb1⟩ :=
      relaxEdge_spec hwf hfit (by omega : k ≤ K) hs hedge hdu hlt
    obtain ⟨du1, hdu1, hdule⟩ := hle1 u du hdu
    obtain ⟨st2, hrun, hs2, hle2, hb2⟩ := ih st1 du1 (k + 1)
      (fun e' he' => hes e' (List.mem_cons_of_mem _ he')) hs1 (by omega) hdu1 (by omega)
    refine ⟨st2, ?_, ?_, hle2.chain hle1, ?_⟩
    · rw [List.foldlM_cons]
      have he : e = (e.1, (v : Int)) := by rw [← hev]
      rw [he, hstep]
      exact hrun
    · rw [List.length_cons]
      exact hs2.weaken (by omega)
    · intro e' he' v' w' hev' hedge'
      rcases List.mem_cons.1 he' with rfl | he'
      · have hvv : v' = v := by
          have := hev.symm.trans hev'
          omega
        subst hvv
        have hww : w' = w := by
          obtain ⟨_, ws1, _, _, hws1, hw1⟩ := hedge
          obtain ⟨_, ws2, _, _, hws2, hw2⟩ := hedge'
          rw [hws1] at hws2
          cases hws2
          rw [hw1] at hw2
          exact (Option.some.inj hw2).symm
        subst hww
        obtain ⟨d2, hd2, hle⟩ := hle2 v' dv1 hdv1
        exact ⟨d2, hd2, by omega⟩
      · obtain ⟨d2, hd2, hle⟩ := hb2 e' he' v' w' hev' hedge'
        exact ⟨d2, hd2, by omega⟩


/-- The round of one vertex `u`: afterwards every edge that leaves `u` is
relaxed with respect to the distance `u` had before, when `u` was found. -/
theorem relaxVertex_spec {graph weights : List (List Int)} {source : Int} {s k K : Nat}
    (hwf : WellFormed graph weights source) (hfit : NoOverflow graph weights s K)
    {st : BFState} (hs : Sound graph weights s k st)
    {u : Nat} (hu : u < graph.length) (hk : k + outDegree graph u ≤ K) :
    ∃ st', relaxVertex graph weights st u = some st' ∧
      Sound graph weights s (k + outDegree graph u) st' ∧ Le st' st ∧
      ∀ (v : Nat) (w du : Int), Edge graph weights u v w → st.distances[u]? = some du →
        du < sentinel → ∃ dv', st'.distances[v]? = some dv' ∧ dv' ≤ du + w := by
  obtain ⟨du, hdu⟩ := getElem?_lt (by rw [hs.lenD]; exact hu : u < st.distances.length)
  obtain ⟨nbrs, hnbrs⟩ := getElem?_lt hu
  have hdeg : outDegree graph u = nbrs.enum.length := by
    unfold outDegree
    rw [hnbrs, List.enum_length]
    rfl
  unfold relaxVertex
  simp only [hdu]
  by_cases hsen : du = sentinel
  · rw [if_pos hsen]
    refine ⟨st, rfl, hs.weaken (Nat.le_add_right _ _), Le.refl st, ?_⟩
    intro v w du' _ hdu' hlt
    cases hdu'
    omega
  · rw [if_neg hsen]
    simp only [hnbrs]
    have hlt : du < sentinel := by
      have := hs.le_sentinel hdu
      omega
    rw [hdeg] at hk ⊢
    obtain ⟨st', hrun, hs', hle, hb⟩ := relaxEdges_spec hwf hfit nbrs.enum st du k
      (fun e he => edgeAt_of_mem_enum hwf hnbrs he) hs hk hdu hlt
    refine ⟨st', hrun, hs', hle, ?_⟩
    intro v w du' hedge hdu' _
    cases hdu'
    obtain ⟨j, hej⟩ := hedge
    have hmem : (j, (v : Int)) ∈ nbrs.enum := by
      obtain ⟨nbrs', _, hu', hj', _, _⟩ := hej
      rw [hnbrs] at hu'
      cases hu'
      exact List.mk_mem_enum_iff_getElem?.2 hj'
    exact hb _ hmem v w rfl hej

/-- The rounds of the vertices `us`, one after the other. -/
theorem relaxVertices_spec {graph weights : List (List Int)} {source : Int} {s K : Nat}
    (hwf : WellFormed graph weights source) (hfit : NoOverflow graph weights s K) :
    ∀ (us : List Nat) (st : BFState) (k : Nat), (∀ u ∈ us, u < graph.length) →
      Sound graph weights s k st → k + (us.map (outDegree graph)).sum ≤ K →
      ∃ st', us.foldlM (relaxVertex graph weights) st = some st' ∧
        Sound graph weights s (k + (us.map (outDegree graph)).sum) st' ∧ Le st' st ∧
        ∀ u ∈ us, ∀ (v : Nat) (w du : Int), Edge graph weights u v w →
          st.distances[u]? = some du → du < sentinel →
          ∃ dv', st'.distances[v]? = some dv' ∧ dv' ≤ du + w := by
  intro us
  induction us with
  | nil =>
    intro st k _ hs _
    exact ⟨st, rfl, hs, Le.refl st, fun u hu => (by cases hu)⟩
  | cons u us ih =>
    intro st k hus hs hk
    rw [List.map_cons, List.sum_cons] at hk
    obtain ⟨st1, hstep, hs1, hle1, hb1⟩ :=
      relaxVertex_spec hwf hfit hs (hus u (List.mem_cons_self _ _)) (by omega)
    obtain ⟨st2, hrun, hs2, hle2, hb2⟩ :=
      ih st1 (k + outDegree graph u) (fun x hx => hus x (List.mem_cons_of_mem _ hx)) hs1
        (by omega)
    refine ⟨st2, ?_, ?_, hle2.chain hle1, ?_⟩
    · rw [List.foldlM_cons, hstep]
      exact hrun
    · rw [List.map_cons, List.sum_cons]
      exact hs2.weaken (by omega)
    · intro u' hu' v w du hedge hdu hlt
      rcases List.mem_cons.1 hu' with rfl | hu'
      · obtain ⟨d1, hd1, hle⟩ := hb1 v w du hedge hdu hlt
        obtain ⟨d2, hd2, hle'⟩ := hle2 v d1 hd1
        exact ⟨d2, hd2, by omega⟩
      · obtain ⟨du1, hdu1, hdule⟩ := hle1 u' du hdu
        obtain ⟨d2, hd2, hle⟩ := hb2 u' hu' v w du1 hedge hdu1 (by omega)
        exact ⟨d2, hd2, by omega⟩

/-- One round of the relaxation: no distance grows, and every edge whose tail
was found before the round is relaxed with respect to the tail's distance
before the round. -/
theorem relaxPass_spec {graph weights : List (List Int)} {source : Int} {s k K : Nat}
    (hwf : WellFormed graph weights source) (hfit : NoOverflow graph weights s K)
    {st : BFState} (hs : Sound graph weights s k st) (hk : k + edgeCount graph ≤ K) :
    ∃ st', relaxPass graph weights st = some st' ∧
      Sound graph weights s (k + edgeCount graph) st' ∧ Le st' st ∧
      ∀ (u v : Nat) (w du : Int), Edge graph weights u v w → st.distances[u]? = some du →
        du < sentinel → ∃ dv', st'.distances[v]? = some dv' ∧ dv' ≤ du + w := by
  rw [← sum_outDegree] at hk ⊢
  obtain ⟨st', hrun, hs', hle, hb⟩ := relaxVertices_spec hwf hfit (List.range graph.length)
    st k (fun u hu => List.mem_range.1 hu) hs hk
  refine ⟨st', hrun, hs', hle, ?_⟩
  intro u v w du hedge hdu hlt
  obtain ⟨j, hej⟩ := hedge
  exact hb u (List.mem_range.2 (hej.bounds hwf).1) v w du ⟨j, hej⟩ hdu hlt

theorem Bounded.of_le {graph weights : List (List Int)} {s k : Nat} {st st' : BFState}
    (h : Bounded graph weights s k st) (hle : Le st' st) : Bounded graph weights s k st' := by
  intro v W vs hw hnd hlen
  obtain ⟨d, hd, hdW⟩ := h v W vs hw hnd hlen
  obtain ⟨d', hd', hle'⟩ := hle v d hd
  exact ⟨d', hd', by omega⟩

/-- A round of the relaxation extends the bound to the paths of one more
edge. -/
theorem Bounded.round {graph weights : List (List Int)} {source : Int} {s k j K : Nat}
    (hwf : WellFormed graph weights source) (hbelow : BelowSentinel graph weights s)
    (hfit : NoOverflow graph weights s K)
    {st st' : BFState} (hs : Sound graph weights s j st) (hj : j + edgeCount graph ≤ K)
    (h : Bounded graph weights s k st)
    (hrun : relaxPass graph weights st = some st') : Bounded graph weights s (k + 1) st' := by
  obtain ⟨st'', hrun', _, hle, hb⟩ := relaxPass_spec hwf hfit hs hj
  rw [hrun] at hrun'
  cases hrun'
  intro v W vs hw hnd hlen
  cases hw with
  | nil => exact (h.of_le hle) s 0 [] Walk.nil hnd (Nat.zero_le _)
  | @snoc u _ W0 w vs0 hw0 he =>
    rw [← List.cons_append] at hnd
    have hnd0 := (List.nodup_append.1 hnd).1
    rw [List.length_append, List.length_singleton] at hlen
    obtain ⟨du, hdu, hduW⟩ := h u W0 vs0 hw0 hnd0 (by omega)
    have hW0 := hbelow u W0 vs0 hw0 hnd0
    obtain ⟨dv, hdv, hdvle⟩ := hb u v w du he hdu (by omega)
    exact ⟨dv, hdv, by omega⟩

/-- The rounds of the relaxation, one after the other. -/
theorem relaxRounds_fold {graph weights : List (List Int)} {source : Int} {s K : Nat}
    (hwf : WellFormed graph weights source) (hbelow : BelowSentinel graph weights s)
    (hfit : NoOverflow graph weights s K) :
    ∀ (rs : List Nat) (st : BFState) (k j : Nat), Sound graph weights s j st →
      j + rs.length * edgeCount graph ≤ K → Bounded graph weights s k st →
      ∃ st', rs.foldlM (fun st _ => relaxPass graph weights st) st = some st' ∧
        Sound graph weights s (j + rs.length * edgeCount graph) st' ∧
        Bounded graph weights s (k + rs.length) st' := by
  intro rs
  induction rs with
  | nil =>
    intro st k j hs _ hb
    exact ⟨st, rfl, hs.weaken (Nat.le_add_right _ _), hb⟩
  | cons r rs ih =>
    intro st k j hs hj hb
    rw [List.length_cons, Nat.succ_mul] at hj
    obtain ⟨st1, hstep, hs1, _, _⟩ := relaxPass_spec hwf hfit hs (by omega)
    obtain ⟨st2, hrun, hs2, hb2⟩ := ih st1 (k + 1) (j + edgeCount graph) hs1 (by omega)
      (hb.round hwf hbelow hfit hs (by omega) hstep)
    refine ⟨st2, ?_, ?_, ?_⟩
    · rw [List.foldlM_cons, hstep]
      exact hrun
    · rw [List.length_cons, Nat.succ_mul]
      exact hs2.weaken (by omega)
    · rw [List.length_cons]
      have e : k + (rs.length + 1) = k + 1 + rs.length := by omega
      rw [e]
      exact hb2


theorem initState_spec {graph weights : List (List Int)} {source : Int}
    (hwf : WellFormed graph weights source) :
    ∃ st0, initState graph.length source = some st0 ∧
      Sound graph weights source.toNat 0 st0 ∧ Bounded graph weights source.toNat 0 st0 := by
  obtain ⟨_, _, _, h0, h1⟩ := hwf
  have hsrc : source = (source.toNat : Int) := by omega
  have hlt : source.toNat < graph.length := by omega
  generalize source.toNat = s at hsrc hlt
  subst hsrc
  unfold initState
  rw [assign_nat _ _ (by rw [List.length_replicate]; exact hlt),
    assign_nat _ _ (by rw [List.length_replicate]; exact hlt)]
  refine ⟨_, rfl, ⟨?_, ?_, ?_, ?_⟩, ?_⟩
  · simp
  · simp
  · simp
  · intro v d hd
    simp only at hd ⊢
    rw [List.getElem?_set] at hd
    by_cases hsv : s = v
    · subst hsv
      rw [if_pos rfl, if_pos (by rw [List.length_replicate]; exact hlt)] at hd
      cases hd
      right
      refine ⟨by decide, ?_, [], Walk.nil, le_refl _⟩
      rw [List.getElem?_set, if_pos rfl, if_pos (by rw [List.length_replicate]; exact hlt)]
    · rw [if_neg hsv] at hd
      left
      have hvl : v < graph.length := by
        have := (List.getElem?_eq_some_iff.1 hd).1
        rw [List.length_replicate] at this
        exact this
      refine ⟨List.eq_of_mem_replicate (List.getElem?_mem hd), ?_, ?_⟩
      · rw [List.getElem?_set, if_neg hsv, List.getElem?_replicate, if_pos hvl]
      · rw [List.getElem?_replicate, if_pos hvl]
  · intro v W vs hw _ hlen
    cases hw with
    | nil =>
      refine ⟨0, ?_, le_refl _⟩
      simp only
      rw [List.getElem?_set, if_pos rfl, if_pos (by rw [List.length_replicate]; exact hlt)]
    | snoc _ _ =>
      rw [List.length_append, List.length_singleton] at hlen
      omega

/-- The slices after the relaxation: they are sound, and every distance is at
most the weight of every path from the source. -/
theorem relaxRounds_spec {graph weights : List (List Int)} {source : Int}
    (hwf : WellFormed graph weights source)
    (hbelow : BelowSentinel graph weights source.toNat)
    (hfit : NoOverflow graph weights source.toNat ((graph.length - 1) * edgeCount graph)) :
    ∃ st0 st, initState graph.length source = some st0 ∧
      relaxRounds graph weights st0 = some st ∧
      Sound graph weights source.toNat ((graph.length - 1) * edgeCount graph) st ∧
      ∀ (v : Nat) (W : Int) (vs : List Nat), Walk graph weights source.toNat v W vs →
        (source.toNat :: vs).Nodup → ∃ d, st.distances[v]? = some d ∧ d ≤ W := by
  obtain ⟨st0, hinit, hs0, hb0⟩ := initState_spec hwf
  obtain ⟨st, hrun, hs, hb⟩ := relaxRounds_fold hwf hbelow hfit
    (List.range (graph.length - 1)) st0 0 0 hs0
    (by rw [List.length_range, Nat.zero_add]) hb0
  rw [List.length_range, Nat.zero_add] at hs
  refine ⟨st0, st, hinit, hrun, hs, ?_⟩
  intro v W vs hw hnd
  have hsrc : source.toNat < graph.length := by
    obtain ⟨_, _, _, h0, h1⟩ := hwf
    omega
  refine hb v W vs hw hnd ?_
  rw [List.length_range, Nat.zero_add]
  exact hw.length_le hwf hsrc hnd

/-- After the relaxation every vertex reachable from the source is found. -/
theorem found_of_reach {graph weights : List (List Int)} {s k : Nat} {st : BFState}
    (hbelow : BelowSentinel graph weights s) (hs : Sound graph weights s k st)
    (htight : ∀ (v : Nat) (W : Int) (vs : List Nat), Walk graph weights s v W vs →
      (s :: vs).Nodup → ∃ d, st.distances[v]? = some d ∧ d ≤ W)
    {v : Nat} (hr : Reach graph weights s v) :
    ∃ d, st.distances[v]? = some d ∧ d < sentinel ∧ st.hasPath[v]? = some true ∧
      ∃ vs, Walk graph weights s v d vs := by
  obtain ⟨W, vs, hw⟩ := hr
  obtain ⟨W', vs', hw', hnd, _⟩ := hw.simplify
  obtain ⟨d, hd, hle⟩ := htight v W' vs' hw' hnd
  have hW' := hbelow v W' vs' hw' hnd
  obtain ⟨h1, h2⟩ := hs.walk hd (by omega)
  exact ⟨d, hd, by omega, h1, h2⟩


/-! ### The check for negative cycles -/

theorem checkEdge_spec {graph weights : List (List Int)} {source : Int}
    (hwf : WellFormed graph weights source) {dist : List Int} {inNeg : List Bool}
    (hd : dist.length = graph.length) (hn : inNeg.length = graph.length)
    {u j v : Nat} {w du : Int} (he : EdgeAt graph weights u j v w)
    (hdu : dist[u]? = some du) (hfit : minInt64 ≤ du + w ∧ du + w ≤ maxInt64) :
    ∃ inNeg', checkEdge weights dist u inNeg (j, (v : Int)) = some inNeg' ∧
      inNeg'.length = graph.length ∧
      (∀ x : Nat, inNeg[x]? = some true → inNeg'[x]? = some true) ∧
      (∀ x : Nat, inNeg'[x]? = some true → inNeg[x]? = some true ∨
        (x = v ∧ ∃ dv, dist[v]? = some dv ∧ du + w < dv)) ∧
      (∀ dv, dist[v]? = some dv → du + w < dv → inNeg'[v]? = some true) := by
  have hvl := (he.bounds hwf).2
  obtain ⟨nbrs, ws, hu, hj, hws, hw⟩ := he
  obtain ⟨dv, hdv⟩ := getElem?_lt (by rw [hd]; exact hvl : v < dist.length)
  unfold checkEdge
  simp only [hws, hw, hdu, index_nat, hdv, wrapAdd_eq hfit]
  by_cases hrel : du + w < dv
  · rw [if_pos hrel, assign_nat _ _ (by rw [hn]; exact hvl)]
    refine ⟨_, rfl, by rw [List.length_set]; exact hn, ?_, ?_, ?_⟩
    · intro x hx
      rw [List.getElem?_set]
      by_cases hvx : v = x
      · rw [if_pos hvx, if_pos (by rw [hn]; exact hvl)]
      · rw [if_neg hvx]
        exact hx
    · intro x hx
      rw [List.getElem?_set] at hx
      by_cases hvx : v = x
      · exact Or.inr ⟨hvx.symm, dv, rfl, hrel⟩
      · rw [if_neg hvx] at hx
        exact Or.inl hx
    · intro dv' _ _
      rw [List.getElem?_set, if_pos rfl, if_pos (by rw [hn]; exact hvl)]
  · rw [if_neg hrel]
    refine ⟨inNeg, rfl, hn, fun x hx => hx, fun x hx => Or.inl hx, ?_⟩
    intro dv' hdv' hlt
    cases hdv'
    exact absurd hlt hrel

theorem checkEdges_spec {graph weights : List (List Int)} {source : Int}
    (hwf : WellFormed graph weights source) {dist : List Int}
    (hd : dist.length = graph.length) {u : Nat} {du : Int} (hdu : dist[u]? = some du)
    (hfit : ∀ (v : Nat) (w : Int), Edge graph weights u v w →
      minInt64 ≤ du + w ∧ du + w ≤ maxInt64) :
    ∀ (es : List (Nat × Int)) (inNeg : List Bool),
      (∀ e ∈ es, ∃ (v : Nat) (w : Int), e.2 = (v : Int) ∧ EdgeAt graph weights u e.1 v w) →
      inNeg.length = graph.length →
      ∃ inNeg', es.foldlM (checkEdge weights dist u) inNeg = some inNeg' ∧
        inNeg'.length = graph.length ∧
        (∀ x : Nat, inNeg[x]? = some true → inNeg'[x]? = some true) ∧
        (∀ x : Nat, inNeg'[x]? = some true → inNeg[x]? = some true ∨
          ∃ w, Edge graph weights u x w ∧ ∃ dx, dist[x]? = some dx ∧ du + w < dx) ∧
        (∀ e ∈ es, ∀ (v : Nat) (w : Int), e.2 = (v : Int) → EdgeAt graph weights u e.1 v w →
          ∀ dv, dist[v]? = some dv → du + w < dv → inNeg'[v]? = some true) := by
  intro es
  induction es with
  | nil =>
    intro inNeg _ hn
    exact ⟨inNeg, rfl, hn, fun x hx => hx, fun x hx => Or.inl hx, fun e he => (by cases he)⟩
  | cons e es ih =>
    intro inNeg hes hn
    obtain ⟨v, w, hev, hedge⟩ := hes e (List.mem_cons_self _ _)
    obtain ⟨n1, hstep, hn1, hmono1, hsound1, hcomp1⟩ :=
      checkEdge_spec hwf hd hn hedge hdu (hfit v w ⟨e.1, hedge⟩)
    obtain ⟨n2, hrun, hn2, hmono2, hsound2, hcomp2⟩ := ih n1
      (fun e' he' => hes e' (List.mem_cons_of_mem _ he')) hn1
    refine ⟨n2, ?_, hn2, fun x hx => hmono2 x (hmono1 x hx), ?_, ?_⟩
    · rw [List.foldlM_cons]
      have he : e = (e.1, (v : Int)) := by rw [← hev]
      rw [he, hstep]
      exact hrun
    · intro x hx
      rcases hsound2 x hx with h | h
      · rcases hsound1 x h with h' | ⟨hxv, dv, hdv, hlt⟩
        · exact Or.inl h'
        · subst hxv
          exact Or.inr ⟨w, ⟨e.1, hedge⟩, dv, hdv, hlt⟩
      · exact Or.inr h
    · intro e' he' v' w' hev' hedge' dv hdv hlt
      rcases List.mem_cons.1 he' with rfl | he'
      · have hvv : v' = v := by
          have := hev.symm.trans hev'
          omega
        subst hvv
        have hww : w' = w := by
          obtain ⟨_, ws1, _, _, hws1, hw1⟩ := hedge
          obtain ⟨_, ws2, _, _, hws2, hw2⟩ := hedge'
          rw [hws1] at hws2
          cases hws2
          rw [hw1] at hw2
          exact (Option.some.inj hw2).symm
        subst hww
        exact hmono2 v' (hcomp1 dv hdv hlt)
      · exact hcomp2 e' he' v' w' hev' hedge' dv hdv hlt

theorem checkVertex_spec {graph weights : List (List Int)} {source : Int}
    (hwf : WellFormed graph weights source) {dist : List Int} {inNeg : List Bool}
    (hd : dist.length = graph.length) (hn : inNeg.length = graph.length)
    (hfit : ∀ (u v : Nat) (w du : Int), Edge graph weights u v w → dist[u]? = some du →
      du ≠ sentinel → minInt64 ≤ du + w ∧ du + w ≤ maxInt64)
    {u : Nat} (hu : u < graph.length) :
    ∃ inNeg', checkVertex graph weights dist inNeg u = some inNeg' ∧
      inNeg'.length = graph.length ∧
      (∀ x : Nat, inNeg[x]? = some true → inNeg'[x]? = some true) ∧
      (∀ x : Nat, inNeg'[x]? = some true → inNeg[x]? = some true ∨
        ∃ w, Relaxable graph weights dist u x w) ∧
      (∀ (v : Nat) (w : Int), Relaxable graph weights dist u v w →
        inNeg'[v]? = some true) := by
  obtain ⟨du, hdu⟩ := getElem?_lt (by rw [hd]; exact hu : u < dist.length)
  obtain ⟨nbrs, hnbrs⟩ := getElem?_lt hu
  unfold checkVertex
  simp only [hdu]
  by_cases hsen : du = sentinel
  · rw [if_pos hsen]
    refine ⟨inNeg, rfl, hn, fun x hx => hx, fun x hx => Or.inl hx, ?_⟩
    rintro v w ⟨_, du', dv, hdu', hne, _, _⟩
    rw [hdu] at hdu'
    cases hdu'
    exact absurd hsen hne
  · rw [if_neg hsen]
    simp only [hnbrs]
    obtain ⟨n', hrun, hn', hmono, hsound, hcomp⟩ := checkEdges_spec hwf hd hdu
      (fun v w he => hfit u v w du he hdu hsen) nbrs.enum inNeg
      (fun e he => edgeAt_of_mem_enum hwf hnbrs he) hn
    refine ⟨n', hrun, hn', hmono, ?_, ?_⟩
    · intro x hx
      rcases hsound x hx with h | ⟨w, hedge, dx, hdx, hlt⟩
      · exact Or.inl h
      · exact Or.inr ⟨w, hedge, du, dx, hdu, hsen, hdx, hlt⟩
    · rintro v w ⟨⟨j, hej⟩, du', dv, hdu', _, hdv, hlt⟩
      rw [hdu] at hdu'
      cases hdu'
      have hmem : (j, (v : Int)) ∈ nbrs.enum := by
        obtain ⟨nbrs', _, hu', hj', _, _⟩ := hej
        rw [hnbrs] at hu'
        cases hu'
        exact List.mk_mem_enum_iff_getElem?.2 hj'
      exact hcomp _ hmem v w rfl hej dv hdv hlt

theorem checkVertices_spec {graph weights : List (List Int)} {source : Int}
    (hwf : WellFormed graph weights source) {dist : List Int}
    (hd : dist.length = graph.length)
    (hfit : ∀ (u v : Nat) (w du : Int), Edge graph weights u v w → dist[u]? = some du →
      du ≠ sentinel → minInt64 ≤ du + w ∧ du + w ≤ maxInt64) :
    ∀ (us : List Nat) (inNeg : List Bool), (∀ u ∈ us, u < graph.length) →
      inNeg.length = graph.length →
      ∃ inNeg', us.foldlM (checkVertex graph weights dist) inNeg = some inNeg' ∧
        inNeg'.length = graph.length ∧
        (∀ x : Nat, inNeg[x]? = some true → inNeg'[x]? = some true) ∧
        (∀ x : Nat, inNeg'[x]? = some true → inNeg[x]? = some true ∨
          ∃ u w, Relaxable graph weights dist u x w) ∧
        (∀ u ∈ us, ∀ (v : Nat) (w : Int), Relaxable graph weights dist u v w →
          inNeg'[v]? = some true) := by
  intro us
  induction us with
  | nil =>
    intro inNeg _ hn
    exact ⟨inNeg, rfl, hn, fun x hx => hx, fun x hx => Or.inl hx, fun u hu => (by cases hu)⟩
  | cons u us ih =>
    intro inNeg hus hn
    obtain ⟨n1, hstep, hn1, hmono1, hsound1, hcomp1⟩ :=
      checkVertex_spec hwf hd hn hfit (hus u (List.mem_cons_self _ _))
    obtain ⟨n2, hrun, hn2, hmono2, hsound2, hcomp2⟩ :=
      ih n1 (fun x hx => hus x (List.mem_cons_of_mem _ hx)) hn1
    refine ⟨n2, ?_, hn2, fun x hx => hmono2 x (hmono1 x hx), ?_, ?_⟩
    · rw [List.foldlM_cons, hstep]
      exact hrun
    · intro x hx
      rcases hsound2 x hx with h | h
      · rcases hsound1 x h with h' | ⟨w, hrel⟩
        · exact Or.inl h'
        · exact Or.inr ⟨u, w, hrel⟩
      · exact Or.inr h
    · intro u' hu' v w hrel
      rcases List.mem_cons.1 hu' with rfl | hu'
      · exact hmono2 v (hcomp1 v w hrel)
      · exact hcomp2 u' hu' v w hrel

/-- The check marks exactly the heads of the edges that can still be relaxed. -/
theorem checkPass_spec {graph weights : List (List Int)} {source : Int}
    (hwf : WellFormed graph weights source) {dist : List Int}
    (hd : dist.length = graph.length)
    (hfit : ∀ (u v : Nat) (w du : Int), Edge graph weights u v w → dist[u]? = some du →
      du ≠ sentinel → minInt64 ≤ du + w ∧ du + w ≤ maxInt64) :
    ∃ inNeg, checkPass graph weights dist = some inNeg ∧ inNeg.length = graph.length ∧
      ∀ x : Nat, inNeg[x]? = some true ↔ ∃ u w, Relaxable graph weights dist u x w := by
  obtain ⟨inNeg, hrun, hn, _, hsound, hcomp⟩ := checkVertices_spec hwf hd hfit
    (List.range graph.length) (List.replicate graph.length false)
    (fun u hu => List.mem_range.1 hu) (List.length_replicate _ _)
  refine ⟨inNeg, hrun, hn, ?_⟩
  intro x
  constructor
  · intro hx
    rcases hsound x hx with h | h
    · have := List.eq_of_mem_replicate (List.getElem?_mem h)
      cases this
    · exact h
  · rintro ⟨u, w, hrel⟩
    obtain ⟨j, hej⟩ := hrel.1
    exact hcomp u (List.mem_range.2 (hej.bounds hwf).1) x w hrel


/-! ### The propagation -/

theorem count_set_false :
    ∀ (h : List Bool) (v : Nat), h[v]? = some true →
      (h.set v false).count true + 1 = h.count true := by
  intro h
  induction h with
  | nil =>
    intro v hv
    simp at hv
  | cons a h ih =>
    intro v hv
    cases v with
    | zero =>
      simp only [List.getElem?_cons_zero, Option.some.injEq] at hv
      subst hv
      simp
    | succ v =>
      simp only [List.getElem?_cons_succ] at hv
      have := ih v hv
      simp only [List.set_cons_succ, List.count_cons]
      omega

/-- The loop that fills the queue: it clears `hasPath` at the marked vertices
and puts them in the queue. -/
theorem seedFold_spec {n : Nat} (inNeg : List Bool) (hn : inNeg.length = n) :
    ∀ (is : List Nat) (st : List Int × List Bool), (∀ i ∈ is, i < n) → st.2.length = n →
      ∃ st', is.foldlM (seedStep inNeg) st = some st' ∧ st'.2.length = n ∧
        (∀ x : Nat, st.2[x]? = some false → st'.2[x]? = some false) ∧
        (∀ x : Nat, x ∈ is → inNeg[x]? = some true →
          st'.2[x]? = some false ∧ (x : Int) ∈ st'.1) ∧
        (∀ x : Nat, st'.2[x]? = some false →
          st.2[x]? = some false ∨ inNeg[x]? = some true) ∧
        (∀ q ∈ st'.1, q ∈ st.1 ∨ ∃ x : Nat, q = (x : Int) ∧ x < n ∧
          inNeg[x]? = some true ∧ st'.2[x]? = some false) ∧
        (∀ q ∈ st.1, q ∈ st'.1) ∧
        st'.1.length ≤ st.1.length + is.length := by
  intro is
  induction is with
  | nil =>
    intro st _ hl
    exact ⟨st, rfl, hl, fun x hx => hx, fun x hx => (by cases hx), fun x hx => Or.inl hx,
      fun q hq => Or.inl hq, fun q hq => hq, le_refl _⟩
  | cons i is ih =>
    intro st his hl
    have hi := his i (List.mem_cons_self _ _)
    obtain ⟨b, hb⟩ := getElem?_lt (by rw [hn]; exact hi : i < inNeg.length)
    cases b with
    | false =>
      have hstep : seedStep inNeg st i = some st := by
        unfold seedStep
        simp only [hb]
      obtain ⟨st', hrun, hl', hstay, hmark, horig, hq, hsub, hlen⟩ :=
        ih st (fun x hx => his x (List.mem_cons_of_mem _ hx)) hl
      refine ⟨st', by rw [List.foldlM_cons, hstep]; exact hrun, hl', hstay, ?_, horig, hq,
        hsub, by rw [List.length_cons]; omega⟩
      intro x hx hxm
      rcases List.mem_cons.1 hx with rfl | hx
      · rw [hb] at hxm
        cases hxm
      · exact hmark x hx hxm
    | true =>
      have hstep : seedStep inNeg st i = some (st.1 ++ [(i : Int)], st.2.set i false) := by
        unfold seedStep
        simp only [hb]
        rw [assign_nat _ _ (by rw [hl]; exact hi)]
      obtain ⟨st', hrun, hl', hstay, hmark, horig, hq, hsub, hlen⟩ :=
        ih (st.1 ++ [(i : Int)], st.2.set i false)
          (fun x hx => his x (List.mem_cons_of_mem _ hx))
          (by simp only [List.length_set]; exact hl)
      have hset : (st.2.set i false)[i]? = some false := by
        rw [List.getElem?_set, if_pos rfl, if_pos (by rw [hl]; exact hi)]
      refine ⟨st', by rw [List.foldlM_cons, hstep]; exact hrun, hl', ?_, ?_, ?_, ?_, ?_, ?_⟩
      · intro x hx
        apply hstay x
        simp only
        rw [List.getElem?_set]
        by_cases hix : i = x
        · rw [if_pos hix, if_pos (by rw [hl]; exact hi)]
        · rw [if_neg hix]
          exact hx
      · intro x hx hxm
        rcases List.mem_cons.1 hx with rfl | hx
        · exact ⟨hstay x hset, hsub _ (List.mem_append_right _ (List.mem_singleton.2 rfl))⟩
        · exact hmark x hx hxm
      · intro x hx
        rcases horig x hx with h | h
        · simp only at h
          rw [List.getElem?_set] at h
          by_cases hix : i = x
          · exact Or.inr (by rw [← hix]; exact hb)
          · rw [if_neg hix] at h
            exact Or.inl h
        · exact Or.inr h
      · intro q hq'
        rcases hq q hq' with h | h
        · rcases List.mem_append.1 h with h | h
          · exact Or.inl h
          · rw [List.mem_singleton] at h
            exact Or.inr ⟨i, h, hi, hb, hstay i hset⟩
        · exact Or.inr h
      · intro q hq'
        exact hsub q (List.mem_append_left _ hq')
      · simp only [List.length_append, List.length_cons, List.length_nil] at hlen ⊢
        omega


theorem Reach.edge {graph weights : List (List Int)} {a u v : Nat} {w : Int}
    (h : Reach graph weights a u) (he : Edge graph weights u v w) :
    Reach graph weights a v := by
  obtain ⟨W, vs, hw⟩ := h
  exact ⟨_, _, Walk.snoc hw he⟩

theorem Reach.append {graph weights : List (List Int)} {a b c : Nat}
    (h1 : Reach graph weights a b) (h2 : Reach graph weights b c) :
    Reach graph weights a c := by
  obtain ⟨W1, vs1, hw1⟩ := h1
  obtain ⟨W2, vs2, hw2⟩ := h2
  exact ⟨_, _, hw1.snoc_walk hw2⟩

/-- The visit of one neighbour `v` of the vertex `u` taken from the queue. -/
theorem spreadStep_spec {graph weights : List (List Int)} {s : Nat} {hp0 inNeg : List Bool}
    {queue : List Int} {hasPath : List Bool} {u v : Nat} {w : Int}
    (hinv : SpreadInv graph weights s hp0 inNeg queue hasPath (some u))
    (hu : FromMarked graph weights inNeg u) (he : Edge graph weights u v w)
    (hv : v < graph.length) :
    ∃ st', spreadStep (queue, hasPath) (v : Int) = some st' ∧
      SpreadInv graph weights s hp0 inNeg st'.1 st'.2 (some u) ∧
      (∀ x : Nat, hasPath[x]? = some false → st'.2[x]? = some false) ∧
      st'.2[v]? = some false ∧
      st'.1.length + st'.2.count true = queue.length + hasPath.count true := by
  have hvl : v < hasPath.length := by rw [hinv.len]; exact hv
  obtain ⟨b, hb⟩ := getElem?_lt hvl
  unfold spreadStep
  simp only [index_nat, hb]
  cases b with
  | false => exact ⟨(queue, hasPath), rfl, hinv, fun x hx => hx, hb, rfl⟩
  | true =>
    simp only
    rw [assign_nat _ _ hvl]
    have hstay : ∀ x : Nat, hasPath[x]? = some false →
        (hasPath.set v false)[x]? = some false := by
      intro x hx
      rw [List.getElem?_set]
      by_cases hvx : v = x
      · rw [if_pos hvx, if_pos hvl]
      · rw [if_neg hvx]
        exact hx
    have hset : (hasPath.set v false)[v]? = some false := by
      rw [List.getElem?_set, if_pos rfl, if_pos hvl]
    have hfm : FromMarked graph weights inNeg v := by
      obtain ⟨m, hm, hr⟩ := hu
      exact ⟨m, hm, hr.edge he⟩
    refine ⟨_, rfl, ⟨?_, ?_, ?_, ?_, ?_, fun x hx => hstay x (hinv.stay x hx)⟩, hstay, hset, ?_⟩
    · simp only [List.length_set]
      exact hinv.len
    · intro q hq
      simp only at hq ⊢
      rcases List.mem_append.1 hq with hq | hq
      · obtain ⟨x, hqx, hxl, hxf, hxm⟩ := hinv.valid q hq
        exact ⟨x, hqx, hxl, hstay x hxf, hxm⟩
      · rw [List.mem_singleton] at hq
        exact ⟨v, hq, hv, hset, hfm⟩
    · intro x hr hx
      simp only at hx ⊢
      by_cases hvx : v = x
      · left
        rw [← hvx]
        exact List.mem_append_right _ (List.mem_singleton.2 rfl)
      · rw [List.getElem?_set, if_neg hvx] at hx
        rcases hinv.done x hr hx with h | h | h
        · exact Or.inl (List.mem_append_left _ h)
        · exact Or.inr (Or.inl h)
        · exact Or.inr (Or.inr (fun v' w' he' => hstay v' (h v' w' he')))
    · intro x hx
      simp only at hx
      by_cases hvx : v = x
      · rw [← hvx]
        exact Or.inr hfm
      · rw [List.getElem?_set, if_neg hvx] at hx
        exact hinv.orig x hx
    · intro m hm hml
      exact hstay m (hinv.marked m hm hml)
    · simp only [List.length_append, List.length_singleton]
      have := count_set_false hasPath v hb
      omega

/-- The visits of the neighbours `vs` of the vertex `u` taken from the queue. -/
theorem spreadNbrs_spec {graph weights : List (List Int)} {s : Nat} {hp0 inNeg : List Bool}
    {u : Nat} (hu : FromMarked graph weights inNeg u) :
    ∀ (vs : List Int) (st : List Int × List Bool),
      (∀ y ∈ vs, ∃ (v : Nat) (w : Int), y = (v : Int) ∧ v < graph.length ∧
        Edge graph weights u v w) →
      SpreadInv graph weights s hp0 inNeg st.1 st.2 (some u) →
      ∃ st', vs.foldlM spreadStep st = some st' ∧
        SpreadInv graph weights s hp0 inNeg st'.1 st'.2 (some u) ∧
        (∀ x : Nat, st.2[x]? = some false → st'.2[x]? = some false) ∧
        (∀ v : Nat, (v : Int) ∈ vs → st'.2[v]? = some false) ∧
        st'.1.length + st'.2.count true = st.1.length + st.2.count true := by
  intro vs
  induction vs with
  | nil =>
    intro st _ hinv
    exact ⟨st, rfl, hinv, fun x hx => hx, fun v hv => (by cases hv), rfl⟩
  | cons y vs ih =>
    intro st hvs hinv
    obtain ⟨v, w, hyv, hvl, he⟩ := hvs y (List.mem_cons_self _ _)
    obtain ⟨st1, hstep, hinv1, hstay1, hv1, hcount1⟩ := spreadStep_spec hinv hu he hvl
    obtain ⟨st2, hrun, hinv2, hstay2, hv2, hcount2⟩ :=
      ih st1 (fun y' hy' => hvs y' (List.mem_cons_of_mem _ hy')) hinv1
    refine ⟨st2, ?_, hinv2, fun x hx => hstay2 x (hstay1 x hx), ?_, by omega⟩
    · rw [List.foldlM_cons, hyv]
      have : (st.1, st.2) = st := rfl
      rw [← this, hstep]
      exact hrun
    · intro v' hv'
      rcases List.mem_cons.1 hv' with h | h
      · have : v' = v := by omega
        subst this
        exact hstay2 v' hv1
      · exact hv2 v' h

/-- The propagation ends within its bound, with no vertex left in the queue. -/
theorem spreadLoop_spec {graph weights : List (List Int)} {source : Int} {s : Nat}
    (hwf : WellFormed graph weights source) {hp0 inNeg : List Bool} :
    ∀ (fuel : Nat) (queue : List Int) (hasPath : List Bool),
      SpreadInv graph weights s hp0 inNeg queue hasPath none →
      queue.length + hasPath.count true < fuel →
      ∃ hasPath', spreadLoop graph fuel queue hasPath = some hasPath' ∧
        SpreadInv graph weights s hp0 inNeg [] hasPath' none := by
  intro fuel
  induction fuel with
  | zero =>
    intro queue hasPath _ hf
    omega
  | succ fuel ih =>
    intro queue hasPath hinv hf
    cases queue with
    | nil => exact ⟨hasPath, rfl, hinv⟩
    | cons q queue =>
      obtain ⟨u, hqu, hul, huf, hum⟩ := hinv.valid q (List.mem_cons_self _ _)
      subst hqu
      obtain ⟨nbrs, hnbrs⟩ := getElem?_lt hul
      have hinv0 : SpreadInv graph weights s hp0 inNeg queue hasPath (some u) := by
        refine ⟨hinv.len, fun q hq => hinv.valid q (List.mem_cons_of_mem _ hq), ?_, hinv.orig,
          hinv.marked, hinv.stay⟩
        intro x hr hx
        rcases hinv.done x hr hx with h | h | h
        · rcases List.mem_cons.1 h with h | h
          · right
            left
            have : x = u := by omega
            rw [this]
          · exact Or.inl h
        · cases h
        · exact Or.inr (Or.inr h)
      obtain ⟨st', hrun, hinv1, _, hall, hcount⟩ := spreadNbrs_spec hum nbrs (queue, hasPath)
        (by
          intro y hy
          obtain ⟨j, hj⟩ := List.mem_iff_getElem?.1 hy
          obtain ⟨v, hv, hvl⟩ := wf_neighbour hwf hnbrs hj
          obtain ⟨ws, hws, hlen⟩ := wf_weights hwf hnbrs
          obtain ⟨w, hw⟩ := getElem?_lt
            (by rw [← hlen]; exact (List.getElem?_eq_some_iff.1 hj).1 : j < ws.length)
          exact ⟨v, w, hv, hvl, j, nbrs, ws, hnbrs, by rw [hj, hv], hws, hw⟩) hinv0
      have hinv2 : SpreadInv graph weights s hp0 inNeg st'.1 st'.2 none := by
        refine ⟨hinv1.len, hinv1.valid, ?_, hinv1.orig, hinv1.marked, hinv1.stay⟩
        intro x hr hx
        rcases hinv1.done x hr hx with h | h | h
        · exact Or.inl h
        · right
          right
          cases h
          intro v w he
          obtain ⟨j, nbrs', _, hu', hj', _, _⟩ := he
          rw [hnbrs] at hu'
          cases hu'
          exact hall v (List.getElem?_mem hj')
        · exact Or.inr (Or.inr h)
      simp only [List.length_cons] at hf
      obtain ⟨hasPath', hloop, hfinal⟩ := ih st'.1 st'.2 hinv2 (by simp only at hcount; omega)
      refine ⟨hasPath', ?_, hfinal⟩
      unfold spreadLoop
      simp only [index_nat, hnbrs, hrun]
      exact hloop


/-! ### Marked vertices and negative cycles -/

/-- A vertex the check marks lies downstream of a negative cycle. -/
theorem marked_downstream {graph weights : List (List Int)} {s k : Nat} {st : BFState}
    (hs : Sound graph weights s k st)
    (htight : ∀ (v : Nat) (W : Int) (vs : List Nat), Walk graph weights s v W vs →
      (s :: vs).Nodup → ∃ d, st.distances[v]? = some d ∧ d ≤ W)
    {u m : Nat} {w : Int} (hrel : Relaxable graph weights st.distances u m w) :
    Downstream graph weights s m := by
  obtain ⟨hedge, du, dm, hdu, hne, hdm, hlt⟩ := hrel
  have hdule := hs.le_sentinel hdu
  obtain ⟨_, vs, hwalk⟩ := hs.walk hdu (by omega)
  have hwalk' : Walk graph weights s m (du + w) (vs ++ [m]) := Walk.snoc hwalk hedge
  obtain ⟨W', vs', hw', hnd, hle⟩ := hwalk'.simplify
  by_contra hdown
  have hW' : W' ≤ du + w := by
    apply hle
    intro x hx Wc cs hc
    by_contra hneg
    obtain ⟨vs1, vs2, W1, W2, h1, h2, _, _⟩ := hwalk'.split x hx
    exact hdown ⟨x, Wc, cs, ⟨W1, vs1, h1⟩, hc, by omega, ⟨W2, vs2, h2⟩⟩
  obtain ⟨d, hd, hdW⟩ := htight m W' vs' hw' hnd
  rw [hdm] at hd
  cases hd
  omega

/-- Along a walk between found vertices, either some vertex is marked or the
distances differ by at most the weight of the walk. -/
theorem marked_or_bounded {graph weights : List (List Int)} {dist : List Int}
    {inNeg : List Bool}
    (hmark : ∀ x : Nat, inNeg[x]? = some true ↔ ∃ u w, Relaxable graph weights dist u x w)
    (hfound : ∀ x : Nat, x < graph.length → ∃ d, dist[x]? = some d)
    {c b : Nat} {W : Int} {vs : List Nat} (hw : Walk graph weights c b W vs)
    (hc : c < graph.length) (hb : ∀ x ∈ c :: vs, x < graph.length)
    (hne : ∀ x ∈ c :: vs, ∀ d, dist[x]? = some d → d ≠ sentinel) :
    (∃ m ∈ vs, inNeg[m]? = some true) ∨
    ∃ dc db, dist[c]? = some dc ∧ dist[b]? = some db ∧ db ≤ dc + W := by
  induction hw with
  | nil =>
    obtain ⟨d, hd⟩ := hfound c hc
    exact Or.inr ⟨d, d, hd, hd, by omega⟩
  | @snoc u v W w vs hw he ih =>
    have hsub : ∀ x ∈ c :: vs, x ∈ c :: (vs ++ [v]) := by
      intro x hx
      rw [← List.cons_append]
      exact List.mem_append_left _ hx
    rcases ih (fun x hx => hb x (hsub x hx)) (fun x hx => hne x (hsub x hx)) with
      ⟨m, hm, hmm⟩ | ⟨dc, du, hdc, hdu, hle⟩
    · exact Or.inl ⟨m, List.mem_append_left _ hm, hmm⟩
    · have hvmem : v ∈ c :: (vs ++ [v]) := by
        rw [← List.cons_append]
        exact List.mem_append_right _ (List.mem_singleton.2 rfl)
      obtain ⟨dv, hdv⟩ := hfound v (hb v hvmem)
      by_cases hrel : du + w < dv
      · left
        refine ⟨v, List.mem_append_right _ (List.mem_singleton.2 rfl), ?_⟩
        rw [hmark v]
        refine ⟨u, w, he, du, dv, hdu, ?_, hdv, hrel⟩
        have humem : u ∈ c :: vs := by
          cases hw with
          | nil => exact List.mem_cons_self _ _
          | snoc _ _ =>
            exact List.mem_cons_of_mem _ (List.mem_append_right _ (List.mem_singleton.2 rfl))
        exact hne u (hsub u humem) du hdu
      · exact Or.inr ⟨dc, dv, hdc, hdv, by omega⟩

/-- Once the queue of the propagation is empty, every vertex that can be
reached from a vertex without path, itself reachable from the source, has no
path. -/
theorem spread_closed {graph weights : List (List Int)} {s : Nat} {hp0 inNeg : List Bool}
    {hasPath : List Bool} (hinv : SpreadInv graph weights s hp0 inNeg [] hasPath none)
    {m y : Nat} {W : Int} {vs : List Nat} (hw : Walk graph weights m y W vs)
    (hm : Reach graph weights s m) (hmf : hasPath[m]? = some false) :
    hasPath[y]? = some false ∧ Reach graph weights s y := by
  induction hw with
  | nil => exact ⟨hmf, hm⟩
  | snoc _ he ih =>
    obtain ⟨huf, hur⟩ := ih
    refine ⟨?_, hur.edge he⟩
    rcases hinv.done _ hur huf with h | h | h
    · cases h
    · cases h
    · exact h _ _ he


/-! ### The function as a whole -/

/-- For a well-formed input whose paths from the source weigh less than the
sentinel and on which no sum overflows, `BellmanFord` returns, with every read
and write in range and the propagation within its bound, slices that satisfy
`BFResult`. -/
theorem bellmanFord_spec {graph weights : List (List Int)} {source : Int}
    (hwf : WellFormed graph weights source)
    (hbelow : BelowSentinel graph weights source.toNat)
    (hfit : NoOverflow graph weights source.toNat ((graph.length - 1) * edgeCount graph)) :
    ∃ dist hp pred, BellmanFord graph weights source = some (dist, hp, pred) ∧
      BFResult graph weights source.toNat dist hp pred := by
  have hsrc : source.toNat < graph.length := by
    obtain ⟨_, _, _, h0, h1⟩ := hwf
    omega
  obtain ⟨st0, st, hinit, hrounds, hs, htight⟩ := relaxRounds_spec hwf hbelow hfit
  obtain ⟨inNeg, hcheck, hnl, hmark⟩ := checkPass_spec hwf hs.lenD
    (fun u v w du he hdu hne => hs.fits hfit (le_refl _) he hdu hne)
  obtain ⟨sq, hseed, hl', hstay, hmk, horig, hq, _, hlen⟩ := seedFold_spec inNeg hnl
    (List.range graph.length) ([], st.hasPath) (fun i hi => List.mem_range.1 hi) hs.lenH
  have hfound : ∀ v : Nat, Reach graph weights source.toNat v →
      ∃ d, st.distances[v]? = some d ∧ d < sentinel ∧ st.hasPath[v]? = some true ∧
        ∃ vs, Walk graph weights source.toNat v d vs :=
    fun v hr => found_of_reach hbelow hs htight hr
  have hreachlt : ∀ v : Nat, Reach graph weights source.toNat v → v < graph.length := by
    rintro v ⟨W, vs, hw⟩
    exact (hw.inRange hwf hsrc).1
  have hmreach : ∀ m : Nat, inNeg[m]? = some true →
      Reach graph weights source.toNat m ∧ Downstream graph weights source.toNat m := by
    intro m hm
    obtain ⟨u, w, hrel⟩ := (hmark m).1 hm
    refine ⟨?_, marked_downstream hs htight hrel⟩
    obtain ⟨hedge, du, dm, hdu, hne, _, _⟩ := hrel
    have := hs.le_sentinel hdu
    obtain ⟨_, vs, hwalk⟩ := hs.walk hdu (by omega)
    exact ⟨_, _, Walk.snoc hwalk hedge⟩
  have hinv : SpreadInv graph weights source.toNat st.hasPath inNeg sq.1 sq.2 none := by
    refine ⟨hl', ?_, ?_, ?_, ?_, hstay⟩
    · intro q hq'
      rcases hq q hq' with h | ⟨x, hqx, hxl, hxm, hxf⟩
      · cases h
      · exact ⟨x, hqx, hxl, hxf, x, hxm, 0, [], Walk.nil⟩
    · intro x hr hx
      left
      rcases horig x hx with h | h
      · obtain ⟨_, _, _, htrue, _⟩ := hfound x hr
        simp only at h
        rw [htrue] at h
        cases h
      · exact (hmk x (List.mem_range.2 (hreachlt x hr)) h).2
    · intro x hx
      rcases horig x hx with h | h
      · exact Or.inl h
      · exact Or.inr ⟨x, h, 0, [], Walk.nil⟩
    · intro m hm hml
      exact (hmk m (List.mem_range.2 hml) hm).1
  obtain ⟨hp, hloop, hfin⟩ := spreadLoop_spec hwf (2 * graph.length + 1) sq.1 sq.2 hinv (by
    have h1 := List.count_le_length true sq.2
    simp only [List.length_nil, List.length_range] at hlen
    omega)
  refine ⟨st.distances, hp, st.predecessors, ?_, hs.lenD, hfin.len, hs.lenP, ?_, htight, ?_,
    ?_, ?_⟩
  · have hseed' : seed graph.length inNeg st.hasPath = some sq := hseed
    unfold BellmanFord
    simp only [hinit, hrounds, hcheck, hseed', hloop]
  · intro v d hd
    rcases hs.cases v d hd with ⟨h1, _, h3⟩ | ⟨h1, _, vs, h3, _⟩
    · refine Or.inl ⟨h1, h3, ?_⟩
      intro hr
      obtain ⟨d', hd', hlt, _⟩ := hfound v hr
      rw [hd] at hd'
      cases hd'
      omega
    · exact Or.inr ⟨h1, vs, h3⟩
  · rintro v ⟨c, W, vs, hrc, hcyc, hneg, hcv⟩
    have hcl := hreachlt c hrc
    have hon : ∀ x ∈ c :: vs, Reach graph weights c x ∧ Reach graph weights x c := by
      intro x hx
      obtain ⟨vs1, vs2, W1, W2, h1, h2, _, _⟩ := hcyc.split x hx
      exact ⟨⟨W1, vs1, h1⟩, ⟨W2, vs2, h2⟩⟩
    rcases marked_or_bounded hmark
        (fun x hx => getElem?_lt (by rw [hs.lenD]; exact hx)) hcyc hcl
        (fun x hx => hreachlt x (hrc.append (hon x hx).1))
        (fun x hx d hd => by
          obtain ⟨d', hd', hlt, _⟩ := hfound x (hrc.append (hon x hx).1)
          rw [hd] at hd'
          cases hd'
          omega) with
      ⟨m, hm, hmm⟩ | ⟨dc, db, hdc, hdb, hle⟩
    · obtain ⟨hcm, hmc⟩ := hon m (List.mem_cons_of_mem _ hm)
      have hsm := hrc.append hcm
      obtain ⟨W', vs', hw'⟩ := hmc.append hcv
      exact (spread_closed hfin hw' hsm (hfin.marked m hmm (hreachlt m hsm))).1
    · rw [hdc] at hdb
      cases hdb
      omega
  · intro v hr hnd
    obtain ⟨b, hb⟩ := getElem?_lt (by rw [hfin.len]; exact hreachlt v hr : v < hp.length)
    cases b with
    | true => exact hb
    | false =>
      exfalso
      rcases hfin.orig v hb with h | ⟨m, hm, hmv⟩
      · obtain ⟨_, _, _, htrue, _⟩ := hfound v hr
        rw [htrue] at h
        cases h
      · obtain ⟨c, W, vs, hrc, hcyc, hneg, hcm⟩ := (hmreach m hm).2
        exact hnd ⟨c, W, vs, hrc, hcyc, hneg, hcm.append hmv⟩
  · intro v hv hnr
    obtain ⟨d, hd⟩ := getElem?_lt (by rw [hs.lenD]; exact hv : v < st.distances.length)
    rcases hs.cases v d hd with ⟨_, h2, _⟩ | ⟨_, _, vs, hwalk, _⟩
    · exact hfin.stay v h2
    · exact absurd ⟨d, vs, hwalk⟩ hnr


/-! ### Checking the hypotheses on a given graph -/

/-- A property of all pairs of a neighbour and its weight holds of every
edge. -/
theorem edge_forall {graph weights : List (List Int)} {P : Nat → Int → Int → Prop}
    (h : ∀ p ∈ (graph.zip weights).enum, ∀ q ∈ p.2.1.zip p.2.2, P p.1 q.1 q.2)
    {u v : Nat} {w : Int} (he : Edge graph weights u v w) : P u (v : Int) w := by
  obtain ⟨j, nbrs, ws, hu, hj, hws, hw⟩ := he
  have h1 : (u, (nbrs, ws)) ∈ (graph.zip weights).enum := by
    rw [List.mk_mem_enum_iff_getElem?, List.getElem?_zip_eq_some]
    exact ⟨hu, hws⟩
  have h2 : ((v : Int), w) ∈ nbrs.zip ws := by
    apply List.getElem?_mem (n := j)
    rw [List.getElem?_zip_eq_some]
    exact ⟨hj, hw⟩
  exact h _ h1 _ h2

theorem walk_weight_le {graph weights : List (List Int)} {B : Int}
    (hB : ∀ (u v : Nat) (w : Int), Edge graph weights u v w → w ≤ B)
    {a b : Nat} {W : Int} {vs : List Nat} (hw : Walk graph weights a b W vs) :
    W ≤ (vs.length : Int) * B := by
  induction hw with
  | nil => simp
  | snoc _ he ih =>
    have := hB _ _ _ he
    rw [List.length_append, List.length_singleton]
    push_cast
    rw [add_mul, one_mul]
    omega

theorem walk_weight_ge {graph weights : List (List Int)} {B : Int}
    (hB : ∀ (u v : Nat) (w : Int), Edge graph weights u v w → -B ≤ w)
    {a b : Nat} {W : Int} {vs : List Nat} (hw : Walk graph weights a b W vs) :
    -((vs.length : Int) * B) ≤ W := by
  induction hw with
  | nil => simp
  | snoc _ he ih =>
    have := hB _ _ _ he
    rw [List.length_append, List.length_singleton]
    push_cast
    rw [add_mul, one_mul]
    omega

/-- When every edge weighs between `-B` and `B` and `(k + 1) * B` is in the
range of `int`, no sum overflows. -/
theorem noOverflow_of_bound {graph weights : List (List Int)} {s k : Nat} {B : Int}
    (hB0 : 0 ≤ B)
    (hB : ∀ (u v : Nat) (w : Int), Edge graph weights u v w → -B ≤ w ∧ w ≤ B)
    (hk : ((k : Int) + 1) * B ≤ maxInt64) : NoOverflow graph weights s k := by
  intro u v W w vs hw hlen _ he
  have h1 := walk_weight_le (fun u v w he => (hB u v w he).2) hw
  have h2 := walk_weight_ge (fun u v w he => (hB u v w he).1) hw
  have h3 : (vs.length : Int) * B ≤ (k : Int) * B :=
    mul_le_mul_of_nonneg_right (by exact_mod_cast hlen) hB0
  have h4 := hB u v w he
  rw [add_mul, one_mul] at hk
  unfold minInt64
  unfold maxInt64 at hk ⊢
  constructor <;> omega

/-- When no closed walk that can be reached from `s` has negative weight, no
sum overflows provided that every path from `s` weighs at least `minInt64` and
every edge that leaves a vertex reachable from `s` weighs at most
`maxInt64 - sentinel + 1`. -/
theorem noOverflow_of_noNegativeCycle {graph weights : List (List Int)} {s : Nat}
    (hneg : NoNegativeCycle graph weights s)
    (hlow : ∀ (v : Nat) (W : Int) (vs : List Nat), Walk graph weights s v W vs →
      (s :: vs).Nodup → minInt64 ≤ W)
    (hhigh : ∀ (u v : Nat) (w : Int), Reach graph weights s u → Edge graph weights u v w →
      w ≤ maxInt64 - sentinel + 1) (k : Nat) : NoOverflow graph weights s k := by
  intro u v W w vs hw _ hlt he
  have hw' : Walk graph weights s v (W + w) (vs ++ [v]) := Walk.snoc hw he
  obtain ⟨W', vs', hw1, hnd, hle⟩ := hw'.simplify
  have hW' : W' ≤ W + w := by
    apply hle
    intro x hx Wc cs hc
    obtain ⟨vs1, _, W1, _, h1, _, _, _⟩ := hw'.split x hx
    exact hneg x Wc cs ⟨W1, vs1, h1⟩ hc
  have h1 := hlow v W' vs' hw1 hnd
  have h2 := hhigh u v w ⟨W, vs, hw⟩ he
  constructor <;> omega

/-- When no edge weighs more than `B`, a path weighs at most `(n - 1) * B`. -/
theorem belowSentinel_of_bound {graph weights : List (List Int)} {source : Int}
    (hwf : WellFormed graph weights source) {B : Int} (hB0 : 0 ≤ B)
    (hB : ∀ (u v : Nat) (w : Int), Edge graph weights u v w → w ≤ B)
    (hlt : ((graph.length - 1 : Nat) : Int) * B < sentinel) :
    BelowSentinel graph weights source.toNat := by
  intro v W vs hw hnd
  have hsrc : source.toNat < graph.length := by
    obtain ⟨_, _, _, h0, h1⟩ := hwf
    omega
  have h1 := walk_weight_le hB hw
  have h2 := hw.length_le hwf hsrc hnd
  have h3 : (vs.length : Int) * B ≤ ((graph.length - 1 : Nat) : Int) * B :=
    mul_le_mul_of_nonneg_right (by exact_mod_cast h2) hB0
  omega

theorem walk_potential {graph weights : List (List Int)} {h : List Int}
    (hh : ∀ (u v : Nat) (w : Int), Edge graph weights u v w → h.getD v 0 ≤ h.getD u 0 + w)
    {a b : Nat} {W : Int} {vs : List Nat} (hw : Walk graph weights a b W vs) :
    h.getD b 0 ≤ h.getD a 0 + W := by
  induction hw with
  | nil => simp
  | snoc _ he ih =>
    have := hh _ _ _ he
    omega

/-- A potential that no edge undercuts rules out closed walks of negative
weight. -/
theorem closed_walk_nonneg {graph weights : List (List Int)} {h : List Int}
    (hh : ∀ (u v : Nat) (w : Int), Edge graph weights u v w → h.getD v 0 ≤ h.getD u 0 + w)
    {c : Nat} {W : Int} {vs : List Nat} (hw : Walk graph weights c c W vs) : 0 ≤ W := by
  have := walk_potential hh hw
  omega

theorem main_noNegativeCycle : NoNegativeCycle negativeWeightGraph negativeWeights 0 := by
  intro c W vs _ hw
  refine closed_walk_nonneg (h := [0, 5, 7, 10, 12]) ?_ hw
  intro u v w he
  have := edge_forall (P := fun u v w =>
    ([0, 5, 7, 10, 12] : List Int).getD v.toNat 0 ≤ ([0, 5, 7, 10, 12] : List Int).getD u 0 + w)
    (by decide) he
  simpa using this

theorem main_belowSentinel :
    BelowSentinel negativeWeightGraph negativeWeights (0 : Int).toNat := by
  refine belowSentinel_of_bound (B := 7) (by decide) (by decide) ?_ (by decide)
  intro u v w he
  exact edge_forall (P := fun _ _ w => w ≤ 7) (by decide) he

theorem cycle_belowSentinel : BelowSentinel cycleGraph cycleWeights (0 : Int).toNat := by
  refine belowSentinel_of_bound (B := 5) (by decide) (by decide) ?_ (by decide)
  intro u v w he
  exact edge_forall (P := fun _ _ w => w ≤ 5) (by decide) he

theorem main_noOverflow :
    NoOverflow negativeWeightGraph negativeWeights (0 : Int).toNat
      ((negativeWeightGraph.length - 1) * edgeCount negativeWeightGraph) := by
  refine noOverflow_of_bound (B := 7) (by decide) ?_ (by decide)
  intro u v w he
  exact edge_forall (P := fun _ _ w => -7 ≤ w ∧ w ≤ 7) (by decide) he

theorem cycle_noOverflow :
    NoOverflow cycleGraph cycleWeights (0 : Int).toNat
      ((cycleGraph.length - 1) * edgeCount cycleGraph) := by
  refine noOverflow_of_bound (B := 5) (by decide) ?_ (by decide)
  intro u v w he
  exact edge_forall (P := fun _ _ w => -5 ≤ w ∧ w ≤ 5) (by decide) he

/-- The end of a walk is its start, the walk being empty, or one of the
vertices it visits. -/
theorem Walk.end_mem {graph weights : List (List Int)} {a b : Nat} {W : Int} {vs : List Nat}
    (h : Walk graph weights a b W vs) : (b = a ∧ W = 0 ∧ vs = []) ∨ b ∈ vs := by
  cases h with
  | nil => exact Or.inl ⟨rfl, rfl, rfl⟩
  | snoc _ _ => exact Or.inr (List.mem_append_right _ (List.mem_singleton.2 rfl))

theorem loop_edges {u v : Nat} {w : Int} (he : Edge loopGraph loopWeights u v w) :
    (u = 0 ∧ v = 1 ∧ w = 1) ∨ (u = 1 ∧ v = 0 ∧ w = 9223372036854775807) := by
  have := edge_forall (P := fun u v w =>
    (u = 0 ∧ v = 1 ∧ w = 1) ∨ (u = 1 ∧ v = 0 ∧ w = 9223372036854775807)) (by decide) he
  omega

theorem loop_nonneg {c : Nat} {W : Int} {vs : List Nat}
    (hw : Walk loopGraph loopWeights c c W vs) : 0 ≤ W := by
  refine closed_walk_nonneg (h := []) ?_ hw
  intro u v w he
  have := loop_edges he
  simp only [List.getD_nil]
  omega

theorem loop_belowSentinel : BelowSentinel loopGraph loopWeights (0 : Int).toNat := by
  intro v W vs hw hnd
  cases hw with
  | nil => decide
  | @snoc u _ W0 w vs0 hw0 he =>
    rw [← List.cons_append] at hnd
    obtain ⟨hnd0, _, hdis⟩ := List.nodup_append.1 hnd
    have hv0 : v ≠ 0 := fun h0 =>
      hdis (List.mem_cons_self _ _) (List.mem_singleton.2 h0.symm)
    rcases loop_edges he with ⟨hu, _, hw1⟩ | ⟨_, hv, _⟩
    · subst hu
      rcases hw0.end_mem with ⟨_, hW0, _⟩ | hmem
      · rw [hW0, hw1]
        decide
      · exact absurd hmem (List.nodup_cons.1 hnd0).1
    · exact absurd hv hv0


/-! ### Distances and paths returned -/

/-- C23, as stated, fails when a sum `distances[u]+weight` overflows.  The graph
`0 → 1 → 2` with the weights `-2^63` and `-1` is well-formed, has no closed
walk of negative weight and no path as heavy as the sentinel, and the least
weight of a walk from `0` to `2` is `-2^63 - 1`; yet `BellmanFord` returns the
sentinel and `hasPath` false for vertex `2`.  The graph `0 → 1 → 0` with the
weights `1` and `2^63 - 1` is well-formed, has no closed walk of negative
weight, and its paths from `0` weigh `0` and `1`; yet `BellmanFord` returns the
distance `-2^63` for the source `0`, and `hasPath` false for both vertices. -/
theorem bellmanFord_shortest_overflow :
    (WellFormed deepGraph deepWeights 0 ∧
      NoNegativeCycle deepGraph deepWeights (0 : Int).toNat ∧
      BelowSentinel deepGraph deepWeights (0 : Int).toNat ∧
      IsMinWeight deepGraph deepWeights (0 : Int).toNat 2 (-9223372036854775809) ∧
      BellmanFord deepGraph deepWeights 0 =
        some ([0, -9223372036854775808, 1000000000], [true, true, false], [-1, 0, -1])) ∧
    (WellFormed loopGraph loopWeights 0 ∧
      NoNegativeCycle loopGraph loopWeights (0 : Int).toNat ∧
      BelowSentinel loopGraph loopWeights (0 : Int).toNat ∧
      IsMinWeight loopGraph loopWeights (0 : Int).toNat 0 0 ∧
      BellmanFord loopGraph loopWeights 0 =
        some ([-9223372036854775808, 1], [false, false], [1, 0])) := by
  have hpot : ∀ (u v : Nat) (w : Int), Edge deepGraph deepWeights u v w →
      ([0, -9223372036854775808, -9223372036854775809] : List Int).getD v 0 ≤
        ([0, -9223372036854775808, -9223372036854775809] : List Int).getD u 0 + w := by
    intro u v w he
    have := edge_forall (P := fun u v w =>
      ([0, -9223372036854775808, -9223372036854775809] : List Int).getD v.toNat 0 ≤
        ([0, -9223372036854775808, -9223372036854775809] : List Int).getD u 0 + w)
      (by decide) he
    simpa using this
  refine ⟨⟨by decide, ?_, ?_, ⟨?_, ?_⟩, by decide⟩, ⟨by decide, ?_, loop_belowSentinel,
    ⟨⟨[], Walk.nil⟩, ?_⟩, by decide⟩⟩
  · intro c W vs _ hw
    exact closed_walk_nonneg hpot hw
  · refine belowSentinel_of_bound (B := 0) (by decide) (by decide) ?_ (by decide)
    intro u v w he
    exact edge_forall (P := fun _ _ w => w ≤ 0) (by decide) he
  · exact ⟨_, Walk.snoc
      (Walk.snoc Walk.nil ⟨0, [1], [-9223372036854775808], rfl, rfl, rfl, rfl⟩)
      ⟨0, [2], [-1], rfl, rfl, rfl, rfl⟩⟩
  · intro W vs hw
    have := walk_potential hpot hw
    simpa using this
  · intro c W vs _ hw
    exact loop_nonneg hw
  · intro W vs hw
    exact loop_nonneg hw

/-- C23, amended: for every well-formed graph (a weight for every edge, every
neighbour a vertex, `0 ≤ source < n`) in which no closed walk of negative
weight can be reached from `source`, every path from `source` weighs less than
the sentinel `1e9`, and no sum overflows (a walk from `source` of at most
`(n - 1) * m` edges, `m` the number of edges, that weighs less than the
sentinel, extended by one more edge, has a weight in the range of `int`),
`BellmanFord` returns (with every read and write in range): for each vertex
reachable from `source` the least total weight of a walk from `source` to it,
with `hasPath` true; for each vertex that cannot be reached the distance `1e9`,
`hasPath` false and the predecessor `-1`; and the distance `0` for `source`. -/
theorem bellmanFord_shortest (graph weights : List (List Int)) (source : Int)
    (hwf : WellFormed graph weights source)
    (hneg : NoNegativeCycle graph weights source.toNat)
    (hbelow : BelowSentinel graph weights source.toNat)
    (hfit : NoOverflow graph weights source.toNat ((graph.length - 1) * edgeCount graph)) :
    ∃ distances hasPath predecessors,
      BellmanFord graph weights source = some (distances, hasPath, predecessors) ∧
      (∀ v : Nat, Reach graph weights source.toNat v →
        ∃ d, distances[v]? = some d ∧ IsMinWeight graph weights source.toNat v d ∧
          hasPath[v]? = some true) ∧
      (∀ v : Nat, v < graph.length → ¬ Reach graph weights source.toNat v →
        distances[v]? = some sentinel ∧ hasPath[v]? = some false ∧
          predecessors[v]? = some (-1)) ∧
      distances[source.toNat]? = some 0 := by
  obtain ⟨dist, hp, pred, hrun, hres⟩ := bellmanFord_spec hwf hbelow hfit
  have hnodown : ∀ v : Nat, ¬ Downstream graph weights source.toNat v := by
    rintro v ⟨c, W, vs, hrc, hcyc, hlt, _⟩
    have := hneg c W vs hrc hcyc
    omega
  have hmin : ∀ v : Nat, Reach graph weights source.toNat v →
      ∃ d, dist[v]? = some d ∧ IsMinWeight graph weights source.toNat v d := by
    intro v hr
    obtain ⟨W0, vs0, hw0⟩ := hr
    have hvl : v < dist.length := by
      obtain ⟨W1, vs1, hw1, hnd1, _⟩ := hw0.simplify
      obtain ⟨d, hd, _⟩ := hres.tight v W1 vs1 hw1 hnd1
      exact (List.getElem?_eq_some_iff.1 hd).1
    obtain ⟨d, hd⟩ := getElem?_lt hvl
    refine ⟨d, hd, ?_, ?_⟩
    · rcases hres.cases v d hd with ⟨_, _, hnr⟩ | ⟨_, hwalk⟩
      · exact absurd ⟨W0, vs0, hw0⟩ hnr
      · exact hwalk
    · intro W vs hw
      obtain ⟨W', vs', hw', hnd, hle⟩ := hw.simplify
      have hWle : W' ≤ W := by
        apply hle
        intro x hx Wc cs hc
        obtain ⟨vs1, _, W1, _, h1, _, _, _⟩ := hw.split x hx
        exact hneg x Wc cs ⟨W1, vs1, h1⟩ hc
      obtain ⟨d', hd', hdW⟩ := hres.tight v W' vs' hw' hnd
      rw [hd] at hd'
      cases hd'
      omega
  refine ⟨dist, hp, pred, hrun, ?_, ?_, ?_⟩
  · intro v hr
    obtain ⟨d, hd, hm⟩ := hmin v hr
    exact ⟨d, hd, hm, hres.up v hr (hnodown v)⟩
  · intro v hv hnr
    obtain ⟨d, hd⟩ := getElem?_lt (by rw [hres.lenD]; exact hv : v < dist.length)
    rcases hres.cases v d hd with ⟨h1, h2, _⟩ | ⟨_, vs, hwalk⟩
    · rw [h1] at hd
      exact ⟨hd, hres.off v hv hnr, h2⟩
    · exact absurd ⟨d, vs, hwalk⟩ hnr
  · obtain ⟨d, hd, ⟨vs, hcyc⟩, hle⟩ := hmin source.toNat ⟨0, [], Walk.nil⟩
    have h1 := hle 0 [] Walk.nil
    have h2 := hneg source.toNat d vs ⟨0, [], Walk.nil⟩ hcyc
    have : d = 0 := by omega
    rw [hd, this]

/-- C23, amended, on example 3 of `main`, whose edge `2 → 1` has weight `-2`:
the distances are `[0, 5, 7, 10, 12]`, every vertex has a path, and the
predecessors are `[-1, 2, 0, 1, 3]`. -/
theorem bellmanFord_shortest_witness :
    WellFormed negativeWeightGraph negativeWeights 0 ∧
    NoNegativeCycle negativeWeightGraph negativeWeights (0 : Int).toNat ∧
    BelowSentinel negativeWeightGraph negativeWeights (0 : Int).toNat ∧
    NoOverflow negativeWeightGraph negativeWeights (0 : Int).toNat
      ((negativeWeightGraph.length - 1) * edgeCount negativeWeightGraph) ∧
    BellmanFord negativeWeightGraph negativeWeights 0 =
      some ([0, 5, 7, 10, 12], [true, true, true, true, true], [-1, 2, 0, 1, 3]) ∧
    ∃ distances hasPath predecessors,
      BellmanFord negativeWeightGraph negativeWeights 0 =
        some (distances, hasPath, predecessors) ∧
      (∀ v : Nat, Reach negativeWeightGraph negativeWeights (0 : Int).toNat v →
        ∃ d, distances[v]? = some d ∧
          IsMinWeight negativeWeightGraph negativeWeights (0 : Int).toNat v d ∧
          hasPath[v]? = some true) ∧
      (∀ v : Nat, v < negativeWeightGraph.length →
        ¬ Reach negativeWeightGraph negativeWeights (0 : Int).toNat v →
        distances[v]? = some sentinel ∧ hasPath[v]? = some false ∧
          predecessors[v]? = some (-1)) ∧
      distances[(0 : Int).toNat]? = some 0 :=
  ⟨by decide, main_noNegativeCycle, main_belowSentinel, main_noOverflow, by decide,
    bellmanFord_shortest negativeWeightGraph negativeWeights 0 (by decide)
      main_noNegativeCycle main_belowSentinel main_noOverflow⟩

/-- C24, as stated, fails in two ways.  On the graph of the one edge `0 → 1` of
weight `2e9`, which is well-formed and has no negative cycle, vertex `1` is
reachable from the source `0` and downstream of no negative cycle, yet
`BellmanFord` leaves `hasPath[1]` false (and the distance of vertex `1` at the
sentinel).  On the graph `0 → 1 → 0` with the weights `1` and `2^63 - 1`, which
is well-formed and has no negative cycle, the sum `1 + (2^63 - 1)` wraps around
to `-2^63`: the source `0` is downstream of no negative cycle, yet `BellmanFord`
returns `hasPath` false for it (and for vertex `1`). -/
theorem bellmanFord_hasPath_lost :
    (WellFormed farGraph farWeights 0 ∧
      Reach farGraph farWeights (0 : Int).toNat 1 ∧
      ¬ Downstream farGraph farWeights (0 : Int).toNat 1 ∧
      BellmanFord farGraph farWeights 0 =
        some ([0, 1000000000], [true, false], [-1, -1])) ∧
    (WellFormed loopGraph loopWeights 0 ∧
      Reach loopGraph loopWeights (0 : Int).toNat 0 ∧
      ¬ Downstream loopGraph loopWeights (0 : Int).toNat 0 ∧
      BellmanFord loopGraph loopWeights 0 =
        some ([-9223372036854775808, 1], [false, false], [1, 0])) := by
  refine ⟨⟨by decide, ?_, ?_, by decide⟩, ⟨by decide, ⟨0, [], Walk.nil⟩, ?_, by decide⟩⟩
  · exact ⟨_, _, Walk.snoc Walk.nil ⟨0, [1], [2000000000], rfl, rfl, rfl, rfl⟩⟩
  · rintro ⟨c, W, vs, _, hcyc, hlt, _⟩
    have : 0 ≤ W := by
      refine closed_walk_nonneg (h := []) ?_ hcyc
      intro u v w he
      have := edge_forall (P := fun _ _ w => (0 : Int) ≤ w) (by decide) he
      simpa using this
    omega
  · rintro ⟨c, W, vs, _, hcyc, hlt, _⟩
    have := loop_nonneg hcyc
    omega

/-- C24, amended: for every well-formed graph in which every path from
`source` weighs less than the sentinel `1e9` and no sum overflows (a walk from
`source` of at most `(n - 1) * m` edges, `m` the number of edges, that weighs
less than the sentinel, extended by one more edge, has a weight in the range of
`int`), `BellmanFord` returns `hasPath` false for every vertex that can be
reached from a closed walk of negative weight that can itself be reached from
`source`, and `hasPath` true for every vertex reachable from `source` that is
downstream of no such walk. -/
theorem bellmanFord_hasPath_correct (graph weights : List (List Int)) (source : Int)
    (hwf : WellFormed graph weights source)
    (hbelow : BelowSentinel graph weights source.toNat)
    (hfit : NoOverflow graph weights source.toNat ((graph.length - 1) * edgeCount graph)) :
    ∃ distances hasPath predecessors,
      BellmanFord graph weights source = some (distances, hasPath, predecessors) ∧
      (∀ v : Nat, Downstream graph weights source.toNat v → hasPath[v]? = some false) ∧
      (∀ v : Nat, Reach graph weights source.toNat v →
        ¬ Downstream graph weights source.toNat v → hasPath[v]? = some true) := by
  obtain ⟨dist, hp, pred, hrun, hres⟩ := bellmanFord_spec hwf hbelow hfit
  exact ⟨dist, hp, pred, hrun, hres.down, hres.up⟩

/-- C24, amended, on a graph with the negative cycle `1 → 2 → 1`: the source
keeps its path, the vertices of the cycle and the vertex `3` downstream of it
lose theirs. -/
theorem bellmanFord_hasPath_correct_witness :
    WellFormed cycleGraph cycleWeights 0 ∧
    BelowSentinel cycleGraph cycleWeights (0 : Int).toNat ∧
    NoOverflow cycleGraph cycleWeights (0 : Int).toNat
      ((cycleGraph.length - 1) * edgeCount cycleGraph) ∧
    BellmanFord cycleGraph cycleWeights 0 =
      some ([0, -5, -4, 1], [true, false, false, false], [-1, 2, 1, 2]) ∧
    ∃ distances hasPath predecessors,
      BellmanFord cycleGraph cycleWeights 0 = some (distances, hasPath, predecessors) ∧
      (∀ v : Nat, Downstream cycleGraph cycleWeights (0 : Int).toNat v →
        hasPath[v]? = some false) ∧
      (∀ v : Nat, Reach cycleGraph cycleWeights (0 : Int).toNat v →
        ¬ Downstream cycleGraph cycleWeights (0 : Int).toNat v →
        hasPath[v]? = some true) :=
  ⟨by decide, cycle_belowSentinel, cycle_noOverflow, by decide,
    bellmanFord_hasPath_correct cycleGraph cycleWeights 0 (by decide) cycle_belowSentinel
      cycle_noOverflow⟩

end Challenge25
